import Mathlib

/-!
# The syntax highlighting engine of the editor (`src/editor/syntax.cpp`)

A shallow embedding of the rule compiler, the pattern matcher and the
incremental classifier, followed by theorems about them.

Conventions of the embedding.

* A byte is a `Nat` (0..255); a C string is the `List Nat` of its bytes up to,
  and not including, the terminating NUL.  Reading a string at or past its end
  yields 0, the terminator.
* An offset (`off_t`) is an `Int`.
* A pointer that may be null is an `Option`.
* A function of the C code that has no defined result on some input returns
  `none` there: a read outside a table (`g_ptr_array_index` past the end), or
  a scanning loop that never exits.  A result `some r` always means that the C
  code returns `r`.
-/

namespace McSyntax

/-! ## Bytes, strings and the buffer collaborator -/

/-- The C library `tolower` in the "C" locale: only `A`..`Z` are changed. -/
def tolower (c : Nat) : Nat :=
  if 65 ≤ c ∧ c ≤ 90 then c + 32 else c

/-- Wrapper for case insensitive mode (`xx_tolower`, syntax.cpp 196-200);
`ci` is `edit->is_case_insensitive`. -/
def xx_tolower (ci : Bool) (c : Nat) : Nat :=
  if ci then tolower c else c

/-- The C library test `strchr (s, c) != nullptr`: the terminating NUL counts
as part of the string, so the byte 0 is always found. -/
def strchr (s : List Nat) (c : Nat) : Bool :=
  decide (c = 0) || decide (c ∈ s)

/-- The test `set != nullptr && strchr (set, c) != nullptr` for a whole-word set that
may be absent. -/
def in_set (set : Option (List Nat)) (c : Nat) : Bool :=
  match set with
  | none => false
  | some s => strchr s c

/-- The test `set != nullptr && strchr (set, c) == nullptr`. -/
def not_in_set (set : Option (List Nat)) (c : Nat) : Bool :=
  match set with
  | none => false
  | some s => !strchr s c

/-- Modelled from the spec: the `whiteness` macro, which is declared outside
`src/` ("whitespace-tokenized"): space, tab and newline. -/
def whiteness (c : Nat) : Bool :=
  decide (c = 32) || decide (c = 9) || decide (c = 10)

/-- Modelled from the spec: the text buffer collaborator, which is declared outside
`src/`: the bytes of the document, and the sentinel byte that a read outside
the document yields ("offset may exceed bounds - must return a sentinel"). -/
structure edit_buffer_t where
  /-- the bytes of the document -/
  bytes : List Nat
  /-- what a read outside `0 .. size-1` returns -/
  sentinel : Nat
  deriving DecidableEq, Repr

/-- Number of bytes of the document (`edit->buffer.size`). -/
def edit_buffer_t.size (b : edit_buffer_t) : Int := b.bytes.length

/-- Modelled from the spec: `edit_buffer_get_byte`, "read byte at offset", with the
sentinel outside the document. -/
def edit_buffer_get_byte (b : edit_buffer_t) (i : Int) : Nat :=
  if i < 0 then b.sentinel else b.bytes.getD i.toNat b.sentinel

/-- The byte at `i` as the matcher reads it:
`xx_tolower (edit, edit_buffer_get_byte (&edit->buffer, i))`. -/
def read_byte (ci : Bool) (b : edit_buffer_t) (i : Int) : Nat :=
  xx_tolower ci (edit_buffer_get_byte b i)

/-! ## MatchEngine: `compare_word_to_right` (syntax.cpp 239-345) -/

/-- `SYNTAX_TOKEN_STAR` -/
def SYNTAX_TOKEN_STAR : Nat := 1
/-- `SYNTAX_TOKEN_PLUS` -/
def SYNTAX_TOKEN_PLUS : Nat := 2
/-- `SYNTAX_TOKEN_BRACKET` -/
def SYNTAX_TOKEN_BRACKET : Nat := 3
/-- `SYNTAX_TOKEN_BRACE` -/
def SYNTAX_TOKEN_BRACE : Nat := 4

/-- Number of iterations granted to a loop that scans the buffer forward from
`i`.  Past the end of the document every read yields the same sentinel, so an
iteration that does not leave the loop there is repeated for ever; the three
extra iterations cover the one change of `j` the plus loop can still make. -/
def scan_fuel (b : edit_buffer_t) (i : Int) : Nat :=
  (b.size - i).toNat + 3

/-- The `while (true)` loop of `case SYNTAX_TOKEN_STAR` (lines 260-270); `pc` is
`*p`, the pattern byte after the star (0 when the star ends the pattern).
`some (some i)`: left by `break` at offset `i`; `some none`: `return -1`;
`none`: the loop never exits. -/
def star_loop (ci : Bool) (b : edit_buffer_t) (whole_right : Option (List Nat)) (pc : Nat) :
    Nat → Int → Option (Option Int)
  | 0, _ => none
  | fuel + 1, i =>
    let c := read_byte ci b i
    if pc = 0 ∧ not_in_set whole_right c = true then some (some i)
    else if c = pc then some (some i)
    else if c = 10 then some none
    else star_loop ci b whole_right pc fuel (i + 1)

/-- The `while (true)` loop of `case SYNTAX_TOKEN_PLUS` (lines 276-300).  `text0` is
`text[0]`, `p` the pattern from the byte after the plus on (`p0 = *p`,
`strchr (p + 1, c)` searches its tail), `j` the remembered offset (an `int` in the
source, wide enough for the offsets of the model).  Results as for `star_loop`. -/
def plus_loop (ci : Bool) (b : edit_buffer_t) (whole_right : Option (List Nat)) (text0 : Nat)
    (p : List Nat) : Nat → Int → Int → Option (Option Int)
  | 0, _, _ => none
  | fuel + 1, j, i =>
    let c := read_byte ci b i
    let p0 := p.headD 0
    let j1 := if c = p0 then i else j
    if c = p0 ∧ p0 = text0 ∧ p.tail.headD 0 = 0 then some (some i)
    else if j1 ≠ 0 ∧ strchr p.tail c = true then some (some i)
    else if whiteness c = true ∨ not_in_set whole_right c = true then
      if p0 = 0 then some (some (i - 1))
      else if j1 = 0 then some none
      else some (some j1)
    else plus_loop ci b whole_right text0 p fuel j1 (i + 1)

/-- The alternatives of a bracket set: the bytes `p[j]` read by
`for (j = 0; p[j] != SYNTAX_TOKEN_BRACKET && p[j] != '\0'; j++)`. -/
def bracket_set (p : List Nat) : List Nat :=
  p.takeWhile (fun x => x ≠ SYNTAX_TOKEN_BRACKET ∧ x ≠ 0)

/-- The `while (true)` loop of `case SYNTAX_TOKEN_BRACKET` (lines 306-316).  `c` is the
byte read last (`none` for the initial `-1`).  On exit returns the offset `i`
of the first byte outside the set and `d`, the byte read before it. -/
def bracket_loop (ci : Bool) (b : edit_buffer_t) (set : List Nat) :
    Nat → Option Nat → Int → Option (Int × Option Nat)
  | 0, _, _ => none
  | fuel + 1, c, i =>
    let d := c
    let c1 := read_byte ci b i
    if c1 ∈ set then bracket_loop ci b set fuel (some c1) (i + 1)
    else some (i, d)

/-- Where the walk over the pattern stands: between tokens, or inside one of the
inner loops that advance `p` to the closing token of a set. -/
inductive walk_mode where
  /-- at the head of the `for` loop, `switch (*p)` comes next -/
  | tokens
  /-- the `p++` of the `for` statement after `case SYNTAX_TOKEN_STAR` or `case SYNTAX_TOKEN_PLUS`,
  whose `++p` has left `p` at the byte behind the token: this byte is stepped over
  (when the token ends the pattern, `p` passes `q` and the loop ends) -/
  | step_over
  /-- `while (*p != SYNTAX_TOKEN_BRACKET && p <= q) p++;` (line 318), with the `d` of the
  bracket loop -/
  | bracket_close (d : Option Nat)
  /-- `for (; *p != SYNTAX_TOKEN_BRACE && *p != '\0'; p++) if (c == *p) goto found_char3;`
  (line 329), with the byte `c` read at `i` -/
  | brace_find (c : Nat)
  /-- `while (*p != SYNTAX_TOKEN_BRACE && p < q) p++;` (line 334) -/
  | brace_close
  deriving DecidableEq, Repr

/-- The `for (p = text, q = p + strlen (p); p < q; p++, i++)` loop of
`compare_word_to_right` (lines 253-341).  The list is the pattern from `p` on.
`some (some i)`: the loop ends with offset `i`; `some none`: `return -1`;
`none`: an inner loop never exits. -/
def word_loop (ci : Bool) (b : edit_buffer_t) (whole_right : Option (List Nat)) (text0 : Nat) :
    walk_mode → List Nat → Int → Option (Option Int)
  | .tokens, [], i => some (some i)
  | .tokens, t :: p, i =>
    if t = SYNTAX_TOKEN_STAR then
      match star_loop ci b whole_right (p.headD 0) (scan_fuel b i) i with
      | none => none
      | some none => some none
      | some (some i1) => word_loop ci b whole_right text0 .step_over p (i1 + 1)
    else if t = SYNTAX_TOKEN_PLUS then
      match plus_loop ci b whole_right text0 p (scan_fuel b i) 0 i with
      | none => none
      | some none => some none
      | some (some i1) => word_loop ci b whole_right text0 .step_over p (i1 + 1)
    else if t = SYNTAX_TOKEN_BRACKET then
      match bracket_loop ci b (bracket_set p) (scan_fuel b i) none i with
      | none => none
      | some (i1, d) => word_loop ci b whole_right text0 (.bracket_close d) p (i1 - 1)
    else if t = SYNTAX_TOKEN_BRACE then
      word_loop ci b whole_right text0 (.brace_find (read_byte ci b i)) p i
    else if t ≠ read_byte ci b i then some none
    else word_loop ci b whole_right text0 .tokens p (i + 1)
  | .step_over, [], i => some (some i)
  | .step_over, _ :: p, i => word_loop ci b whole_right text0 .tokens p i
  | .bracket_close _, [], _ => some none
  | .bracket_close d, t :: p, i =>
    if t = SYNTAX_TOKEN_BRACKET then
      let i1 := if some (p.headD 0) = d then i - 1 else i
      word_loop ci b whole_right text0 .tokens p (i1 + 1)
    else word_loop ci b whole_right text0 (.bracket_close d) p i
  | .brace_find _, [], _ => some none
  | .brace_find c, t :: p, i =>
    if t = SYNTAX_TOKEN_BRACE then some none
    else if c = t then word_loop ci b whole_right text0 .brace_close p i
    else word_loop ci b whole_right text0 (.brace_find c) p i
  | .brace_close, [], i => some (some (i + 1))
  | .brace_close, t :: p, i =>
    if t = SYNTAX_TOKEN_BRACE then word_loop ci b whole_right text0 .tokens p (i + 1)
    else word_loop ci b whole_right text0 .brace_close p i

/-- `compare_word_to_right` (syntax.cpp 239-345): the end offset of a match of
`text` at `i`, or `-1`.  `none`: a scanning loop never exits. -/
def compare_word_to_right (ci : Bool) (b : edit_buffer_t) (i : Int) (text : List Nat)
    (whole_left whole_right : Option (List Nat)) (line_start : Bool) : Option Int :=
  if text.headD 0 = 0 then some (-1)
  else
    let c := read_byte ci b (i - 1)
    if (line_start = true ∧ c ≠ 10) ∨ in_set whole_left c = true then some (-1)
    else
      match word_loop ci b whole_right (text.headD 0) .tokens text i with
      | none => none
      | some none => some (-1)
      | some (some i1) =>
        if in_set whole_right (read_byte ci b i1) = true then some (-1) else some i1

/-! ## RuleTable -/

/-- `syntax_keyword_t` (syntax.cpp 96-103). -/
structure syntax_keyword_t where
  /-- the pattern -/
  keyword : List Nat
  /-- left whole-word set, `none` for `nullptr` -/
  whole_word_chars_left : Option (List Nat)
  /-- right whole-word set, `none` for `nullptr` -/
  whole_word_chars_right : Option (List Nat)
  /-- the pattern must start a line -/
  line_start : Bool
  /-- the colour pair -/
  color : Int
  deriving DecidableEq, Repr

/-- `context_rule_t` (syntax.cpp 105-120).  The strings `left` and `right` are
never null in a table that compiled; `keyword_first_chars` is null until the
end of the compilation. -/
structure context_rule_t where
  /-- left delimiter -/
  left : List Nat
  /-- first byte of `left` (0 in the default context) -/
  first_left : Nat
  /-- right delimiter -/
  right : List Nat
  /-- first byte of `right` (0 in the default context) -/
  first_right : Nat
  /-- the left delimiter must start a line -/
  line_start_left : Bool
  /-- the right delimiter must start a line -/
  line_start_right : Bool
  /-- the context is exclusive -/
  between_delimiters : Bool
  /-- left whole-word set -/
  whole_word_chars_left : Option (List Nat)
  /-- right whole-word set -/
  whole_word_chars_right : Option (List Nat)
  /-- the first-chars index -/
  keyword_first_chars : Option (List Nat)
  /-- the spellcheck flag -/
  spelling : Bool
  /-- the keywords; entry 0 carries the colour of the context -/
  keyword : List syntax_keyword_t
  deriving DecidableEq, Repr

/-! ## IncrementalClassifier -/

/-- Modelled from the spec: `edit_syntax_rule_t`, the ParseState, whose declaration is
outside `src/`: "active context index, active keyword index within that
context (0 = none), the byte offset where the current match region ends, a
border flag, and the previously-active context index".  The widths of the
integer fields are not known from `src/`; the indices are unbounded here. -/
structure edit_syntax_rule_t where
  /-- active keyword, 0 = none -/
  keyword : Nat
  /-- `end`: where the current match region ends -/
  end_ : Int
  /-- active context -/
  context : Nat
  /-- the context whose left delimiter was matched last -/
  _context : Nat
  /-- `RULE_ON_LEFT_BORDER`, `RULE_ON_RIGHT_BORDER` or 0 -/
  border : Nat
  deriving DecidableEq, Repr

/-- The result of `memset (&edit->rule, 0, sizeof (edit->rule))`. -/
def zero_rule : edit_syntax_rule_t :=
  { keyword := 0, end_ := 0, context := 0, _context := 0, border := 0 }

/-- `RULE_ON_LEFT_BORDER` -/
def RULE_ON_LEFT_BORDER : Nat := 1
/-- `RULE_ON_RIGHT_BORDER` -/
def RULE_ON_RIGHT_BORDER : Nat := 2
/-- `SYNTAX_MARKER_DENSITY` -/
def SYNTAX_MARKER_DENSITY : Int := 512

/-- `xx_strchr` (syntax.cpp 349-356): the string from the first byte on that is below
5 or whose lower-cased value is `char_byte`. -/
def xx_strchr (ci : Bool) : List Nat → Nat → List Nat
  | [], _ => []
  | x :: s, char_byte =>
    if 5 ≤ x ∧ xx_tolower ci x ≠ char_byte then xx_strchr ci s char_byte else x :: s

/-- The local variables of `apply_rules_going_right` (lines 363-370). -/
structure step_locals where
  /-- `_rule`, the working copy of `edit->rule` -/
  _rule : edit_syntax_rule_t
  /-- `contextchanged` -/
  contextchanged : Bool
  /-- `found_left` -/
  found_left : Bool
  /-- `found_right` -/
  found_right : Bool
  /-- `keyword_foundleft` -/
  keyword_foundleft : Bool
  /-- `keyword_foundright` -/
  keyword_foundright : Bool
  /-- `end` -/
  end_ : Int
  deriving DecidableEq, Repr

/-- The test `k->keyword[strlen (k->keyword) - 1] == '\n'` on a non-empty string. -/
def ends_in_newline (s : List Nat) : Bool :=
  decide (s.getLast? = some 10)

/-- The body of "when both context and keyword terminate with a newline"
(lines 446-453): the end offset `e` of keyword `k`, moved back by one when the
right delimiter of context `_context` ends in a newline too. -/
def newline_backoff (rules : List context_rule_t) (_context : Nat) (i : Int)
    (k : syntax_keyword_t) (e : Int) : Option Int :=
  if e > i + 1 ∧ _context ≠ 0 ∧ ends_in_newline k.keyword = true then
    match rules.get? _context with
    | none => none
    | some r =>
      if r.right.headD 0 ≠ 0 ∧ ends_in_newline r.right = true then some (e - 1) else some e
  else some e

/-- The loop `while (*(p = xx_strchr (edit, p + 1, c)) != '\0')` of lines 432-461 and
544-560.  The list is the first-chars index from `p + 1` on and `count` the
index of its head.  A byte is skipped by `xx_strchr` when it is at least 5 and
differs from `c` after folding; at any other byte the keyword `count` is
compared.  Result: the first keyword `count` whose end offset `e` is positive,
with `e`. -/
def keyword_loop (ci : Bool) (b : edit_buffer_t) (keywords : List syntax_keyword_t)
    (i : Int) (c : Nat) : Nat → List Nat → Option (Option (Nat × syntax_keyword_t × Int))
  | _, [] => some none
  | count, x :: s =>
    if 5 ≤ x ∧ xx_tolower ci x ≠ c then keyword_loop ci b keywords i c (count + 1) s
    else
      match keywords.get? count with
      | none => none
      | some k =>
        match compare_word_to_right ci b i k.keyword k.whole_word_chars_left
            k.whole_word_chars_right k.line_start with
        | none => none
        | some e =>
          if e > 0 then some (some (count, k, e))
          else keyword_loop ci b keywords i c (count + 1) s

/-- "check to turn off a keyword" (lines 378-388). -/
def turn_off_keyword (b : edit_buffer_t) (i : Int) (is_end : Bool) (l : step_locals) :
    step_locals :=
  if l._rule.keyword ≠ 0 then
    let l1 :=
      if edit_buffer_get_byte b (i - 1) = 10 then { l with _rule := { l._rule with keyword := 0 } }
      else l
    if is_end = true then
      { l1 with _rule := { l1._rule with keyword := 0 }, keyword_foundleft := true }
    else l1
  else l

/-- The two `else if` branches of "check to turn off a context" (lines 407-420). -/
def turn_off_context_at_end (rule : edit_syntax_rule_t) (is_end : Bool) (l : step_locals) :
    step_locals :=
  if is_end = true ∧ rule.border &&& RULE_ON_RIGHT_BORDER ≠ 0 then
    let l1 := { l with found_left := true, _rule := { l._rule with border := 0 } }
    if l1.keyword_foundleft = false then { l1 with _rule := { l1._rule with context := 0 } }
    else l1
  else if is_end = true ∧ rule.border &&& RULE_ON_LEFT_BORDER ≠ 0 then
    { l with found_left := true, _rule := { l._rule with border := 0 } }
  else l

/-- "check to turn off a context" (lines 390-421). -/
def turn_off_context (ci : Bool) (b : edit_buffer_t) (rules : List context_rule_t)
    (rule : edit_syntax_rule_t) (i : Int) (c : Nat) (is_end : Bool) (l : step_locals) :
    Option step_locals :=
  if l._rule.context ≠ 0 ∧ l._rule.keyword = 0 then
    match rules.get? l._rule.context with
    | none => none
    | some r =>
      if r.first_right = c ∧ rule.border &&& RULE_ON_RIGHT_BORDER = 0 then
        match compare_word_to_right ci b i r.right r.whole_word_chars_left
            r.whole_word_chars_right r.line_start_right with
        | none => none
        | some e =>
          if e > 0 then
            some { l with
              found_right := true
              _rule := { l._rule with
                end_ := e
                border := RULE_ON_RIGHT_BORDER
                context := if r.between_delimiters = true then 0 else l._rule.context } }
          else some (turn_off_context_at_end rule is_end l)
      else some (turn_off_context_at_end rule is_end l)
  else some l

/-- "check to turn on a keyword" (lines 423-462). -/
def turn_on_keyword (ci : Bool) (b : edit_buffer_t) (rules : List context_rule_t)
    (i : Int) (c : Nat) (l : step_locals) : Option step_locals :=
  if l._rule.keyword = 0 then
    match rules.get? l._rule.context with
    | none => none
    | some r =>
      match r.keyword_first_chars with
      | none => some l
      | some [] => none
      | some (_ :: p) =>
        match keyword_loop ci b r.keyword i c 1 p with
        | none => none
        | some none => some l
        | some (some (count, k, e)) =>
          match newline_backoff rules l._rule._context i k e with
          | none => none
          | some e1 =>
            some { l with
              end_ := e1
              keyword_foundright := true
              _rule := { l._rule with end_ := e1, keyword := count } }
  else some l

/-- The pending borders met at the recorded end while the context is 0
(lines 467-503). -/
def finish_border (ci : Bool) (b : edit_buffer_t) (rules : List context_rule_t)
    (rule : edit_syntax_rule_t) (i : Int) (c : Nat) (l : step_locals) : Option step_locals :=
  if rule.border &&& RULE_ON_RIGHT_BORDER ≠ 0 then
    some { l with
      contextchanged := true
      _rule := { l._rule with border := 0, context := 0, keyword := 0 } }
  else if rule.border &&& RULE_ON_LEFT_BORDER ≠ 0 then
    match rules.get? l._rule._context with
    | none => none
    | some r =>
      let l1 := { l with _rule := { l._rule with border := 0 } }
      if r.between_delimiters = true then
        let l2 := { l1 with
          contextchanged := true
          _rule := { l1._rule with context := l1._rule._context, keyword := 0 } }
        if r.first_right = c then
          match compare_word_to_right ci b i r.right r.whole_word_chars_left
              r.whole_word_chars_right r.line_start_right with
          | none => none
          | some e =>
            if e ≥ l2.end_ then
              some { l2 with
                found_right := true
                _rule := { l2._rule with end_ := e, border := RULE_ON_RIGHT_BORDER, context := 0 } }
            else some l2
        else some l2
      else some l1
  else some l

/-- The loop `for (count = 1; count < edit->rules->len; count++)` over the left
delimiters (lines 509-532).  The list holds the contexts from `count` on. -/
def left_loop (ci : Bool) (b : edit_buffer_t) (i : Int) (c : Nat) :
    Nat → List context_rule_t → step_locals → Option step_locals
  | _, [], l => some l
  | count, r :: rs, l =>
    if r.first_left = c then
      match compare_word_to_right ci b i r.left r.whole_word_chars_left
          r.whole_word_chars_right r.line_start_left with
      | none => none
      | some e =>
        if e ≥ l.end_ ∧ (l._rule.keyword = 0 ∨ l.keyword_foundright = true) then
          let l1 := { l with
            found_right := true
            _rule := { l._rule with end_ := e, border := RULE_ON_LEFT_BORDER, _context := count } }
          if r.between_delimiters = false ∧ l1._rule.keyword = 0 then
            some { l1 with contextchanged := true, _rule := { l1._rule with context := count } }
          else some l1
        else left_loop ci b i c (count + 1) rs l
    else left_loop ci b i c (count + 1) rs l

/-- "check to turn on a context" (lines 464-534). -/
def turn_on_context (ci : Bool) (b : edit_buffer_t) (rules : List context_rule_t)
    (rule : edit_syntax_rule_t) (i : Int) (c : Nat) (is_end : Bool) (l : step_locals) :
    Option step_locals :=
  if l._rule.context = 0 then
    match (if l.found_left = false ∧ is_end = true then finish_border ci b rules rule i c l
           else some l) with
    | none => none
    | some l1 =>
      if l1.found_right = false then left_loop ci b i c 1 rules.tail l1 else some l1
  else some l

/-- "check again to turn on a keyword if the context switched" (lines 536-561). -/
def turn_on_keyword_again (ci : Bool) (b : edit_buffer_t) (rules : List context_rule_t)
    (i : Int) (c : Nat) (l : step_locals) : Option step_locals :=
  if l.contextchanged = true ∧ l._rule.keyword = 0 then
    match rules.get? l._rule.context with
    | none => none
    | some r =>
      match r.keyword_first_chars with
      | none => none
      | some [] => none
      | some (_ :: p) =>
        match keyword_loop ci b r.keyword i c 1 p with
        | none => none
        | some none => some l
        | some (some (count, _, e)) =>
          some { l with _rule := { l._rule with end_ := e, keyword := count } }
  else some l

/-- `apply_rules_going_right` (syntax.cpp 360-564): the ParseState after the byte
at `i`, from the ParseState `rule` before it. -/
def apply_rules_going_right (ci : Bool) (b : edit_buffer_t) (rules : List context_rule_t)
    (rule : edit_syntax_rule_t) (i : Int) : Option edit_syntax_rule_t :=
  let c := read_byte ci b i
  if c = 0 then some rule
  else
    let is_end := decide (rule.end_ = i)
    let l0 : step_locals :=
      { _rule := rule, contextchanged := false, found_left := false, found_right := false,
        keyword_foundleft := false, keyword_foundright := false, end_ := 0 }
    (turn_off_context ci b rules rule i c is_end (turn_off_keyword b i is_end l0)).bind fun l2 =>
    (turn_on_keyword ci b rules i c l2).bind fun l3 =>
    (turn_on_context ci b rules rule i c is_end l3).bind fun l4 =>
    (turn_on_keyword_again ci b rules i c l4).bind fun l5 =>
    some l5._rule

/-- `translate_rule_to_color` (syntax.cpp 628-638). -/
def translate_rule_to_color (rules : List context_rule_t) (rule : edit_syntax_rule_t) :
    Option Int :=
  match rules.get? rule.context with
  | none => none
  | some r =>
    match r.keyword.get? rule.keyword with
    | none => none
    | some k => some k.color

/-- `syntax_marker_t` (syntax.cpp 122-126): a checkpoint. -/
structure syntax_marker_t where
  /-- the offset of the checkpoint -/
  offset : Int
  /-- the ParseState after the byte at `offset` -/
  rule : edit_syntax_rule_t
  deriving DecidableEq, Repr

/-- The fields of `WEdit` that the highlighting engine reads and writes.  The
declaration of `WEdit` is outside `src/`; the fields are those that
syntax.cpp uses. -/
structure WEdit where
  /-- `edit->buffer` -/
  buffer : edit_buffer_t
  /-- `edit->rules`, `none` for `nullptr` -/
  rules : Option (List context_rule_t)
  /-- `edit->is_case_insensitive` -/
  is_case_insensitive : Bool
  /-- `edit->defines`: name and tokens of each define, `none` for `nullptr` -/
  defines : Option (List (List Nat × List (List Nat)))
  /-- `edit->syntax_type` -/
  syntax_type : Option (List Nat)
  /-- `edit->rule`, the ParseState after the byte at `last_get_rule` -/
  rule : edit_syntax_rule_t
  /-- `edit->last_get_rule` -/
  last_get_rule : Int
  /-- `edit->syntax_marker`, the head first -/
  syntax_marker : List syntax_marker_t
  deriving DecidableEq, Repr

/-- The loop `for (i = from; i <= byte_index; i++) apply_rules_going_right (edit, i);`
of lines 604-605 and 614-615, for `n` offsets from `i` on. -/
def replay_loop (ci : Bool) (b : edit_buffer_t) (rules : List context_rule_t) :
    Nat → Int → edit_syntax_rule_t → Option edit_syntax_rule_t
  | 0, _, rule => some rule
  | n + 1, i, rule =>
    match apply_rules_going_right ci b rules rule i with
    | none => none
    | some rule1 => replay_loop ci b rules n (i + 1) rule1

/-- The checkpoint list after the step at `i` (lines 577-592): a new checkpoint with the
ParseState `rule` when `i` is more than `SYNTAX_MARKER_DENSITY` past the head of the
list. -/
def push_marker (markers : List syntax_marker_t) (i : Int) (rule : edit_syntax_rule_t) :
    List syntax_marker_t :=
  let d : Int :=
    match markers with
    | [] => SYNTAX_MARKER_DENSITY
    | s :: _ => SYNTAX_MARKER_DENSITY + s.offset
  if i > d then { offset := i, rule := rule } :: markers else markers

/-- The loop of lines 575-593, for `n` offsets from `i` on: one step, then the
checkpoint. -/
def forward_loop (ci : Bool) (b : edit_buffer_t) (rules : List context_rule_t) :
    Nat → Int → edit_syntax_rule_t → List syntax_marker_t →
    Option (edit_syntax_rule_t × List syntax_marker_t)
  | 0, _, rule, markers => some (rule, markers)
  | n + 1, i, rule, markers =>
    match apply_rules_going_right ci b rules rule i with
    | none => none
    | some rule1 => forward_loop ci b rules n (i + 1) rule1 (push_marker markers i rule1)

/-- The `while (true)` loop of lines 597-621 over the checkpoint list. -/
def backward_loop (ci : Bool) (b : edit_buffer_t) (rules : List context_rule_t)
    (byte_index : Int) :
    List syntax_marker_t → Option (edit_syntax_rule_t × List syntax_marker_t)
  | [] =>
    match replay_loop ci b rules (byte_index + 2).toNat (-1) zero_rule with
    | none => none
    | some rule => some (rule, [])
  | s :: markers =>
    if byte_index ≥ s.offset then
      match replay_loop ci b rules (byte_index - s.offset).toNat (s.offset + 1) s.rule with
      | none => none
      | some rule => some (rule, s :: markers)
    else backward_loop ci b rules byte_index markers

/-- `edit_get_rule` (syntax.cpp 568-624).  Its callers (lines 1419 and 1439) call it
only when a rule table is loaded; without one a step has no table to read. -/
def edit_get_rule (edit : WEdit) (byte_index : Int) : Option WEdit :=
  match edit.rules with
  | none => if byte_index = edit.last_get_rule then some edit else none
  | some rules =>
    if byte_index > edit.last_get_rule then
      match forward_loop edit.is_case_insensitive edit.buffer rules
          (byte_index - edit.last_get_rule).toNat (edit.last_get_rule + 1) edit.rule
          edit.syntax_marker with
      | none => none
      | some (rule, markers) =>
        some { edit with rule := rule, syntax_marker := markers, last_get_rule := byte_index }
    else if byte_index < edit.last_get_rule then
      match backward_loop edit.is_case_insensitive edit.buffer rules byte_index
          edit.syntax_marker with
      | none => none
      | some (rule, markers) =>
        some { edit with rule := rule, syntax_marker := markers, last_get_rule := byte_index }
    else some { edit with last_get_rule := byte_index }

/-- The collaborators that the engine consults and that are declared outside
`src/`: the terminal layer, the skin, the option variable and the file system. -/
structure collaborators_t where
  /-- `tty_use_colors ()` -/
  tty_use_colors : Bool
  /-- the global `option_syntax_highlighting` -/
  option_syntax_highlighting : Bool
  /-- `EDITOR_NORMAL_COLOR` -/
  EDITOR_NORMAL_COLOR : Int
  /-- `tty_try_alloc_color_pair (fg, bg, attrs)`; `attrs` may be null -/
  tty_try_alloc_color_pair : List Nat → List Nat → Option (List Nat) → Int
  /-- the string `mc_skin_get ("editor", "_default_", "default;default")` -/
  editnormal : List Nat
  /-- the bytes of the file that `open_include_file (filename)` opens, `none` when
  `fopen` fails -/
  open_include_file : List Nat → Option (List Nat)

/-- `edit_get_syntax_color` (syntax.cpp 1413-1426): the colour, and the editor with
the classifier state the call leaves. -/
def edit_get_syntax_color (tty : collaborators_t) (edit : WEdit) (byte_index : Int) :
    Option (Int × WEdit) :=
  if tty.tty_use_colors = false then some (0, edit)
  else
    match edit.rules with
    | none => some (tty.EDITOR_NORMAL_COLOR, edit)
    | some rules =>
      if byte_index < edit.buffer.size ∧ tty.option_syntax_highlighting = true then
        match edit_get_rule edit byte_index with
        | none => none
        | some edit1 =>
          match translate_rule_to_color rules edit1.rule with
          | none => none
          | some color => some (color, edit1)
      else some (tty.EDITOR_NORMAL_COLOR, edit)

/-! ## RuleCompiler -/

/-- The bytes of a string literal. -/
def bytes_of (s : String) : List Nat := s.data.map Char.toNat

/-- A C string read from a buffer that may hold NUL bytes: it ends at the first. -/
def c_str (l : List Nat) : List Nat := l.takeWhile (fun x => x ≠ 0)

/-- `ARGS_LEN` -/
def ARGS_LEN : Nat := 1024

/-- `read_one_line` (syntax.cpp 647-694) on a stream that has no read errors: the
number of bytes read including the line end, the line, and the stream after
it. -/
def read_one_line : List Nat → Nat × List Nat × List Nat
  | [] => (0, [], [])
  | c :: f =>
    if c = 10 then (1, [], f)
    else if c = 13 then
      match f with
      | 10 :: f1 => (2, [], f1)
      | _ => (1, [], f)
    else
      let r := read_one_line f
      (r.1 + 1, c :: r.2.1, r.2.2)

/-- The value stored by the inner `switch (*s)` of `convert` after a backslash (lines
710-748) for the bytes other than space and NUL. -/
def convert_escape (e : Nat) : Nat :=
  if e = 110 then 10
  else if e = 114 then 13
  else if e = 116 then 9
  else if e = 115 then 32
  else if e = 42 then 42
  else if e = 92 then 92
  else if e = 91 ∨ e = 93 then SYNTAX_TOKEN_BRACKET
  else if e = 123 ∨ e = 125 then SYNTAX_TOKEN_BRACE
  else e

/-- `convert` (syntax.cpp 698-765).  The write position never passes the read position,
so the in-place rewrite is the function from the string read to the string
written.  After backslash-space (`*p = ' '; s--;`) the next iteration reads the
space `e` again and its `default` case copies it. -/
def convert : List Nat → List Nat
  | [] => []
  | c :: s =>
    if c = 92 then
      match s with
      | [] => []
      | e :: s1 =>
        if e = 32 then 32 :: e :: convert s1
        else convert_escape e :: convert s1
    else if c = 42 then SYNTAX_TOKEN_STAR :: convert s
    else if c = 43 then SYNTAX_TOKEN_PLUS :: convert s
    else c :: convert s

/-- The tokens that `get_args` (syntax.cpp 769-790) stores for the line `l`; the
first argument is `args_size - argc`. -/
def get_args_tokens : Nat → List Nat → List (List Nat)
  | 0, _ => []
  | n + 1, l =>
    match l.dropWhile (fun x => whiteness x) with
    | [] => []
    | c :: l1 =>
      convert (c :: l1.takeWhile (fun x => !whiteness x)) ::
        get_args_tokens n (l1.dropWhile (fun x => !whiteness x)).tail

/-- The null-terminated vector that starts at `args[a]` (`g_strv_length` and the
reads `*a`). -/
def strv : List (Option (List Nat)) → List (List Nat)
  | [] => []
  | none :: _ => []
  | some x :: r => x :: strv r

/-- The array `args` after the vector `v` and its null terminator have been stored
from `args[a]` on; the entries behind the terminator keep what they held. -/
def store_strv (args : List (Option (List Nat))) (a : Nat) (v : List (List Nat)) :
    List (Option (List Nat)) :=
  args.take a ++ v.map some ++ none :: args.drop (a + v.length + 1)

/-- `get_args` (syntax.cpp 769-790): `argc` and the array `args` after the call. -/
def get_args (l : List Nat) (args : List (Option (List Nat))) (args_size : Nat) :
    Nat × List (Option (List Nat)) :=
  let v := get_args_tokens args_size l
  (v.length, store_strv args 0 v)

/-- `g_tree_lookup (defines, name)` on the tree ordered by `strcmp`. -/
def defines_lookup (defines : List (List Nat × List (List Nat))) (name : List Nat) :
    Option (List (List Nat)) :=
  defines.lookup name

/-- `g_tree_insert (defines, key, argv)`, which replaces the value of a key that
is present. -/
def defines_insert (defines : List (List Nat × List (List Nat))) (key : List Nat)
    (argv : List (List Nat)) : List (List Nat × List (List Nat)) :=
  (key, argv) :: defines.filter (fun kv => kv.1 ≠ key)

/-- The loop of `subst_defines` (syntax.cpp 204-235) on the vector that starts at `argv`:
the entries that the array holds from `argv` on when the loop is left, down to
the null pointer that ends the vector.  The first argument is `argv_end - argv`.
After an expansion `argv++` steps over the first token stored.  A definition
without tokens makes the loop of line 227 copy downwards, over entries it has
still to read, which leaves null pointers only. -/
def subst_defines_vector (defines : List (List Nat × List (List Nat))) :
    Nat → List (List Nat) → List (Option (List Nat))
  | 0, v => v.map some ++ [none]
  | _ + 1, [] => [none]
  | cap + 1, x :: rest =>
    match defines_lookup defines x with
    | none => some x :: subst_defines_vector defines cap rest
    | some t =>
      if t.length + rest.length ≥ cap + 1 then (x :: rest).map some ++ [none]
      else
        match t with
        | [] => List.replicate (rest.length + 1) none
        | y :: t1 => some y :: subst_defines_vector defines cap (t1 ++ rest)

/-- The array `args` after the entries `seg` have been stored from `args[a]` on. -/
def store_entries (args : List (Option (List Nat))) (a : Nat)
    (seg : List (Option (List Nat))) : List (Option (List Nat)) :=
  args.take a ++ seg ++ args.drop (a + seg.length)

/-- `subst_defines (defines, args + a, &args[ARGS_LEN])` (syntax.cpp 204-235). -/
def subst_defines (defines : List (List Nat × List (List Nat)))
    (args : List (Option (List Nat))) (a : Nat) : List (Option (List Nat)) :=
  store_entries args a (subst_defines_vector defines (ARGS_LEN - a) (strv (args.drop a)))

/-- `g_strlcpy (dest, src, size)`: at most `size - 1` bytes. -/
def g_strlcpy (src : List Nat) (size : Nat) : List Nat := src.take (size - 1)

/-- The string up to the first byte `c`: `p = strchr (s, c); if (p != nullptr) *p = '\0';` -/
def cut_at (c : Nat) (s : List Nat) : List Nat := s.takeWhile (fun x => x ≠ c)

/-- A null or empty string as null (lines 799-804). -/
def null_if_empty (s : Option (List Nat)) : Option (List Nat) :=
  match s with
  | some [] => none
  | other => other

/-- `this_try_alloc_color_pair` (syntax.cpp 794-868). -/
def this_try_alloc_color_pair (env : collaborators_t) (fg bg attrs : Option (List Nat)) : Int :=
  let bg := null_if_empty bg
  let fg := null_if_empty fg
  let attrs := null_if_empty attrs
  match fg, bg with
  | none, none => env.EDITOR_NORMAL_COLOR
  | _, _ =>
    let f : List Nat :=
      match fg with
      | some x => cut_at 47 (g_strlcpy x 80)
      | none =>
        let f1 := cut_at 59 (g_strlcpy env.editnormal 80)
        if f1 = [] then bytes_of "default" else f1
    let b : List Nat :=
      match bg with
      | some x => cut_at 47 (g_strlcpy x 80)
      | none =>
        match (env.editnormal.dropWhile (fun x => x ≠ 59)).tail with
        | [] => bytes_of "default"
        | p => g_strlcpy p 80
    let a : Option (List Nat) :=
      attrs.map fun x =>
        (cut_at 47 (g_strlcpy x 80)).map fun y => if y = SYNTAX_TOKEN_PLUS then 43 else y
    env.tty_try_alloc_color_pair f b a

/-- `xx_lowerize_line` (syntax.cpp 904-914). -/
def xx_lowerize_line (ci : Bool) (line : List Nat) : List Nat :=
  if ci then line.map tolower else line

/-- The state of `edit_read_syntax_rules`: its local variables, the fields of `edit`
that it writes, and the file-scope variable `error_file_name`. -/
structure rules_reader_t where
  /-- the stream `f` being read -/
  f : List Nat
  /-- the parent stream `g` while an included stream is read -/
  g : Option (List Nat)
  /-- the array `args` of `ARGS_LEN` entries -/
  args : List (Option (List Nat))
  /-- `last_fg` -/
  last_fg : List Nat
  /-- `last_bg` -/
  last_bg : List Nat
  /-- `last_attrs` -/
  last_attrs : List Nat
  /-- `whole_right` -/
  whole_right : List Nat
  /-- `whole_left` -/
  whole_left : List Nat
  /-- `save_line` -/
  save_line : Nat
  /-- `line` -/
  line : Nat
  /-- `c != nullptr`; `c` is then the context added last -/
  c : Bool
  /-- `no_words` -/
  no_words : Bool
  /-- `result` -/
  result : Nat
  /-- `edit->rules` -/
  rules : List context_rule_t
  /-- `edit->is_case_insensitive` -/
  is_case_insensitive : Bool
  /-- `edit->defines` -/
  defines : List (List Nat × List (List Nat))
  /-- `error_file_name` -/
  error_file_name : Option (List Nat)
  deriving DecidableEq, Repr

/-- How an iteration of the reading loop ends. -/
inductive flow_t where
  /-- the next iteration follows -/
  | next
  /-- `break` -/
  | stop
  deriving DecidableEq, Repr

/-- `args[a]` -/
def arg (args : List (Option (List Nat))) (a : Nat) : Option (List Nat) :=
  args.getD a none

/-- The `break_a` of line 85: `result = line; break;` -/
def break_a (st : rules_reader_t) : rules_reader_t × flow_t :=
  ({ st with result := st.line }, .stop)

/-- The context that `g_new0 (context_rule_t, 1)` allocates; a string that is still
null is shown as the empty string. -/
def new_context : context_rule_t :=
  { left := [], first_left := 0, right := [], first_right := 0, line_start_left := false,
    line_start_right := false, between_delimiters := false, whole_word_chars_left := none,
    whole_word_chars_right := none, keyword_first_chars := none, spelling := false,
    keyword := [] }

/-- The keyword that `g_new0 (syntax_keyword_t, 1)` allocates. -/
def new_keyword : syntax_keyword_t :=
  { keyword := [], whole_word_chars_left := none, whole_word_chars_right := none,
    line_start := false, color := 0 }

/-- The array `rules` with its last element replaced by `c`. -/
def set_last (rules : List context_rule_t) (c : context_rule_t) : List context_rule_t :=
  rules.dropLast ++ [c]

/-- The optional word `whole`, `wholeleft` or `wholeright` at `args[a]` (lines
1050-1065 and 1126-1141): the index after it and the two whole-word sets. -/
def whole_option (st : rules_reader_t) (a : Nat) :
    Nat × Option (List Nat) × Option (List Nat) :=
  if arg st.args a = some (bytes_of "whole") then
    (a + 1, some st.whole_left, some st.whole_right)
  else if arg st.args a = some (bytes_of "wholeleft") then (a + 1, some st.whole_left, none)
  else if arg st.args a = some (bytes_of "wholeright") then (a + 1, none, some st.whole_right)
  else (a, none, none)

/-- The three colour arguments read from `args[a]` on (lines 1090-1098 and
1154-1162): `fg`, `bg`, `attrs` and the index reached. -/
def color_args (args : List (Option (List Nat))) (a : Nat) :
    Option (List Nat) × Option (List Nat) × Option (List Nat) × Nat :=
  let fg := arg args a
  let a1 := if fg ≠ none then a + 1 else a
  let bg := arg args a1
  let a2 := if bg ≠ none then a1 + 1 else a1
  let attrs := arg args a2
  let a3 := if attrs ≠ none then a2 + 1 else a2
  (fg, bg, attrs, a3)

/-- The end of the `context` branch (lines 1085-1104), after the context `c` has been
added as the last element of `edit->rules` and `a` stands behind the
delimiters. -/
def context_colors (env : collaborators_t) (st : rules_reader_t) (c : context_rule_t) (a : Nat) :
    rules_reader_t × flow_t :=
  let args1 := subst_defines st.defines st.args a
  let ca := color_args args1 a
  let fg := ca.1
  let bg := ca.2.1
  let attrs := ca.2.2.1
  let k := { new_keyword with
    color := this_try_alloc_color_pair env fg bg attrs
    keyword := bytes_of " " }
  let st1 := { st with
    args := args1
    no_words := false
    last_fg := g_strlcpy (fg.getD []) 32
    last_bg := g_strlcpy (bg.getD []) 32
    last_attrs := g_strlcpy (attrs.getD []) 64
    rules := set_last st.rules { c with keyword := [k] } }
  if arg args1 ca.2.2.2 ≠ none then break_a st1 else (st1, .next)

/-- The `context` branch (lines 1022-1105). -/
def context_directive (env : collaborators_t) (st : rules_reader_t) : rules_reader_t × flow_t :=
  if arg st.args 1 = none then break_a st
  else if st.rules.length = 0 then
    if arg st.args 1 ≠ some (bytes_of "default") then break_a st
    else
      let c := { new_context with left := bytes_of " ", right := bytes_of " " }
      context_colors env { st with c := true, rules := st.rules ++ [c] } c 2
  else
    let st1 := { st with c := true, rules := st.rules ++ [new_context] }
    let excl := decide (arg st.args 1 = some (bytes_of "exclusive"))
    let a1 := if excl = true then 2 else 1
    let c1 := { new_context with between_delimiters := excl }
    let st2 := { st1 with rules := set_last st1.rules c1 }
    if arg st.args a1 = none then break_a st2
    else
      let w := whole_option st a1
      let a2 := w.1
      let c2 := { c1 with whole_word_chars_left := w.2.1, whole_word_chars_right := w.2.2 }
      let st3 := { st1 with rules := set_last st1.rules c2 }
      if arg st.args a2 = none then break_a st3
      else
        let ls := decide (arg st.args a2 = some (bytes_of "linestart"))
        let a3 := if ls = true then a2 + 1 else a2
        let c3 := { c2 with line_start_left := ls }
        let st4 := { st1 with rules := set_last st1.rules c3 }
        match arg st.args a3 with
        | none => break_a st4
        | some left =>
          let a4 := a3 + 1
          let c4 := { c3 with left := left }
          let st5 := { st1 with rules := set_last st1.rules c4 }
          if arg st.args a4 = none then break_a st5
          else
            let rs := decide (arg st.args a4 = some (bytes_of "linestart"))
            let a5 := if rs = true then a4 + 1 else a4
            let c5 := { c4 with line_start_right := rs }
            let st6 := { st1 with rules := set_last st1.rules c5 }
            match arg st.args a5 with
            | none => break_a st6
            | some right =>
              let c6 := { c5 with
                right := right
                first_left := left.headD 0
                first_right := right.headD 0 }
              context_colors env { st1 with rules := set_last st1.rules c6 } c6 (a5 + 1)

/-- The keyword `k` added as the last keyword of the context `c`. -/
def add_keyword (c : context_rule_t) (k : syntax_keyword_t) : context_rule_t :=
  { c with keyword := c.keyword ++ [k] }

/-- The `keyword` branch (lines 1115-1171).  `last_rule` is the last element of
`edit->rules`, which exists once `no_words` is false. -/
def keyword_directive (env : collaborators_t) (st : rules_reader_t) : rules_reader_t × flow_t :=
  if st.no_words = true then break_a st
  else if arg st.args 1 = none then break_a st
  else
    let last_rule := st.rules.getLastD new_context
    let w := whole_option st 1
    let a1 := w.1
    let k1 := { new_keyword with whole_word_chars_left := w.2.1, whole_word_chars_right := w.2.2 }
    if arg st.args a1 = none then
      break_a { st with rules := set_last st.rules (add_keyword last_rule k1) }
    else
      let ls := decide (arg st.args a1 = some (bytes_of "linestart"))
      let a2 := if ls = true then a1 + 1 else a1
      let k2 := { k1 with line_start := ls }
      match arg st.args a2 with
      | none => break_a { st with rules := set_last st.rules (add_keyword last_rule k2) }
      | some pattern =>
        if pattern = bytes_of "whole" then
          break_a { st with rules := set_last st.rules (add_keyword last_rule k2) }
        else
          let a3 := a2 + 1
          let args1 := subst_defines st.defines st.args a3
          let ca := color_args args1 a3
          let fg := ca.1.getD st.last_fg
          let bg := ca.2.1.getD st.last_bg
          let attrs := ca.2.2.1.getD st.last_attrs
          let k3 := { k2 with
            keyword := pattern
            color := this_try_alloc_color_pair env (some fg) (some bg) (some attrs) }
          let st1 := { st with
            args := args1
            rules := set_last st.rules (add_keyword last_rule k3) }
          if arg args1 ca.2.2.2 ≠ none then break_a st1 else (st1, .next)

/-- The `wholechars` branch (lines 1001-1021).  `g_strlcpy` from a null source
leaves the destination as it is. -/
def wholechars_directive (st : rules_reader_t) : rules_reader_t × flow_t :=
  match arg st.args 1 with
  | none => break_a st
  | some w =>
    if w = bytes_of "left" then
      let st1 :=
        match arg st.args 2 with
        | none => st
        | some x => { st with whole_left := g_strlcpy x 512 }
      if arg st.args 3 ≠ none then break_a st1 else (st1, .next)
    else if w = bytes_of "right" then
      let st1 :=
        match arg st.args 2 with
        | none => st
        | some x => { st with whole_right := g_strlcpy x 512 }
      if arg st.args 3 ≠ none then break_a st1 else (st1, .next)
    else
      let st1 := { st with whole_left := g_strlcpy w 512, whole_right := g_strlcpy w 512 }
      if arg st.args 2 ≠ none then break_a st1 else (st1, .next)

/-- The `include` branch (lines 979-996). -/
def include_directive (env : collaborators_t) (st : rules_reader_t) (argc : Nat) :
    rules_reader_t × flow_t :=
  if st.g ≠ none ∨ argc ≠ 2 then break_a st
  else
    match env.open_include_file ((arg st.args 1).getD []) with
    | none => break_a { st with g := some st.f, f := [], error_file_name := none }
    | some included =>
      ({ st with
          g := some st.f
          f := included
          error_file_name := some ((arg st.args 1).getD [])
          save_line := st.line
          line := 0 }, .next)

/-- The `define` branch (lines 1180-1197). -/
def define_directive (st : rules_reader_t) (argc : Nat) : rules_reader_t × flow_t :=
  if argc < 3 then break_a st
  else
    ({ st with
        defines := defines_insert st.defines ((arg st.args 1).getD []) (strv (st.args.drop 2)) },
      .next)

/-- The chain of directives of lines 975-1202, after `get_args` has filled `args`. -/
def directive (env : collaborators_t) (st : rules_reader_t) (argc : Nat) :
    rules_reader_t × flow_t :=
  match arg st.args 0 with
  | none => (st, .next)
  | some w =>
    if w = bytes_of "include" then include_directive env st argc
    else if w = bytes_of "caseinsensitive" then ({ st with is_case_insensitive := true }, .next)
    else if w = bytes_of "wholechars" then wholechars_directive st
    else if w = bytes_of "context" then context_directive env st
    else if w = bytes_of "spellcheck" then
      if st.c = false then break_a st
      else
        ({ st with
            rules := set_last st.rules { st.rules.getLastD new_context with spelling := true } },
          .next)
    else if w = bytes_of "keyword" then keyword_directive env st
    else if w.headD 0 = 35 then (st, .next)
    else if w = bytes_of "file" then (st, .stop)
    else if w = bytes_of "define" then define_directive st argc
    else break_a st

/-- What an iteration does with the line `l` that `read_one_line` returned (lines
955 or 970, and 973-1203). -/
def line_body (env : collaborators_t) (args_size : Nat) (st : rules_reader_t) (l : List Nat) :
    rules_reader_t × flow_t :=
  let ga := get_args (xx_lowerize_line st.is_case_insensitive (c_str l)) st.args args_size
  directive env { st with args := ga.2 } ga.1

/-- The iterations of `while (true)` (line 944) that read the included stream, as
long as `g != nullptr` and `read_one_line` returns a line.  Returns with `.next`
when the included stream is at its end. -/
def included_loop (env : collaborators_t) (args_size : Nat) :
    Nat → rules_reader_t → rules_reader_t × flow_t
  | 0, st => (st, .next)
  | n + 1, st =>
    let st1 := { st with line := st.line + 1 }
    let r := read_one_line st1.f
    if r.1 = 0 then (st1, .next)
    else
      match line_body env args_size { st1 with f := r.2.2 } r.2.1 with
      | (st2, .stop) => (st2, .stop)
      | (st2, .next) => included_loop env args_size n st2

/-- The rest of the iteration in which the included stream is at its end (lines
958-971): back to the parent stream and on with its next line. -/
def resume_parent (env : collaborators_t) (args_size : Nat) (st : rules_reader_t) :
    rules_reader_t × flow_t :=
  match st.g with
  | none => (st, .stop)
  | some parent =>
    let st1 := { st with
      f := parent, g := none, line := st.save_line + 1, error_file_name := none }
    let r := read_one_line st1.f
    if r.1 = 0 then (st1, .stop)
    else line_body env args_size { st1 with f := r.2.2 } r.2.1

/-- The loop `while (true)` of lines 944-1204.  Each round takes at least one byte
from the parent stream or leaves the loop, so as many rounds as the parent
stream has bytes, and one more, are enough. -/
def rules_loop (env : collaborators_t) (args_size : Nat) :
    Nat → rules_reader_t → rules_reader_t
  | 0, st => st
  | n + 1, st =>
    match st.g with
    | some _ =>
      match included_loop env args_size (st.f.length + 1) st with
      | (st1, .stop) => st1
      | (st1, .next) =>
        match resume_parent env args_size st1 with
        | (st2, .stop) => st2
        | (st2, .next) => rules_loop env args_size n st2
    | none =>
      let st1 := { st with line := st.line + 1 }
      let r := read_one_line st1.f
      if r.1 = 0 then st1
      else
        match line_body env args_size { st1 with f := r.2.2 } r.2.1 with
        | (st2, .stop) => st2
        | (st2, .next) => rules_loop env args_size n st2

/-- "collect first character of keywords" (lines 1223-1241) for one context;
`g_strndup` stops at a NUL byte. -/
def collect_first_chars (c : context_rule_t) : context_rule_t :=
  { c with
    keyword_first_chars :=
      some (c_str (1 :: (c.keyword.drop 1).map fun k => k.keyword.headD 0)) }

/-- The default word characters of lines 936-937. -/
def default_whole_chars : List Nat :=
  bytes_of "abcdefghijklmnopqrstuvwxyzABCDEFGHIJKLMNOPQRSTUVWXYZ_01234567890"

/-- The state in which the loop of `edit_read_syntax_rules` starts (lines 922-942). -/
def initial_reader (edit : WEdit) (f : List Nat) (args : List (Option (List Nat))) :
    rules_reader_t :=
  { f := f, g := none, args := args.set 0 none, last_fg := [], last_bg := [], last_attrs := [],
    whole_right := default_whole_chars, whole_left := default_whole_chars, save_line := 0,
    line := 0, c := false, no_words := true, result := 0, rules := [],
    is_case_insensitive := false, defines := edit.defines.getD [], error_file_name := none }

/-- `edit_read_syntax_rules` (syntax.cpp 919-1247): the value returned, the editor after
the call, and the state of the reader (the stream behind the lines read, the
array `args`). -/
def edit_read_syntax_rules (env : collaborators_t) (edit : WEdit) (f : List Nat)
    (args : List (Option (List Nat))) (args_size : Nat) : Nat × WEdit × rules_reader_t :=
  let st := rules_loop env args_size (f.length + 1) (initial_reader edit f args)
  let edit1 := { edit with
    is_case_insensitive := st.is_case_insensitive
    defines := some st.defines }
  if st.rules.length = 0 then
    ((if st.result = 0 then st.line else st.result), { edit1 with rules := none }, st)
  else if st.result = 0 then
    (0, { edit1 with rules := some (st.rules.map collect_first_chars) }, st)
  else (st.result, { edit1 with rules := some st.rules }, st)

/-! ## The lines that the reading loop processes, and properties of its state -/

/-- The lines that `included_loop` hands to `line_body`, each with the state of the reader in
which it does so. -/
def included_lines (env : collaborators_t) (args_size : Nat) :
    Nat → rules_reader_t → List (rules_reader_t × List Nat)
  | 0, _ => []
  | n + 1, st =>
    let st1 := { st with line := st.line + 1 }
    let r := read_one_line st1.f
    if r.1 = 0 then []
    else
      ({ st1 with f := r.2.2 }, r.2.1) ::
        match line_body env args_size { st1 with f := r.2.2 } r.2.1 with
        | (_, .stop) => []
        | (st2, .next) => included_lines env args_size n st2

/-- The line that `resume_parent` hands to `line_body`, if it reads one. -/
def resume_lines (st : rules_reader_t) : List (rules_reader_t × List Nat) :=
  match st.g with
  | none => []
  | some parent =>
    let st1 := { st with
      f := parent, g := none, line := st.save_line + 1, error_file_name := none }
    let r := read_one_line st1.f
    if r.1 = 0 then [] else [({ st1 with f := r.2.2 }, r.2.1)]

/-- The lines that `rules_loop` hands to `line_body`, in the order in which it reads them,
each with the state of the reader in which it does so. -/
def rules_lines (env : collaborators_t) (args_size : Nat) :
    Nat → rules_reader_t → List (rules_reader_t × List Nat)
  | 0, _ => []
  | n + 1, st =>
    match st.g with
    | some _ =>
      included_lines env args_size (st.f.length + 1) st ++
        match included_loop env args_size (st.f.length + 1) st with
        | (_, .stop) => []
        | (st1, .next) =>
          resume_lines st1 ++
            match resume_parent env args_size st1 with
            | (_, .stop) => []
            | (st2, .next) => rules_lines env args_size n st2
    | none =>
      let st1 := { st with line := st.line + 1 }
      let r := read_one_line st1.f
      if r.1 = 0 then []
      else
        ({ st1 with f := r.2.2 }, r.2.1) ::
          match line_body env args_size { st1 with f := r.2.2 } r.2.1 with
          | (_, .stop) => []
          | (st2, .next) => rules_lines env args_size n st2

/-- The array `args` after `get_args` has split the line `l`, read in the state `st`. -/
def line_args (args_size : Nat) (st : rules_reader_t) (l : List Nat) :
    List (Option (List Nat)) :=
  (get_args (xx_lowerize_line st.is_case_insensitive (c_str l)) st.args args_size).2

/-- The line `l`, read in the state `st`, is the `context default` line of the rule
set: no context is defined yet and its first two words are `context` and
`default`. -/
def is_default_line (args_size : Nat) (st : rules_reader_t) (l : List Nat) : Prop :=
  st.rules = [] ∧ arg (line_args args_size st l) 0 = some (bytes_of "context") ∧
    arg (line_args args_size st l) 1 = some (bytes_of "default")

/-- The colour given on the `context default` line `l`: the colour pair of the three
arguments that follow `default`, after the defines of the state `st` have been
expanded. -/
def default_line_color (env : collaborators_t) (args_size : Nat) (st : rules_reader_t)
    (l : List Nat) : Int :=
  let ca := color_args (subst_defines st.defines (line_args args_size st l) 2) 2
  this_try_alloc_color_pair env ca.1 ca.2.1 ca.2.2.1

/-- No context has been defined yet. -/
def reader_empty (st : rules_reader_t) : Prop :=
  st.rules = [] ∧ st.no_words = true ∧ st.c = false

/-- Keyword 0 of context 0 has the colour `X`. -/
def head_color (X : Int) (_no_words _c : Bool) (rules : List context_rule_t) : Prop :=
  ∃ c0 rest k0 ks, rules = c0 :: rest ∧ c0.keyword = k0 :: ks ∧ k0.color = X

/-- What a step does to a reader without a context: it stays so, or the step
reads the `context default` line and keyword 0 of context 0 gets the colour of
that line. -/
def empty_or_default (env : collaborators_t) (st : rules_reader_t)
    (r : rules_reader_t × flow_t) : Prop :=
  (r.2 = .next → r.1.result = 0) ∧
  (r.1.result = 0 → reader_empty r.1 ∨
    ((st.rules = [] ∧ arg st.args 0 = some (bytes_of "context") ∧
        arg st.args 1 = some (bytes_of "default")) ∧
      head_color
        (this_try_alloc_color_pair env (color_args (subst_defines st.defines st.args 2) 2).1
          (color_args (subst_defines st.defines st.args 2) 2).2.1
          (color_args (subst_defines st.defines st.args 2) 2).2.2.1)
        false true r.1.rules))

/-- Among the lines `T` is the `context default` line of the rule set, and keyword 0 of
context 0 of `rules` has the colour given on it. -/
def default_found (env : collaborators_t) (args_size : Nat)
    (T : List (rules_reader_t × List Nat)) (rules : List context_rule_t) : Prop :=
  ∃ s l, (s, l) ∈ T ∧ is_default_line args_size s l ∧
    head_color (default_line_color env args_size s l) false true rules

/-- How a property `Q` of the flag `no_words`, the pointer `c` and the rule table is
handed on by one iteration: the loop goes on only while `result` is 0, and a
table with `result = 0` has `Q`. -/
def flow_ok (Q : Bool → Bool → List context_rule_t → Prop) (r : rules_reader_t × flow_t) :
    Prop :=
  (r.2 = .next → r.1.result = 0) ∧ (r.1.result = 0 → Q r.1.no_words r.1.c r.1.rules)

/-- Every context of the table has its keyword 0, and the table is not empty once
a context has been added. -/
def keywords_present (_no_words c : Bool) (rules : List context_rule_t) : Prop :=
  (c = true → rules ≠ []) ∧ ∀ x ∈ rules, x.keyword ≠ []

/-- The ParseState after the bytes `0 .. o`, classified once in increasing order from
the all-zero state. -/
def cold_rule (ci : Bool) (b : edit_buffer_t) (rules : List context_rule_t) (o : Int) :
    Option edit_syntax_rule_t :=
  replay_loop ci b rules (o + 1).toNat 0 zero_rule

/-- The classifier state agrees with the classification in increasing order: the
ParseState is the one after the bytes `0 .. last_get_rule`, and every checkpoint
`(o, s)` holds the ParseState after the bytes `0 .. o`; the checkpoint offsets
descend from the head and none exceeds `last_get_rule`. -/
def coherent (ci : Bool) (b : edit_buffer_t) (rules : List context_rule_t)
    (rule : edit_syntax_rule_t) (last : Int) (markers : List syntax_marker_t) : Prop :=
  -1 ≤ last ∧ cold_rule ci b rules last = some rule ∧
  (∀ m ∈ markers,
    0 ≤ m.offset ∧ m.offset ≤ last ∧ cold_rule ci b rules m.offset = some m.rule) ∧
  markers.Pairwise (fun m1 m2 => m1.offset > m2.offset)

/-- The reader `st1` stands where `st` stands: the same streams, line counter and saved
line. -/
def same_stream (st st1 : rules_reader_t) : Prop :=
  st1.g = st.g ∧ st1.f = st.f ∧ st1.line = st.line ∧ st1.save_line = st.save_line

/-- An iteration started in `st` either leaves `result` 0, or sets it to the number of
the line read and leaves the loop. -/
def step_result (st : rules_reader_t) (r : rules_reader_t × flow_t) : Prop :=
  r.1.result = 0 ∨ (r.1.result = st.line ∧ r.2 = .stop)

/-- The lines that `edit_read_syntax_rules` hands to `line_body`, in the order in which it reads
them, each with the state of the reader in which it does so. -/
def compile_lines (env : collaborators_t) (edit : WEdit) (f : List Nat)
    (args : List (Option (List Nat))) (args_size : Nat) : List (rules_reader_t × List Nat) :=
  rules_lines env args_size (f.length + 1) (initial_reader edit f args)

/-- The lines of the stream `f`, as `read_one_line` returns them one after the other; the
first argument bounds their number. -/
def text_lines : Nat → List Nat → List (List Nat)
  | 0, _ => []
  | n + 1, f =>
    if (read_one_line f).1 = 0 then []
    else (read_one_line f).2.1 :: text_lines n (read_one_line f).2.2

/-- The number `argc` of tokens that `get_args` stores for the line `l`, read in the state `st`. -/
def line_argc (args_size : Nat) (st : rules_reader_t) (l : List Nat) : Nat :=
  (get_args (xx_lowerize_line st.is_case_insensitive (c_str l)) st.args args_size).1

/-- The line `l`, read in the state `st`, is rejected: the iteration sets `result`. -/
def rejected (env : collaborators_t) (args_size : Nat) (x : rules_reader_t × List Nat) : Prop :=
  (line_body env args_size x.1 x.2).1.result ≠ 0

/-- While no context is defined, `no_words` is set and `c` is null. -/
def empty_flags (no_words c : Bool) (rules : List context_rule_t) : Prop :=
  rules = [] → no_words = true ∧ c = false

/-! ## The loader: `edit_read_syntax_file` and `edit_free_syntax_rules` -/

/-- `edit_free_syntax_rules` (syntax.cpp 1430-1450) for an `edit` that is not null;
`edit_get_rule (edit, -1)` rewinds the classifier. -/
def edit_free_syntax_rules (edit : WEdit) : Option WEdit :=
  match edit.rules with
  | none => some { edit with defines := none }
  | some _ =>
    match edit_get_rule { edit with defines := none } (-1) with
    | none => none
    | some edit1 => some { edit1 with syntax_type := none, rules := none, syntax_marker := [] }

/-- The file-scope variable `error_file_name` after `edit_read_syntax_rules` has run, when it
holds `efn` at the call.  The function reads the variable nowhere, so its
result does not depend on it; this is the loop of the function started with
the variable at `efn`. -/
def error_file_name_after (env : collaborators_t) (edit : WEdit) (f : List Nat)
    (args : List (Option (List Nat))) (args_size : Nat) (efn : Option (List Nat)) :
    Option (List Nat) :=
  (rules_loop env args_size (f.length + 1)
    { initial_reader edit f args with error_file_name := efn }).error_file_name

/-- The local variables of `edit_read_syntax_file`, its parameters `edit` and `pnames`, and the
file-scope variable `error_file_name`. -/
structure syntax_file_reader_t where
  /-- the stream `f` of the index file -/
  f : List Nat
  /-- the stream `g` of a file included before the first `file` line -/
  g : Option (List Nat)
  /-- the array `args` -/
  args : List (Option (List Nat))
  /-- `line` -/
  line : Nat
  /-- `result` -/
  result : Nat
  /-- `found` -/
  found : Bool
  /-- `edit`, `none` for `nullptr` -/
  edit : Option WEdit
  /-- `pnames`, `none` for `nullptr` -/
  pnames : Option (List (List Nat))
  /-- `error_file_name` -/
  error_file_name : Option (List Nat)

/-- The end of an iteration that has gone through `found_type` (lines 1367-1371). -/
def close_included (st : syntax_file_reader_t) : syntax_file_reader_t × flow_t :=
  match st.g with
  | none => (st, .stop)
  | some _ => ({ st with g := none }, .next)

/-- The block at the label `found_type` (lines 1339-1371).  `edit_read_syntax_rules` needs an
`edit` that is not null.  When `g` is null the loop is left in every case, so
where the rules have left the stream `f` is of no consequence. -/
def found_type (env : collaborators_t) (st : syntax_file_reader_t) :
    Option (syntax_file_reader_t × flow_t) :=
  match st.edit with
  | none => none
  | some edit =>
    let syntax_type := arg st.args 2
    let r := edit_read_syntax_rules env edit (st.g.getD st.f) st.args (ARGS_LEN - 1)
    let efn := error_file_name_after env edit (st.g.getD st.f) st.args (ARGS_LEN - 1)
      st.error_file_name
    let st1 := { st with args := r.2.2.args, edit := some r.2.1, error_file_name := efn }
    if r.1 ≠ 0 then
      some (close_included
        { st1 with result := if efn = none then st.line + r.1 else r.1 })
    else
      let edit1 := { r.2.1 with syntax_type := syntax_type }
      match st.g with
      | some _ => some (close_included { st1 with edit := some edit1 })
      | none =>
        match edit1.rules with
        | none => none
        | some rules =>
          if rules.length = 1 then
            match rules.head? with
            | none => none
            | some r0 =>
              if r0.keyword.length = 1 ∧ r0.spelling = false then
                match edit_free_syntax_rules edit1 with
                | none => none
                | some edit2 => some ({ st1 with edit := some edit2 }, .stop)
              else some (close_included { st1 with edit := some edit1 })
          else some (close_included { st1 with edit := some edit1 })

/-- What an iteration of the loop of `edit_read_syntax_file` does with the line `l` that
`read_one_line` returned (lines 1280-1373).  `mc_search pattern text` is the regular
expression search of the library. -/
def syntax_file_line (env : collaborators_t) (mc_search : List Nat → List Nat → Bool)
    (editor_file : Option (List Nat)) (first_line : List Nat) (type : Option (List Nat))
    (st0 : syntax_file_reader_t) (l : List Nat) : Option (syntax_file_reader_t × flow_t) :=
  let st := { st0 with args := (get_args (c_str l) st0.args (ARGS_LEN - 1)).2 }
  match arg st.args 0 with
  | none => some (st, .next)
  | some w =>
    if st.found = false ∧ w = bytes_of "include" then
      if st.g ≠ none then some (st, .next)
      else
        match arg st.args 1 with
        | none => some ({ st with result := st.line }, .stop)
        | some name =>
          match env.open_include_file name with
          | none => some ({ st with result := st.line, error_file_name := some name }, .stop)
          | some included =>
            found_type env { st with g := some included, error_file_name := some name }
    else if w ≠ bytes_of "file" then some (st, .next)
    else
      let st1 := { st with found := true }
      match arg st.args 1, arg st.args 2 with
      | some pattern, some name =>
        match st1.pnames with
        | some names => some ({ st1 with pnames := some (names ++ [name]) }, .next)
        | none =>
          match type with
          | some t => if t = name then found_type env st1 else some (st1, .next)
          | none =>
            match editor_file with
            | some file =>
              if st1.edit.isSome = true then
                let q := mc_search pattern file
                let q1 :=
                  match arg st.args 3 with
                  | some p3 => if q = false then mc_search p3 first_line else q
                  | none => q
                if q1 = true then found_type env st1 else some (st1, .next)
              else some (st1, .next)
            | none => some (st1, .next)
      | _, _ => some ({ st1 with result := st1.line }, .stop)

/-- The loop `while (true)` of lines 1274-1374; each round takes a line from `f`. -/
def syntax_file_loop (env : collaborators_t) (mc_search : List Nat → List Nat → Bool)
    (editor_file : Option (List Nat)) (first_line : List Nat) (type : Option (List Nat)) :
    Nat → syntax_file_reader_t → Option syntax_file_reader_t
  | 0, st => some st
  | n + 1, st =>
    let st1 := { st with line := st.line + 1 }
    let r := read_one_line st1.f
    if r.1 = 0 then some st1
    else
      match syntax_file_line env mc_search editor_file first_line type
          { st1 with f := r.2.2 } r.2.1 with
      | none => none
      | some (st2, .stop) => some st2
      | some (st2, .next) => syntax_file_loop env mc_search editor_file first_line type n st2

/-- `edit_read_syntax_file` (syntax.cpp 1252-1378).  `opened` is the stream that `fopen` gives
for `syntax_file` or, failing that, for the library file `Syntax`; `none` when
neither opens.  Result: the value returned (-1 on a file error), `edit`,
`pnames` and `error_file_name` after the call. -/
def edit_read_syntax_file (env : collaborators_t) (mc_search : List Nat → List Nat → Bool)
    (edit : Option WEdit) (pnames : Option (List (List Nat))) (opened : Option (List Nat))
    (editor_file : Option (List Nat)) (first_line : List Nat) (type : Option (List Nat))
    (args : List (Option (List Nat))) (error_file_name : Option (List Nat)) :
    Option (Int × Option WEdit × Option (List (List Nat)) × Option (List Nat)) :=
  match opened with
  | none => some (-1, edit, pnames, error_file_name)
  | some f =>
    match syntax_file_loop env mc_search editor_file first_line type (f.length + 1)
        { f := f, g := none, args := args.set 0 none, line := 0, result := 0, found := false,
          edit := edit, pnames := pnames, error_file_name := error_file_name } with
    | none => none
    | some st => some (st.result, st.edit, st.pnames, st.error_file_name)

/-- The rule table is absent after the loader has run. -/
def table_absent (st : syntax_file_reader_t) : Prop :=
  ∃ e, st.edit = some e ∧ e.rules = none

/-- The shape of the checkpoint list when the classifier stands at `last`: the offsets
descend from the head and are the positive multiples of `SYNTAX_MARKER_DENSITY + 1` up to
`last`. -/
def checkpoint_shape (markers : List syntax_marker_t) (last : Int) : Prop :=
  (markers.map fun m => m.offset).Pairwise (fun o1 o2 => o1 > o2) ∧
  ∀ o, o ∈ (markers.map fun m => m.offset) ↔
    0 < o ∧ o % (SYNTAX_MARKER_DENSITY + 1) = 0 ∧ o ≤ last

/-- Where the replay of the loop of lines 597-621 starts: the first value of `i` in
`for (i = ...; i <= byte_index; i++)` (line 604 after the reset, line 614 at the first
checkpoint that is not behind `byte_index`) and the ParseState the first step starts
from. -/
def backward_start (byte_index : Int) : List syntax_marker_t → Int × edit_syntax_rule_t
  | [] => (-1, zero_rule)
  | s :: markers =>
    if byte_index ≥ s.offset then (s.offset + 1, s.rule)
    else backward_start byte_index markers

/-- The step locals at the start of `apply_rules_going_right` (lines 365-370). -/
def fresh_locals (rule : edit_syntax_rule_t) : step_locals :=
  { _rule := rule, contextchanged := false, found_left := false, found_right := false,
    keyword_foundleft := false, keyword_foundright := false, end_ := 0 }

/-- The keyword scan of lines 432-461 (and 544-560) over the keywords of context `r` at
offset `o`. -/
def keyword_scan (ci : Bool) (b : edit_buffer_t) (r : context_rule_t) (o : Int) :
    Option (Option (Nat × syntax_keyword_t × Int)) :=
  match r.keyword_first_chars with
  | some (_ :: p) => keyword_loop ci b r.keyword o (read_byte ci b o) 1 p
  | _ => none

/-- No keyword of context `r` matches at `o`: the keyword scan runs through the index
without a hit. -/
def keyword_miss (ci : Bool) (b : edit_buffer_t) (r : context_rule_t) (o : Int) : Prop :=
  keyword_scan ci b r o = some none

instance (ci : Bool) (b : edit_buffer_t) (r : context_rule_t) (o : Int) :
    Decidable (keyword_miss ci b r o) :=
  inferInstanceAs (Decidable (keyword_scan ci b r o = some none))

/-- The left delimiter of context `r` does not match at `o`: its first byte is not the byte
at `o`, or `compare_word_to_right` returns -1. -/
def left_miss (ci : Bool) (b : edit_buffer_t) (r : context_rule_t) (o : Int) : Prop :=
  r.first_left = read_byte ci b o →
    compare_word_to_right ci b o r.left r.whole_word_chars_left r.whole_word_chars_right
      r.line_start_left = some (-1)

instance (ci : Bool) (b : edit_buffer_t) (r : context_rule_t) (o : Int) :
    Decidable (left_miss ci b r o) := by
  unfold left_miss
  infer_instance

/-- The right delimiter of context `r` does not match at `o`: its first byte is not the
byte at `o`, or `compare_word_to_right` returns -1. -/
def right_miss (ci : Bool) (b : edit_buffer_t) (r : context_rule_t) (o : Int) : Prop :=
  r.first_right = read_byte ci b o →
    compare_word_to_right ci b o r.right r.whole_word_chars_left r.whole_word_chars_right
      r.line_start_right = some (-1)

instance (ci : Bool) (b : edit_buffer_t) (r : context_rule_t) (o : Int) :
    Decidable (right_miss ci b r o) := by
  unfold right_miss
  infer_instance

/-- The bracket sets that the walk of `compare_word_to_right` over the pattern meets: the
walk does not depend on the buffer, a star or a plus steps over the byte behind it, and an
opening bracket or brace moves on to the closing one. -/
def pattern_bracket_sets : walk_mode → List Nat → List (List Nat)
  | .tokens, [] => []
  | .tokens, t :: p =>
    if t = SYNTAX_TOKEN_STAR ∨ t = SYNTAX_TOKEN_PLUS then pattern_bracket_sets .step_over p
    else if t = SYNTAX_TOKEN_BRACKET then
      bracket_set p :: pattern_bracket_sets (.bracket_close none) p
    else if t = SYNTAX_TOKEN_BRACE then pattern_bracket_sets .brace_close p
    else pattern_bracket_sets .tokens p
  | .step_over, [] => []
  | .step_over, _ :: p => pattern_bracket_sets .tokens p
  | .bracket_close _, [] => []
  | .bracket_close d, t :: p =>
    if t = SYNTAX_TOKEN_BRACKET then pattern_bracket_sets .tokens p
    else pattern_bracket_sets (.bracket_close d) p
  | .brace_find _, [] => []
  | .brace_find c, t :: p =>
    if t = SYNTAX_TOKEN_BRACE then pattern_bracket_sets .tokens p
    else pattern_bracket_sets (.brace_find c) p
  | .brace_close, [] => []
  | .brace_close, t :: p =>
    if t = SYNTAX_TOKEN_BRACE then pattern_bracket_sets .tokens p
    else pattern_bracket_sets .brace_close p

/-- The whitespace-separated tokens of a line, as the grammar of the rule files describes
them: the line is cut at every whitespace byte and the empty pieces are dropped, which
leaves the maximal runs of bytes that are not whitespace, in order. -/
def whitespace_tokens (l : List Nat) : List (List Nat) :=
  (l.splitOnP fun x => whiteness x).filter fun t => t ≠ []

/-- The in-place rewrite of `convert` (syntax.cpp 698-765) on the buffer `buf` that holds the
string and its terminating NUL: `s` is the read position and `p` the write position at the
head of `while (*s)`.  Returns the buffer after the rewrite and, for every store `*p = ...`,
the pair of the read position at the head of that iteration - the lowest value that `s` has
in it - and the position written. -/
def convert_in_place : Nat → List Nat → Nat → Nat → List Nat × List (Nat × Nat)
  | 0, buf, _, _ => (buf, [])
  | fuel + 1, buf, s, p =>
    let c := buf.getD s 0
    if c = 0 then (buf.set p 0, [(s, p)])
    else if c = 92 then
      let e := buf.getD (s + 1) 0
      if e = 32 then
        let r := convert_in_place fuel (buf.set p 32) (s + 1) (p + 1)
        (r.1, (s, p) :: r.2)
      else if e = 0 then (buf.set p 0, [(s, p)])
      else
        let r := convert_in_place fuel (buf.set p (convert_escape e)) (s + 2) (p + 1)
        (r.1, (s, p) :: r.2)
    else if c = 42 then
      let r := convert_in_place fuel (buf.set p SYNTAX_TOKEN_STAR) (s + 1) (p + 1)
      (r.1, (s, p) :: r.2)
    else if c = 43 then
      let r := convert_in_place fuel (buf.set p SYNTAX_TOKEN_PLUS) (s + 1) (p + 1)
      (r.1, (s, p) :: r.2)
    else
      let r := convert_in_place fuel (buf.set p c) (s + 1) (p + 1)
      (r.1, (s, p) :: r.2)

/-- What the rewrite started at the read position `s` and the write position `p` leaves,
`rest` being the string from `s` on: the buffer keeps its length and its bytes before `p`,
holds `convert rest` from `p` on, then a NUL; the output ends at or before the terminator of
the input, and every store is at or before the read position of its iteration. -/
def rewrite_ok (buf : List Nat) (s p : Nat) (rest : List Nat)
    (r : List Nat × List (Nat × Nat)) : Prop :=
  r.1.length = buf.length ∧
  r.1.take (p + (convert rest).length) = buf.take p ++ convert rest ∧
  r.1.getD (p + (convert rest).length) 1 = 0 ∧
  p + (convert rest).length ≤ s + rest.length ∧
  ∀ x ∈ r.2, s ≤ x.1 ∧ p ≤ x.2 ∧ x.2 ≤ x.1 ∧ x.1 ≤ s + rest.length

/-- The line `l`, read in the state `st`, is one of the lines that define no context and no
keyword: a blank line, a comment, or a line whose first word is `caseinsensitive`,
`wholechars` or `define`. -/
def plain_line (args_size : Nat) (st : rules_reader_t) (l : List Nat) : Prop :=
  arg (line_args args_size st l) 0 = none ∨
  ((arg (line_args args_size st l) 0).getD []).headD 0 = 35 ∨
  arg (line_args args_size st l) 0 = some (bytes_of "caseinsensitive") ∨
  arg (line_args args_size st l) 0 = some (bytes_of "wholechars") ∨
  arg (line_args args_size st l) 0 = some (bytes_of "define")

instance (args_size : Nat) (st : rules_reader_t) (l : List Nat) :
    Decidable (plain_line args_size st l) := by
  unfold plain_line
  infer_instance

/-- What the classifier needs of a rule table: it has a context 0, every context has its
keyword 0, and the index of first bytes of every context is present and has at most one
byte per keyword. -/
def table_ok (R : List context_rule_t) : Prop :=
  R ≠ [] ∧ ∀ r ∈ R, r.keyword ≠ [] ∧
    ∃ x p, r.keyword_first_chars = some (x :: p) ∧ p.length < r.keyword.length

/-- The indices of the ParseState are in range: the context and the saved context are below
the number of contexts, the keyword below the number of keywords of the active context. -/
def state_ok (R : List context_rule_t) (rule : edit_syntax_rule_t) : Prop :=
  rule._context < R.length ∧
  ∃ r, R.get? rule.context = some r ∧ rule.keyword < r.keyword.length

/-- The scanning loops return for every pattern of the table at the offset `i` of the
document `b`. -/
def scans_return_at (ci : Bool) (b : edit_buffer_t) (R : List context_rule_t) (i : Int) :
    Prop :=
  ∀ r ∈ R,
    (compare_word_to_right ci b i r.left r.whole_word_chars_left r.whole_word_chars_right
      r.line_start_left).isSome = true ∧
    (compare_word_to_right ci b i r.right r.whole_word_chars_left r.whole_word_chars_right
      r.line_start_right).isSome = true ∧
    ∀ k ∈ r.keyword,
      (compare_word_to_right ci b i k.keyword k.whole_word_chars_left
        k.whole_word_chars_right k.line_start).isSome = true

/-- The scanning loops return for every pattern of the table, at every offset of the
document `b`. -/
def scans_return (ci : Bool) (b : edit_buffer_t) (R : List context_rule_t) : Prop :=
  ∀ (i : Int), scans_return_at ci b R i

/-- No bracket set of a pattern of the table holds the newline. -/
def newline_free (R : List context_rule_t) : Prop :=
  ∀ r ∈ R,
    (∀ S ∈ pattern_bracket_sets .tokens r.left, 10 ∉ S) ∧
    (∀ S ∈ pattern_bracket_sets .tokens r.right, 10 ∉ S) ∧
    ∀ k ∈ r.keyword, ∀ S ∈ pattern_bracket_sets .tokens k.keyword, 10 ∉ S

instance (R : List context_rule_t) : Decidable (newline_free R) := by
  unfold newline_free
  infer_instance

/-- What is known of the result `o` of a block of the step: it is a value with the
property `P`, or the block did not return although `S` holds of the scanning loops. -/
def returns_ok {α : Type} (S : Prop) (P : α → Prop) : Option α → Prop
  | none => ¬ S
  | some a => P a

/-- The ParseState after the steps at the offsets `os`, taken in this order from the
ParseState `rule`. -/
def steps_from (ci : Bool) (b : edit_buffer_t) (rules : List context_rule_t) :
    List Int → edit_syntax_rule_t → Option edit_syntax_rule_t
  | [], rule => some rule
  | o :: os, rule =>
    match apply_rules_going_right ci b rules rule o with
    | none => none
    | some rule1 => steps_from ci b rules os rule1

/-! ## Example rule sets and documents used by the theorems -/

/-- The colours that `edit_get_syntax_color` returns for a sequence of queries, each
query starting from the classifier state the one before it left. -/
def query_colors (env : collaborators_t) : WEdit → List Int → Option (List Int)
  | _, [] => some []
  | edit, o :: os =>
    match edit_get_syntax_color env edit o with
    | none => none
    | some (color, edit1) =>
      match query_colors env edit1 os with
      | none => none
      | some cs => some (color :: cs)

/-- The editor after a sequence of `edit_get_rule` calls. -/
def get_rules : WEdit → List Int → Option WEdit
  | edit, [] => some edit
  | edit, o :: os =>
    match edit_get_rule edit o with
    | none => none
    | some edit1 => get_rules edit1 os

/-- Colour numbers of the examples. -/
def example_color (fg : List Nat) : Int :=
  if fg = bytes_of "red" then 1
  else if fg = bytes_of "yellow" then 2
  else if fg = bytes_of "blue" then 3
  else 9

/-- Collaborators of the examples: colours are on, the neutral colour is 0, there are
no files to include. -/
def example_env : collaborators_t :=
  { tty_use_colors := true, option_syntax_highlighting := true, EDITOR_NORMAL_COLOR := 0,
    tty_try_alloc_color_pair := fun fg _ _ => example_color fg,
    editnormal := bytes_of "default;default", open_include_file := fun _ => none }

/-- An editor on the document `doc` before any rules are loaded and any byte is
classified: last position -1, all-zero ParseState, no checkpoint.  A read
outside the document yields a newline. -/
def fresh_edit (doc : List Nat) : WEdit :=
  { buffer := { bytes := doc, sentinel := 10 }, rules := none, is_case_insensitive := false,
    defines := none, syntax_type := none, rule := zero_rule, last_get_rule := -1,
    syntax_marker := [] }

/-- An array `args` that holds null pointers only. -/
def null_args : List (Option (List Nat)) := List.replicate ARGS_LEN none

/-- The editor on `doc` after `edit_read_syntax_rules` has compiled `text`, called as at line
1341. -/
def load_rules (text doc : List Nat) : WEdit :=
  (edit_read_syntax_rules example_env (fresh_edit doc) text null_args (ARGS_LEN - 1)).2.1

/-- The value `edit_read_syntax_rules` returns for `text`. -/
def load_result (text : List Nat) : Nat :=
  (edit_read_syntax_rules example_env (fresh_edit []) text null_args (ARGS_LEN - 1)).1

/-- A default context with the whole-word keyword TODO and an exclusive context
between the literal delimiters `/*` and `*/`. -/
def comment_rules : List Nat :=
  bytes_of "context default\n    keyword whole TODO yellow\ncontext exclusive /\\* \\*/ red\n"

/-- A case-insensitive rule set with the whole-word keyword `begin`. -/
def begin_rules : List Nat :=
  bytes_of "caseinsensitive\ncontext default\n    keyword whole begin blue\n"

/-- A context whose left delimiter is a newline followed by `a`. -/
def line_rules : List Nat :=
  bytes_of "context default\ncontext \\na zz red\n"

/-- The byte `a` followed by 599 bytes `x`. -/
def long_doc : List Nat := 97 :: List.replicate 599 120

/-- A keyword whose pattern is empty (a lone backslash), then the keyword `ab`. -/
def empty_keyword_rules : List Nat :=
  bytes_of "context default\nkeyword \\ red\nkeyword ab yellow\n"

/-- A keyword declared before the `caseinsensitive` directive. -/
def late_fold_rules : List Nat :=
  bytes_of "context default\nkeyword Ab red\ncaseinsensitive\n"

/-- Two exclusive contexts: comments and strings. -/
def two_exclusive_rules : List Nat :=
  bytes_of "context default\ncontext exclusive /\\* \\*/ red\ncontext exclusive \" \" yellow\n"

/-- The contexts after the bytes `0 .. n-1` of `edit`'s document, classified in
increasing order. -/
def contexts_in_order (edit : WEdit) : Nat → Int → Option (List Nat)
  | 0, _ => some []
  | n + 1, i =>
    match edit_get_rule edit i with
    | none => none
    | some edit1 =>
      match contexts_in_order edit1 n (i + 1) with
      | none => none
      | some cs => some (edit1.rule.context :: cs)

/-- The table of a default context without keywords and the exclusive context `/*`
.. `*/`. -/
def comment_table : List context_rule_t :=
  [{ new_context with
      left := bytes_of " ", right := bytes_of " ", keyword_first_chars := some [1],
      keyword := [{ new_keyword with keyword := bytes_of " " }] },
   { new_context with
      left := bytes_of "/*", first_left := 47, right := bytes_of "*/", first_right := 42,
      between_delimiters := true, keyword_first_chars := some [1],
      keyword := [{ new_keyword with keyword := bytes_of " ", color := 1 }] }]

/-- The ParseState inside the comment context of `comment_table`. -/
def in_comment : edit_syntax_rule_t :=
  { keyword := 0, end_ := 2, context := 1, _context := 1, border := 0 }

/-- The default word characters as a whole-word set. -/
def word_set : Option (List Nat) := some default_whole_chars

/-- The `n` bytes of the buffer from offset `i` on, as `edit_buffer_get_byte` returns them. -/
def raw_bytes (b : edit_buffer_t) : Nat → Int → List Nat
  | 0, _ => []
  | n + 1, i => edit_buffer_get_byte b i :: raw_bytes b n (i + 1)

/-- The `n` bytes of the buffer from offset `i` on, as the matcher reads them
(lower-cased in case-insensitive mode). -/
def read_bytes (ci : Bool) (b : edit_buffer_t) : Nat → Int → List Nat
  | 0, _ => []
  | n + 1, i => read_byte ci b i :: read_bytes ci b n (i + 1)

/-- A pattern made only of literal bytes: none of the four tokens, no NUL. -/
def literal_pattern (p : List Nat) : Prop := ∀ t ∈ p, 5 ≤ t

instance (p : List Nat) : Decidable (literal_pattern p) :=
  inferInstanceAs (Decidable (∀ t ∈ p, 5 ≤ t))

/-- The byte `c` is one of the characters of the whole-word set, when a set is
given. -/
def set_has (set : Option (List Nat)) (c : Nat) : Bool :=
  match set with
  | none => false
  | some s => decide (c ∈ s)

/-- The condition under which a literal pattern `p` matches at `i`, on the bytes as
the matcher reads them: the bytes at `i .. i+|p|-1` are `p`, the byte before is
not in the left set, the byte behind is not in the right set, and the byte
before is a newline when the line start is asked for. -/
def literal_match_at (ci : Bool) (b : edit_buffer_t) (i : Int) (p : List Nat)
    (whole_left whole_right : Option (List Nat)) (line_start : Bool) : Prop :=
  read_bytes ci b p.length i = p ∧
  set_has whole_left (read_byte ci b (i - 1)) = false ∧
  set_has whole_right (read_byte ci b (i + p.length)) = false ∧
  (line_start = true → read_byte ci b (i - 1) = 10)

instance (ci : Bool) (b : edit_buffer_t) (i : Int) (p : List Nat)
    (whole_left whole_right : Option (List Nat)) (line_start : Bool) :
    Decidable (literal_match_at ci b i p whole_left whole_right line_start) := by
  unfold literal_match_at
  infer_instance

/-- A document that holds a NUL byte before the word `if`. -/
def nul_if_doc : edit_buffer_t := { bytes := 0 :: bytes_of "if ", sentinel := 10 }

/-- An editor on the document `a /* TODO */ b` with the rule set `comment_rules` loaded,
whose classifier stands at offset 0 with the ParseState `rule`. -/
def edit_with_state (rule : edit_syntax_rule_t) : WEdit :=
  { load_rules comment_rules (bytes_of "a /* TODO */ b") with rule := rule, last_get_rule := 0 }

/-- The reader `st1` holds the same `last_fg`, `last_bg` and `last_attrs` as `st`. -/
def same_last (st st1 : rules_reader_t) : Prop :=
  st1.last_fg = st.last_fg ∧ st1.last_bg = st.last_bg ∧ st1.last_attrs = st.last_attrs

/-- A keyword after the keyword `a red`, both in a default context that is yellow. -/
def inherit_rules : List Nat :=
  bytes_of "context default yellow\nkeyword a red\nkeyword b\n"

/-- The patterns and colours of the keywords of context 0 after `text` has been
compiled. -/
def keyword_colors (text : List Nat) : List (List Nat × Int) :=
  (((load_rules text []).rules.getD []).headD new_context).keyword.map
    fun k => (k.keyword, k.color)

/-- The reader after the line `context default yellow` has been processed. -/
def yellow_reader : rules_reader_t :=
  (line_body example_env (ARGS_LEN - 1) (initial_reader (fresh_edit []) [] null_args)
    (bytes_of "context default yellow")).1

/-- A line `keyword x C bold` as `get_args` stores it in an empty array, and a define
of `C` as the two tokens `red` and `blue`. -/
def define_args : List (Option (List Nat)) :=
  (get_args (bytes_of "keyword x C bold") null_args (ARGS_LEN - 1)).2

/-- The defines of the examples: `C` stands for `red blue`. -/
def define_table : List (List Nat × List (List Nat)) :=
  [(bytes_of "C", [bytes_of "red", bytes_of "blue"])]

/-- A define of `X` as 1021 tokens `r` (the longest that a line of `ARGS_LEN - 1` tokens can
hold), used behind the pattern of a keyword line at `args[4]`. -/
def overflow_rules : List Nat :=
  bytes_of "context default\ndefine X" ++ (List.replicate 1021 (bytes_of " r")).flatten ++
    bytes_of "\nkeyword whole linestart p X\n"

/-- The reader of `edit_read_syntax_rules` after `text` has been compiled. -/
def load_reader (text : List Nat) : rules_reader_t :=
  (edit_read_syntax_rules example_env (fresh_edit []) text null_args (ARGS_LEN - 1)).2.2

/-- The words that the chain of directives knows. -/
def directive_words : List (List Nat) :=
  [bytes_of "include", bytes_of "caseinsensitive", bytes_of "wholechars", bytes_of "context",
    bytes_of "spellcheck", bytes_of "keyword", bytes_of "file", bytes_of "define"]

/-- A rule set with an unknown directive word on its second line. -/
def bogus_rules : List Nat := bytes_of "context default\nbogus line\nkeyword a red\n"

/-- A rule set in which a `file` line stands before a line with an unknown word. -/
def file_rules : List Nat := bytes_of "context default\nfile a b\nbogus\n"

/-- A rule set with a `wholechars left` line that gives no character set. -/
def wholechars_rules : List Nat := bytes_of "context default red\nwholechars left\n"

instance (env : collaborators_t) (args_size : Nat) (x : rules_reader_t × List Nat) :
    Decidable (rejected env args_size x) :=
  inferInstanceAs (Decidable ((line_body env args_size x.1 x.2).1.result ≠ 0))

/-- The last line that `edit_read_syntax_rules` reads of `text`, with the state of the reader. -/
def last_line (env : collaborators_t) (text : List Nat) : rules_reader_t × List Nat :=
  (compile_lines env (fresh_edit []) text null_args (ARGS_LEN - 1)).getLastD
    (initial_reader (fresh_edit []) [] null_args, [])

/-- A rule set whose first context line is not `context default`. -/
def no_default_rules : List Nat := bytes_of "# comment\ncontext exclusive a b red\n"

/-- Collaborators of the include examples: the file `inc` exists. -/
def include_env : collaborators_t :=
  { example_env with
    open_include_file := fun name =>
      if name = bytes_of "inc" then some (bytes_of "keyword a red\nkeyword b\n") else none }

/-- A rule set that includes the file `inc` on its second line. -/
def include_rules : List Nat := bytes_of "context default\ninclude inc\nkeyword c\n"

/-- A rule set whose `include` line has two arguments. -/
def include_two_rules : List Nat := bytes_of "context default\ninclude inc inc\n"

/-- The reader of `include_rules` when the `include` line has been accepted. -/
def included_reader : rules_reader_t :=
  (line_body include_env (ARGS_LEN - 1)
    ((compile_lines include_env (fresh_edit []) include_rules null_args (ARGS_LEN - 1)).getD 1
      (initial_reader (fresh_edit []) [] null_args, [])).1
    (bytes_of "include inc")).1

/-- An index file with one rule set `T` that has a default context only. -/
def bare_syntax_file : List Nat := bytes_of "file .* T\ncontext default\n"

/-- An index file with one rule set `T` whose default context has no keyword and which
defines a further context. -/
def comment_syntax_file : List Nat :=
  bytes_of "file .* T\ncontext default\ncontext exclusive /\\* \\*/ red\n"

/-- The loader called for the rule set `T` of the index file `text`, on a fresh editor:
the value returned and the rule table. -/
def load_file (text : List Nat) : Option (Int × Option (List context_rule_t)) :=
  (edit_read_syntax_file example_env (fun _ _ => false) (some (fresh_edit [])) none (some text)
      none [] (some (bytes_of "T")) null_args none).map
    fun r => (r.1, r.2.1.bind fun e => e.rules)

/-- The left delimiter, the number of keyword entries and the spellcheck flag of each
context of a table. -/
def context_shapes (R : List context_rule_t) : List (List Nat × Nat × Bool) :=
  R.map fun c => (c.left, c.keyword.length, c.spelling)

/-- The document `abc  x`, with reads outside it yielding a newline. -/
def star_doc : edit_buffer_t := { bytes := bytes_of "abc  x", sentinel := 10 }

/-- The document `abc de`, with reads outside it yielding a newline. -/
def star_word_doc : edit_buffer_t := { bytes := bytes_of "abc de", sentinel := 10 }

/-- The document `a--b-b c`, with reads outside it yielding a newline. -/
def star_two_doc : edit_buffer_t := { bytes := bytes_of "a--b-bc", sentinel := 10 }

/-- The document `ab`, with reads outside it yielding a newline. -/
def bracket_doc : edit_buffer_t := { bytes := bytes_of "ab", sentinel := 10 }

/-- The document `axyxb`, with reads outside it yielding a newline. -/
def bracket_run_doc : edit_buffer_t := { bytes := bytes_of "axyxb", sentinel := 10 }

/-- Rules whose keyword line is written with a backslash and a space. -/
def backslash_space_rules : List Nat :=
  bytes_of "context default\nkeyword a\\ b red\n"

/-- Four keywords that start with `a`; all but the first match at the start of `abc`. -/
def tie_rules : List Nat :=
  bytes_of
    "context default\nkeyword ac red\nkeyword ab yellow\nkeyword a blue\nkeyword abc red\n"

/-- The document `abc`, with reads outside it yielding a newline. -/
def tie_doc : edit_buffer_t := { bytes := bytes_of "abc", sentinel := 10 }

/-- The rule table compiled from `tie_rules`. -/
def tie_table : List context_rule_t := (load_rules tie_rules (bytes_of "abc")).rules.getD []

/-- A keyword with the pattern `p` and the colour `color`, without whole-word sets and
without the line-start requirement. -/
def plain_keyword (p : List Nat) (color : Int) : syntax_keyword_t :=
  { keyword := p, whole_word_chars_left := none, whole_word_chars_right := none,
    line_start := false, color := color }

/-- The document `a /* TODO */ b`, with reads outside it yielding a newline. -/
def comment_doc : edit_buffer_t := { bytes := bytes_of "a /* TODO */ b", sentinel := 10 }

/-- The bytes `a/*`, a NUL byte, and `c*/ b`. -/
def nul_comment_bytes : List Nat := bytes_of "a/*" ++ 0 :: bytes_of "c*/ b"

/-- The document of `nul_comment_bytes`, with reads outside it yielding a newline. -/
def nul_comment_doc : edit_buffer_t := { bytes := nul_comment_bytes, sentinel := 10 }

/-- The document `/* /* */`, with reads outside it yielding a newline. -/
def nested_doc : edit_buffer_t := { bytes := bytes_of "/* /* */", sentinel := 10 }

/-- The ParseState inside context 1 whose left delimiter ended at offset 2. -/
def inside_comment : edit_syntax_rule_t :=
  { keyword := 0, end_ := 2, context := 1, _context := 1, border := 0 }

/-- The ParseState in the default context with keyword 2 active up to offset 2. -/
def keyword_active : edit_syntax_rule_t :=
  { keyword := 2, end_ := 2, context := 0, _context := 0, border := 0 }

/-- The ParseState in the default context with a left border of context 1 pending at
offset 3. -/
def border_pending : edit_syntax_rule_t :=
  { keyword := 0, end_ := 3, context := 0, _context := 1, border := RULE_ON_LEFT_BORDER }

/-- A rule text without a context: a comment, a blank line, `caseinsensitive`, a
`wholechars` line and a `define` line. -/
def no_context_rules : List Nat :=
  bytes_of "# colours\n\ncaseinsensitive\nwholechars abc\ndefine C red blue\n"

/-- A rule text whose second line, a `define` with one word, is rejected. -/
def short_define_rules : List Nat := bytes_of "# colours\ndefine C\ncaseinsensitive\n"

/-- The define of `C` as 1021 tokens `r`. -/
def long_define_table : List (List Nat × List (List Nat)) :=
  [(bytes_of "C", List.replicate 1021 (bytes_of "r"))]

/-- The line `wholechars left` behind a context line with four words, the last of which
stays at `args[3]`. -/
def wholechars_stale_rules : List Nat :=
  bytes_of "context default red blue\nwholechars left\n"

/-! ## Theorems: the matcher on literal patterns (C4, C5) -/

theorem word_loop_literal (ci : Bool) (b : edit_buffer_t) (wr : Option (List Nat)) (t0 : Nat) :
    ∀ (p : List Nat) (i : Int), literal_pattern p →
      word_loop ci b wr t0 .tokens p i =
        if read_bytes ci b p.length i = p then some (some (i + p.length)) else some none := by
  intro p
  induction p with
  | nil => intro i _; simp [word_loop, read_bytes]
  | cons t p ih =>
    intro i hp
    have ht : 5 ≤ t := hp t (List.mem_cons_self _ _)
    have hp1 : literal_pattern p := fun x hx => hp x (List.mem_cons_of_mem _ hx)
    have h1 : t ≠ SYNTAX_TOKEN_STAR := by unfold SYNTAX_TOKEN_STAR; omega
    have h2 : t ≠ SYNTAX_TOKEN_PLUS := by unfold SYNTAX_TOKEN_PLUS; omega
    have h3 : t ≠ SYNTAX_TOKEN_BRACKET := by unfold SYNTAX_TOKEN_BRACKET; omega
    have h4 : t ≠ SYNTAX_TOKEN_BRACE := by unfold SYNTAX_TOKEN_BRACE; omega
    rw [word_loop, if_neg h1, if_neg h2, if_neg h3, if_neg h4]
    by_cases hc : t = read_byte ci b i
    · rw [if_neg (not_not.mpr hc), ih (i + 1) hp1]
      have e1 : i + 1 + (p.length : Int) = i + ((t :: p).length : Int) := by
        simp only [List.length_cons]; push_cast; ring
      have e2 : (read_bytes ci b (t :: p).length i = t :: p) ↔
          (read_bytes ci b p.length (i + 1) = p) := by
        simp [read_bytes, hc]
      rw [e1]
      by_cases hm : read_bytes ci b p.length (i + 1) = p
      · rw [if_pos hm, if_pos (e2.mpr hm)]
      · rw [if_neg hm, if_neg (fun h => hm (e2.mp h))]
    · have hn : ¬ (read_bytes ci b (t :: p).length i = t :: p) := by
        simp only [read_bytes, List.length_cons, List.cons.injEq, not_and]
        intro h; exact absurd h.symm hc
      rw [if_pos hc, if_neg hn]

/-- The exact result of `compare_word_to_right` on a non-empty literal pattern. -/
theorem compare_word_to_right_literal (ci : Bool) (b : edit_buffer_t) (i : Int) (p : List Nat)
    (wl wr : Option (List Nat)) (ls : Bool) (hne : p ≠ []) (hp : literal_pattern p) :
    compare_word_to_right ci b i p wl wr ls =
      if (ls = true ∧ read_byte ci b (i - 1) ≠ 10) ∨ in_set wl (read_byte ci b (i - 1)) = true
      then some (-1)
      else if read_bytes ci b p.length i = p then
        if in_set wr (read_byte ci b (i + p.length)) = true then some (-1)
        else some (i + p.length)
      else some (-1) := by
  obtain ⟨t, q, rfl⟩ := List.exists_cons_of_ne_nil hne
  have ht : 5 ≤ t := hp t (List.mem_cons_self _ _)
  have h0 : ¬ ((t :: q).headD 0 = 0) := by simp; omega
  unfold compare_word_to_right
  rw [if_neg h0]
  simp only []
  split
  · rfl
  · rw [word_loop_literal ci b wr _ (t :: q) i hp]
    by_cases hm : read_bytes ci b (t :: q).length i = t :: q
    · rw [if_pos hm, if_pos hm]
    · rw [if_neg hm, if_neg hm]

theorem in_set_eq_set_has (set : Option (List Nat)) (c : Nat) (h : set ≠ none → c ≠ 0) :
    in_set set c = set_has set c := by
  cases set with
  | none => rfl
  | some s =>
    have hc : c ≠ 0 := h (by simp)
    simp [in_set, set_has, strchr, hc]

/-- C4, as amended: for a non-empty pattern `p` of literal bytes, read with the bytes
as the matcher reads them (lower-cased in case-insensitive mode), and when the
byte next to a given whole-word set is not NUL, `compare_word_to_right` returns the end
offset `i + |p|` if the bytes at `i` are `p`, the byte before is not in the
left set, the byte behind is not in the right set and, with `line_start`, the
byte before is a newline; in every other case it returns -1. -/
theorem literal_pattern_match (ci : Bool) (b : edit_buffer_t) (i : Int) (p : List Nat)
    (wl wr : Option (List Nat)) (ls : Bool) (hne : p ≠ []) (hp : literal_pattern p)
    (hl : wl ≠ none → read_byte ci b (i - 1) ≠ 0)
    (hr : wr ≠ none → read_byte ci b (i + p.length) ≠ 0) :
    (literal_match_at ci b i p wl wr ls →
      compare_word_to_right ci b i p wl wr ls = some (i + p.length)) ∧
    (¬ literal_match_at ci b i p wl wr ls →
      compare_word_to_right ci b i p wl wr ls = some (-1)) := by
  rw [compare_word_to_right_literal ci b i p wl wr ls hne hp,
    in_set_eq_set_has wl _ hl, in_set_eq_set_has wr _ hr]
  unfold literal_match_at
  constructor
  · rintro ⟨hm, h1, h2, h3⟩
    have hn : ¬ ((ls = true ∧ read_byte ci b (i - 1) ≠ 10) ∨
        set_has wl (read_byte ci b (i - 1)) = true) := by
      rintro (⟨ha, hb⟩ | hc)
      · exact hb (h3 ha)
      · rw [h1] at hc; exact Bool.noConfusion hc
    rw [if_neg hn, if_pos hm, h2]
    rfl
  · intro hnot
    by_cases hpre : (ls = true ∧ read_byte ci b (i - 1) ≠ 10) ∨
        set_has wl (read_byte ci b (i - 1)) = true
    · rw [if_pos hpre]
    · rw [if_neg hpre]
      by_cases hm : read_bytes ci b p.length i = p
      · rw [if_pos hm]
        by_cases hw : set_has wr (read_byte ci b (i + p.length)) = true
        · rw [if_pos hw]
        · exfalso
          apply hnot
          refine ⟨hm, ?_, ?_, ?_⟩
          · cases h : set_has wl (read_byte ci b (i - 1))
            · rfl
            · exact absurd (Or.inr h) hpre
          · cases h : set_has wr (read_byte ci b (i + p.length))
            · rfl
            · exact absurd h hw
          · intro hls
            by_contra hne10
            exact hpre (Or.inl ⟨hls, hne10⟩)
      · rw [if_neg hm]

/-- C4, witness: the pattern `if` with both sets the word characters matches at
offset 1 of ` if ` and does not match at offset 0 of `ifelse`. -/
theorem literal_pattern_match_witness :
    compare_word_to_right false { bytes := bytes_of " if ", sentinel := 10 } 1 (bytes_of "if")
        word_set word_set false = some 3 ∧
    compare_word_to_right false { bytes := bytes_of "ifelse", sentinel := 10 } 0 (bytes_of "if")
        word_set word_set false = some (-1) :=
  ⟨(literal_pattern_match false { bytes := bytes_of " if ", sentinel := 10 } 1 (bytes_of "if")
      word_set word_set false (by decide) (by decide) (by decide) (by decide)).1 (by decide),
   (literal_pattern_match false { bytes := bytes_of "ifelse", sentinel := 10 } 0 (bytes_of "if")
      word_set word_set false (by decide) (by decide) (by decide) (by decide)).2 (by decide)⟩

/-- C4, counterexample.  With a NUL byte before the word: the bytes at 1..2 are `if`,
the bytes at 0 and 3 are not word characters, and the result is -1.  In
case-insensitive mode: the bytes `IF` are not the pattern `if`, and the result
is the end offset 2. -/
theorem literal_pattern_match_fails :
    (raw_bytes nul_if_doc 2 1 = bytes_of "if" ∧
      set_has word_set (edit_buffer_get_byte nul_if_doc 0) = false ∧
      set_has word_set (edit_buffer_get_byte nul_if_doc 3) = false ∧
      compare_word_to_right false nul_if_doc 1 (bytes_of "if") word_set word_set false
        = some (-1)) ∧
    (raw_bytes { bytes := bytes_of "IF", sentinel := 10 } 2 0 ≠ bytes_of "if" ∧
      compare_word_to_right true { bytes := bytes_of "IF", sentinel := 10 } 0 (bytes_of "if")
        none none false = some 2) := by
  decide!

theorem tolower_literal (t : Nat) (h : 5 ≤ t) : 5 ≤ tolower t := by
  unfold tolower
  split <;> omega

theorem read_bytes_true (b : edit_buffer_t) :
    ∀ (n : Nat) (i : Int), read_bytes true b n i = (raw_bytes b n i).map tolower := by
  intro n
  induction n with
  | zero => intro i; rfl
  | succ n ih => intro i; simp [read_bytes, raw_bytes, ih, read_byte, xx_tolower]

/-- C5, as amended: in case-insensitive mode the matcher lower-cases the buffer
bytes only; the pattern is lower-cased by `xx_lowerize_line` when its line is read.
For every non-empty literal pattern `p`, whatever its letter case, and buffer
content at `i` equal to `p` when ASCII case is ignored, `compare_word_to_right` on the
lower-cased pattern (no boundary sets, no line start) returns `i + |p|`; on the pattern
as written, when it still holds an upper-case letter, it returns -1, whatever the
boundary sets and the line-start flag. -/
theorem lowerized_pattern_match (b : edit_buffer_t) (i : Int) (p : List Nat) (hne : p ≠ [])
    (hp : literal_pattern p)
    (heq : (raw_bytes b p.length i).map tolower = p.map tolower) :
    compare_word_to_right true b i (xx_lowerize_line true p) none none false
      = some (i + p.length) ∧
    ((∃ t ∈ p, 65 ≤ t ∧ t ≤ 90) → ∀ wl wr ls,
      compare_word_to_right true b i p wl wr ls = some (-1)) := by
  constructor
  · have hne1 : p.map tolower ≠ [] := by simpa using hne
    have hp1 : literal_pattern (p.map tolower) := by
      intro t ht
      obtain ⟨x, hx, rfl⟩ := List.mem_map.mp ht
      exact tolower_literal x (hp x hx)
    have hx : xx_lowerize_line true p = p.map tolower := rfl
    rw [hx, compare_word_to_right_literal true b i _ none none false hne1 hp1]
    simp only [in_set, List.length_map, read_bytes_true, heq]
    simp
  · rintro ⟨t, ht, h1, h2⟩ wl wr ls
    have hneq : read_bytes true b p.length i ≠ p := by
      rw [read_bytes_true]
      intro h
      rw [← h] at ht
      obtain ⟨x, _, rfl⟩ := List.mem_map.mp ht
      unfold tolower at h1 h2
      by_cases hx : 65 ≤ x ∧ x ≤ 90
      · rw [if_pos hx] at h2
        omega
      · rw [if_neg hx] at h1 h2
        exact hx ⟨h1, h2⟩
    rw [compare_word_to_right_literal true b i p wl wr ls hne hp, if_neg hneq]
    split <;> rfl

/-- C5, witness: the pattern written `bEGIN` matches the document `Begin end` at 0 once it
is lower-cased, and does not match as written. -/
theorem lowerized_pattern_match_witness :
    compare_word_to_right true { bytes := bytes_of "Begin end", sentinel := 10 } 0
      (xx_lowerize_line true (bytes_of "bEGIN")) none none false = some 5 ∧
    compare_word_to_right true { bytes := bytes_of "Begin end", sentinel := 10 } 0
      (bytes_of "bEGIN") none none false = some (-1) :=
  ⟨(lowerized_pattern_match { bytes := bytes_of "Begin end", sentinel := 10 } 0
      (bytes_of "bEGIN") (by decide) (by decide) (by decide)).1,
    (lowerized_pattern_match { bytes := bytes_of "Begin end", sentinel := 10 } 0
      (bytes_of "bEGIN") (by decide) (by decide) (by decide)).2
      ⟨69, by decide, by decide, by decide⟩ none none false⟩

/-- C5, counterexample: in case-insensitive mode the pattern `Begin`, given to
`compare_word_to_right` as written, does not match the buffer content `begin`, although the
two are equal when case is ignored. -/
theorem unfolded_pattern_fails :
    (raw_bytes { bytes := bytes_of "begin", sentinel := 10 } 5 0).map tolower
        = (bytes_of "Begin").map tolower ∧
    compare_word_to_right true { bytes := bytes_of "begin", sentinel := 10 } 0 (bytes_of "Begin")
      none none false = some (-1) := by
  decide!

/-! ## Theorems: the classifier on the example scenarios (C1, C2, C3, C6) -/

/-- C1, failing input.  Rule set `line_rules` (a context whose left delimiter is a
newline followed by `a`), document `ab`, reads outside the document yielding a
newline.  Queried after offset 1, offset 0 gets the colour of the context (1):
the backward query replays from position -1, where the left delimiter
matches.  Classified in increasing order, offset 0 gets the default colour (0). -/
theorem query_order_changes_color :
    query_colors example_env (load_rules line_rules (bytes_of "ab")) [1, 0] = some [0, 1] ∧
    query_colors example_env (load_rules line_rules (bytes_of "ab")) [0, 1] = some [0, 0] := by
  decide!

set_option maxRecDepth 100000 in
/-- C2, failing input.  Rule set `line_rules`, the 600-byte document `long_doc`.  After
the queries 1, 0, 599 the checkpoint list holds one checkpoint, at 513, whose
ParseState has context 1; the classification of 513 from the initial state
gives context 0, and after the single query 599 the checkpoint at 513 has
context 0.  Offset 599 is coloured 1 through the first checkpoint and 0 cold. -/
theorem checkpoint_differs_from_cold :
    (get_rules (load_rules line_rules long_doc) [1, 0, 599]).map
        (fun e => e.syntax_marker.map fun m => (m.offset, m.rule.context)) = some [(513, 1)] ∧
    (get_rules (load_rules line_rules long_doc) [513]).map (fun e => e.rule.context)
        = some 0 ∧
    (get_rules (load_rules line_rules long_doc) [599]).map
        (fun e => e.syntax_marker.map fun m => (m.offset, m.rule.context)) = some [(513, 0)] ∧
    query_colors example_env (load_rules line_rules long_doc) [1, 0, 599, 550, 599]
        = some [0, 1, 1, 1, 1] ∧
    query_colors example_env (load_rules line_rules long_doc) [599] = some [0] := by
  decide!

/-- C3, as amended: with the rule set `comment_rules` (default colour 0, keyword TODO
yellow = 2, exclusive context `/*` .. `*/` red = 1) the document `a /* TODO */ b`
is coloured: `a`, the blank and the delimiter `/*` (offsets 0-3) default; the
bytes between the delimiters (offsets 4-9, TODO among them) red, none yellow;
the delimiter `*/`, the blank and `b` (offsets 10-13) default. -/
theorem comment_scenario_colors :
    query_colors example_env (load_rules comment_rules (bytes_of "a /* TODO */ b"))
        [0, 1, 2, 3, 4, 5, 6, 7, 8, 9, 10, 11, 12, 13]
      = some [0, 0, 0, 0, 1, 1, 1, 1, 1, 1, 0, 0, 0, 0] := by
  decide!

/-- C3, counterexample: the first byte of the delimiter `/*` (offset 2) and the first
byte of `*/` (offset 10) get the default colour 0, not red. -/
theorem comment_delimiters_not_red :
    query_colors example_env (load_rules comment_rules (bytes_of "a /* TODO */ b")) [2, 10]
      = some [0, 0] := by
  decide!

/-- C6: compiling `caseinsensitive`, `context default`, `keyword whole begin blue` and
classifying the document `Begin end` (reads outside the document yield a
newline) gives the keyword's colour (3) to the offsets 0-4 and the default
colour (0) to the offsets 5-8. -/
theorem begin_scenario_colors :
    load_result begin_rules = 0 ∧
    query_colors example_env (load_rules begin_rules (bytes_of "Begin end"))
        [0, 1, 2, 3, 4, 5, 6, 7, 8]
      = some [3, 3, 3, 3, 3, 0, 0, 0, 0] := by
  decide!

/-! ## Theorems: the first-chars index on examples (C7, C8) -/

/-- The keyword loop goes on at the byte at which `xx_strchr` stops: it steps over
exactly the bytes that `xx_strchr` steps over. -/
theorem keyword_loop_xx_strchr (ci : Bool) (b : edit_buffer_t)
    (keywords : List syntax_keyword_t) (i : Int) (c : Nat) :
    ∀ (p : List Nat) (count : Nat),
      keyword_loop ci b keywords i c count p =
        keyword_loop ci b keywords i c (count + (p.length - (xx_strchr ci p c).length))
          (xx_strchr ci p c) := by
  intro p
  induction p with
  | nil => intro count; rfl
  | cons x s ih =>
    intro count
    by_cases hx : 5 ≤ x ∧ xx_tolower ci x ≠ c
    · have hlen : (xx_strchr ci s c).length ≤ s.length := by
        clear ih
        induction s with
        | nil => simp [xx_strchr]
        | cons y t iht =>
          unfold xx_strchr
          split
          · exact Nat.le_succ_of_le iht
          · exact Nat.le_refl _
      rw [keyword_loop, if_pos hx, xx_strchr, if_pos hx, ih (count + 1)]
      congr 1
      simp only [List.length_cons]
      omega
    · rw [xx_strchr, if_neg hx]
      simp

/-- C7, counterexample: `late_fold_rules` compiles (result 0) to a case-insensitive rule
set whose keyword 1 has the pattern `Ab`; the index holds `A` (65) at position
1, which is not lower-cased. -/
theorem first_chars_not_folded :
    load_result late_fold_rules = 0 ∧
    (load_rules late_fold_rules []).is_case_insensitive = true ∧
    (load_rules late_fold_rules []).rules.map
        (fun r => r.map fun c => (c.keyword.map fun k => k.keyword, c.keyword_first_chars))
      = some [([bytes_of " ", bytes_of "Ab"], some [1, 65])] ∧
    xx_tolower true 65 = 97 := by
  decide!

/-- C8, failing input: `empty_keyword_rules` compiles (result 0) to a default context with
the keywords ` ` (index 0), the empty pattern (index 1) and `ab` (index 2);
its index is the single byte 1.  At offset 0 of the document `ab` the pattern
`ab` matches (end offset 2) and no earlier keyword does, but the step leaves
keyword 0 active: keyword 2 is not tried. -/
theorem keyword_behind_empty_pattern_not_tried :
    load_result empty_keyword_rules = 0 ∧
    (load_rules empty_keyword_rules (bytes_of "ab")).rules.map
        (fun r => r.map fun c => (c.keyword.map fun k => k.keyword, c.keyword_first_chars))
      = some [([bytes_of " ", [], bytes_of "ab"], some [1])] ∧
    compare_word_to_right false { bytes := bytes_of "ab", sentinel := 10 } 0 (bytes_of "ab")
        none none false = some 2 ∧
    compare_word_to_right false { bytes := bytes_of "ab", sentinel := 10 } 0 []
        none none false = some (-1) ∧
    (get_rules (load_rules empty_keyword_rules (bytes_of "ab")) [0]).map
        (fun e => e.rule.keyword) = some 0 := by
  decide!

/-! ## Theorems: leaving an exclusive context (C9) -/

/-- What "check to turn on a keyword" leaves as it is. -/
theorem turn_on_keyword_frame (ci : Bool) (b : edit_buffer_t) (rules : List context_rule_t)
    (i : Int) (c : Nat) (l l1 : step_locals) (h : turn_on_keyword ci b rules i c l = some l1) :
    l1._rule.context = l._rule.context ∧ l1._rule.border = l._rule.border ∧
    l1._rule._context = l._rule._context ∧ l1.found_right = l.found_right ∧
    l1.found_left = l.found_left ∧ l1.contextchanged = l.contextchanged := by
  unfold turn_on_keyword at h
  split at h
  · split at h
    · exact Option.noConfusion h
    · split at h
      · cases h; simp
      · exact Option.noConfusion h
      · split at h
        · exact Option.noConfusion h
        · cases h; simp
        · split at h
          · exact Option.noConfusion h
          · cases h; simp
  · cases h; simp

/-- C9, as amended: there is no return to an earlier context.  In the step in which
the right delimiter of the active exclusive context is matched (no keyword
active, not on the right border, no entry pending at this offset, the keyword
scan of the default context returning), the active context becomes 0, the
default context, whatever context was active before; `_context`, the context
whose left delimiter matched last, is left as it is. -/
theorem exclusive_exit_to_default (ci : Bool) (b : edit_buffer_t) (rules : List context_rule_t)
    (rule : edit_syntax_rule_t) (i : Int) (r : context_rule_t) (e : Int)
    (hctx : rule.context ≠ 0) (hkw : rule.keyword = 0)
    (hr : rules.get? rule.context = some r) (hex : r.between_delimiters = true)
    (hc : read_byte ci b i ≠ 0) (hfirst : r.first_right = read_byte ci b i)
    (hborder : rule.border &&& RULE_ON_RIGHT_BORDER = 0)
    (hmatch : compare_word_to_right ci b i r.right r.whole_word_chars_left
      r.whole_word_chars_right r.line_start_right = some e)
    (he : e > 0)
    (hpend : ¬ (rule.end_ = i ∧ rule.border &&& RULE_ON_LEFT_BORDER ≠ 0))
    (hscan : ∀ l : step_locals, l._rule.context = 0 → l._rule._context = rule._context →
      turn_on_keyword ci b rules i (read_byte ci b i) l ≠ none) :
    ∃ rule1, apply_rules_going_right ci b rules rule i = some rule1 ∧ rule1.context = 0 ∧
      rule1.border = RULE_ON_RIGHT_BORDER ∧ rule1._context = rule._context := by
  unfold apply_rules_going_right
  simp only [if_neg hc]
  have h1 : turn_off_keyword b i (decide (rule.end_ = i))
      { _rule := rule, contextchanged := false, found_left := false, found_right := false,
        keyword_foundleft := false, keyword_foundright := false, end_ := 0 } =
      { _rule := rule, contextchanged := false, found_left := false, found_right := false,
        keyword_foundleft := false, keyword_foundright := false, end_ := 0 } := by
    unfold turn_off_keyword
    simp [hkw]
  rw [h1]
  have h2 : turn_off_context ci b rules rule i (read_byte ci b i) (decide (rule.end_ = i))
      { _rule := rule, contextchanged := false, found_left := false, found_right := false,
        keyword_foundleft := false, keyword_foundright := false, end_ := 0 } =
      some { _rule := { rule with end_ := e, border := RULE_ON_RIGHT_BORDER, context := 0 },
             contextchanged := false, found_left := false, found_right := true,
             keyword_foundleft := false, keyword_foundright := false, end_ := 0 } := by
    have hr1 : rules[rule.context]? = some r := by simpa using hr
    unfold turn_off_context
    simp [hctx, hkw, hr1, hfirst, hborder, hmatch, he, hex]
  rw [h2]
  simp only [Option.bind]
  have h3 := hscan
    ({ _rule := { rule with end_ := e, border := RULE_ON_RIGHT_BORDER, context := 0 },
       contextchanged := false, found_left := false, found_right := true,
       keyword_foundleft := false, keyword_foundright := false, end_ := 0 } : step_locals)
    rfl rfl
  obtain ⟨l3, hl3⟩ := Option.ne_none_iff_exists'.mp h3
  rw [hl3]
  obtain ⟨f1, f2, f3, f4, f5, f6⟩ := turn_on_keyword_frame ci b rules i _ _ _ hl3
  simp only at f1 f2 f3 f4 f5 f6
  have h4 : turn_on_context ci b rules rule i (read_byte ci b i) (decide (rule.end_ = i)) l3
      = some l3 := by
    by_cases hend : rule.end_ = i
    · have hb1 : ¬ (rule.border &&& RULE_ON_LEFT_BORDER ≠ 0) := fun hx => hpend ⟨hend, hx⟩
      simp only [ne_eq, not_not] at hb1
      simp [turn_on_context, finish_border, f1, f4, f5, hend, hborder, hb1]
    · simp [turn_on_context, f1, f4, f5, hend]
  simp only [h4]
  have h5 : turn_on_keyword_again ci b rules i (read_byte ci b i) l3 = some l3 := by
    unfold turn_on_keyword_again
    simp [f6]
  simp only [h5]
  exact ⟨l3._rule, rfl, f1, f2, f3⟩

/-- C9, witness: in the document `/*c*/ x` the right delimiter `*/` is matched at
offset 3 and the context 1 of `comment_table` is left for context 0. -/
theorem exclusive_exit_to_default_witness :
    ∃ rule1, apply_rules_going_right false { bytes := bytes_of "/*c*/ x", sentinel := 10 }
        comment_table in_comment 3 = some rule1 ∧ rule1.context = 0 ∧
      rule1.border = RULE_ON_RIGHT_BORDER ∧ rule1._context = in_comment._context :=
  exclusive_exit_to_default false { bytes := bytes_of "/*c*/ x", sentinel := 10 } comment_table
    in_comment 3 (comment_table.get ⟨1, by decide⟩) 5 (by decide) rfl rfl rfl (by decide)
    (by decide) (by decide) (by decide) (by decide) (by decide)
    (by
      intro l h1 _
      unfold turn_on_keyword
      rw [h1]
      split
      · simp [comment_table, keyword_loop]
      · simp)

/-- C9, counterexample.  Rule set `two_exclusive_rules` (exclusive contexts 1 = `/*` .. `*/`
and 2 = `"` .. `"`), document `/*"*/ foo " bar`.  The step at offset 2 makes
context 1 active and matches the left delimiter of context 2 (border left,
`_context` 2, end 3); at offset 3 context 2 becomes active; its right delimiter
is matched at offset 10, and the active context is then 0, not 1. -/
theorem exit_does_not_restore_context :
    contexts_in_order (load_rules two_exclusive_rules (bytes_of "/*\"*/ foo \" bar")) 12 0
      = some [0, 0, 1, 2, 2, 2, 2, 2, 2, 2, 0, 0] ∧
    (get_rules (load_rules two_exclusive_rules (bytes_of "/*\"*/ foo \" bar")) [2]).map
        (fun e => e.rule)
      = some { keyword := 0, end_ := 3, context := 1, _context := 2, border := 1 } := by
  decide!

/-! ## Theorems: properties of the rule table that the reading loop hands on -/

theorem break_a_ok (Q : Bool → Bool → List context_rule_t → Prop) (st : rules_reader_t)
    (h : 1 ≤ st.line) :
    flow_ok Q (break_a st) := by
  constructor
  · intro h1; exact flow_t.noConfusion h1
  · intro h0
    simp only [break_a] at h0
    omega

theorem line_body_inv (env : collaborators_t) (args_size : Nat)
    (Q : Bool → Bool → List context_rule_t → Prop)
    (hdir : ∀ st argc, 1 ≤ st.line → st.result = 0 → Q st.no_words st.c st.rules →
      flow_ok Q (directive env st argc))
    (st : rules_reader_t) (l : List Nat) (h1 : 1 ≤ st.line)
    (h0 : st.result = 0) (hQ : Q st.no_words st.c st.rules) :
    flow_ok Q (line_body env args_size st l) := by
  unfold line_body
  exact hdir _ _ h1 h0 hQ

theorem included_loop_inv (env : collaborators_t) (args_size : Nat)
    (Q : Bool → Bool → List context_rule_t → Prop)
    (hdir : ∀ st argc, 1 ≤ st.line → st.result = 0 → Q st.no_words st.c st.rules →
      flow_ok Q (directive env st argc)) :
    ∀ (k : Nat) (st : rules_reader_t), st.result = 0 → Q st.no_words st.c st.rules →
      flow_ok Q (included_loop env args_size k st) := by
  intro k
  induction k with
  | zero => intro st h0 hQ; exact ⟨fun _ => h0, fun _ => hQ⟩
  | succ k ih =>
    intro st h0 hQ
    rw [included_loop]
    simp only
    split
    · exact ⟨fun _ => h0, fun _ => hQ⟩
    · have hb := line_body_inv env args_size Q hdir
        { st with line := st.line + 1, f := (read_one_line st.f).2.2 } (read_one_line st.f).2.1
        (by simp) h0 hQ
      split
      · next st2 heq => rw [heq] at hb; exact hb
      · next st2 heq =>
        rw [heq] at hb
        exact ih st2 (hb.1 rfl) (hb.2 (hb.1 rfl))

theorem resume_parent_inv (env : collaborators_t) (args_size : Nat)
    (Q : Bool → Bool → List context_rule_t → Prop)
    (hdir : ∀ st argc, 1 ≤ st.line → st.result = 0 → Q st.no_words st.c st.rules →
      flow_ok Q (directive env st argc))
    (st : rules_reader_t) (h0 : st.result = 0) (hQ : Q st.no_words st.c st.rules) :
    flow_ok Q (resume_parent env args_size st) := by
  unfold resume_parent
  split
  · exact ⟨fun _ => h0, fun _ => hQ⟩
  · simp only
    split
    · exact ⟨fun _ => h0, fun _ => hQ⟩
    · exact line_body_inv env args_size Q hdir _ _ (by simp) h0 hQ

theorem rules_loop_inv (env : collaborators_t) (args_size : Nat)
    (Q : Bool → Bool → List context_rule_t → Prop)
    (hdir : ∀ st argc, 1 ≤ st.line → st.result = 0 → Q st.no_words st.c st.rules →
      flow_ok Q (directive env st argc)) :
    ∀ (k : Nat) (st : rules_reader_t), st.result = 0 → Q st.no_words st.c st.rules →
      (rules_loop env args_size k st).result = 0 →
        Q (rules_loop env args_size k st).no_words (rules_loop env args_size k st).c
          (rules_loop env args_size k st).rules := by
  intro k
  induction k with
  | zero => intro st _ hQ _; exact hQ
  | succ k ih =>
    intro st h0 hQ
    rw [rules_loop]
    split
    · have hi := included_loop_inv env args_size Q hdir (st.f.length + 1) st h0 hQ
      split
      · next st1 heq => rw [heq] at hi; exact hi.2
      · next st1 heq =>
        rw [heq] at hi
        have hr := resume_parent_inv env args_size Q hdir st1 (hi.1 rfl) (hi.2 (hi.1 rfl))
        split
        · next st2 heq2 => rw [heq2] at hr; exact hr.2
        · next st2 heq2 =>
          rw [heq2] at hr
          exact ih st2 (hr.1 rfl) (hr.2 (hr.1 rfl))
    · simp only
      split
      · intro _; exact hQ
      · have hb := line_body_inv env args_size Q hdir
          { st with line := st.line + 1, f := (read_one_line st.f).2.2 } (read_one_line st.f).2.1
          (by simp) h0 hQ
        split
        · next st2 heq => rw [heq] at hb; exact hb.2
        · next st2 heq =>
          rw [heq] at hb
          exact ih st2 (hb.1 rfl) (hb.2 (hb.1 rfl))

theorem set_last_concat (rules : List context_rule_t) (x y : context_rule_t) :
    set_last (rules ++ [x]) y = rules ++ [y] := by
  simp [set_last]

theorem context_colors_ok (Q : Bool → Bool → List context_rule_t → Prop)
    (env : collaborators_t)
    (st : rules_reader_t) (c : context_rule_t) (a : Nat) (h1 : 1 ≤ st.line)
    (h0 : st.result = 0)
    (hQ : ∀ k : syntax_keyword_t, Q false st.c (set_last st.rules { c with keyword := [k] })) :
    flow_ok Q (context_colors env st c a) := by
  unfold context_colors
  simp only
  split
  · exact break_a_ok Q _ h1
  · exact ⟨fun _ => h0, fun _ => hQ _⟩

theorem context_directive_ok (Q : Bool → Bool → List context_rule_t → Prop)
    (env : collaborators_t)
    (st : rules_reader_t) (h1 : 1 ≤ st.line) (h0 : st.result = 0)
    (hadd : ∀ (c : context_rule_t) (k : syntax_keyword_t), c.keyword = [k] →
      Q false true (st.rules ++ [c])) :
    flow_ok Q (context_directive env st) := by
  unfold context_directive
  repeat' first
    | exact break_a_ok Q _ h1
    | (refine context_colors_ok Q env _ _ _ h1 h0 ?_
       intro k
       simp only [set_last_concat]
       exact hadd _ k rfl)
    | split
    | dsimp only

theorem keyword_directive_ok (Q : Bool → Bool → List context_rule_t → Prop)
    (env : collaborators_t) (st : rules_reader_t) (h1 : 1 ≤ st.line) (h0 : st.result = 0)
    (hkw : st.no_words = false → ∀ k : syntax_keyword_t,
      Q st.no_words st.c (set_last st.rules (add_keyword (st.rules.getLastD new_context) k))) :
    flow_ok Q (keyword_directive env st) := by
  unfold keyword_directive
  split
  · exact break_a_ok Q _ h1
  · next hnw =>
    have hnw1 : st.no_words = false := by simpa using hnw
    repeat' first
      | exact break_a_ok Q _ h1
      | exact ⟨fun _ => h0, fun _ => hkw hnw1 _⟩
      | split
      | dsimp only

theorem wholechars_directive_ok (Q : Bool → Bool → List context_rule_t → Prop)
    (st : rules_reader_t) (h1 : 1 ≤ st.line) (h0 : st.result = 0)
    (hQ : Q st.no_words st.c st.rules) :
    flow_ok Q (wholechars_directive st) := by
  unfold wholechars_directive
  repeat' first
    | exact break_a_ok Q _ h1
    | exact ⟨fun _ => h0, fun _ => hQ⟩
    | split

theorem directive_ok (Q : Bool → Bool → List context_rule_t → Prop) (env : collaborators_t)
    (st : rules_reader_t) (argc : Nat) (h1 : 1 ≤ st.line) (h0 : st.result = 0)
    (hQ : Q st.no_words st.c st.rules)
    (hadd : ∀ (c : context_rule_t) (k : syntax_keyword_t), c.keyword = [k] →
      Q false true (st.rules ++ [c]))
    (hkw : st.no_words = false → ∀ k : syntax_keyword_t,
      Q st.no_words st.c (set_last st.rules (add_keyword (st.rules.getLastD new_context) k)))
    (hsp : st.c = true →
      Q st.no_words st.c
        (set_last st.rules { st.rules.getLastD new_context with spelling := true })) :
    flow_ok Q (directive env st argc) := by
  unfold directive
  split
  · exact ⟨fun _ => h0, fun _ => hQ⟩
  · split
    · unfold include_directive
      split
      · exact break_a_ok Q _ h1
      · split
        · exact break_a_ok Q _ h1
        · exact ⟨fun _ => h0, fun _ => hQ⟩
    · split
      · exact ⟨fun _ => h0, fun _ => hQ⟩
      · split
        · exact wholechars_directive_ok Q st h1 h0 hQ
        · split
          · exact context_directive_ok Q env st h1 h0 hadd
          · split
            · split
              · exact break_a_ok Q _ h1
              · next hc => exact ⟨fun _ => h0, fun _ => hsp (by simpa using hc)⟩
            · split
              · exact keyword_directive_ok Q env st h1 h0 hkw
              · split
                · exact ⟨fun _ => h0, fun _ => hQ⟩
                · split
                  · exact ⟨fun _ => h0, fun _ => hQ⟩
                  · split
                    · unfold define_directive
                      split
                      · exact break_a_ok Q _ h1
                      · exact ⟨fun _ => h0, fun _ => hQ⟩
                    · exact break_a_ok Q _ h1

/-! ## Theorems: the first-chars index of a compiled table (C7) -/

theorem mem_set_last (rules : List context_rule_t) (x y : context_rule_t)
    (h : x ∈ set_last rules y) : x ∈ rules ∨ x = y := by
  unfold set_last at h
  rcases List.mem_append.mp h with h1 | h1
  · exact Or.inl (List.dropLast_subset rules h1)
  · exact Or.inr (by simpa using h1)

theorem set_last_ne_nil (rules : List context_rule_t) (y : context_rule_t) :
    set_last rules y ≠ [] := by
  simp [set_last]

theorem getLastD_mem (rules : List context_rule_t) (d : context_rule_t) (h : rules ≠ []) :
    rules.getLastD d ∈ rules := by
  cases rules with
  | nil => exact absurd rfl h
  | cons a l =>
    rw [List.getLastD_cons]
    exact List.getLastD_mem_cons l a

theorem directive_keywords_present (env : collaborators_t) (st : rules_reader_t) (argc : Nat)
    (h1 : 1 ≤ st.line) (h0 : st.result = 0) (hQ : keywords_present st.no_words st.c st.rules) :
    flow_ok keywords_present (directive env st argc) := by
  refine directive_ok keywords_present env st argc h1 h0 hQ ?_ ?_ ?_
  · intro c k hc
    refine ⟨fun _ => by simp, ?_⟩
    intro x hx
    rcases List.mem_append.mp hx with hx1 | hx1
    · exact hQ.2 x hx1
    · have : x = c := by simpa using hx1
      rw [this, hc]; simp
  · intro _ k
    refine ⟨fun _ => set_last_ne_nil _ _, ?_⟩
    intro x hx
    rcases mem_set_last _ _ _ hx with hx1 | hx1
    · exact hQ.2 x hx1
    · rw [hx1]; simp [add_keyword]
  · intro hc
    refine ⟨fun _ => set_last_ne_nil _ _, ?_⟩
    intro x hx
    rcases mem_set_last _ _ _ hx with hx1 | hx1
    · exact hQ.2 x hx1
    · rw [hx1]
      exact hQ.2 (st.rules.getLastD new_context) (getLastD_mem _ _ (hQ.1 hc))

/-- What `edit_read_syntax_rules` returns when it returns 0: the contexts that the loop
left, each with its first-chars index. -/
theorem compiled_table (env : collaborators_t) (edit : WEdit) (f : List Nat)
    (args : List (Option (List Nat))) (args_size : Nat)
    (h0 : (edit_read_syntax_rules env edit f args args_size).1 = 0)
    (R : List context_rule_t)
    (hR : (edit_read_syntax_rules env edit f args args_size).2.1.rules = some R) :
    (rules_loop env args_size (f.length + 1) (initial_reader edit f args)).result = 0 ∧
    (rules_loop env args_size (f.length + 1) (initial_reader edit f args)).rules ≠ [] ∧
    R = (rules_loop env args_size (f.length + 1) (initial_reader edit f args)).rules.map
      collect_first_chars := by
  unfold edit_read_syntax_rules at h0 hR
  simp only at h0 hR
  split at hR
  · simp at hR
  · split at hR
    · next hlen hres =>
      simp only [Option.some.injEq] at hR
      exact ⟨hres, fun h => hlen (by rw [h]; rfl), hR.symm⟩
    · next hlen hres =>
      rw [if_neg hlen, if_neg hres] at h0
      exact absurd h0 hres

/-- C7, as amended: after a successful compile (`edit_read_syntax_rules` returns 0), for every
context all of whose keywords from index 1 on have a non-empty pattern, the
first-chars index has exactly one byte per keyword: the byte at position 0 is
the sentinel 0x01 and the byte at every position `j >= 1` is the first byte
of keyword `j`'s compiled pattern, as it is stored (it is not lower-cased
here; `xx_strchr` folds it when the index is scanned). -/
theorem first_chars_index (env : collaborators_t) (edit : WEdit) (f : List Nat)
    (args : List (Option (List Nat))) (args_size : Nat)
    (h0 : (edit_read_syntax_rules env edit f args args_size).1 = 0)
    (R : List context_rule_t)
    (hR : (edit_read_syntax_rules env edit f args args_size).2.1.rules = some R)
    (c : context_rule_t) (hc : c ∈ R)
    (hne : ∀ k ∈ c.keyword.drop 1, k.keyword.headD 0 ≠ 0) :
    ∃ fc, c.keyword_first_chars = some fc ∧ fc.length = c.keyword.length ∧
      fc.get? 0 = some 1 ∧
      ∀ j, 1 ≤ j → j < c.keyword.length →
        fc.get? j = (c.keyword.get? j).map fun k => k.keyword.headD 0 := by
  obtain ⟨hres, _, hmap⟩ := compiled_table env edit f args args_size h0 R hR
  have hinv := rules_loop_inv env args_size keywords_present
    (directive_keywords_present env) (f.length + 1) (initial_reader edit f args) rfl
    ⟨fun h => Bool.noConfusion h, fun x hx => by simp [initial_reader] at hx⟩ hres
  rw [hmap] at hc
  obtain ⟨c0, hc0, rfl⟩ := List.mem_map.mp hc
  have hk : c0.keyword ≠ [] := hinv.2 c0 hc0
  have hkw : (collect_first_chars c0).keyword = c0.keyword := rfl
  rw [hkw] at hne ⊢
  have hstr : c_str (1 :: (c0.keyword.drop 1).map fun k => k.keyword.headD 0)
      = 1 :: (c0.keyword.drop 1).map fun k => k.keyword.headD 0 := by
    unfold c_str
    rw [List.takeWhile_eq_self_iff]
    intro x hx
    rcases List.mem_cons.mp hx with h | h
    · simp [h]
    · obtain ⟨k, hk1, rfl⟩ := List.mem_map.mp h
      simpa using hne k hk1
  refine ⟨1 :: (c0.keyword.drop 1).map fun k => k.keyword.headD 0, ?_, ?_, rfl, ?_⟩
  · simp only [collect_first_chars, hstr]
  · obtain ⟨k0, ks, hks⟩ := List.exists_cons_of_ne_nil hk
    simp [hks]
  · intro j hj1 hj2
    obtain ⟨j1, rfl⟩ : ∃ j1, j = j1 + 1 := ⟨j - 1, by omega⟩
    obtain ⟨k0, ks, hks⟩ := List.exists_cons_of_ne_nil hk
    simp [hks]

/-- C7, witness: the default context of the table compiled from `begin_rules`. -/
theorem first_chars_index_witness :
    ∃ fc, (((load_rules begin_rules []).rules.getD []).headD new_context).keyword_first_chars
        = some fc ∧
      fc.length = (((load_rules begin_rules []).rules.getD []).headD new_context).keyword.length ∧
      fc.get? 0 = some 1 ∧
      ∀ j, 1 ≤ j →
        j < (((load_rules begin_rules []).rules.getD []).headD new_context).keyword.length →
        fc.get? j =
          ((((load_rules begin_rules []).rules.getD []).headD new_context).keyword.get? j).map
            fun k => k.keyword.headD 0 :=
  first_chars_index example_env (fresh_edit []) begin_rules null_args (ARGS_LEN - 1)
    (by decide!) ((load_rules begin_rules []).rules.getD []) (by decide!)
    (((load_rules begin_rules []).rules.getD []).headD new_context) (by decide!) (by decide!)

/-! ## Theorems: the colour of the default context (C10) -/

theorem head_color_set_last (X : Int) (rules : List context_rule_t) (y : context_rule_t)
    (a b : Bool) (h : head_color X a b rules)
    (hy : ∀ k0 ks, (rules.getLastD new_context).keyword = k0 :: ks →
      ∃ ks1, y.keyword = k0 :: ks1) :
    head_color X a b (set_last rules y) := by
  obtain ⟨c0, rest, k0, ks, hr, hk, hX⟩ := h
  subst hr
  cases rest with
  | nil =>
    obtain ⟨ks1, hks1⟩ := hy k0 ks (by simpa using hk)
    exact ⟨y, [], k0, ks1, by simp [set_last], hks1, hX⟩
  | cons r1 rs =>
    exact ⟨c0, (r1 :: rs).dropLast ++ [y], k0, ks, by simp [set_last], hk, hX⟩

theorem directive_head_color (X : Int) (env : collaborators_t) (st : rules_reader_t)
    (argc : Nat) (h1 : 1 ≤ st.line) (h0 : st.result = 0)
    (hQ : head_color X st.no_words st.c st.rules) :
    flow_ok (head_color X) (directive env st argc) := by
  refine directive_ok (head_color X) env st argc h1 h0 hQ ?_ ?_ ?_
  · intro c k _
    obtain ⟨c0, rest, k0, ks, hr, hk, hX⟩ := hQ
    exact ⟨c0, rest ++ [c], k0, ks, by simp [hr], hk, hX⟩
  · intro _ k
    refine head_color_set_last X _ _ _ _ hQ ?_
    intro k0 ks hk
    exact ⟨ks ++ [k], by simp only [add_keyword, hk, List.cons_append]⟩
  · intro _
    refine head_color_set_last X _ _ _ _ hQ ?_
    intro k0 ks hk
    exact ⟨ks, hk⟩

theorem break_a_empty_or_default (env : collaborators_t) (st st1 : rules_reader_t)
    (h : 1 ≤ st1.line) : empty_or_default env st (break_a st1) := by
  constructor
  · intro h1; exact flow_t.noConfusion h1
  · intro h0
    simp only [break_a] at h0
    omega

theorem keep_empty_or_default (env : collaborators_t) (st st1 : rules_reader_t) (fl : flow_t)
    (h0 : st.result = 0) (hE : reader_empty st) (hr : st1.result = st.result)
    (h1 : st1.rules = st.rules) (h2 : st1.no_words = st.no_words) (h3 : st1.c = st.c) :
    empty_or_default env st (st1, fl) := by
  refine ⟨fun _ => by simp only; rw [hr, h0], fun _ => Or.inl ?_⟩
  unfold reader_empty at hE ⊢
  simp only
  rw [h1, h2, h3]
  exact hE

theorem context_directive_empty (env : collaborators_t) (st : rules_reader_t)
    (h1 : 1 ≤ st.line) (h0 : st.result = 0) (hE : reader_empty st)
    (hctx : arg st.args 0 = some (bytes_of "context")) :
    empty_or_default env st (context_directive env st) := by
  have hlen : st.rules.length = 0 := by rw [hE.1]; rfl
  unfold context_directive
  split
  · exact break_a_empty_or_default env st _ h1
  · split
    · exact break_a_empty_or_default env st _ h1
    · next hd =>
      have hd1 : arg st.args 1 = some (bytes_of "default") := by simpa using hd
      unfold context_colors
      dsimp only
      split
      · exact break_a_empty_or_default env st _ h1
      · refine ⟨fun _ => h0, fun _ => Or.inr ⟨⟨hE.1, ?_, hd1⟩, ?_⟩⟩
        · exact hctx
        · simp only [set_last_concat, hE.1, List.nil_append]
          exact ⟨_, [], _, [], rfl, rfl, rfl⟩

theorem directive_empty (env : collaborators_t) (st : rules_reader_t) (argc : Nat)
    (h1 : 1 ≤ st.line) (h0 : st.result = 0) (hE : reader_empty st) :
    empty_or_default env st (directive env st argc) := by
  unfold directive
  split
  · exact keep_empty_or_default env st st _ h0 hE rfl rfl rfl rfl
  · next w hw =>
    split
    · unfold include_directive
      split
      · exact break_a_empty_or_default env st _ h1
      · split
        · exact break_a_empty_or_default env st _ h1
        · exact keep_empty_or_default env st _ _ h0 hE rfl rfl rfl rfl
    · split
      · exact keep_empty_or_default env st _ _ h0 hE rfl rfl rfl rfl
      · split
        · have hw := wholechars_directive_ok
            (fun nw c rules => rules = [] ∧ nw = true ∧ c = false) st h1 h0 hE
          exact ⟨hw.1, fun h => Or.inl (hw.2 h)⟩
        · split
          · next hc =>
            exact context_directive_empty env st h1 h0 hE (by rw [hw, hc])
          · split
            · split
              · exact break_a_empty_or_default env st _ h1
              · next hc => exact absurd hE.2.2 hc
            · split
              · unfold keyword_directive
                rw [if_pos hE.2.1]
                exact break_a_empty_or_default env st _ h1
              · split
                · exact keep_empty_or_default env st st _ h0 hE rfl rfl rfl rfl
                · split
                  · exact keep_empty_or_default env st st _ h0 hE rfl rfl rfl rfl
                  · split
                    · unfold define_directive
                      split
                      · exact break_a_empty_or_default env st _ h1
                      · exact keep_empty_or_default env st _ _ h0 hE rfl rfl rfl rfl
                    · exact break_a_empty_or_default env st _ h1

theorem line_body_empty (env : collaborators_t) (args_size : Nat) (st : rules_reader_t)
    (l : List Nat) (h1 : 1 ≤ st.line) (h0 : st.result = 0) (hE : reader_empty st) :
    ((line_body env args_size st l).2 = .next → (line_body env args_size st l).1.result = 0) ∧
    ((line_body env args_size st l).1.result = 0 →
      reader_empty (line_body env args_size st l).1 ∨
      (is_default_line args_size st l ∧
        head_color (default_line_color env args_size st l) false true
          (line_body env args_size st l).1.rules)) := by
  have hd := directive_empty env
    { st with args := (get_args (xx_lowerize_line st.is_case_insensitive (c_str l)) st.args
        args_size).2 }
    (get_args (xx_lowerize_line st.is_case_insensitive (c_str l)) st.args args_size).1
    h1 h0 hE
  exact hd

theorem head_color_flags (X : Int) (a b c d : Bool) (rules : List context_rule_t)
    (h : head_color X a b rules) : head_color X c d rules := h

theorem default_found_mono (env : collaborators_t) (args_size : Nat)
    (T1 T2 : List (rules_reader_t × List Nat)) (rules : List context_rule_t)
    (hsub : ∀ x ∈ T1, x ∈ T2) (h : default_found env args_size T1 rules) :
    default_found env args_size T2 rules := by
  obtain ⟨s, l, hm, hd, hc⟩ := h
  exact ⟨s, l, hsub _ hm, hd, hc⟩

theorem included_loop_empty (env : collaborators_t) (args_size : Nat) :
    ∀ (k : Nat) (st : rules_reader_t), st.result = 0 → reader_empty st →
      ((included_loop env args_size k st).2 = .next →
        (included_loop env args_size k st).1.result = 0) ∧
      ((included_loop env args_size k st).1.result = 0 →
        reader_empty (included_loop env args_size k st).1 ∨
        default_found env args_size (included_lines env args_size k st)
          (included_loop env args_size k st).1.rules) := by
  intro k
  induction k with
  | zero => intro st h0 hE; exact ⟨fun _ => h0, fun _ => Or.inl hE⟩
  | succ k ih =>
    intro st h0 hE
    rw [included_loop, included_lines]
    dsimp only
    split
    · exact ⟨fun _ => h0, fun _ => Or.inl hE⟩
    · have hb := line_body_empty env args_size
        { st with line := st.line + 1, f := (read_one_line st.f).2.2 } (read_one_line st.f).2.1
        (by simp) h0 hE
      split
      · next st2 heq =>
        rw [heq] at hb
        refine ⟨fun h => flow_t.noConfusion h, fun hr => ?_⟩
        rcases hb.2 hr with h | ⟨hd, hc⟩
        · exact Or.inl h
        · exact Or.inr ⟨_, _, List.mem_cons_self _ _, hd, hc⟩
      · next st2 heq =>
        rw [heq] at hb
        have hr2 : st2.result = 0 := hb.1 rfl
        rcases hb.2 hr2 with h | ⟨hd, hc⟩
        · obtain ⟨i1, i2⟩ := ih st2 hr2 h
          refine ⟨i1, fun hr => ?_⟩
          rcases i2 hr with h3 | h3
          · exact Or.inl h3
          · exact Or.inr (default_found_mono env args_size _ _ _
              (fun x hx => List.mem_cons_of_mem _ hx) h3)
        · have hf := included_loop_inv env args_size (head_color _)
            (directive_head_color _ env) k st2 hr2 (head_color_flags _ _ _ _ _ _ hc)
          exact ⟨hf.1, fun hr => Or.inr ⟨_, _, List.mem_cons_self _ _, hd,
            head_color_flags _ _ _ _ _ _ (hf.2 hr)⟩⟩

theorem resume_parent_empty (env : collaborators_t) (args_size : Nat) (st : rules_reader_t)
    (h0 : st.result = 0) (hE : reader_empty st) :
    ((resume_parent env args_size st).2 = .next →
      (resume_parent env args_size st).1.result = 0) ∧
    ((resume_parent env args_size st).1.result = 0 →
      reader_empty (resume_parent env args_size st).1 ∨
      default_found env args_size (resume_lines st) (resume_parent env args_size st).1.rules) := by
  unfold resume_parent resume_lines
  split
  · exact ⟨fun _ => h0, fun _ => Or.inl hE⟩
  · dsimp only
    split
    · exact ⟨fun _ => h0, fun _ => Or.inl hE⟩
    · next parent _ _ =>
      have hb := line_body_empty env args_size
        { st with f := (read_one_line parent).2.2, g := none, line := st.save_line + 1,
                  error_file_name := none }
        (read_one_line parent).2.1 (by simp) h0 hE
      refine ⟨hb.1, fun hr => ?_⟩
      rcases hb.2 hr with h | ⟨hd, hc⟩
      · exact Or.inl h
      · exact Or.inr ⟨_, _, List.mem_singleton_self _, hd, hc⟩

theorem rules_loop_head_color (env : collaborators_t) (args_size : Nat) (X : Int) (k : Nat)
    (st : rules_reader_t) (a b : Bool) (h0 : st.result = 0) (hc : head_color X a b st.rules)
    (hr : (rules_loop env args_size k st).result = 0) :
    head_color X false true (rules_loop env args_size k st).rules :=
  rules_loop_inv env args_size (head_color X) (directive_head_color X env) k st h0 hc hr

theorem rules_loop_empty (env : collaborators_t) (args_size : Nat) :
    ∀ (k : Nat) (st : rules_reader_t), st.result = 0 → reader_empty st →
      (rules_loop env args_size k st).result = 0 →
        reader_empty (rules_loop env args_size k st) ∨
        default_found env args_size (rules_lines env args_size k st)
          (rules_loop env args_size k st).rules := by
  intro k
  induction k with
  | zero => intro st _ hE _; exact Or.inl hE
  | succ k ih =>
    intro st h0 hE
    rw [rules_loop, rules_lines]
    split
    · have hi := included_loop_empty env args_size (st.f.length + 1) st h0 hE
      split
      · next st1 heq =>
        rw [heq] at hi
        intro hr
        rcases hi.2 hr with h | h
        · exact Or.inl h
        · exact Or.inr (default_found_mono env args_size _ _ _
            (fun x hx => List.mem_append_left _ hx) h)
      · next st1 heq =>
        rw [heq] at hi
        have hr1 : st1.result = 0 := hi.1 rfl
        rcases hi.2 hr1 with hE1 | ⟨s, l, hm, hd, hc⟩
        · have hp := resume_parent_empty env args_size st1 hr1 hE1
          split
          · next st2 heq2 =>
            rw [heq2] at hp
            intro hr
            rcases hp.2 hr with h | h
            · exact Or.inl h
            · exact Or.inr (default_found_mono env args_size _ _ _
                (fun x hx => List.mem_append_right _ (List.mem_append_left _ hx)) h)
          · next st2 heq2 =>
            rw [heq2] at hp
            have hr2 : st2.result = 0 := hp.1 rfl
            intro hr
            rcases hp.2 hr2 with hE2 | ⟨s, l, hm, hd, hc⟩
            · rcases ih st2 hr2 hE2 hr with h | h
              · exact Or.inl h
              · exact Or.inr (default_found_mono env args_size _ _ _
                  (fun x hx => List.mem_append_right _ (List.mem_append_right _ hx)) h)
            · exact Or.inr ⟨s, l, List.mem_append_right _ (List.mem_append_left _ hm), hd,
                rules_loop_head_color env args_size _ k st2 _ _ hr2 hc hr⟩
        · have hp := resume_parent_inv env args_size (head_color _)
            (directive_head_color _ env) st1 hr1 (head_color_flags _ _ _ _ _ _ hc)
          split
          · next st2 heq2 =>
            rw [heq2] at hp
            intro hr
            exact Or.inr ⟨s, l, List.mem_append_left _ hm, hd,
              head_color_flags _ _ _ _ _ _ (hp.2 hr)⟩
          · next st2 heq2 =>
            rw [heq2] at hp
            intro hr
            exact Or.inr ⟨s, l, List.mem_append_left _ hm, hd,
              rules_loop_head_color env args_size _ k st2 _ _ (hp.1 rfl) (hp.2 (hp.1 rfl)) hr⟩
    · dsimp only
      split
      · intro _; exact Or.inl hE
      · have hb := line_body_empty env args_size
          { st with line := st.line + 1, f := (read_one_line st.f).2.2 } (read_one_line st.f).2.1
          (by simp) h0 hE
        split
        · next st2 heq =>
          rw [heq] at hb
          intro hr
          rcases hb.2 hr with h | ⟨hd, hc⟩
          · exact Or.inl h
          · exact Or.inr ⟨_, _, List.mem_cons_self _ _, hd, hc⟩
        · next st2 heq =>
          rw [heq] at hb
          have hr2 : st2.result = 0 := hb.1 rfl
          intro hr
          rcases hb.2 hr2 with h | ⟨hd, hc⟩
          · rcases ih st2 hr2 h hr with h3 | h3
            · exact Or.inl h3
            · exact Or.inr (default_found_mono env args_size _ _ _
                (fun x hx => List.mem_cons_of_mem _ hx) h3)
          · exact Or.inr ⟨_, _, List.mem_cons_self _ _, hd,
              rules_loop_head_color env args_size _ k st2 _ _ hr2 hc hr⟩

/-- C10: for every successful compile (`edit_read_syntax_rules` returns 0 and leaves the table
`R`), among the lines that the compiler read there is the `context default` line
of the rule set (the `context` line read while no context was defined), and the
ParseState with context 0 and keyword 0 - the all-zero state `zero_rule` in which
the classifier is reset at position -1 - resolves by `translate_rule_to_color` to the colour
given on that line. -/
theorem default_color_resolved (env : collaborators_t) (edit : WEdit) (f : List Nat)
    (args : List (Option (List Nat))) (args_size : Nat)
    (h0 : (edit_read_syntax_rules env edit f args args_size).1 = 0)
    (R : List context_rule_t)
    (hR : (edit_read_syntax_rules env edit f args args_size).2.1.rules = some R) :
    ∃ s l, (s, l) ∈ rules_lines env args_size (f.length + 1) (initial_reader edit f args) ∧
      is_default_line args_size s l ∧
      translate_rule_to_color R zero_rule = some (default_line_color env args_size s l) := by
  obtain ⟨hres, hne, hmap⟩ := compiled_table env edit f args args_size h0 R hR
  have hE : reader_empty (initial_reader edit f args) := ⟨rfl, rfl, rfl⟩
  rcases rules_loop_empty env args_size (f.length + 1) (initial_reader edit f args) rfl hE hres
    with h | ⟨s, l, hm, hd, c0, rest, k0, ks, hr, hk, hX⟩
  · exact absurd h.1 hne
  · refine ⟨s, l, hm, hd, ?_⟩
    rw [hmap, hr]
    simp [translate_rule_to_color, zero_rule, collect_first_chars, hk, hX]

/-- C10, witness: the rule set `comment_rules`. -/
theorem default_color_resolved_witness :
    ∃ s l, (s, l) ∈ rules_lines example_env (ARGS_LEN - 1) (comment_rules.length + 1)
        (initial_reader (fresh_edit []) comment_rules null_args) ∧
      is_default_line (ARGS_LEN - 1) s l ∧
      translate_rule_to_color ((load_rules comment_rules []).rules.getD []) zero_rule
        = some (default_line_color example_env (ARGS_LEN - 1) s l) :=
  default_color_resolved example_env (fresh_edit []) comment_rules null_args (ARGS_LEN - 1)
    (by decide!) ((load_rules comment_rules []).rules.getD []) (by decide!)

/-! ## Theorems: when the classifier does not depend on the history (C1, C2) -/

theorem replay_loop_add (ci : Bool) (b : edit_buffer_t) (rules : List context_rule_t) :
    ∀ (m n : Nat) (i : Int) (r : edit_syntax_rule_t),
      replay_loop ci b rules (m + n) i r =
        (replay_loop ci b rules m i r).bind fun r1 => replay_loop ci b rules n (i + m) r1 := by
  intro m
  induction m with
  | zero => intro n i r; simp [replay_loop]
  | succ m ih =>
    intro n i r
    have e : m + 1 + n = (m + n) + 1 := by omega
    rw [e, replay_loop, replay_loop]
    cases h : apply_rules_going_right ci b rules r i with
    | none => rfl
    | some r1 =>
      simp only
      rw [ih n (i + 1) r1]
      have e2 : i + 1 + (m : Int) = i + ((m + 1 : Nat) : Int) := by push_cast; ring
      rw [e2]

theorem cold_rule_extend (ci : Bool) (b : edit_buffer_t) (rules : List context_rule_t)
    (o : Int) (n : Nat) (rule : edit_syntax_rule_t) (ho : -1 ≤ o)
    (h : cold_rule ci b rules o = some rule) :
    cold_rule ci b rules (o + n) = replay_loop ci b rules n (o + 1) rule := by
  unfold cold_rule at h ⊢
  have e : (o + n + 1).toNat = (o + 1).toNat + n := by omega
  rw [e, replay_loop_add, h]
  have e2 : (0 : Int) + ((o + 1).toNat : Int) = o + 1 := by omega
  simp only [Option.bind, e2]

theorem forward_loop_coherent (ci : Bool) (b : edit_buffer_t) (rules : List context_rule_t) :
    ∀ (n : Nat) (last : Int) (rule : edit_syntax_rule_t) (markers : List syntax_marker_t)
      (rule1 : edit_syntax_rule_t) (markers1 : List syntax_marker_t),
      coherent ci b rules rule last markers →
      forward_loop ci b rules n (last + 1) rule markers = some (rule1, markers1) →
      coherent ci b rules rule1 (last + n) markers1 := by
  intro n
  induction n with
  | zero =>
    intro last rule markers rule1 markers1 hc h
    simp only [forward_loop, Option.some.injEq, Prod.mk.injEq] at h
    obtain ⟨rfl, rfl⟩ := h
    simpa using hc
  | succ n ih =>
    intro last rule markers rule1 markers1 hc h
    obtain ⟨h1, h2, h3, h4⟩ := hc
    rw [forward_loop] at h
    cases ha : apply_rules_going_right ci b rules rule (last + 1) with
    | none => rw [ha] at h; exact Option.noConfusion h
    | some r1 =>
      rw [ha] at h
      simp only at h
      have hcold : cold_rule ci b rules (last + 1) = some r1 := by
        have := cold_rule_extend ci b rules last 1 rule h1 h2
        simp only [Nat.cast_one, replay_loop, ha] at this
        exact this
      have hnext : coherent ci b rules r1 (last + 1) (push_marker markers (last + 1) r1) := by
        unfold push_marker
        dsimp only
        refine ⟨by omega, hcold, ?_, ?_⟩
        · intro m hm
          split at hm
          · rcases List.mem_cons.mp hm with rfl | hm1
            · exact ⟨by show (0 : Int) ≤ last + 1; omega, le_refl _, hcold⟩
            · obtain ⟨a1, a2, a3⟩ := h3 m hm1
              exact ⟨a1, by omega, a3⟩
          · obtain ⟨a1, a2, a3⟩ := h3 m hm
            exact ⟨a1, by omega, a3⟩
        · split
          · refine List.Pairwise.cons ?_ h4
            intro m hm
            have := (h3 m hm).2.1
            show last + 1 > m.offset
            omega
          · exact h4
      have := ih (last + 1) r1 _ rule1 markers1 hnext h
      have e : last + 1 + (n : Int) = last + ((n + 1 : Nat) : Int) := by push_cast; ring
      rw [e] at this
      exact this

theorem backward_loop_coherent (ci : Bool) (b : edit_buffer_t) (rules : List context_rule_t)
    (byte_index : Int) (hb : -1 ≤ byte_index)
    (hstep : apply_rules_going_right ci b rules zero_rule (-1) = some zero_rule) :
    ∀ (markers : List syntax_marker_t) (last : Int) (rule : edit_syntax_rule_t)
      (rule1 : edit_syntax_rule_t) (markers1 : List syntax_marker_t),
      coherent ci b rules rule last markers →
      backward_loop ci b rules byte_index markers = some (rule1, markers1) →
      coherent ci b rules rule1 byte_index markers1 := by
  intro markers
  induction markers with
  | nil =>
    intro last rule rule1 markers1 _ h
    rw [backward_loop] at h
    have e : (byte_index + 2).toNat = (byte_index + 1).toNat + 1 := by omega
    rw [e, replay_loop, hstep] at h
    simp only [show (-1 : Int) + 1 = 0 by norm_num] at h
    cases hr : replay_loop ci b rules (byte_index + 1).toNat 0 zero_rule with
    | none => rw [hr] at h; exact Option.noConfusion h
    | some r1 =>
      rw [hr] at h
      simp only [Option.some.injEq, Prod.mk.injEq] at h
      obtain ⟨rfl, rfl⟩ := h
      exact ⟨hb, hr, fun m hm => by simp at hm, List.Pairwise.nil⟩
  | cons s ms ih =>
    intro last rule rule1 markers1 hc h
    obtain ⟨h1, h2, h3, h4⟩ := hc
    rw [backward_loop] at h
    split at h
    · next hge =>
      obtain ⟨s1, s2, s3⟩ := h3 s (List.mem_cons_self _ _)
      have hext := cold_rule_extend ci b rules s.offset (byte_index - s.offset).toNat s.rule
        (by omega) s3
      have e : s.offset + ((byte_index - s.offset).toNat : Int) = byte_index := by omega
      rw [e] at hext
      cases hr : replay_loop ci b rules (byte_index - s.offset).toNat (s.offset + 1) s.rule with
      | none => rw [hr] at h; exact Option.noConfusion h
      | some r1 =>
        rw [hr] at h
        simp only [Option.some.injEq, Prod.mk.injEq] at h
        obtain ⟨rfl, rfl⟩ := h
        refine ⟨hb, by rw [hext, hr], ?_, h4⟩
        intro m hm
        rcases List.mem_cons.mp hm with rfl | hm1
        · exact ⟨s1, hge, s3⟩
        · obtain ⟨a1, _, a3⟩ := h3 m (List.mem_cons_of_mem _ hm1)
          have := (List.pairwise_cons.mp h4).1 m hm1
          exact ⟨a1, by omega, a3⟩
    · have hc1 : coherent ci b rules rule last ms :=
        ⟨h1, h2, fun m hm => h3 m (List.mem_cons_of_mem _ hm), (List.pairwise_cons.mp h4).2⟩
      exact ih last rule rule1 markers1 hc1 h

/-- History independence, when the step at position -1 leaves the all-zero state as it is
(as it does when the read at -1 yields NUL, or when no keyword and no left
delimiter matches there): a call of `edit_get_rule` with `byte_index >= -1` keeps the
classifier state in agreement with the classification in increasing order. -/
theorem edit_get_rule_coherent (edit edit1 : WEdit) (rules : List context_rule_t)
    (byte_index : Int) (hr : edit.rules = some rules) (hb : -1 ≤ byte_index)
    (hstep : apply_rules_going_right edit.is_case_insensitive edit.buffer rules zero_rule (-1)
      = some zero_rule)
    (hc : coherent edit.is_case_insensitive edit.buffer rules edit.rule edit.last_get_rule
      edit.syntax_marker)
    (h : edit_get_rule edit byte_index = some edit1) :
    edit1.rules = some rules ∧ edit1.is_case_insensitive = edit.is_case_insensitive ∧
    edit1.buffer = edit.buffer ∧ edit1.last_get_rule = byte_index ∧
    coherent edit.is_case_insensitive edit.buffer rules edit1.rule byte_index
      edit1.syntax_marker := by
  unfold edit_get_rule at h
  rw [hr] at h
  simp only at h
  split at h
  · next hgt =>
    split at h
    · exact Option.noConfusion h
    · next rule1 markers1 hf =>
      simp only [Option.some.injEq] at h
      subst h
      have := forward_loop_coherent edit.is_case_insensitive edit.buffer rules _ _ _ _ _ _ hc hf
      have e : edit.last_get_rule + ((byte_index - edit.last_get_rule).toNat : Int)
          = byte_index := by omega
      rw [e] at this
      exact ⟨rfl, rfl, rfl, rfl, this⟩
  · split at h
    · split at h
      · exact Option.noConfusion h
      · next rule1 markers1 hf =>
        simp only [Option.some.injEq] at h
        subst h
        exact ⟨rfl, rfl, rfl, rfl,
          backward_loop_coherent edit.is_case_insensitive edit.buffer rules byte_index hb hstep
            _ _ _ _ _ hc hf⟩
    · next h1 h2 =>
      simp only [Option.some.injEq] at h
      subst h
      have e : byte_index = edit.last_get_rule := by omega
      subst e
      exact ⟨rfl, rfl, rfl, rfl, hc⟩

/-- History independence over a sequence of queries, under the same hypothesis on
position -1: after any queries at offsets `>= -1`, issued from a state that agrees
with the classification in increasing order (the initial state does), the
ParseState is the one after the bytes `0 .. last_get_rule` and every checkpoint holds
the ParseState after the bytes up to its offset. -/
theorem get_rules_coherent (rules : List context_rule_t) :
    ∀ (qs : List Int) (edit edit1 : WEdit), edit.rules = some rules →
      apply_rules_going_right edit.is_case_insensitive edit.buffer rules zero_rule (-1)
        = some zero_rule →
      coherent edit.is_case_insensitive edit.buffer rules edit.rule edit.last_get_rule
        edit.syntax_marker →
      (∀ q ∈ qs, -1 ≤ q) → get_rules edit qs = some edit1 →
      coherent edit.is_case_insensitive edit.buffer rules edit1.rule edit1.last_get_rule
        edit1.syntax_marker ∧
      (∀ o, qs.getLast? = some o → edit1.last_get_rule = o) := by
  intro qs
  induction qs with
  | nil =>
    intro edit edit1 _ _ hc _ h
    simp only [get_rules, Option.some.injEq] at h
    subst h
    exact ⟨hc, fun o ho => by simp at ho⟩
  | cons q qs ih =>
    intro edit edit1 hr hstep hc hq h
    rw [get_rules] at h
    cases hg : edit_get_rule edit q with
    | none => rw [hg] at h; exact Option.noConfusion h
    | some e2 =>
      rw [hg] at h
      simp only at h
      obtain ⟨g1, g2, g3, g4, g5⟩ := edit_get_rule_coherent edit e2 rules q hr
        (hq q (List.mem_cons_self _ _)) hstep hc hg
      have hstep2 : apply_rules_going_right e2.is_case_insensitive e2.buffer rules zero_rule (-1)
          = some zero_rule := by rw [g2, g3]; exact hstep
      have hc2 : coherent e2.is_case_insensitive e2.buffer rules e2.rule e2.last_get_rule
          e2.syntax_marker := by rw [g2, g3, g4]; exact g5
      obtain ⟨i1, i2⟩ := ih e2 edit1 g1 hstep2 hc2
        (fun x hx => hq x (List.mem_cons_of_mem _ hx)) h
      rw [g2, g3] at i1
      refine ⟨i1, ?_⟩
      intro o ho
      cases qs with
      | nil =>
        simp only [get_rules, Option.some.injEq] at h
        subst h
        simp only [List.getLast?_singleton, Option.some.injEq] at ho
        rw [← ho]; exact g4
      | cons q2 qs2 =>
        rw [List.getLast?_cons_cons] at ho
        exact i2 o ho

theorem forward_loop_rule (ci : Bool) (b : edit_buffer_t) (rules : List context_rule_t) :
    ∀ (n : Nat) (i : Int) (r : edit_syntax_rule_t) (ms : List syntax_marker_t),
      (forward_loop ci b rules n i r ms).map Prod.fst = replay_loop ci b rules n i r := by
  intro n
  induction n with
  | zero => intro i r ms; rfl
  | succ n ih =>
    intro i r ms
    rw [forward_loop, replay_loop]
    cases apply_rules_going_right ci b rules r i with
    | none => rfl
    | some r1 => exact ih (i + 1) r1 _

/-- The ParseState that a forward call of `edit_get_rule` leaves is the replay of the bytes
behind the last position; the call changes neither the table nor the buffer. -/
theorem edit_get_rule_forward (edit : WEdit) (rules : List context_rule_t) (byte_index : Int)
    (hr : edit.rules = some rules) (hge : edit.last_get_rule ≤ byte_index) :
    (edit_get_rule edit byte_index).map (fun e => e.rule) =
      replay_loop edit.is_case_insensitive edit.buffer rules
        (byte_index - edit.last_get_rule).toNat (edit.last_get_rule + 1) edit.rule ∧
    ∀ e, edit_get_rule edit byte_index = some e →
      e.rules = some rules ∧ e.is_case_insensitive = edit.is_case_insensitive ∧
      e.buffer = edit.buffer ∧ e.last_get_rule = byte_index := by
  unfold edit_get_rule
  rw [hr]
  simp only
  split
  · have hf := forward_loop_rule edit.is_case_insensitive edit.buffer rules
      (byte_index - edit.last_get_rule).toNat (edit.last_get_rule + 1) edit.rule
      edit.syntax_marker
    rw [← hf]
    cases forward_loop edit.is_case_insensitive edit.buffer rules
        (byte_index - edit.last_get_rule).toNat (edit.last_get_rule + 1) edit.rule
        edit.syntax_marker with
    | none => exact ⟨rfl, fun e he => Option.noConfusion he⟩
    | some p =>
      refine ⟨rfl, fun e he => ?_⟩
      simp only [Option.some.injEq] at he
      subst he
      exact ⟨rfl, rfl, rfl, rfl⟩
  · have e0 : (byte_index - edit.last_get_rule).toNat = 0 := by omega
    rw [if_neg (by omega), e0]
    refine ⟨rfl, fun e he => ?_⟩
    simp only [Option.some.injEq] at he
    subst he
    exact ⟨rfl, rfl, rfl, rfl⟩

/-- The scenario of C2's witness, for every rule table and every document: from the
initial state, the query at `o1` followed by the query at `o2 >= o1` leaves the
ParseState that the single query at `o2` leaves (for a 10,000-byte document:
`o1 = 100`, `o2 = 9999`). -/
theorem forward_queries_agree (edit : WEdit) (rules : List context_rule_t)
    (hr : edit.rules = some rules) (o1 o2 : Int)
    (h1 : edit.last_get_rule ≤ o1) (h2 : o1 ≤ o2) :
    (get_rules edit [o1, o2]).map (fun e => e.rule) =
      (get_rules edit [o2]).map (fun e => e.rule) := by
  have hA := edit_get_rule_forward edit rules o2 hr (by omega)
  have hB := edit_get_rule_forward edit rules o1 hr h1
  have hsingle : (get_rules edit [o2]).map (fun e => e.rule)
      = (edit_get_rule edit o2).map (fun e => e.rule) := by
    simp only [get_rules]
    cases edit_get_rule edit o2 <;> rfl
  rw [hsingle, hA.1]
  have e : (o2 - edit.last_get_rule).toNat
      = (o1 - edit.last_get_rule).toNat + (o2 - o1).toNat := by omega
  rw [e, replay_loop_add, ← hB.1]
  simp only [get_rules]
  cases hg : edit_get_rule edit o1 with
  | none => rfl
  | some e1 =>
    obtain ⟨g1, g2, g3, g4⟩ := hB.2 e1 hg
    have hC := edit_get_rule_forward e1 rules o2 g1 (by omega)
    simp only [Option.map, Option.bind]
    have e3 : edit.last_get_rule + 1 + ((o1 - edit.last_get_rule).toNat : Int)
        = e1.last_get_rule + 1 := by omega
    rw [e3, ← g2, ← g3, ← g4, ← hC.1]
    cases edit_get_rule e1 o2 <;> rfl

/-! ## Theorems: the translation of a pattern token by `convert` (C20) -/

theorem convert_star (s : List Nat) : convert (42 :: s) = SYNTAX_TOKEN_STAR :: convert s := by
  rw [convert.eq_def]
  simp

theorem convert_plus (s : List Nat) : convert (43 :: s) = SYNTAX_TOKEN_PLUS :: convert s := by
  rw [convert.eq_def]
  simp

theorem convert_backslash (e : Nat) (s : List Nat) :
    convert (92 :: e :: s) =
      if e = 32 then 32 :: e :: convert s else convert_escape e :: convert s := by
  rw [convert.eq_def]
  simp only [if_true]

theorem convert_other (c : Nat) (s : List Nat) (h1 : c ≠ 92) (h2 : c ≠ 42) (h3 : c ≠ 43) :
    convert (c :: s) = c :: convert s := by
  rw [convert.eq_def]
  simp only [if_neg h1, if_neg h2, if_neg h3]

theorem convert_plain (s : List Nat) (h1 : 92 ∉ s) (h2 : 42 ∉ s) (h3 : 43 ∉ s) :
    convert s = s := by
  induction s with
  | nil => rfl
  | cons c s ih =>
    simp only [List.mem_cons, not_or] at h1 h2 h3
    have e1 : c ≠ 92 := fun h => h1.1 h.symm
    have e2 : c ≠ 42 := fun h => h2.1 h.symm
    have e3 : c ≠ 43 := fun h => h3.1 h.symm
    rw [convert.eq_def]
    simp only [if_neg e1, if_neg e2, if_neg e3, ih h1.2 h2.2 h3.2]

/-- C20, as amended: `convert` translates a token, a run of bytes without whitespace as
`get_args` hands it over, from left to right as follows.  An unescaped `*` gives the star
token 1 and an unescaped `+` the plus token 2; backslash followed by `n`, `r`, `t`, `s`
gives newline, carriage return, tab, space; backslash-backslash gives one backslash and
backslash-`*` a literal `*`; backslash followed by a square bracket gives the bracket
token 3 and followed by a curly bracket the brace token 4; backslash followed by any
other byte (the space apart, which no token holds) gives that byte; every byte that is not
a backslash, `*` or `+` is copied, so a token without these three bytes is returned
unchanged.  The case that the list leaves out: a backslash that ends the token is
dropped. -/
theorem convert_translation :
    (∀ s, convert (42 :: s) = SYNTAX_TOKEN_STAR :: convert s) ∧
    (∀ s, convert (43 :: s) = SYNTAX_TOKEN_PLUS :: convert s) ∧
    (∀ s, convert (92 :: 110 :: s) = 10 :: convert s) ∧
    (∀ s, convert (92 :: 114 :: s) = 13 :: convert s) ∧
    (∀ s, convert (92 :: 116 :: s) = 9 :: convert s) ∧
    (∀ s, convert (92 :: 115 :: s) = 32 :: convert s) ∧
    (∀ s, convert (92 :: 92 :: s) = 92 :: convert s) ∧
    (∀ s, convert (92 :: 42 :: s) = 42 :: convert s) ∧
    (∀ s, convert (92 :: 91 :: s) = SYNTAX_TOKEN_BRACKET :: convert s) ∧
    (∀ s, convert (92 :: 93 :: s) = SYNTAX_TOKEN_BRACKET :: convert s) ∧
    (∀ s, convert (92 :: 123 :: s) = SYNTAX_TOKEN_BRACE :: convert s) ∧
    (∀ s, convert (92 :: 125 :: s) = SYNTAX_TOKEN_BRACE :: convert s) ∧
    (∀ e s, e ∉ [32, 110, 114, 116, 115, 91, 93, 123, 125] →
      convert (92 :: e :: s) = e :: convert s) ∧
    (∀ c s, c ≠ 92 → c ≠ 42 → c ≠ 43 → convert (c :: s) = c :: convert s) ∧
    convert [92] = [] ∧
    convert [] = [] ∧
    (∀ s, 92 ∉ s → 42 ∉ s → 43 ∉ s → convert s = s) := by
  have hb : ∀ e s, e ≠ 32 → convert (92 :: e :: s) = convert_escape e :: convert s :=
    fun e s h => by rw [convert_backslash, if_neg h]
  refine ⟨convert_star, convert_plus, fun s => hb _ s (by decide), fun s => hb _ s (by decide),
    fun s => hb _ s (by decide), fun s => hb _ s (by decide), fun s => hb _ s (by decide),
    fun s => hb _ s (by decide), fun s => hb _ s (by decide), fun s => hb _ s (by decide),
    fun s => hb _ s (by decide), fun s => hb _ s (by decide), ?_, convert_other,
    by decide, by decide, convert_plain⟩
  · intro e s he
    simp only [List.mem_cons, List.mem_singleton, List.not_mem_nil, or_false, not_or] at he
    obtain ⟨h1, h2, h3, h4, h5, h6, h7, h8, h9⟩ := he
    rw [hb e s h1]
    congr 1
    unfold convert_escape
    rw [if_neg h2, if_neg h3, if_neg h4, if_neg h5]
    split
    · rename_i h; exact h.symm
    · split
      · rename_i h; exact h.symm
      · rw [if_neg (by omega), if_neg (by omega)]

/-- C20, witness: the tokens `begin`, backslash followed by the byte 4, and `if(`. -/
theorem convert_translation_witness :
    convert (bytes_of "begin") = bytes_of "begin" ∧
    convert (92 :: 4 :: bytes_of "x") = 4 :: convert (bytes_of "x") ∧
    convert (bytes_of "if(") = 105 :: convert (bytes_of "f(") :=
  ⟨convert_translation.2.2.2.2.2.2.2.2.2.2.2.2.2.2.2.2 (bytes_of "begin")
      (by decide) (by decide) (by decide),
    convert_translation.2.2.2.2.2.2.2.2.2.2.2.2.1 4 (bytes_of "x") (by decide),
    convert_translation.2.2.2.2.2.2.2.2.2.2.2.2.2.1 105 (bytes_of "f(")
      (by decide) (by decide) (by decide)⟩

/-- C20, counterexample: the token `a` followed by a backslash that ends it is converted
to `a`: the backslash is neither translated nor copied.  The line `keyword a\ red` hands
this token to `convert`. -/
theorem trailing_backslash_dropped :
    convert (bytes_of "a\\") = bytes_of "a" ∧
    (get_args (bytes_of "keyword a\\ red") null_args (ARGS_LEN - 1)).2.take 4
      = [some (bytes_of "keyword"), some (bytes_of "a"), some (bytes_of "red"), none] := by
  decide!

/-! ## Theorems: the expansion of a define (C15) -/

theorem strv_map_some (v : List (List Nat)) (r : List (Option (List Nat))) :
    strv (v.map some ++ none :: r) = v := by
  induction v with
  | nil => rfl
  | cons x v ih =>
    show strv (some x :: (v.map some ++ none :: r)) = x :: v
    rw [strv, ih]

theorem arg_append (pre l : List (Option (List Nat))) (j : Nat) :
    arg (pre ++ l) (pre.length + j) = arg l j := by
  induction pre with
  | nil => simp
  | cons x pre ih =>
    have e : (x :: pre).length + j = (pre.length + j) + 1 := by
      simp only [List.length_cons]
      omega
    rw [e]
    exact ih

theorem arg_map_some_lt (v : List (List Nat)) (r : List (Option (List Nat))) :
    ∀ j, j < v.length → arg (v.map some ++ r) j = v.get? j := by
  induction v with
  | nil => intro j hj; simp at hj
  | cons x v ih =>
    intro j hj
    cases j with
    | zero => rfl
    | succ j => exact ih j (by simpa using hj)

theorem arg_map_some_end (v : List (List Nat)) (r : List (Option (List Nat))) :
    arg (v.map some ++ none :: r) v.length = none := by
  induction v with
  | nil => rfl
  | cons x v ih => exact ih

theorem subst_defines_vector_plain (defines : List (List Nat × List (List Nat))) :
    ∀ (cap : Nat) (v : List (List Nat)), (∀ x ∈ v, defines_lookup defines x = none) →
      subst_defines_vector defines cap v = v.map some ++ [none] := by
  intro cap
  induction cap with
  | zero => intro v _; rfl
  | succ cap ih =>
    intro v hv
    cases v with
    | nil => rfl
    | cons x rest =>
      have hx : defines_lookup defines x = none := hv x (List.mem_cons_self _ _)
      rw [subst_defines_vector]
      simp only [hx, List.map_cons, List.cons_append]
      rw [ih rest (fun y hy => hv y (List.mem_cons_of_mem _ hy))]

theorem subst_defines_vector_expand (defines : List (List Nat × List (List Nat)))
    (n : List Nat) (B D : List (List Nat))
    (hn : defines_lookup defines n = some D) (hD : D ≠ [])
    (hB : ∀ x ∈ B, defines_lookup defines x = none)
    (hDn : ∀ x ∈ D, defines_lookup defines x = none) :
    ∀ (A : List (List Nat)) (cap : Nat), (∀ x ∈ A, defines_lookup defines x = none) →
      A.length + D.length + B.length < cap →
      subst_defines_vector defines cap (A ++ n :: B) = (A ++ D ++ B).map some ++ [none] := by
  intro A
  induction A with
  | nil =>
    intro cap _ hfit
    cases cap with
    | zero => omega
    | succ cap =>
      cases D with
      | nil => exact absurd rfl hD
      | cons y t1 =>
        simp only [List.nil_append]
        rw [subst_defines_vector]
        simp only [hn]
        have hlt : ¬ ((y :: t1).length + B.length ≥ cap + 1) := by
          simp only [List.length_nil, List.length_cons, zero_add] at hfit ⊢
          omega
        rw [if_neg hlt]
        show some y :: subst_defines_vector defines cap (t1 ++ B) = _
        rw [subst_defines_vector_plain defines cap (t1 ++ B)]
        · simp
        · intro x hx
          rcases List.mem_append.1 hx with h | h
          · exact hDn x (List.mem_cons_of_mem _ h)
          · exact hB x h
  | cons x A ih =>
    intro cap hA hfit
    cases cap with
    | zero => omega
    | succ cap =>
      have hx : defines_lookup defines x = none := hA x (List.mem_cons_self _ _)
      simp only [List.cons_append]
      rw [subst_defines_vector]
      simp only [hx]
      rw [ih cap (fun y hy => hA y (List.mem_cons_of_mem _ hy))
        (by simp only [List.length_cons] at hfit; omega)]
      simp

/-- C15: when the vector at `args[a]` is `A ++ [n] ++ B`, the name `n` is defined
as the tokens `D` (at least one), no token of `A`, `B` or `D` is a defined name,
and the expanded vector with its null terminator fits the array
(`a + |A| + |D| + |B| < ARGS_LEN`), then `subst_defines` leaves the vector
`A ++ D ++ B` at `args[a]`, null-terminated, and does not change the entries
before `args[a]`. -/
theorem subst_defines_replaces_name (defines : List (List Nat × List (List Nat)))
    (args : List (Option (List Nat))) (a : Nat) (A B D : List (List Nat)) (n : List Nat)
    (hlen : args.length = ARGS_LEN)
    (hv : strv (args.drop a) = A ++ n :: B)
    (hn : defines_lookup defines n = some D) (hD : 1 ≤ D.length)
    (hA : ∀ x ∈ A, defines_lookup defines x = none)
    (hB : ∀ x ∈ B, defines_lookup defines x = none)
    (hDn : ∀ x ∈ D, defines_lookup defines x = none)
    (hfit : a + A.length + D.length + B.length < ARGS_LEN) :
    strv ((subst_defines defines args a).drop a) = A ++ D ++ B ∧
    arg (subst_defines defines args a) (a + (A ++ D ++ B).length) = none ∧
    (∀ j, j < (A ++ D ++ B).length →
      arg (subst_defines defines args a) (a + j) = (A ++ D ++ B).get? j) ∧
    (subst_defines defines args a).take a = args.take a ∧
    (subst_defines defines args a).length = ARGS_LEN := by
  have hD0 : D ≠ [] := by
    intro h
    rw [h] at hD
    simp at hD
  have hseg := subst_defines_vector_expand defines n B D hn hD0 hB hDn A (ARGS_LEN - a) hA
    (by omega)
  have hta : (args.take a).length = a := by
    rw [List.length_take]
    omega
  have hsub : subst_defines defines args a =
      args.take a ++ ((A ++ D ++ B).map some ++
        none :: args.drop (a + ((A ++ D ++ B).map some ++ [none]).length)) := by
    unfold subst_defines store_entries
    rw [hv, hseg]
    simp only [List.append_assoc, List.cons_append, List.nil_append]
  rw [hsub]
  refine ⟨?_, ?_, ?_, ?_, ?_⟩
  · rw [List.drop_left' hta, strv_map_some]
  · have h := arg_append (args.take a) ((A ++ D ++ B).map some ++
      none :: args.drop (a + ((A ++ D ++ B).map some ++ [none]).length)) (A ++ D ++ B).length
    rw [hta] at h
    rw [h, arg_map_some_end]
  · intro j hj
    have h := arg_append (args.take a) ((A ++ D ++ B).map some ++
      none :: args.drop (a + ((A ++ D ++ B).map some ++ [none]).length)) j
    rw [hta] at h
    rw [h, arg_map_some_lt _ _ j hj]
  · rw [List.take_left' hta]
  · simp only [List.length_append, List.length_cons, List.length_map, List.length_drop,
      List.length_take, List.length_nil] at hfit ⊢
    omega

set_option maxRecDepth 100000 in
/-- C15, witness: the line `keyword x C bold` with `C` defined as `red blue`. -/
theorem subst_defines_replaces_name_witness :
    strv ((subst_defines define_table define_args 2).drop 2)
      = [] ++ [bytes_of "red", bytes_of "blue"] ++ [bytes_of "bold"] ∧
    arg (subst_defines define_table define_args 2)
      (2 + ([] ++ [bytes_of "red", bytes_of "blue"] ++ [bytes_of "bold"]).length) = none ∧
    (∀ j, j < ([] ++ [bytes_of "red", bytes_of "blue"] ++ [bytes_of "bold"]).length →
      arg (subst_defines define_table define_args 2) (2 + j)
        = ([] ++ [bytes_of "red", bytes_of "blue"] ++ [bytes_of "bold"]).get? j) ∧
    (subst_defines define_table define_args 2).take 2 = define_args.take 2 ∧
    (subst_defines define_table define_args 2).length = ARGS_LEN :=
  subst_defines_replaces_name define_table define_args 2 [] [bytes_of "bold"]
    [bytes_of "red", bytes_of "blue"] (bytes_of "C") (by decide!) (by decide!) (by decide!)
    (by decide) (by decide) (by decide) (by decide) (by decide)

/-! ## Theorems: the colour query and a ParseState that is out of range (C11, C12) -/

/-- C11: with colours enabled on the terminal, `edit_get_syntax_color` returns
`EDITOR_NORMAL_COLOR` (and leaves the classifier as it is) whenever no rule table is
loaded, or highlighting is switched off, or the offset is at or beyond the
size of the document; in every other case it advances the classifier to the
offset with `edit_get_rule` and returns the colour of the keyword entry that the
table holds for the context and keyword of the ParseState reached. -/
theorem edit_get_syntax_color_cases (env : collaborators_t) (edit : WEdit) (byte_index : Int)
    (hcol : env.tty_use_colors = true) :
    ((edit.rules = none ∨ env.option_syntax_highlighting = false ∨
        edit.buffer.size ≤ byte_index) →
      edit_get_syntax_color env edit byte_index = some (env.EDITOR_NORMAL_COLOR, edit)) ∧
    (∀ rules, edit.rules = some rules → env.option_syntax_highlighting = true →
      byte_index < edit.buffer.size →
      edit_get_syntax_color env edit byte_index =
        (edit_get_rule edit byte_index).bind fun edit1 =>
          (rules.get? edit1.rule.context).bind fun r =>
            (r.keyword.get? edit1.rule.keyword).map fun k => (k.color, edit1)) := by
  constructor
  · intro h
    unfold edit_get_syntax_color
    rw [if_neg (by simp [hcol])]
    cases hr : edit.rules with
    | none => rfl
    | some rules =>
      simp only
      rw [if_neg]
      rintro ⟨h1, h2⟩
      rcases h with h | h | h
      · rw [hr] at h; exact Option.noConfusion h
      · rw [h] at h2; exact Bool.noConfusion h2
      · omega
  · intro rules hr hopt hlt
    unfold edit_get_syntax_color
    rw [if_neg (by simp [hcol]), hr]
    simp only
    rw [if_pos ⟨hlt, hopt⟩]
    cases edit_get_rule edit byte_index with
    | none => rfl
    | some edit1 =>
      simp only [Option.bind, translate_rule_to_color]
      cases rules.get? edit1.rule.context with
      | none => rfl
      | some r =>
        simp only
        cases r.keyword.get? edit1.rule.keyword <;> rfl

set_option maxRecDepth 100000 in
/-- C11, witness: the document `ab` without a rule table, queried at offset 1. -/
theorem edit_get_syntax_color_cases_witness :
    ((fresh_edit (bytes_of "ab")).rules = none ∨
        example_env.option_syntax_highlighting = false ∨
        (fresh_edit (bytes_of "ab")).buffer.size ≤ 1 →
      edit_get_syntax_color example_env (fresh_edit (bytes_of "ab")) 1
        = some (example_env.EDITOR_NORMAL_COLOR, fresh_edit (bytes_of "ab"))) ∧
    (∀ rules, (fresh_edit (bytes_of "ab")).rules = some rules →
      example_env.option_syntax_highlighting = true →
      1 < (fresh_edit (bytes_of "ab")).buffer.size →
      edit_get_syntax_color example_env (fresh_edit (bytes_of "ab")) 1 =
        (edit_get_rule (fresh_edit (bytes_of "ab")) 1).bind fun edit1 =>
          (rules.get? edit1.rule.context).bind fun r =>
            (r.keyword.get? edit1.rule.keyword).map fun k => (k.color, edit1)) :=
  edit_get_syntax_color_cases example_env (fresh_edit (bytes_of "ab")) 1 rfl

theorem turn_off_keyword_idle (b : edit_buffer_t) (i : Int) (e : Bool) (l : step_locals)
    (hk : l._rule.keyword = 0) : turn_off_keyword b i e l = l := by
  unfold turn_off_keyword
  simp [hk]

theorem apply_rules_going_right_unchecked (ci : Bool) (b : edit_buffer_t)
    (rules : List context_rule_t) (rule : edit_syntax_rule_t) (i : Int)
    (hc : read_byte ci b i ≠ 0) (hk : rule.keyword = 0) (hbad : rules.length ≤ rule.context) :
    apply_rules_going_right ci b rules rule i = none := by
  have hget : rules.get? rule.context = none := List.get?_eq_none.2 hbad
  unfold apply_rules_going_right
  simp only [if_neg hc]
  rw [turn_off_keyword_idle _ _ _ _ hk]
  by_cases h0 : rule.context = 0
  · simp only [turn_off_context, h0, ne_eq, not_true_eq_false, false_and, if_false,
      Option.bind, turn_on_keyword, hk, if_true]
    rw [h0] at hget
    simp only [hget]
  · simp only [turn_off_context, h0, ne_eq, not_false_eq_true, hk, and_self, if_true, hget,
      Option.bind]

/-- C12, as amended: the classifier does not check a ParseState.  For every rule table and
every ParseState whose context index is not below the number of contexts, or whose keyword
index is not below the number of keywords of its context, `translate_rule_to_color` reads
outside the table, and so does the colour query that finds this ParseState at the
offset asked for; when the context index is out of range and no keyword is
active, the step `apply_rules_going_right` at a byte other than NUL reads outside the
table as well.  None of them falls back to the default context. -/
theorem malformed_state_reads_outside (env : collaborators_t) (edit : WEdit)
    (rules : List context_rule_t) (byte_index : Int)
    (hr : edit.rules = some rules) (hcol : env.tty_use_colors = true)
    (hopt : env.option_syntax_highlighting = true) (hlt : byte_index < edit.buffer.size)
    (hlast : byte_index = edit.last_get_rule)
    (hbad : rules.length ≤ edit.rule.context ∨
      ∃ r, rules.get? edit.rule.context = some r ∧ r.keyword.length ≤ edit.rule.keyword) :
    translate_rule_to_color rules edit.rule = none ∧
    edit_get_syntax_color env edit byte_index = none ∧
    (rules.length ≤ edit.rule.context → edit.rule.keyword = 0 →
      ∀ i, read_byte edit.is_case_insensitive edit.buffer i ≠ 0 →
        apply_rules_going_right edit.is_case_insensitive edit.buffer rules edit.rule i
          = none) := by
  have ht : translate_rule_to_color rules edit.rule = none := by
    unfold translate_rule_to_color
    rcases hbad with h | ⟨r, h1, h2⟩
    · rw [List.get?_eq_none.2 h]
    · rw [h1]
      simp only
      rw [List.get?_eq_none.2 h2]
  refine ⟨ht, ?_, fun hb hk i hc => apply_rules_going_right_unchecked _ _ _ _ i hc hk hb⟩
  unfold edit_get_syntax_color
  rw [if_neg (by simp [hcol]), hr]
  simp only
  rw [if_pos ⟨hlt, hopt⟩]
  have hg : edit_get_rule edit byte_index = some { edit with last_get_rule := byte_index } := by
    unfold edit_get_rule
    rw [hr]
    simp only
    rw [if_neg (by omega), if_neg (by omega)]
  rw [hg]
  simp only [ht]

set_option maxRecDepth 100000 in
/-- C12, witness: the rule set `comment_rules` and a ParseState with context index 7. -/
theorem malformed_state_reads_outside_witness :
    translate_rule_to_color ((load_rules comment_rules []).rules.getD [])
        (edit_with_state { zero_rule with context := 7 }).rule = none ∧
    edit_get_syntax_color example_env (edit_with_state { zero_rule with context := 7 }) 0
      = none ∧
    (((load_rules comment_rules []).rules.getD []).length ≤
        (edit_with_state { zero_rule with context := 7 }).rule.context →
      (edit_with_state { zero_rule with context := 7 }).rule.keyword = 0 →
      ∀ i, read_byte (edit_with_state { zero_rule with context := 7 }).is_case_insensitive
          (edit_with_state { zero_rule with context := 7 }).buffer i ≠ 0 →
        apply_rules_going_right
          (edit_with_state { zero_rule with context := 7 }).is_case_insensitive
          (edit_with_state { zero_rule with context := 7 }).buffer
          ((load_rules comment_rules []).rules.getD [])
          (edit_with_state { zero_rule with context := 7 }).rule i = none) :=
  malformed_state_reads_outside example_env (edit_with_state { zero_rule with context := 7 })
    ((load_rules comment_rules []).rules.getD []) 0 (by decide!) rfl rfl (by decide!)
    (by decide!) (Or.inl (by decide!))

set_option maxRecDepth 100000 in
/-- C12, counterexample: with the rule set `comment_rules` the all-zero ParseState resolves to
the default colour 0, but for the ParseState with context index 7 neither
`translate_rule_to_color` nor the colour query returns the default colour: both read
outside the table of two contexts. -/
theorem malformed_state_no_default_color :
    ((load_rules comment_rules []).rules.getD []).length = 2 ∧
    translate_rule_to_color ((load_rules comment_rules []).rules.getD []) zero_rule = some 0 ∧
    (edit_get_syntax_color example_env (edit_with_state zero_rule) 0).map Prod.fst = some 0 ∧
    translate_rule_to_color ((load_rules comment_rules []).rules.getD [])
      { zero_rule with context := 7 } = none ∧
    edit_get_syntax_color example_env (edit_with_state { zero_rule with context := 7 }) 0
      = none := by
  decide!

/-! ## Theorems: the colours that a keyword line inherits (C14) -/

theorem same_last_break_a (st st1 : rules_reader_t) (h : same_last st st1) :
    same_last st (break_a st1).1 := h

theorem keyword_directive_same_last (env : collaborators_t) (st : rules_reader_t) :
    same_last st (keyword_directive env st).1 := by
  unfold keyword_directive
  repeat' first | exact ⟨rfl, rfl, rfl⟩ | split | dsimp only

theorem wholechars_directive_same_last (st : rules_reader_t) :
    same_last st (wholechars_directive st).1 := by
  unfold wholechars_directive
  split
  · exact ⟨rfl, rfl, rfl⟩
  · split
    · dsimp only
      split <;> split <;> exact ⟨rfl, rfl, rfl⟩
    · split
      · dsimp only
        split <;> split <;> exact ⟨rfl, rfl, rfl⟩
      · dsimp only
        split <;> exact ⟨rfl, rfl, rfl⟩

theorem include_directive_same_last (env : collaborators_t) (st : rules_reader_t) (argc : Nat) :
    same_last st (include_directive env st argc).1 := by
  unfold include_directive
  split
  · exact ⟨rfl, rfl, rfl⟩
  · split <;> exact ⟨rfl, rfl, rfl⟩

theorem define_directive_same_last (st : rules_reader_t) (argc : Nat) :
    same_last st (define_directive st argc).1 := by
  unfold define_directive
  split <;> exact ⟨rfl, rfl, rfl⟩

theorem directive_same_last (env : collaborators_t) (st : rules_reader_t) (argc : Nat)
    (h : arg st.args 0 ≠ some (bytes_of "context")) :
    same_last st (directive env st argc).1 := by
  unfold directive
  split
  · exact ⟨rfl, rfl, rfl⟩
  · rename_i w hw
    have hne : w ≠ bytes_of "context" := fun e => h (by rw [hw, e])
    repeat' first
      | exact ⟨rfl, rfl, rfl⟩
      | exact include_directive_same_last env st argc
      | exact wholechars_directive_same_last st
      | exact keyword_directive_same_last env st
      | exact define_directive_same_last st argc
      | exact absurd ‹w = bytes_of "context"› hne
      | split

theorem keyword_directive_color (env : collaborators_t) (st st1 : rules_reader_t)
    (h : keyword_directive env st = (st1, .next)) :
    ∃ a k, st1.rules = set_last st.rules (add_keyword (st.rules.getLastD new_context) k) ∧
      k.color = this_try_alloc_color_pair env
        (some ((color_args (subst_defines st.defines st.args a) a).1.getD st.last_fg))
        (some ((color_args (subst_defines st.defines st.args a) a).2.1.getD st.last_bg))
        (some ((color_args (subst_defines st.defines st.args a) a).2.2.1.getD st.last_attrs)) := by
  unfold keyword_directive at h
  repeat' first
    | (simp only [break_a, Prod.mk.injEq, and_false, reduceCtorEq] at h; done)
    | (simp only [Prod.mk.injEq, and_true] at h; subst h; exact ⟨_, _, rfl, rfl⟩)
    | split at h
    | dsimp only at h

/-- C14, as amended: `last_fg`, `last_bg` and `last_attrs` are written by `context` lines
only.  A line whose first word is not `context` (a `keyword` line among them)
leaves the three as they are; a `context` line stores its own three colour
arguments, the empty string for one that is missing; and a `keyword` line that
is accepted gets the colour pair of its own arguments, each one that is
missing replaced by the stored value.  So a `keyword` line inherits from the
most recent `context` line, not from an earlier `keyword` line. -/
theorem keyword_inherits_from_context (env : collaborators_t) (args_size : Nat)
    (st : rules_reader_t) :
    (∀ l, arg (line_args args_size st l) 0 ≠ some (bytes_of "context") →
      same_last st (line_body env args_size st l).1) ∧
    (∀ c a, (context_colors env st c a).1.last_fg =
        g_strlcpy ((color_args (subst_defines st.defines st.args a) a).1.getD []) 32 ∧
      (context_colors env st c a).1.last_bg =
        g_strlcpy ((color_args (subst_defines st.defines st.args a) a).2.1.getD []) 32 ∧
      (context_colors env st c a).1.last_attrs =
        g_strlcpy ((color_args (subst_defines st.defines st.args a) a).2.2.1.getD []) 64) ∧
    (∀ st1, keyword_directive env st = (st1, .next) →
      ∃ a k, st1.rules = set_last st.rules (add_keyword (st.rules.getLastD new_context) k) ∧
        k.color = this_try_alloc_color_pair env
          (some ((color_args (subst_defines st.defines st.args a) a).1.getD st.last_fg))
          (some ((color_args (subst_defines st.defines st.args a) a).2.1.getD st.last_bg))
          (some ((color_args (subst_defines st.defines st.args a) a).2.2.1.getD
            st.last_attrs))) := by
  refine ⟨?_, ?_, keyword_directive_color env st⟩
  · intro l hl
    unfold line_body
    exact directive_same_last env _ _ hl
  · intro c a
    unfold context_colors
    dsimp only
    split <;> exact ⟨rfl, rfl, rfl⟩

set_option maxRecDepth 100000 in
/-- C14, witness: the line `keyword a red` read after `context default yellow`. -/
theorem keyword_inherits_from_context_witness :
    same_last yellow_reader
      (line_body example_env (ARGS_LEN - 1) yellow_reader (bytes_of "keyword a red")).1 :=
  (keyword_inherits_from_context example_env (ARGS_LEN - 1) yellow_reader).1
    (bytes_of "keyword a red") (by decide!)

/-- C14, counterexample: in `inherit_rules` the default context is yellow (2) and the
keyword `a` is red (1); the keyword `b`, which gives no colour, gets yellow, not
the red of the `keyword` line before it. -/
theorem keyword_does_not_inherit_from_keyword :
    load_result inherit_rules = 0 ∧
    keyword_colors inherit_rules = [(bytes_of " ", 2), (bytes_of "a", 1), (bytes_of "b", 2)] := by
  decide!

/-! ## Theorems: a define whose expansion does not fit the array (C16) -/

theorem subst_defines_vector_overflow (defines : List (List Nat × List (List Nat)))
    (n : List Nat) (B D : List (List Nat)) (hn : defines_lookup defines n = some D) :
    ∀ (A : List (List Nat)) (cap : Nat), (∀ x ∈ A, defines_lookup defines x = none) →
      cap ≤ A.length + D.length + B.length →
      subst_defines_vector defines cap (A ++ n :: B) = (A ++ n :: B).map some ++ [none] := by
  intro A
  induction A with
  | nil =>
    intro cap _ hover
    cases cap with
    | zero => rfl
    | succ cap =>
      simp only [List.nil_append]
      rw [subst_defines_vector]
      simp only [hn]
      rw [if_pos (by simp only [List.length_nil, zero_add] at hover; omega)]
  | cons x A ih =>
    intro cap hA hover
    cases cap with
    | zero => rfl
    | succ cap =>
      have hx : defines_lookup defines x = none := hA x (List.mem_cons_self _ _)
      simp only [List.cons_append]
      rw [subst_defines_vector]
      simp only [hx]
      rw [ih cap (fun y hy => hA y (List.mem_cons_of_mem _ hy))
        (by simp only [List.length_cons] at hover; omega)]
      simp

theorem strv_split : ∀ (l : List (Option (List Nat))), (strv l).length < l.length →
    l = (strv l).map some ++ none :: l.drop ((strv l).length + 1) := by
  intro l
  induction l with
  | nil => intro h; simp [strv] at h
  | cons x r ih =>
    intro h
    cases x with
    | none => simp [strv]
    | some y =>
      simp only [strv, List.length_cons, Nat.add_lt_add_iff_right] at h
      simp only [strv, List.map_cons, List.cons_append, List.length_cons, List.drop_succ_cons,
        List.cons.injEq, true_and]
      exact ih h

/-- C16, as amended: when the vector at `args[a]` is `A ++ [n] ++ B` with its null terminator
inside the array, no token of `A` is a defined name, the name `n` is defined as the tokens
`D`, and the expansion would not fit (`a + |A| + |D| + |B| >= ARGS_LEN`, the test
`p >= argv_end` of line 223), then `subst_defines` leaves the loop at `n` and the array is
what it was: the name `n` and the arguments behind it are not expanded, and nothing is
reported to the caller. -/
theorem subst_defines_overflow_stops (defines : List (List Nat × List (List Nat)))
    (args : List (Option (List Nat))) (a : Nat) (A B D : List (List Nat)) (n : List Nat)
    (hlen : args.length = ARGS_LEN)
    (hv : strv (args.drop a) = A ++ n :: B)
    (hn : defines_lookup defines n = some D)
    (hA : ∀ x ∈ A, defines_lookup defines x = none)
    (hterm : a + A.length + B.length + 1 < ARGS_LEN)
    (hover : ARGS_LEN ≤ a + A.length + D.length + B.length) :
    subst_defines defines args a = args ∧
    strv ((subst_defines defines args a).drop a) = A ++ n :: B := by
  have hseg := subst_defines_vector_overflow defines n B D hn A (ARGS_LEN - a) hA (by omega)
  have hl : (strv (args.drop a)).length < (args.drop a).length := by
    rw [hv, List.length_drop, hlen]
    simp only [List.length_append, List.length_cons]
    omega
  have hsplit := strv_split (args.drop a) hl
  have hsub : subst_defines defines args a = args := by
    unfold subst_defines store_entries
    rw [hv, hseg]
    rw [hv] at hsplit
    have hd : args.drop (a + ((A ++ n :: B).map some ++ [none]).length)
        = (args.drop a).drop ((A ++ n :: B).length + 1) := by
      rw [List.drop_drop]
      congr 1
      simp only [List.length_append, List.length_map, List.length_cons, List.length_nil]
    rw [hd, List.append_assoc, List.append_assoc, List.singleton_append, ← hsplit]
    exact List.take_append_drop a args
  exact ⟨hsub, by rw [hsub, hv]⟩

set_option maxRecDepth 100000 in
set_option maxHeartbeats 1000000 in
/-- C16, witness: the line `keyword x C bold` with `C` defined as 1021 tokens: the expansion
would end at `args[1024]`, and the array is left as it was, with the name `C` at `args[2]`. -/
theorem subst_defines_overflow_stops_witness :
    subst_defines long_define_table define_args 2 = define_args ∧
    strv ((subst_defines long_define_table define_args 2).drop 2)
      = [] ++ bytes_of "C" :: [bytes_of "bold"] :=
  subst_defines_overflow_stops long_define_table define_args 2 [] [bytes_of "bold"]
    (List.replicate 1021 (bytes_of "r")) (bytes_of "C") (by decide!) (by decide!) (by decide!)
    (by decide) (by decide) (by decide!)

set_option maxRecDepth 1000000 in
/-- C16, counterexample: `overflow_rules` defines `X` as 1021 tokens and uses it at `args[4]`
of a keyword line, so the expansion would end at `args[1025]`, outside the array of 1024
entries.  `edit_read_syntax_rules` does not fail at that line: it returns 0, the define holds
its 1021 tokens, the array still holds the name `X` unexpanded where the colours are read,
and the keyword `p` gets the colour of the foreground `X` (9). -/
theorem define_overflow_not_reported :
    load_result overflow_rules = 0 ∧
    ((load_reader overflow_rules).defines.lookup (bytes_of "X")).map List.length = some 1021 ∧
    (load_reader overflow_rules).args.take 6 =
      [some (bytes_of "keyword"), some (bytes_of "whole"), some (bytes_of "linestart"),
        some (bytes_of "p"), some (bytes_of "X"), none] ∧
    keyword_colors overflow_rules = [(bytes_of " ", 0), (bytes_of "p", 9)] := by
  decide!

/-! ## Theorems: the lines read and the value returned (C13, C18, C19) -/

theorem context_colors_step (env : collaborators_t) (st : rules_reader_t) (c : context_rule_t)
    (a : Nat) (h0 : st.result = 0) :
    step_result st (context_colors env st c a) ∧
    same_stream st (context_colors env st c a).1 := by
  unfold context_colors
  dsimp only
  split
  · exact ⟨Or.inr ⟨rfl, rfl⟩, rfl, rfl, rfl, rfl⟩
  · exact ⟨Or.inl h0, rfl, rfl, rfl, rfl⟩

theorem context_directive_step (env : collaborators_t) (st : rules_reader_t)
    (h0 : st.result = 0) :
    step_result st (context_directive env st) ∧ same_stream st (context_directive env st).1 := by
  unfold context_directive
  repeat' first
    | exact ⟨Or.inr ⟨rfl, rfl⟩, rfl, rfl, rfl, rfl⟩
    | exact context_colors_step env _ _ _ h0
    | split
    | dsimp only

theorem keyword_directive_step (env : collaborators_t) (st : rules_reader_t)
    (h0 : st.result = 0) :
    step_result st (keyword_directive env st) ∧ same_stream st (keyword_directive env st).1 := by
  unfold keyword_directive
  repeat' first
    | exact ⟨Or.inr ⟨rfl, rfl⟩, rfl, rfl, rfl, rfl⟩
    | exact ⟨Or.inl h0, rfl, rfl, rfl, rfl⟩
    | split
    | dsimp only

theorem wholechars_directive_step (st : rules_reader_t) (h0 : st.result = 0) :
    step_result st (wholechars_directive st) ∧ same_stream st (wholechars_directive st).1 := by
  unfold wholechars_directive
  repeat' first
    | exact ⟨Or.inr ⟨rfl, rfl⟩, rfl, rfl, rfl, rfl⟩
    | exact ⟨Or.inl h0, rfl, rfl, rfl, rfl⟩
    | split

theorem define_directive_step (st : rules_reader_t) (argc : Nat) (h0 : st.result = 0) :
    step_result st (define_directive st argc) ∧ same_stream st (define_directive st argc).1 := by
  unfold define_directive
  split
  · exact ⟨Or.inr ⟨rfl, rfl⟩, rfl, rfl, rfl, rfl⟩
  · exact ⟨Or.inl h0, rfl, rfl, rfl, rfl⟩

theorem include_directive_step (env : collaborators_t) (st : rules_reader_t) (argc : Nat)
    (h0 : st.result = 0) :
    step_result st (include_directive env st argc) := by
  unfold include_directive
  split
  · exact Or.inr ⟨rfl, rfl⟩
  · split
    · exact Or.inr ⟨rfl, rfl⟩
    · exact Or.inl h0

theorem directive_step (env : collaborators_t) (st : rules_reader_t) (argc : Nat)
    (h0 : st.result = 0) :
    step_result st (directive env st argc) ∧
    (arg st.args 0 = some (bytes_of "include") ∨ same_stream st (directive env st argc).1) := by
  unfold directive
  split
  · exact ⟨Or.inl h0, Or.inr ⟨rfl, rfl, rfl, rfl⟩⟩
  · rename_i w hw
    split
    · rename_i hinc
      rw [hinc] at hw
      exact ⟨include_directive_step env st argc h0, Or.inl hw⟩
    · repeat' first
        | exact ⟨Or.inr ⟨rfl, rfl⟩, Or.inr ⟨rfl, rfl, rfl, rfl⟩⟩
        | exact ⟨Or.inl h0, Or.inr ⟨rfl, rfl, rfl, rfl⟩⟩
        | exact ⟨(context_directive_step env st h0).1,
            Or.inr (context_directive_step env st h0).2⟩
        | exact ⟨(keyword_directive_step env st h0).1,
            Or.inr (keyword_directive_step env st h0).2⟩
        | exact ⟨(wholechars_directive_step st h0).1,
            Or.inr (wholechars_directive_step st h0).2⟩
        | exact ⟨(define_directive_step st argc h0).1,
            Or.inr (define_directive_step st argc h0).2⟩
        | split

theorem line_body_step (env : collaborators_t) (args_size : Nat) (st : rules_reader_t)
    (l : List Nat) (h0 : st.result = 0) :
    step_result st (line_body env args_size st l) ∧
    (arg (line_args args_size st l) 0 = some (bytes_of "include") ∨
      same_stream st (line_body env args_size st l).1) := by
  unfold line_body
  exact directive_step env _ _ h0

theorem step_result_next (st : rules_reader_t) (r : rules_reader_t × flow_t)
    (h : step_result st r) (hn : r.2 = .next) : r.1.result = 0 := by
  rcases h with h | ⟨_, h⟩
  · exact h
  · rw [hn] at h
    exact flow_t.noConfusion h

theorem included_lines_inv (env : collaborators_t) (args_size : Nat) :
    ∀ (k : Nat) (st : rules_reader_t), st.result = 0 →
      ∀ x ∈ included_lines env args_size k st, x.1.result = 0 ∧ 1 ≤ x.1.line := by
  intro k
  induction k with
  | zero => intro st _ x hx; simp [included_lines] at hx
  | succ k ih =>
    intro st h0 x hx
    rw [included_lines] at hx
    simp only at hx
    split at hx
    · simp at hx
    · have hs := (line_body_step env args_size
        { st with line := st.line + 1, f := (read_one_line st.f).2.2 } (read_one_line st.f).2.1
        h0).1
      rcases hlb : line_body env args_size
        { st with line := st.line + 1, f := (read_one_line st.f).2.2 }
        (read_one_line st.f).2.1 with ⟨st2, fl⟩
      rw [hlb] at hx hs
      rcases List.mem_cons.1 hx with hx | hx
      · subst hx
        exact ⟨h0, by simp⟩
      · cases fl with
        | stop => simp at hx
        | next => exact ih st2 (step_result_next _ _ hs rfl) x hx

theorem included_loop_result (env : collaborators_t) (args_size : Nat) :
    ∀ (k : Nat) (st : rules_reader_t), st.result = 0 →
      (included_loop env args_size k st).2 = .next →
        (included_loop env args_size k st).1.result = 0 := by
  intro k st h0
  exact (included_loop_inv env args_size (fun _ _ _ => True)
    (fun st argc _ h0 _ =>
      ⟨fun hn => step_result_next _ _ (directive_step env st argc h0).1 hn, fun _ => trivial⟩)
    k st h0 trivial).1

theorem resume_parent_result (env : collaborators_t) (args_size : Nat) (st : rules_reader_t)
    (h0 : st.result = 0) (hn : (resume_parent env args_size st).2 = .next) :
    (resume_parent env args_size st).1.result = 0 :=
  (resume_parent_inv env args_size (fun _ _ _ => True)
    (fun st argc _ h0 _ =>
      ⟨fun hn => step_result_next _ _ (directive_step env st argc h0).1 hn, fun _ => trivial⟩)
    st h0 trivial).1 hn

theorem resume_lines_inv (st : rules_reader_t) (h0 : st.result = 0) :
    ∀ x ∈ resume_lines st, x.1.result = 0 ∧ 1 ≤ x.1.line := by
  intro x hx
  unfold resume_lines at hx
  split at hx
  · simp at hx
  · simp only at hx
    split at hx
    · simp at hx
    · simp only [List.mem_singleton] at hx
      subst hx
      exact ⟨h0, by simp⟩

theorem rules_lines_inv (env : collaborators_t) (args_size : Nat) :
    ∀ (k : Nat) (st : rules_reader_t), st.result = 0 →
      ∀ x ∈ rules_lines env args_size k st, x.1.result = 0 ∧ 1 ≤ x.1.line := by
  intro k
  induction k with
  | zero => intro st _ x hx; simp [rules_lines] at hx
  | succ k ih =>
    intro st h0 x hx
    rw [rules_lines] at hx
    split at hx
    · have hi := included_loop_result env args_size (st.f.length + 1) st h0
      rcases List.mem_append.1 hx with hx | hx
      · exact included_lines_inv env args_size _ st h0 x hx
      · rcases hil : included_loop env args_size (st.f.length + 1) st with ⟨st1, fl⟩
        rw [hil] at hx hi
        cases fl with
        | stop => simp at hx
        | next =>
          have h1 : st1.result = 0 := hi rfl
          rcases List.mem_append.1 hx with hx | hx
          · exact resume_lines_inv st1 h1 x hx
          · have hr := resume_parent_result env args_size st1 h1
            rcases hrp : resume_parent env args_size st1 with ⟨st2, fl2⟩
            rw [hrp] at hx hr
            cases fl2 with
            | stop => simp at hx
            | next => exact ih st2 (hr rfl) x hx
    · simp only at hx
      split at hx
      · simp at hx
      · have hs := (line_body_step env args_size
          { st with line := st.line + 1, f := (read_one_line st.f).2.2 }
          (read_one_line st.f).2.1 h0).1
        rcases hlb : line_body env args_size
          { st with line := st.line + 1, f := (read_one_line st.f).2.2 }
          (read_one_line st.f).2.1 with ⟨st2, fl⟩
        rw [hlb] at hx hs
        rcases List.mem_cons.1 hx with hx | hx
        · subst hx
          exact ⟨h0, by simp⟩
        · cases fl with
          | stop => simp at hx
          | next => exact ih st2 (step_result_next _ _ hs rfl) x hx

theorem included_loop_stop (env : collaborators_t) (args_size : Nat) :
    ∀ (k : Nat) (st : rules_reader_t), ∀ x ∈ included_lines env args_size k st,
      (line_body env args_size x.1 x.2).2 = .stop →
        included_loop env args_size k st = ((line_body env args_size x.1 x.2).1, .stop) := by
  intro k
  induction k with
  | zero => intro st x hx; simp [included_lines] at hx
  | succ k ih =>
    intro st x hx hstop
    rw [included_lines] at hx
    rw [included_loop]
    simp only at hx ⊢
    split at hx
    · simp at hx
    · rename_i hr
      rw [if_neg hr]
      rcases List.mem_cons.1 hx with hx1 | hx1
      · subst hx1
        rcases hlb : line_body env args_size
          { st with line := st.line + 1, f := (read_one_line st.f).2.2 }
          (read_one_line st.f).2.1 with ⟨st2, fl⟩
        simp only at hstop
        rw [hlb] at hstop
        simp only at hstop
        subst hstop
        rfl
      · rcases hlb : line_body env args_size
          { st with line := st.line + 1, f := (read_one_line st.f).2.2 }
          (read_one_line st.f).2.1 with ⟨st2, fl⟩
        rw [hlb] at hx1
        cases fl with
        | stop => simp at hx1
        | next => exact ih st2 x hx1 hstop

theorem resume_parent_lines (env : collaborators_t) (args_size : Nat) (st : rules_reader_t) :
    ∀ x ∈ resume_lines st,
      resume_parent env args_size st = line_body env args_size x.1 x.2 := by
  intro x hx
  unfold resume_lines at hx
  unfold resume_parent
  split at hx
  · simp at hx
  · simp only at hx ⊢
    split at hx
    · simp at hx
    · rename_i hr
      rw [if_neg hr]
      simp only [List.mem_singleton] at hx
      subst hx
      rfl

theorem rules_loop_stop (env : collaborators_t) (args_size : Nat) :
    ∀ (k : Nat) (st : rules_reader_t), ∀ x ∈ rules_lines env args_size k st,
      (line_body env args_size x.1 x.2).2 = .stop →
        rules_loop env args_size k st = (line_body env args_size x.1 x.2).1 := by
  intro k
  induction k with
  | zero => intro st x hx; simp [rules_lines] at hx
  | succ k ih =>
    intro st x hx hstop
    rw [rules_lines] at hx
    rw [rules_loop]
    split at hx
    · rcases List.mem_append.1 hx with hx1 | hx1
      · rw [included_loop_stop env args_size _ st x hx1 hstop]
      · rcases hil : included_loop env args_size (st.f.length + 1) st with ⟨st1, fl⟩
        rw [hil] at hx1
        cases fl with
        | stop => simp at hx1
        | next =>
          simp only at hx1 ⊢
          rcases List.mem_append.1 hx1 with hx2 | hx2
          · have hrp := resume_parent_lines env args_size st1 x hx2
            rw [hrp]
            rcases hlb : line_body env args_size x.1 x.2 with ⟨st2, fl2⟩
            rw [hlb] at hstop
            simp only at hstop
            subst hstop
            rfl
          · rcases hrp : resume_parent env args_size st1 with ⟨st2, fl2⟩
            rw [hrp] at hx2
            cases fl2 with
            | stop => simp at hx2
            | next => exact ih st2 x hx2 hstop
    · simp only at hx ⊢
      split at hx
      · simp at hx
      · rename_i hr
        rw [if_neg hr]
        rcases List.mem_cons.1 hx with hx1 | hx1
        · subst hx1
          rcases hlb : line_body env args_size
            { st with line := st.line + 1, f := (read_one_line st.f).2.2 }
            (read_one_line st.f).2.1 with ⟨st2, fl⟩
          simp only at hstop
          rw [hlb] at hstop
          simp only at hstop
          subst hstop
          rfl
        · rcases hlb : line_body env args_size
            { st with line := st.line + 1, f := (read_one_line st.f).2.2 }
            (read_one_line st.f).2.1 with ⟨st2, fl⟩
          rw [hlb] at hx1
          cases fl with
          | stop => simp at hx1
          | next => exact ih st2 x hx1 hstop

theorem included_loop_accepts (env : collaborators_t) (args_size : Nat) :
    ∀ (k : Nat) (st : rules_reader_t), st.result = 0 →
      (∀ x ∈ included_lines env args_size k st, ¬ rejected env args_size x) →
        (included_loop env args_size k st).1.result = 0 := by
  intro k
  induction k with
  | zero => intro st h0 _; exact h0
  | succ k ih =>
    intro st h0 hacc
    rw [included_lines] at hacc
    rw [included_loop]
    simp only at hacc ⊢
    split
    · exact h0
    · rename_i hr
      rw [if_neg hr] at hacc
      have hhead := hacc _ (List.mem_cons_self _ _)
      unfold rejected at hhead
      simp only [ne_eq, not_not] at hhead
      rcases hlb : line_body env args_size
        { st with line := st.line + 1, f := (read_one_line st.f).2.2 }
        (read_one_line st.f).2.1 with ⟨st2, fl⟩
      rw [hlb] at hacc hhead
      cases fl with
      | stop => exact hhead
      | next => exact ih st2 hhead (fun x hx => hacc x (List.mem_cons_of_mem _ hx))

theorem resume_parent_accepts (env : collaborators_t) (args_size : Nat) (st : rules_reader_t)
    (h0 : st.result = 0) (hacc : ∀ x ∈ resume_lines st, ¬ rejected env args_size x) :
    (resume_parent env args_size st).1.result = 0 := by
  unfold resume_lines at hacc
  unfold resume_parent
  rcases hg : st.g with _ | parent
  · exact h0
  · simp only [hg] at hacc ⊢
    by_cases hr : (read_one_line parent).1 = 0
    · rw [if_pos hr]
      exact h0
    · rw [if_neg hr] at hacc ⊢
      have h1 := hacc _ (List.mem_singleton_self _)
      unfold rejected at h1
      simpa using h1

theorem rules_loop_accepts (env : collaborators_t) (args_size : Nat) :
    ∀ (k : Nat) (st : rules_reader_t), st.result = 0 →
      (∀ x ∈ rules_lines env args_size k st, ¬ rejected env args_size x) →
        (rules_loop env args_size k st).result = 0 := by
  intro k
  induction k with
  | zero => intro st h0 _; exact h0
  | succ k ih =>
    intro st h0 hacc
    rw [rules_lines] at hacc
    rw [rules_loop]
    rcases hg : st.g with _ | parent
    · simp only [hg] at hacc ⊢
      split
      · exact h0
      · rename_i hr
        rw [if_neg hr] at hacc
        have hhead := hacc _ (List.mem_cons_self _ _)
        unfold rejected at hhead
        simp only [ne_eq, not_not] at hhead
        rcases hlb : line_body env args_size
          { st with line := st.line + 1, f := (read_one_line st.f).2.2, g := none }
          (read_one_line st.f).2.1 with ⟨st2, fl⟩
        rw [hlb] at hacc hhead
        cases fl with
        | stop => exact hhead
        | next => exact ih st2 hhead (fun x hx => hacc x (List.mem_cons_of_mem _ hx))
    · simp only [hg] at hacc ⊢
      have hi := included_loop_accepts env args_size (st.f.length + 1) st h0
        (fun x hx => hacc x (List.mem_append_left _ hx))
      rcases hil : included_loop env args_size (st.f.length + 1) st with ⟨st1, fl⟩
      rw [hil] at hacc hi
      cases fl with
      | stop => exact hi
      | next =>
        simp only at hacc hi ⊢
        have hacc2 := fun x hx => hacc x (List.mem_append_right _ hx)
        have hr : (resume_parent env args_size st1).1.result = 0 :=
          resume_parent_accepts env args_size st1 hi
            (fun x hx => hacc2 x (List.mem_append_left _ hx))
        rcases hrp : resume_parent env args_size st1 with ⟨st2, fl2⟩
        rw [hrp] at hacc2 hr
        cases fl2 with
        | stop => exact hr
        | next => exact ih st2 hr (fun x hx => hacc2 x (List.mem_append_right _ hx))

theorem included_lines_last (env : collaborators_t) (args_size : Nat) :
    ∀ (k : Nat) (st : rules_reader_t), ∀ x ∈ included_lines env args_size k st,
      (line_body env args_size x.1 x.2).2 = .stop →
        ∃ pre, included_lines env args_size k st = pre ++ [x] := by
  intro k
  induction k with
  | zero => intro st x hx; simp [included_lines] at hx
  | succ k ih =>
    intro st x hx hstop
    rw [included_lines] at hx ⊢
    simp only at hx ⊢
    split at hx
    · simp at hx
    · rename_i hr
      rw [if_neg hr]
      rcases hlb : line_body env args_size
        { st with line := st.line + 1, f := (read_one_line st.f).2.2 }
        (read_one_line st.f).2.1 with ⟨st2, fl⟩
      rw [hlb] at hx
      rcases List.mem_cons.1 hx with hx1 | hx1
      · subst hx1
        simp only at hstop
        rw [hlb] at hstop
        simp only at hstop
        subst hstop
        exact ⟨[], rfl⟩
      · cases fl with
        | stop => simp at hx1
        | next =>
          obtain ⟨pre, hpre⟩ := ih st2 x hx1 hstop
          simp only
          rw [hpre]
          exact ⟨_ :: pre, rfl⟩

theorem rules_lines_last (env : collaborators_t) (args_size : Nat) :
    ∀ (k : Nat) (st : rules_reader_t), ∀ x ∈ rules_lines env args_size k st,
      (line_body env args_size x.1 x.2).2 = .stop →
        ∃ pre, rules_lines env args_size k st = pre ++ [x] := by
  intro k
  induction k with
  | zero => intro st x hx; simp [rules_lines] at hx
  | succ k ih =>
    intro st x hx hstop
    rw [rules_lines] at hx ⊢
    split at hx
    · rcases List.mem_append.1 hx with hx1 | hx1
      · obtain ⟨pre, hpre⟩ := included_lines_last env args_size _ st x hx1 hstop
        rw [included_loop_stop env args_size _ st x hx1 hstop]
        simp only [List.append_nil]
        exact ⟨pre, hpre⟩
      · rcases hil : included_loop env args_size (st.f.length + 1) st with ⟨st1, fl⟩
        rw [hil] at hx1
        cases fl with
        | stop => simp at hx1
        | next =>
          simp only at hx1 ⊢
          rcases List.mem_append.1 hx1 with hx2 | hx2
          · have hrp := resume_parent_lines env args_size st1 x hx2
            rcases hlb : line_body env args_size x.1 x.2 with ⟨st2, fl2⟩
            rw [hlb] at hstop hrp
            simp only at hstop
            subst hstop
            rw [hrp]
            simp only [List.append_nil]
            have hrl : resume_lines st1 = [x] := by
              unfold resume_lines at hx2 ⊢
              split at hx2
              · simp at hx2
              · simp only at hx2 ⊢
                split at hx2
                · simp at hx2
                · rename_i hne
                  rw [if_neg hne]
                  simp only [List.mem_singleton] at hx2
                  rw [hx2]
            rw [hrl]
            exact ⟨_, rfl⟩
          · rcases hrp : resume_parent env args_size st1 with ⟨st2, fl2⟩
            rw [hrp] at hx2
            cases fl2 with
            | stop => simp at hx2
            | next =>
              obtain ⟨pre, hpre⟩ := ih st2 x hx2 hstop
              simp only
              rw [hpre]
              exact ⟨included_lines env args_size (st.f.length + 1) st ++
                (resume_lines st1 ++ pre), by simp⟩
    · simp only at hx ⊢
      split at hx
      · simp at hx
      · rename_i hr
        rw [if_neg hr]
        rcases hlb : line_body env args_size
          { st with line := st.line + 1, f := (read_one_line st.f).2.2 }
          (read_one_line st.f).2.1 with ⟨st2, fl⟩
        rw [hlb] at hx
        rcases List.mem_cons.1 hx with hx1 | hx1
        · subst hx1
          simp only at hstop
          rw [hlb] at hstop
          simp only at hstop
          subst hstop
          exact ⟨[], rfl⟩
        · cases fl with
          | stop => simp at hx1
          | next =>
            obtain ⟨pre, hpre⟩ := ih st2 x hx1 hstop
            simp only
            rw [hpre]
            exact ⟨_ :: pre, rfl⟩

theorem included_lines_inv_of (env : collaborators_t) (args_size : Nat)
    (Q : Bool → Bool → List context_rule_t → Prop)
    (hdir : ∀ st argc, 1 ≤ st.line → st.result = 0 → Q st.no_words st.c st.rules →
      flow_ok Q (directive env st argc)) :
    ∀ (k : Nat) (st : rules_reader_t), st.result = 0 → Q st.no_words st.c st.rules →
      ∀ x ∈ included_lines env args_size k st, Q x.1.no_words x.1.c x.1.rules := by
  intro k
  induction k with
  | zero => intro st _ _ x hx; simp [included_lines] at hx
  | succ k ih =>
    intro st h0 hQ x hx
    rw [included_lines] at hx
    simp only at hx
    split at hx
    · simp at hx
    · have hb := line_body_inv env args_size Q hdir
        { st with line := st.line + 1, f := (read_one_line st.f).2.2 } (read_one_line st.f).2.1
        (by simp) h0 hQ
      rcases hlb : line_body env args_size
        { st with line := st.line + 1, f := (read_one_line st.f).2.2 }
        (read_one_line st.f).2.1 with ⟨st2, fl⟩
      rw [hlb] at hx hb
      rcases List.mem_cons.1 hx with hx | hx
      · subst hx
        exact hQ
      · cases fl with
        | stop => simp at hx
        | next => exact ih st2 (hb.1 rfl) (hb.2 (hb.1 rfl)) x hx

theorem rules_lines_inv_of (env : collaborators_t) (args_size : Nat)
    (Q : Bool → Bool → List context_rule_t → Prop)
    (hdir : ∀ st argc, 1 ≤ st.line → st.result = 0 → Q st.no_words st.c st.rules →
      flow_ok Q (directive env st argc)) :
    ∀ (k : Nat) (st : rules_reader_t), st.result = 0 → Q st.no_words st.c st.rules →
      ∀ x ∈ rules_lines env args_size k st, Q x.1.no_words x.1.c x.1.rules := by
  intro k
  induction k with
  | zero => intro st _ _ x hx; simp [rules_lines] at hx
  | succ k ih =>
    intro st h0 hQ x hx
    rw [rules_lines] at hx
    split at hx
    · have hi := included_loop_inv env args_size Q hdir (st.f.length + 1) st h0 hQ
      rcases List.mem_append.1 hx with hx | hx
      · exact included_lines_inv_of env args_size Q hdir _ st h0 hQ x hx
      · rcases hil : included_loop env args_size (st.f.length + 1) st with ⟨st1, fl⟩
        rw [hil] at hx hi
        cases fl with
        | stop => simp at hx
        | next =>
          have h1 : st1.result = 0 := hi.1 rfl
          have hQ1 := hi.2 h1
          rcases List.mem_append.1 hx with hx | hx
          · unfold resume_lines at hx
            split at hx
            · simp at hx
            · simp only at hx
              split at hx
              · simp at hx
              · simp only [List.mem_singleton] at hx
                subst hx
                exact hQ1
          · have hr := resume_parent_inv env args_size Q hdir st1 h1 hQ1
            rcases hrp : resume_parent env args_size st1 with ⟨st2, fl2⟩
            rw [hrp] at hx hr
            cases fl2 with
            | stop => simp at hx
            | next => exact ih st2 (hr.1 rfl) (hr.2 (hr.1 rfl)) x hx
    · simp only at hx
      split at hx
      · simp at hx
      · have hb := line_body_inv env args_size Q hdir
          { st with line := st.line + 1, f := (read_one_line st.f).2.2 }
          (read_one_line st.f).2.1 (by simp) h0 hQ
        rcases hlb : line_body env args_size
          { st with line := st.line + 1, f := (read_one_line st.f).2.2 }
          (read_one_line st.f).2.1 with ⟨st2, fl⟩
        rw [hlb] at hx hb
        rcases List.mem_cons.1 hx with hx | hx
        · subst hx
          exact hQ
        · cases fl with
          | stop => simp at hx
          | next => exact ih st2 (hb.1 rfl) (hb.2 (hb.1 rfl)) x hx

theorem directive_empty_flags (env : collaborators_t) (st : rules_reader_t) (argc : Nat)
    (h1 : 1 ≤ st.line) (h0 : st.result = 0) (hQ : empty_flags st.no_words st.c st.rules) :
    flow_ok empty_flags (directive env st argc) := by
  refine directive_ok empty_flags env st argc h1 h0 hQ ?_ ?_ ?_
  · intro c k _ h
    simp at h
  · intro _ k h
    exact absurd h (set_last_ne_nil _ _)
  · intro _ h
    exact absurd h (set_last_ne_nil _ _)

theorem compile_lines_inv (env : collaborators_t) (edit : WEdit) (f : List Nat)
    (args : List (Option (List Nat))) (args_size : Nat) :
    ∀ x ∈ compile_lines env edit f args args_size,
      x.1.result = 0 ∧ 1 ≤ x.1.line ∧
      (x.1.rules = [] → x.1.no_words = true ∧ x.1.c = false) := by
  intro x hx
  have h1 := rules_lines_inv env args_size (f.length + 1) (initial_reader edit f args) rfl x hx
  have h2 := rules_lines_inv_of env args_size empty_flags (directive_empty_flags env)
    (f.length + 1) (initial_reader edit f args) rfl (fun _ => ⟨rfl, rfl⟩) x hx
  exact ⟨h1.1, h1.2, h2⟩

theorem compile_result_rejected (env : collaborators_t) (edit : WEdit) (f : List Nat)
    (args : List (Option (List Nat))) (args_size : Nat)
    (x : rules_reader_t × List Nat) (hx : x ∈ compile_lines env edit f args args_size)
    (hrej : rejected env args_size x) :
    (edit_read_syntax_rules env edit f args args_size).1 = x.1.line ∧ 1 ≤ x.1.line ∧
    ∃ pre, compile_lines env edit f args args_size = pre ++ [x] := by
  have hinv := compile_lines_inv env edit f args args_size x hx
  have hs := (line_body_step env args_size x.1 x.2 hinv.1).1
  unfold rejected at hrej
  rcases hs with hs | ⟨hres, hstop⟩
  · exact absurd hs hrej
  · have hfin := rules_loop_stop env args_size _ _ x hx hstop
    refine ⟨?_, hinv.2.1, rules_lines_last env args_size _ _ x hx hstop⟩
    unfold edit_read_syntax_rules
    simp only
    rw [hfin]
    have hne : (line_body env args_size x.1 x.2).1.result ≠ 0 := hrej
    split
    · exact hres
    · exact hres

theorem compile_result_accepted (env : collaborators_t) (edit : WEdit) (f : List Nat)
    (args : List (Option (List Nat))) (args_size : Nat)
    (hacc : ∀ x ∈ compile_lines env edit f args args_size, ¬ rejected env args_size x) :
    ((edit_read_syntax_rules env edit f args args_size).2.1.rules ≠ none →
      (edit_read_syntax_rules env edit f args args_size).1 = 0) ∧
    ((edit_read_syntax_rules env edit f args args_size).2.1.rules = none →
      (edit_read_syntax_rules env edit f args args_size).1 =
        (edit_read_syntax_rules env edit f args args_size).2.2.line) := by
  have h0 := rules_loop_accepts env args_size (f.length + 1) (initial_reader edit f args) rfl hacc
  unfold edit_read_syntax_rules
  simp only
  split
  · exact ⟨fun h => absurd rfl h, fun _ => rfl⟩
  · exact ⟨fun _ => rfl, fun h => Option.noConfusion h⟩

/-! ## Theorems: the value that `edit_read_syntax_rules` returns (C13) -/

theorem text_lines_succ (n : Nat) (f : List Nat) (h : (read_one_line f).1 ≠ 0) :
    text_lines (n + 1) f = (read_one_line f).2.1 :: text_lines n (read_one_line f).2.2 := by
  rw [text_lines, if_neg h]

theorem rules_lines_numbering (env : collaborators_t) (args_size : Nat) :
    ∀ (k : Nat) (st : rules_reader_t), st.g = none → st.result = 0 →
      (∀ x ∈ rules_lines env args_size k st,
        arg (line_args args_size x.1 x.2) 0 ≠ some (bytes_of "include")) →
      ∀ i x, (rules_lines env args_size k st).get? i = some x →
        x.1.line = st.line + i + 1 ∧ (text_lines k st.f).get? i = some x.2 := by
  intro k
  induction k with
  | zero => intro st _ _ _ i x hx; simp [rules_lines] at hx
  | succ k ih =>
    intro st hg h0 hinc i x hx
    rw [rules_lines] at hx hinc
    simp only [hg] at hx hinc
    by_cases hr : (read_one_line st.f).1 = 0
    · rw [if_pos hr] at hx
      simp at hx
    · rw [if_neg hr] at hx hinc
      rw [text_lines_succ k st.f hr]
      have hhead := hinc _ (List.mem_cons_self _ _)
      have hs := line_body_step env args_size
        { st with line := st.line + 1, f := (read_one_line st.f).2.2, g := none }
        (read_one_line st.f).2.1 h0
      rcases hlb : line_body env args_size
        { st with line := st.line + 1, f := (read_one_line st.f).2.2, g := none }
        (read_one_line st.f).2.1 with ⟨st2, fl⟩
      rw [hlb] at hx hinc hs
      cases i with
      | zero =>
        simp only [List.get?_cons_zero, Option.some.injEq] at hx
        subst hx
        exact ⟨by simp, rfl⟩
      | succ j =>
        simp only [List.get?_cons_succ] at hx
        cases fl with
        | stop => simp at hx
        | next =>
          simp only at hx hinc
          have hsame : same_stream _ st2 := hs.2.resolve_left hhead
          obtain ⟨e1, e2, e3, _⟩ := hsame
          simp only at e1 e2 e3
          have h20 : st2.result = 0 := step_result_next _ _ hs.1 rfl
          have hrec := ih st2 e1 h20 (fun y hy => hinc y (List.mem_cons_of_mem _ hy)) j x hx
          rw [e2, e3] at hrec
          refine ⟨by omega, ?_⟩
          simp only [List.get?_cons_succ]
          exact hrec.2

theorem unknown_word_rejected (env : collaborators_t) (st : rules_reader_t) (argc : Nat)
    (w : List Nat) (hw : arg st.args 0 = some w) (hn : w ∉ directive_words)
    (hc : w.headD 0 ≠ 35) : directive env st argc = break_a st := by
  simp only [directive_words, List.mem_cons, List.mem_singleton, List.not_mem_nil, or_false,
    not_or] at hn
  obtain ⟨h1, h2, h3, h4, h5, h6, h7, h8⟩ := hn
  unfold directive
  rw [hw]
  simp only
  rw [if_neg h1, if_neg h2, if_neg h3, if_neg h4, if_neg h5, if_neg h6, if_neg hc, if_neg h7,
    if_neg h8]

theorem missing_argument_rejected (env : collaborators_t) (st : rules_reader_t) (argc : Nat)
    (w : List Nat) (hw : arg st.args 0 = some w)
    (hm : w = bytes_of "wholechars" ∨ w = bytes_of "context" ∨
      (w = bytes_of "keyword" ∧ st.no_words = false))
    (h1 : arg st.args 1 = none) : directive env st argc = break_a st := by
  unfold directive
  rw [hw]
  simp only
  rcases hm with h | h | ⟨h, hnw⟩
  · subst h
    rw [if_neg (by decide), if_neg (by decide), if_pos rfl]
    unfold wholechars_directive
    rw [h1]
  · subst h
    rw [if_neg (by decide), if_neg (by decide), if_neg (by decide), if_pos rfl]
    unfold context_directive
    rw [if_pos h1]
  · subst h
    rw [if_neg (by decide), if_neg (by decide), if_neg (by decide), if_neg (by decide),
      if_neg (by decide), if_pos rfl]
    unfold keyword_directive
    rw [if_neg (by simp [hnw]), if_pos h1]

theorem break_a_rejected (env : collaborators_t) (args_size : Nat)
    (x : rules_reader_t × List Nat) (h1 : 1 ≤ x.1.line)
    (h : directive env { x.1 with args := line_args args_size x.1 x.2 }
        (line_argc args_size x.1 x.2) =
      break_a { x.1 with args := line_args args_size x.1 x.2 }) :
    rejected env args_size x := by
  unfold rejected line_body
  have e : directive env
      { x.1 with args := (get_args (xx_lowerize_line x.1.is_case_insensitive (c_str x.2))
        x.1.args args_size).2 }
      (get_args (xx_lowerize_line x.1.is_case_insensitive (c_str x.2)) x.1.args args_size).1
      = break_a { x.1 with args := line_args args_size x.1 x.2 } := h
  simp only
  rw [e]
  simp only [break_a]
  omega

/-- The value returned for a text in which no line read is an `include` line: the lines
are read in order and numbered from 1; the value returned is the number of
the line at which the chain of directives sets `result`, which is the last
line read (all lines before it were accepted); when no line read does so and
a context is defined, the value is 0.  A line whose first word is not one of
the eight directive words and does not start with `#`, and a `wholechars`, `context`
or `keyword` line without any argument, set `result`. -/
theorem result_is_rejected_line (env : collaborators_t) (edit : WEdit) (f : List Nat)
    (args : List (Option (List Nat))) (args_size : Nat)
    (hinc : ∀ x ∈ compile_lines env edit f args args_size,
      arg (line_args args_size x.1 x.2) 0 ≠ some (bytes_of "include")) :
    (∀ i x, (compile_lines env edit f args args_size).get? i = some x →
      x.1.line = i + 1 ∧ (text_lines (f.length + 1) f).get? i = some x.2) ∧
    (∀ x ∈ compile_lines env edit f args args_size, rejected env args_size x →
      (edit_read_syntax_rules env edit f args args_size).1 = x.1.line ∧
      (compile_lines env edit f args args_size).length = x.1.line) ∧
    ((∀ x ∈ compile_lines env edit f args args_size, ¬ rejected env args_size x) →
      (edit_read_syntax_rules env edit f args args_size).2.1.rules ≠ none →
      (edit_read_syntax_rules env edit f args args_size).1 = 0) ∧
    (∀ x ∈ compile_lines env edit f args args_size, ∀ w,
      arg (line_args args_size x.1 x.2) 0 = some w → w ∉ directive_words →
      w.headD 0 ≠ 35 →
      rejected env args_size x) ∧
    (∀ x ∈ compile_lines env edit f args args_size, ∀ w,
      arg (line_args args_size x.1 x.2) 0 = some w →
      w = bytes_of "wholechars" ∨ w = bytes_of "context" ∨ w = bytes_of "keyword" →
      arg (line_args args_size x.1 x.2) 1 = none → rejected env args_size x) := by
  have hnum := rules_lines_numbering env args_size (f.length + 1) (initial_reader edit f args)
    rfl rfl hinc
  refine ⟨?_, ?_, ?_, ?_, ?_⟩
  · intro i x hx
    have h := hnum i x hx
    exact ⟨by have := h.1; simp only [initial_reader] at this; omega, h.2⟩
  · intro x hx hrej
    obtain ⟨h1, _, pre, hpre⟩ := compile_result_rejected env edit f args args_size x hx hrej
    refine ⟨h1, ?_⟩
    have hget : (compile_lines env edit f args args_size).get? pre.length = some x := by
      rw [hpre]
      simp
    have h := (hnum pre.length x hget).1
    simp only [initial_reader] at h
    rw [hpre]
    simp only [List.length_append, List.length_singleton]
    omega
  · intro hacc
    exact (compile_result_accepted env edit f args args_size hacc).1
  · intro x hx w hw hn hc
    have hinv := compile_lines_inv env edit f args args_size x hx
    exact break_a_rejected env args_size x hinv.2.1
      (unknown_word_rejected env _ _ w hw hn hc)
  · intro x hx w hw hm h1
    have hinv := compile_lines_inv env edit f args args_size x hx
    by_cases hk : w = bytes_of "keyword" ∧ x.1.no_words = true
    · refine break_a_rejected env args_size x hinv.2.1 ?_
      unfold directive
      have hw1 : arg ({ x.1 with args := line_args args_size x.1 x.2 } : rules_reader_t).args 0
          = some w := hw
      rw [hw1]
      simp only
      rw [hk.1, if_neg (by decide), if_neg (by decide), if_neg (by decide), if_neg (by decide),
        if_neg (by decide), if_pos rfl]
      unfold keyword_directive
      rw [if_pos hk.2]
    · refine break_a_rejected env args_size x hinv.2.1
        (missing_argument_rejected env _ _ w hw ?_ h1)
      rcases hm with h | h | h
      · exact Or.inl h
      · exact Or.inr (Or.inl h)
      · refine Or.inr (Or.inr ⟨h, ?_⟩)
        cases hnw : x.1.no_words with
        | false => rfl
        | true => exact absurd ⟨h, hnw⟩ hk

set_option maxRecDepth 100000 in
/-- Example: `bogus_rules`, whose second line has an unknown directive word, returns 2. -/
theorem result_is_rejected_line_witness :
    ((edit_read_syntax_rules example_env (fresh_edit []) bogus_rules null_args (ARGS_LEN - 1)).1
        = (last_line example_env bogus_rules).1.line ∧
      (compile_lines example_env (fresh_edit []) bogus_rules null_args (ARGS_LEN - 1)).length
        = (last_line example_env bogus_rules).1.line) ∧
    (last_line example_env bogus_rules).1.line = 2 :=
  ⟨(result_is_rejected_line example_env (fresh_edit []) bogus_rules null_args (ARGS_LEN - 1)
      (by decide!)).2.1 (last_line example_env bogus_rules) (by decide!) (by decide!),
    by decide!⟩

set_option maxRecDepth 100000 in
/-- Lines that are not examined or not rejected: in `file_rules` the third line has an
unknown directive word, but reading ends at the `file` line before it and the value
returned is 0; in `wholechars_rules` the line `wholechars left` lacks its character set, the
value returned is 0 and the left set is the one it was. -/
theorem invalid_lines_accepted :
    load_result file_rules = 0 ∧
    (compile_lines example_env (fresh_edit []) file_rules null_args (ARGS_LEN - 1)).length = 2 ∧
    (text_lines (file_rules.length + 1) file_rules).get? 2 = some (bytes_of "bogus") ∧
    load_result wholechars_rules = 0 ∧
    (load_reader wholechars_rules).whole_left = default_whole_chars := by
  decide!

set_option maxRecDepth 100000 in
/-- C13, failing input: the rule text `wholechars_rules`, whose line 2 is `wholechars left`
without the character set.  The line is read with `args[2]` null, the null pointer is
handed to `g_strlcpy` (the left set stays what it was), both lines are read, and
`edit_read_syntax_rules` returns 0 instead of 2.  In `wholechars_stale_rules` the same line
stands behind a context line of four words, whose last word is still at `args[3]`, and
there the value returned is 2. -/
theorem wholechars_left_without_set :
    load_result wholechars_rules = 0 ∧
    (text_lines (wholechars_rules.length + 1) wholechars_rules).get? 1
      = some (bytes_of "wholechars left") ∧
    (load_reader wholechars_rules).args.take 4
      = [some (bytes_of "wholechars"), some (bytes_of "left"), none, none] ∧
    (load_reader wholechars_rules).whole_left = default_whole_chars ∧
    (compile_lines example_env (fresh_edit []) wholechars_rules null_args
      (ARGS_LEN - 1)).length = 2 ∧
    load_result wholechars_stale_rules = 2 ∧
    (load_reader wholechars_stale_rules).args.take 4
      = [some (bytes_of "wholechars"), some (bytes_of "left"), none, some (bytes_of "blue")] ∧
    load_result (bytes_of "context default red\nwholechars\n") = 2 ∧
    load_result (bytes_of "context default red\nwholechars left abc\n") = 0 := by
  decide!

/-! ## Theorems: the first context and the include directive (C18, C19) -/

theorem directive_include (env : collaborators_t) (st : rules_reader_t) (argc : Nat)
    (hw : arg st.args 0 = some (bytes_of "include")) :
    directive env st argc = include_directive env st argc := by
  unfold directive
  rw [hw]
  simp only
  rw [if_pos trivial]

theorem directive_context (env : collaborators_t) (st : rules_reader_t) (argc : Nat)
    (hw : arg st.args 0 = some (bytes_of "context")) :
    directive env st argc = context_directive env st := by
  unfold directive
  rw [hw]
  simp only
  rw [if_neg (by decide), if_neg (by decide), if_neg (by decide), if_pos trivial]

theorem directive_spellcheck (env : collaborators_t) (st : rules_reader_t) (argc : Nat)
    (hw : arg st.args 0 = some (bytes_of "spellcheck")) (hc : st.c = false) :
    directive env st argc = break_a st := by
  unfold directive
  rw [hw]
  simp only
  rw [if_neg (by decide), if_neg (by decide), if_neg (by decide), if_neg (by decide),
    if_pos trivial, if_pos hc]

theorem directive_keyword (env : collaborators_t) (st : rules_reader_t) (argc : Nat)
    (hw : arg st.args 0 = some (bytes_of "keyword")) :
    directive env st argc = keyword_directive env st := by
  unfold directive
  rw [hw]
  simp only
  rw [if_neg (by decide), if_neg (by decide), if_neg (by decide), if_neg (by decide),
    if_neg (by decide), if_pos trivial]

theorem context_directive_not_default (env : collaborators_t) (st : rules_reader_t)
    (hr : st.rules = []) (hd : arg st.args 1 ≠ some (bytes_of "default")) :
    context_directive env st = break_a st := by
  unfold context_directive
  by_cases h1 : arg st.args 1 = none
  · rw [if_pos h1]
  · rw [if_neg h1, if_pos (by simp [hr]), if_pos hd]

theorem line_body_break (env : collaborators_t) (args_size : Nat)
    (x : rules_reader_t × List Nat)
    (h : directive env { x.1 with args := line_args args_size x.1 x.2 }
        (line_argc args_size x.1 x.2) =
      break_a { x.1 with args := line_args args_size x.1 x.2 }) :
    line_body env args_size x.1 x.2 =
      break_a { x.1 with args := line_args args_size x.1 x.2 } := by
  unfold line_body
  exact h

theorem compile_result_break (env : collaborators_t) (edit : WEdit) (f : List Nat)
    (args : List (Option (List Nat))) (args_size : Nat)
    (x : rules_reader_t × List Nat) (hx : x ∈ compile_lines env edit f args args_size)
    (h : directive env { x.1 with args := line_args args_size x.1 x.2 }
        (line_argc args_size x.1 x.2) =
      break_a { x.1 with args := line_args args_size x.1 x.2 }) :
    (edit_read_syntax_rules env edit f args args_size).1 = x.1.line ∧ 1 ≤ x.1.line ∧
    (x.1.rules = [] → (edit_read_syntax_rules env edit f args args_size).2.1.rules = none) := by
  have hinv := compile_lines_inv env edit f args args_size x hx
  have hrej := break_a_rejected env args_size x hinv.2.1 h
  obtain ⟨h1, h2, _⟩ := compile_result_rejected env edit f args args_size x hx hrej
  refine ⟨h1, h2, fun hr => ?_⟩
  have hlb := line_body_break env args_size x h
  have hstop : (line_body env args_size x.1 x.2).2 = .stop := by rw [hlb]; rfl
  have hfin := rules_loop_stop env args_size _ _ x hx hstop
  unfold edit_read_syntax_rules
  simp only
  rw [hfin, hlb]
  simp only [break_a, hr, List.length_nil, if_true]

/-- C18: a `context` line read while no context is defined whose second word is not
`default` (or is missing), and a `keyword` or `spellcheck` line read while no context is
defined, make `edit_read_syntax_rules` return the number of that line and leave no rule
table; and after a compile that returns 0 a `context default` line is among the
lines read, read while no context was defined. -/
theorem first_context_is_default (env : collaborators_t) (edit : WEdit) (f : List Nat)
    (args : List (Option (List Nat))) (args_size : Nat) :
    (∀ x ∈ compile_lines env edit f args args_size, x.1.rules = [] →
      (arg (line_args args_size x.1 x.2) 0 = some (bytes_of "context") ∧
          arg (line_args args_size x.1 x.2) 1 ≠ some (bytes_of "default")) ∨
        arg (line_args args_size x.1 x.2) 0 = some (bytes_of "keyword") ∨
        arg (line_args args_size x.1 x.2) 0 = some (bytes_of "spellcheck") →
      (edit_read_syntax_rules env edit f args args_size).1 = x.1.line ∧ 1 ≤ x.1.line ∧
      (edit_read_syntax_rules env edit f args args_size).2.1.rules = none) ∧
    ((edit_read_syntax_rules env edit f args args_size).1 = 0 →
      (edit_read_syntax_rules env edit f args args_size).2.1.rules ≠ none →
      ∃ x ∈ compile_lines env edit f args args_size, is_default_line args_size x.1 x.2) := by
  constructor
  · intro x hx hr hbad
    have hinv := compile_lines_inv env edit f args args_size x hx
    obtain ⟨hnw, hc⟩ := hinv.2.2 hr
    have hb : directive env { x.1 with args := line_args args_size x.1 x.2 }
        (line_argc args_size x.1 x.2) =
        break_a { x.1 with args := line_args args_size x.1 x.2 } := by
      rcases hbad with ⟨hw, hd⟩ | hw | hw
      · rw [directive_context env _ _ hw]
        exact context_directive_not_default env _ hr hd
      · rw [directive_keyword env _ _ hw]
        unfold keyword_directive
        rw [if_pos hnw]
      · exact directive_spellcheck env _ _ hw hc
    obtain ⟨h1, h2, h3⟩ := compile_result_break env edit f args args_size x hx hb
    exact ⟨h1, h2, h3 hr⟩
  · intro h0 hne
    cases hR : (edit_read_syntax_rules env edit f args args_size).2.1.rules with
    | none => exact absurd hR hne
    | some R =>
      obtain ⟨hres, hne1, _⟩ := compiled_table env edit f args args_size h0 R hR
      rcases rules_loop_empty env args_size (f.length + 1) (initial_reader edit f args) rfl
        ⟨rfl, rfl, rfl⟩ hres with h | ⟨s, l, hm, hd, _⟩
      · exact absurd h.1 hne1
      · exact ⟨(s, l), hm, hd⟩

set_option maxRecDepth 100000 in
/-- C18, witness: `no_default_rules`, whose first context line is `context exclusive`. -/
theorem first_context_is_default_witness :
    (edit_read_syntax_rules example_env (fresh_edit []) no_default_rules null_args
        (ARGS_LEN - 1)).1 = (last_line example_env no_default_rules).1.line ∧
    1 ≤ (last_line example_env no_default_rules).1.line ∧
    (edit_read_syntax_rules example_env (fresh_edit []) no_default_rules null_args
        (ARGS_LEN - 1)).2.1.rules = none :=
  (first_context_is_default example_env (fresh_edit []) no_default_rules null_args
    (ARGS_LEN - 1)).1 (last_line example_env no_default_rules) (by decide!) (by decide!)
    (Or.inl (by decide!))

theorem read_one_line_cons (c : Nat) (f : List Nat) :
    read_one_line (c :: f) =
      if c = 10 then (1, [], f)
      else if c = 13 then
        match f with
        | 10 :: f1 => (2, [], f1)
        | _ => (1, [], f)
      else ((read_one_line f).1 + 1, c :: (read_one_line f).2.1, (read_one_line f).2.2) := by
  rw [read_one_line.eq_def]

theorem read_one_line_rest :
    ∀ (f : List Nat) (c : Nat), (read_one_line (c :: f)).2.2.length ≤ f.length := by
  intro f
  induction f with
  | nil =>
    intro c
    rw [read_one_line_cons]
    split
    · exact Nat.le_refl _
    · split
      · exact Nat.le_refl _
      · exact Nat.le_refl _
  | cons d f ih =>
    intro c
    rw [read_one_line_cons]
    split
    · exact Nat.le_refl _
    · split
      · split
        · rename_i heq
          simp only [List.cons.injEq] at heq
          rw [heq.2]
          exact Nat.le_succ _
        · exact Nat.le_refl _
      · exact Nat.le_succ_of_le (ih d)
theorem read_one_line_length (f : List Nat) (h : (read_one_line f).1 ≠ 0) :
    (read_one_line f).2.2.length < f.length := by
  cases f with
  | nil => exact absurd rfl h
  | cons c f => exact Nat.lt_succ_of_le (read_one_line_rest f c)

theorem include_in_included_stops (env : collaborators_t) (args_size : Nat)
    (st : rules_reader_t) (l : List Nat)
    (hw : arg (line_args args_size st l) 0 = some (bytes_of "include"))
    (hg : st.g ≠ none ∨ line_argc args_size st l ≠ 2) :
    directive env { st with args := line_args args_size st l } (line_argc args_size st l) =
      break_a { st with args := line_args args_size st l } := by
  rw [directive_include env _ _ hw]
  unfold include_directive
  rw [if_pos hg]

theorem line_body_include_stop (env : collaborators_t) (args_size : Nat)
    (st : rules_reader_t) (l : List Nat)
    (hw : arg (line_args args_size st l) 0 = some (bytes_of "include"))
    (hg : st.g ≠ none ∨ line_argc args_size st l ≠ 2) :
    (line_body env args_size st l).2 = .stop := by
  rw [line_body_break env args_size (st, l) (include_in_included_stops env args_size st l hw hg)]
  rfl

theorem included_loop_end (env : collaborators_t) (args_size : Nat) (parent : List Nat) :
    ∀ (k : Nat) (st st1 : rules_reader_t), st.f.length < k → st.g = some parent →
      st.result = 0 → included_loop env args_size k st = (st1, .next) →
      (read_one_line st1.f).1 = 0 ∧ st1.g = some parent ∧ st1.save_line = st.save_line := by
  intro k
  induction k with
  | zero => intro st st1 h; omega
  | succ k ih =>
    intro st st1 hlen hg h0 hloop
    rw [included_loop] at hloop
    simp only at hloop
    by_cases hr : (read_one_line st.f).1 = 0
    · rw [if_pos hr] at hloop
      simp only [Prod.mk.injEq, and_true] at hloop
      subst hloop
      exact ⟨hr, hg, rfl⟩
    · rw [if_neg hr] at hloop
      have hs := line_body_step env args_size
        { st with line := st.line + 1, f := (read_one_line st.f).2.2 }
        (read_one_line st.f).2.1 h0
      have hinc : arg (line_args args_size
          { st with line := st.line + 1, f := (read_one_line st.f).2.2 }
          (read_one_line st.f).2.1) 0 = some (bytes_of "include") →
          (line_body env args_size
            { st with line := st.line + 1, f := (read_one_line st.f).2.2 }
            (read_one_line st.f).2.1).2 = .stop := by
        intro hw
        exact line_body_include_stop env args_size _ _ hw (Or.inl (by simp [hg]))
      rcases hlb : line_body env args_size
        { st with line := st.line + 1, f := (read_one_line st.f).2.2 }
        (read_one_line st.f).2.1 with ⟨st2, fl⟩
      rw [hlb] at hloop hs hinc
      cases fl with
      | stop => simp at hloop
      | next =>
        simp only at hloop
        obtain ⟨e1, e2, _, e4⟩ : same_stream
            { st with line := st.line + 1, f := (read_one_line st.f).2.2 } st2 := by
          rcases hs.2 with h | h
          · exact absurd (hinc h) (by simp)
          · exact h
        simp only at e1 e2 e4
        have hlt := read_one_line_length st.f hr
        have := ih st2 st1 (by rw [e2]; omega) (by rw [e1]; exact hg)
          (step_result_next _ _ hs.1 rfl) hloop
        exact ⟨this.1, this.2.1, by rw [this.2.2, e4]⟩

/-- C19: an `include` line read while an included stream is being read (`g` is not null),
and an `include` line that does not have exactly one argument (`argc` is not 2), make
`edit_read_syntax_rules` return the number of that line.  An `include` line that is
accepted saves the line number and starts the included stream at line 0 with
the stream read so far as the parent.  When the included stream has been read
to its end without leaving the loop, the parent is still the same stream, and
the line read next is the next line of the parent, numbered one more than the
`include` line. -/
theorem include_one_level (env : collaborators_t) (edit : WEdit) (f : List Nat)
    (args : List (Option (List Nat))) (args_size : Nat) :
    (∀ x ∈ compile_lines env edit f args args_size,
      arg (line_args args_size x.1 x.2) 0 = some (bytes_of "include") →
      x.1.g ≠ none ∨ line_argc args_size x.1 x.2 ≠ 2 →
      (edit_read_syntax_rules env edit f args args_size).1 = x.1.line ∧ 1 ≤ x.1.line) ∧
    (∀ st argc st1, include_directive env st argc = (st1, .next) →
      st1.g = some st.f ∧ st1.save_line = st.line ∧ st1.line = 0 ∧
      env.open_include_file ((arg st.args 1).getD []) = some st1.f) ∧
    (∀ st parent st1, st.g = some parent → st.result = 0 →
      included_loop env args_size (st.f.length + 1) st = (st1, .next) →
      (read_one_line st1.f).1 = 0 ∧ st1.g = some parent ∧
      ∀ y ∈ resume_lines st1, y.1.line = st.save_line + 1 ∧ y.1.g = none ∧
        y.2 = (read_one_line parent).2.1 ∧ y.1.f = (read_one_line parent).2.2) := by
  refine ⟨?_, ?_, ?_⟩
  · intro x hx hw hg
    have h := compile_result_break env edit f args args_size x hx
      (include_in_included_stops env args_size x.1 x.2 hw hg)
    exact ⟨h.1, h.2.1⟩
  · intro st argc st1 h
    unfold include_directive at h
    split at h
    · simp [break_a] at h
    · split at h
      · simp [break_a] at h
      · rename_i included hopen
        simp only [Prod.mk.injEq, and_true] at h
        subst h
        exact ⟨rfl, rfl, rfl, hopen⟩
  · intro st parent st1 hg h0 hloop
    obtain ⟨h1, h2, h3⟩ :=
      included_loop_end env args_size parent _ st st1 (by omega) hg h0 hloop
    refine ⟨h1, h2, ?_⟩
    intro y hy
    unfold resume_lines at hy
    rw [h2] at hy
    simp only at hy
    split at hy
    · simp at hy
    · simp only [List.mem_singleton] at hy
      subst hy
      exact ⟨by simp [h3], rfl, rfl, rfl⟩

set_option maxRecDepth 100000 in
/-- C19, witness: the `include` line of `include_two_rules` has two arguments, and the file `inc`
included by `include_rules` is read to its end. -/
theorem include_one_level_witness :
    ((edit_read_syntax_rules include_env (fresh_edit []) include_two_rules null_args
          (ARGS_LEN - 1)).1 = (last_line include_env include_two_rules).1.line ∧
      1 ≤ (last_line include_env include_two_rules).1.line) ∧
    (read_one_line (included_loop include_env (ARGS_LEN - 1) (included_reader.f.length + 1)
        included_reader).1.f).1 = 0 ∧
    (included_loop include_env (ARGS_LEN - 1) (included_reader.f.length + 1)
        included_reader).1.g = some (bytes_of "keyword c\n") ∧
    (∀ y ∈ resume_lines (included_loop include_env (ARGS_LEN - 1)
          (included_reader.f.length + 1) included_reader).1,
      y.1.line = included_reader.save_line + 1 ∧ y.1.g = none ∧
        y.2 = (read_one_line (bytes_of "keyword c\n")).2.1 ∧
        y.1.f = (read_one_line (bytes_of "keyword c\n")).2.2) :=
  ⟨(include_one_level include_env (fresh_edit []) include_two_rules null_args
      (ARGS_LEN - 1)).1 (last_line include_env include_two_rules) (by decide!) (by decide!)
      (Or.inr (by decide!)),
    (include_one_level include_env (fresh_edit []) include_two_rules null_args
      (ARGS_LEN - 1)).2.2 included_reader (bytes_of "keyword c\n")
      (included_loop include_env (ARGS_LEN - 1) (included_reader.f.length + 1)
        included_reader).1 (by decide!) (by decide!) (by decide!)⟩

set_option maxRecDepth 100000 in
/-- The lines that are read of `include_rules`, with their numbers and whether an included
stream is being read: the two lines of the file `inc` are numbered 1 and 2, and
the parent line behind the `include` line (line 2) is numbered 3. -/
theorem include_line_numbers :
    (edit_read_syntax_rules include_env (fresh_edit []) include_rules null_args
        (ARGS_LEN - 1)).1 = 0 ∧
    (compile_lines include_env (fresh_edit []) include_rules null_args (ARGS_LEN - 1)).map
        (fun x => (x.2, x.1.line, x.1.g.isSome)) =
      [(bytes_of "context default", 1, false), (bytes_of "include inc", 2, false),
        (bytes_of "keyword a red", 1, true), (bytes_of "keyword b", 2, true),
        (bytes_of "keyword c", 3, false)] := by
  decide!

/-! ## Theorems: when the loader discards the rule table (C17) -/

theorem edit_get_rule_rewind (edit : WEdit) (rules : List context_rule_t)
    (hr : edit.rules = some rules) (h : edit.last_get_rule = -1) :
    edit_get_rule edit (-1) = some { edit with last_get_rule := -1 } := by
  unfold edit_get_rule
  rw [hr]
  simp only
  rw [if_neg (by omega), if_neg (by omega)]

theorem edit_free_syntax_rules_fresh (edit : WEdit) (h : edit.last_get_rule = -1) :
    ∃ e, edit_free_syntax_rules edit = some e ∧ e.rules = none := by
  unfold edit_free_syntax_rules
  split
  · exact ⟨_, rfl, by assumption⟩
  · rename_i rules heq
    rw [edit_get_rule_rewind { edit with defines := none } rules heq h]
    exact ⟨_, rfl, rfl⟩

/-- C17, as amended: when `edit_read_syntax_rules` returns 0 with the table `R`, the block at
`found_type` leaves `result` as it is, and it discards the table exactly when the
rules were read from the index file itself (`g` is null, no `include` line before
the first `file` line), the table has exactly one context, and this context has
exactly one keyword entry and no spellcheck flag.  In every other case - a
rule set that defines a further context among them - the table `R` stays. -/
theorem table_discarded_when_single (env : collaborators_t) (st : syntax_file_reader_t)
    (edit : WEdit) (R : List context_rule_t) (r0 : context_rule_t)
    (hedit : st.edit = some edit) (hlast : edit.last_get_rule = -1)
    (h0 : (edit_read_syntax_rules env edit (st.g.getD st.f) st.args (ARGS_LEN - 1)).1 = 0)
    (hR : (edit_read_syntax_rules env edit (st.g.getD st.f) st.args (ARGS_LEN - 1)).2.1.rules
      = some R)
    (hhead : R.head? = some r0) :
    ∃ st1 fl, found_type env st = some (st1, fl) ∧ st1.result = st.result ∧
      ((st.g = none ∧ R.length = 1 ∧ r0.keyword.length = 1 ∧ r0.spelling = false) →
        table_absent st1 ∧ fl = .stop) ∧
      (¬ (st.g = none ∧ R.length = 1 ∧ r0.keyword.length = 1 ∧ r0.spelling = false) →
        ∃ e, st1.edit = some e ∧ e.rules = some R ∧ e.syntax_type = arg st.args 2) := by
  unfold found_type
  rw [hedit]
  simp only [h0, ne_eq, not_true_eq_false, if_false, hR]
  cases hg : st.g with
  | some inc =>
    simp only [close_included]
    refine ⟨_, _, rfl, rfl, fun h => Option.noConfusion h.1, fun _ => ⟨_, rfl, rfl, rfl⟩⟩
  | none =>
    simp only
    by_cases h1 : R.length = 1
    · rw [if_pos h1]
      simp only [hhead]
      by_cases h2 : r0.keyword.length = 1 ∧ r0.spelling = false
      · rw [if_pos h2]
        obtain ⟨e, he, hrules⟩ := edit_free_syntax_rules_fresh
          { (edit_read_syntax_rules env edit (Option.getD none st.f) st.args
              (ARGS_LEN - 1)).2.1 with syntax_type := arg st.args 2, rules := some R }
          (by
            have : (edit_read_syntax_rules env edit (Option.getD none st.f) st.args
                (ARGS_LEN - 1)).2.1.last_get_rule = edit.last_get_rule := by
              unfold edit_read_syntax_rules
              dsimp only
              split
              · rfl
              · split <;> rfl
            simp only [this, hlast])
        simp only [he]
        refine ⟨_, _, rfl, rfl, fun _ => ⟨⟨e, rfl, hrules⟩, rfl⟩, fun h => ?_⟩
        exact absurd ⟨trivial, h1, h2.1, h2.2⟩ h
      · rw [if_neg h2]
        simp only [close_included]
        refine ⟨_, _, rfl, rfl, fun h => absurd ⟨h.2.2.1, h.2.2.2⟩ h2,
          fun _ => ⟨_, rfl, rfl, rfl⟩⟩
    · rw [if_neg h1]
      simp only [close_included]
      refine ⟨_, _, rfl, rfl, fun h => absurd h.2.1 h1, fun _ => ⟨_, rfl, rfl, rfl⟩⟩

/-- C17, witness: the state in which the loader reaches `found_type` for a rule set that
consists of the line `context default`. -/
theorem table_discarded_when_single_witness :
    ∃ st1 fl, found_type example_env
        { f := bytes_of "context default\n", g := none,
          args := [some (bytes_of "file"), some (bytes_of ".*"), some (bytes_of "T"), none],
          line := 1, result := 0, found := true, edit := some (fresh_edit []), pnames := none,
          error_file_name := none } = some (st1, fl) ∧
      st1.result = 0 ∧
      ((none = (none : Option (List Nat)) ∧
          ((load_rules (bytes_of "context default\n") []).rules.getD []).length = 1 ∧
          (((load_rules (bytes_of "context default\n") []).rules.getD []).headD
            new_context).keyword.length = 1 ∧
          (((load_rules (bytes_of "context default\n") []).rules.getD []).headD
            new_context).spelling = false) →
        table_absent st1 ∧ fl = .stop) ∧
      (¬ (none = (none : Option (List Nat)) ∧
          ((load_rules (bytes_of "context default\n") []).rules.getD []).length = 1 ∧
          (((load_rules (bytes_of "context default\n") []).rules.getD []).headD
            new_context).keyword.length = 1 ∧
          (((load_rules (bytes_of "context default\n") []).rules.getD []).headD
            new_context).spelling = false) →
        ∃ e, st1.edit = some e ∧
          e.rules = some ((load_rules (bytes_of "context default\n") []).rules.getD []) ∧
          e.syntax_type = some (bytes_of "T")) :=
  table_discarded_when_single example_env
    { f := bytes_of "context default\n", g := none,
      args := [some (bytes_of "file"), some (bytes_of ".*"), some (bytes_of "T"), none],
      line := 1, result := 0, found := true, edit := some (fresh_edit []), pnames := none,
      error_file_name := none }
    (fresh_edit []) ((load_rules (bytes_of "context default\n") []).rules.getD [])
    (((load_rules (bytes_of "context default\n") []).rules.getD []).headD new_context)
    rfl rfl (by decide!) (by decide!) (by decide!)

set_option maxRecDepth 100000 in
/-- C17, counterexample: the rule set `T` of `comment_syntax_file` has a default context with
one keyword entry and no spellcheck flag, and a further context; the loader
returns 0 and keeps the table of two contexts.  For `bare_syntax_file`, whose rule
set has the default context only, the loader returns 0 and leaves no table. -/
theorem table_with_further_context_kept :
    (load_file comment_syntax_file).map Prod.fst = some 0 ∧
    ((load_file comment_syntax_file).bind Prod.snd).map context_shapes =
      some [(bytes_of " ", 1, false), (bytes_of "/*", 1, false)] ∧
    load_file bare_syntax_file = some (0, none) := by
  decide!

/-! ## Theorems: the matcher on patterns with a star (C22, C30) -/

theorem read_byte_outside (ci : Bool) (b : edit_buffer_t) (i : Int)
    (h : i < 0 ∨ b.size ≤ i) : read_byte ci b i = xx_tolower ci b.sentinel := by
  unfold read_byte edit_buffer_get_byte
  rcases h with h | h
  · rw [if_pos h]
  · by_cases h0 : i < 0
    · rw [if_pos h0]
    · rw [if_neg h0]
      have hl : b.bytes.length ≤ i.toNat := by
        unfold edit_buffer_t.size at h
        omega
      rw [List.getD_eq_default _ _ hl]

theorem read_byte_newline (ci : Bool) (b : edit_buffer_t) (i : Int) (hs : b.sentinel = 10)
    (h : i < 0 ∨ b.size ≤ i) : read_byte ci b i = 10 := by
  rw [read_byte_outside ci b i h, hs]
  cases ci <;> rfl

theorem read_bytes_append (ci : Bool) (b : edit_buffer_t) :
    ∀ (m n : Nat) (i : Int),
      read_bytes ci b (m + n) i = read_bytes ci b m i ++ read_bytes ci b n (i + m) := by
  intro m
  induction m with
  | zero => intro n i; simp [read_bytes]
  | succ m ih =>
    intro n i
    have e : m + 1 + n = (m + n) + 1 := by omega
    rw [e, read_bytes, read_bytes, ih n (i + 1)]
    have e2 : i + 1 + (m : Int) = i + ((m + 1 : Nat) : Int) := by push_cast; ring
    rw [e2]
    rfl

theorem word_loop_prefix (ci : Bool) (b : edit_buffer_t) (wr : Option (List Nat)) (t0 : Nat)
    (rest : List Nat) :
    ∀ (p : List Nat) (i : Int), literal_pattern p →
      word_loop ci b wr t0 .tokens (p ++ rest) i =
        if read_bytes ci b p.length i = p then word_loop ci b wr t0 .tokens rest (i + p.length)
        else some none := by
  intro p
  induction p with
  | nil => intro i _; simp [read_bytes]
  | cons t p ih =>
    intro i hp
    have ht : 5 ≤ t := hp t (List.mem_cons_self _ _)
    have hp1 : literal_pattern p := fun x hx => hp x (List.mem_cons_of_mem _ hx)
    have h1 : t ≠ SYNTAX_TOKEN_STAR := by unfold SYNTAX_TOKEN_STAR; omega
    have h2 : t ≠ SYNTAX_TOKEN_PLUS := by unfold SYNTAX_TOKEN_PLUS; omega
    have h3 : t ≠ SYNTAX_TOKEN_BRACKET := by unfold SYNTAX_TOKEN_BRACKET; omega
    have h4 : t ≠ SYNTAX_TOKEN_BRACE := by unfold SYNTAX_TOKEN_BRACE; omega
    rw [List.cons_append, word_loop, if_neg h1, if_neg h2, if_neg h3, if_neg h4]
    by_cases hc : t = read_byte ci b i
    · rw [if_neg (not_not.mpr hc), ih (i + 1) hp1]
      have e1 : i + 1 + (p.length : Int) = i + ((t :: p).length : Int) := by
        simp only [List.length_cons]; push_cast; ring
      have e2 : (read_bytes ci b (t :: p).length i = t :: p) ↔
          (read_bytes ci b p.length (i + 1) = p) := by
        simp [read_bytes, hc]
      rw [e1]
      by_cases hm : read_bytes ci b p.length (i + 1) = p
      · rw [if_pos hm, if_pos (e2.mpr hm)]
      · rw [if_neg hm, if_neg (fun h => hm (e2.mp h))]
    · have hn : ¬ (read_bytes ci b (t :: p).length i = t :: p) := by
        simp only [read_bytes, List.length_cons, List.cons.injEq, not_and]
        intro h; exact absurd h.symm hc
      rw [if_pos hc, if_neg hn]

theorem compare_plain (ci : Bool) (b : edit_buffer_t) (i : Int) (text : List Nat)
    (h : ¬ (text.headD 0 = 0)) :
    compare_word_to_right ci b i text none none false =
      match word_loop ci b none (text.headD 0) .tokens text i with
      | none => none
      | some none => some (-1)
      | some (some i1) => some i1 := by
  unfold compare_word_to_right
  rw [if_neg h]
  dsimp only [in_set]
  rw [if_neg (by simp)]
  cases word_loop ci b none (text.headD 0) .tokens text i with
  | none => rfl
  | some r =>
    cases r with
    | none => rfl
    | some j => simp

/-- The star loop started at `i` stops at `j`: `j` is the first offset from `i` on whose byte
is `pc`, and no newline stands before it. -/
theorem star_loop_spec (ci : Bool) (b : edit_buffer_t) (wr : Option (List Nat)) (pc : Nat)
    (hs : b.sentinel = 10) (hpc : pc ≠ 0) :
    ∀ (fuel : Nat) (i : Int), (b.size - i).toNat + 1 ≤ fuel →
      (∃ j, i ≤ j ∧ read_byte ci b j = pc ∧
        (∀ k, i ≤ k → k < j → read_byte ci b k ≠ pc ∧ read_byte ci b k ≠ 10) ∧
        star_loop ci b wr pc fuel i = some (some j)) ∨
      ((∀ j, i ≤ j → read_byte ci b j = pc →
          ∃ k, i ≤ k ∧ k < j ∧ read_byte ci b k = 10) ∧
        star_loop ci b wr pc fuel i = some none) := by
  intro fuel
  induction fuel with
  | zero => intro i h; omega
  | succ fuel ih =>
    intro i hf
    rw [star_loop]
    rw [if_neg (fun h => hpc h.1)]
    by_cases h1 : read_byte ci b i = pc
    · rw [if_pos h1]
      exact Or.inl ⟨i, le_refl _, h1, fun k hk1 hk2 => by omega, rfl⟩
    · rw [if_neg h1]
      by_cases h2 : read_byte ci b i = 10
      · rw [if_pos h2]
        refine Or.inr ⟨fun j hj hjp => ?_, rfl⟩
        have hne : j ≠ i := fun e => h1 (e ▸ hjp)
        exact ⟨i, le_refl _, by omega, h2⟩
      · rw [if_neg h2]
        have hin : 0 ≤ i ∧ i < b.size := by
          by_contra hout
          exact h2 (read_byte_newline ci b i hs (by omega))
        rcases ih (i + 1) (by omega) with ⟨j, hj, hjp, hbefore, hres⟩ | ⟨hno, hres⟩
        · refine Or.inl ⟨j, by omega, hjp, fun k hk1 hk2 => ?_, hres⟩
          by_cases hk : k = i
          · subst hk; exact ⟨h1, h2⟩
          · exact hbefore k (by omega) hk2
        · refine Or.inr ⟨fun j hj hjp => ?_, hres⟩
          have hne : j ≠ i := fun e => h1 (e ▸ hjp)
          obtain ⟨k, hk1, hk2, hk3⟩ := hno j (by omega) hjp
          exact ⟨k, by omega, hk2, hk3⟩

/-- C22: star semantics for a pattern `L1 * L2` with literal `L1`, `L2`, `L2` not empty, no
boundary sets, no line-start requirement and reads outside the document yielding a newline.
When `L1` stands at `i`, `j` is the first offset behind `L1` that holds the first byte of
`L2`, no newline stands before `j` and `L2` stands at `j`, the match ends at `j + |L2|`;
when there is no such `j` the pattern does not match - in particular a later occurrence of
the first byte of `L2` is never tried. -/
theorem star_shortest_run (ci : Bool) (b : edit_buffer_t) (i : Int) (L1 L2 : List Nat)
    (hs : b.sentinel = 10) (h1 : literal_pattern L1) (h2 : literal_pattern L2) (hne : L2 ≠ []) :
    (∀ j, read_bytes ci b L1.length i = L1 → i + L1.length ≤ j →
      (∀ k, i + L1.length ≤ k → k < j →
        read_byte ci b k ≠ L2.headD 0 ∧ read_byte ci b k ≠ 10) →
      read_bytes ci b L2.length j = L2 →
      compare_word_to_right ci b i (L1 ++ SYNTAX_TOKEN_STAR :: L2) none none false
        = some (j + L2.length)) ∧
    ((¬ ∃ j, read_bytes ci b L1.length i = L1 ∧ i + L1.length ≤ j ∧
        (∀ k, i + L1.length ≤ k → k < j →
          read_byte ci b k ≠ L2.headD 0 ∧ read_byte ci b k ≠ 10) ∧
        read_bytes ci b L2.length j = L2) →
      compare_word_to_right ci b i (L1 ++ SYNTAX_TOKEN_STAR :: L2) none none false
        = some (-1)) := by
  obtain ⟨t, q, rfl⟩ := List.exists_cons_of_ne_nil hne
  have ht : 5 ≤ t := h2 t (List.mem_cons_self _ _)
  have hq : literal_pattern q := fun x hx => h2 x (List.mem_cons_of_mem _ hx)
  have hhead : ¬ ((L1 ++ SYNTAX_TOKEN_STAR :: t :: q).headD 0 = 0) := by
    cases L1 with
    | nil => simp [SYNTAX_TOKEN_STAR]
    | cons a L =>
      have := h1 a (List.mem_cons_self _ _)
      simp only [List.cons_append, List.headD_cons]
      omega
  have hcw : compare_word_to_right ci b i (L1 ++ SYNTAX_TOKEN_STAR :: t :: q) none none false =
      match word_loop ci b none ((L1 ++ SYNTAX_TOKEN_STAR :: t :: q).headD 0) .tokens
          (L1 ++ SYNTAX_TOKEN_STAR :: t :: q) i with
      | none => none
      | some none => some (-1)
      | some (some i1) => some i1 := by
    exact compare_plain ci b i _ hhead
  have hstar : ∀ t0 i1, word_loop ci b none t0 .tokens (SYNTAX_TOKEN_STAR :: t :: q) i1 =
      match star_loop ci b none t (scan_fuel b i1) i1 with
      | none => none
      | some none => some none
      | some (some j) =>
        if read_bytes ci b q.length (j + 1) = q then some (some (j + 1 + q.length))
        else some none := by
    intro t0 i1
    rw [word_loop, if_pos rfl]
    simp only [List.headD_cons]
    cases star_loop ci b none t (scan_fuel b i1) i1 with
    | none => rfl
    | some r =>
      cases r with
      | none => rfl
      | some j =>
        simp only
        rw [word_loop, word_loop_literal ci b none t0 q (j + 1) hq]
  rw [hcw, word_loop_prefix ci b none _ _ L1 i h1]
  have hspec := star_loop_spec ci b none t hs (by omega) (scan_fuel b (i + L1.length))
    (i + L1.length) (by unfold scan_fuel; omega)
  constructor
  · intro j hm1 hj hbefore hm2
    rw [if_pos hm1, hstar]
    have hjt : read_byte ci b j = t := by
      simp only [List.length_cons, read_bytes, List.cons.injEq] at hm2
      exact hm2.1
    have hjq : read_bytes ci b q.length (j + 1) = q := by
      simp only [List.length_cons, read_bytes, List.cons.injEq] at hm2
      exact hm2.2
    rcases hspec with ⟨j0, hj0, hj0p, hb0, hres⟩ | ⟨hno, hres⟩
    · have hjj : j0 = j := by
        rcases lt_trichotomy j0 j with h | h | h
        · exact absurd hj0p (hbefore j0 hj0 h).1
        · exact h
        · exact absurd hjt (hb0 j hj h).1
      subst hjj
      rw [hres]
      simp only
      rw [if_pos hjq]
      have e : j0 + 1 + (q.length : Int) = j0 + ((t :: q).length : Int) := by
        simp only [List.length_cons]; push_cast; ring
      rw [e]
    · obtain ⟨k, hk1, hk2, hk3⟩ := hno j hj hjt
      exact absurd hk3 (hbefore k hk1 hk2).2
  · intro hnot
    by_cases hm1 : read_bytes ci b L1.length i = L1
    · rw [if_pos hm1, hstar]
      rcases hspec with ⟨j0, hj0, hj0p, hb0, hres⟩ | ⟨hno, hres⟩
      · rw [hres]
        simp only
        by_cases hjq : read_bytes ci b q.length (j0 + 1) = q
        · exfalso
          apply hnot
          refine ⟨j0, hm1, hj0, hb0, ?_⟩
          simp only [List.length_cons, read_bytes, hj0p, hjq]
        · rw [if_neg hjq]
      · rw [hres]
    · rw [if_neg hm1]

/-- C22, witness: the document `a--b-bc`, on which `a*b-` matches with end 5, and
`a*bc` does not match, although `bc` stands at offset 5. -/
theorem star_shortest_run_witness :
    compare_word_to_right false star_two_doc 0 ([97] ++ SYNTAX_TOKEN_STAR :: [98, 45])
        none none false = some 5 ∧
      compare_word_to_right false star_two_doc 0 ([97] ++ SYNTAX_TOKEN_STAR :: [98, 99])
        none none false = some (-1) ∧
      read_bytes false star_two_doc 2 5 = [98, 99] := by
  refine ⟨?_, ?_, by decide⟩
  · exact (star_shortest_run false star_two_doc 0 [97] [98, 45] rfl (by decide) (by decide)
      (by decide)).1 3 (by decide) (by decide)
      (fun k h1 h2 => by
        have h1 : (1 : Int) ≤ k := h1
        have hk : k = 1 ∨ k = 2 := by omega
        rcases hk with rfl | rfl <;> decide)
      (by decide)
  · refine (star_shortest_run false star_two_doc 0 [97] [98, 99] rfl (by decide) (by decide)
      (by decide)).2 ?_
    rintro ⟨j, -, hj, hbefore, hm2⟩
    have hj1 : (1 : Int) ≤ j := hj
    have hj3 : j ≤ 3 := by
      by_contra h
      exact (hbefore 3 (by decide) (by omega)).1 (by decide)
    have hj : j = 1 ∨ j = 2 ∨ j = 3 := by omega
    rcases hj with rfl | rfl | rfl <;> exact absurd hm2 (by decide)

/-- Past the end of the document every read yields the same byte. -/
theorem read_byte_past_end (ci : Bool) (b : edit_buffer_t) (m k : Int)
    (hm : b.size ≤ m) (hk : b.size ≤ k) : read_byte ci b m = read_byte ci b k := by
  rw [read_byte_outside ci b m (Or.inr hm), read_byte_outside ci b k (Or.inr hk)]

/-- The loop of a trailing star with a right set `W`: it runs over the members of `W` and
stops at the first byte that is not one, or is NUL. -/
theorem star_loop_trailing (ci : Bool) (b : edit_buffer_t) (W : List Nat) (k : Int)
    (hstop : read_byte ci b k ∉ W ∨ read_byte ci b k = 0) :
    ∀ (n fuel : Nat) (m : Int), (k - m).toNat = n → m ≤ k → n < fuel →
      (∀ x, m ≤ x → x < k →
        read_byte ci b x ∈ W ∧ read_byte ci b x ≠ 0 ∧ read_byte ci b x ≠ 10) →
      star_loop ci b (some W) 0 fuel m = some (some k) := by
  intro n
  induction n with
  | zero =>
    intro fuel m hn hmk hf hrun
    have e : m = k := by omega
    subst e
    obtain ⟨fuel, rfl⟩ : ∃ f, fuel = f + 1 := ⟨fuel - 1, by omega⟩
    rw [star_loop]
    by_cases h0 : read_byte ci b m = 0
    · have h1 : ¬ (0 = 0 ∧ not_in_set (some W) (read_byte ci b m) = true) := by
        simp [not_in_set, strchr, h0]
      rw [if_neg h1, if_pos h0]
    · have hW : read_byte ci b m ∉ W := by
        rcases hstop with h | h
        · exact h
        · exact absurd h h0
      have h1 : (0 = 0 ∧ not_in_set (some W) (read_byte ci b m) = true) := by
        simp [not_in_set, strchr, h0, hW]
      rw [if_pos h1]
  | succ n ih =>
    intro fuel m hn hmk hf hrun
    obtain ⟨fuel, rfl⟩ : ∃ f, fuel = f + 1 := ⟨fuel - 1, by omega⟩
    obtain ⟨hW, h0, h10⟩ := hrun m (le_refl _) (by omega)
    have h1 : ¬ (0 = 0 ∧ not_in_set (some W) (read_byte ci b m) = true) := by
      simp [not_in_set, strchr, h0, hW]
    rw [star_loop, if_neg h1, if_neg h0, if_neg h10]
    exact ih fuel (m + 1) (by omega) (by omega) (by omega)
      (fun x hx1 hx2 => hrun x (by omega) hx2)

/-- The scan of a run that ends at `k` needs no more iterations than the document has bytes
from `m` on: past the end all bytes are equal, so the run cannot end there. -/
theorem run_end_bound (ci : Bool) (b : edit_buffer_t) (P : Nat → Prop) (m k : Int)
    (hmk : m ≤ k) (hrun : ∀ x, m ≤ x → x < k → P (read_byte ci b x))
    (hstop : ¬ P (read_byte ci b k)) : (k - m).toNat ≤ (b.size - m).toNat := by
  by_contra hc
  have h1 : b.size ≤ k - 1 := by omega
  have h2 : m ≤ k - 1 := by omega
  have := hrun (k - 1) h2 (by omega)
  rw [read_byte_past_end ci b (k - 1) k h1 (by omega)] at this
  exact hstop this

/-- The result of a pattern `L*` (`L` literal, the star last) with a right whole-word set `W`,
as the code computes it.  When `L` matches at `i` and `k` is the first offset behind `L`
whose byte is not a member of `W` (or is NUL), with no newline before it, the star loop
leaves at `k` and the for statement steps over the byte at `k` as well: the result is
`k + 1`, or -1 when the byte at `k + 1` is a member of `W` (or NUL). -/
theorem trailing_star_end (ci : Bool) (b : edit_buffer_t) (i k : Int) (L W : List Nat)
    (hL : literal_pattern L) (hm : read_bytes ci b L.length i = L) (hk : i + L.length ≤ k)
    (hrun : ∀ x, i + L.length ≤ x → x < k →
      read_byte ci b x ∈ W ∧ read_byte ci b x ≠ 0 ∧ read_byte ci b x ≠ 10)
    (hstop : read_byte ci b k ∉ W ∨ read_byte ci b k = 0) :
    compare_word_to_right ci b i (L ++ [SYNTAX_TOKEN_STAR]) none (some W) false =
      if read_byte ci b (k + 1) ∈ W ∨ read_byte ci b (k + 1) = 0 then some (-1)
      else some (k + 1) := by
  have hhead : ¬ ((L ++ [SYNTAX_TOKEN_STAR]).headD 0 = 0) := by
    cases L with
    | nil => simp [SYNTAX_TOKEN_STAR]
    | cons a L =>
      have := hL a (List.mem_cons_self _ _)
      simp only [List.cons_append, List.headD_cons]
      omega
  have hb : (k - (i + L.length)).toNat ≤ (b.size - (i + L.length)).toNat :=
    run_end_bound ci b (fun c => c ∈ W ∧ c ≠ 0) (i + L.length) k hk
      (fun x h1 h2 => ⟨(hrun x h1 h2).1, (hrun x h1 h2).2.1⟩)
      (by
        rcases hstop with h | h
        · exact fun hh => h hh.1
        · exact fun hh => hh.2 h)
  have hloop := star_loop_trailing ci b W k hstop _ (scan_fuel b (i + L.length))
    (i + L.length) rfl hk (by unfold scan_fuel; omega) hrun
  unfold compare_word_to_right
  rw [if_neg hhead]
  dsimp only [in_set]
  rw [if_neg (by simp), word_loop_prefix ci b (some W) _ _ L i hL, if_pos hm, word_loop,
    if_pos rfl]
  simp only [List.headD_nil]
  rw [hloop]
  simp only [word_loop]
  by_cases h0 : read_byte ci b (k + 1) = 0
  · simp [strchr, h0]
  · by_cases hW : read_byte ci b (k + 1) ∈ W
    · simp [strchr, hW]
    · simp [strchr, h0, hW]

/-- Example: the pattern `a*` with the default word characters on
`abc  x`; the first byte outside the set stands at 3 and the result is 4. -/
theorem trailing_star_end_witness :
    compare_word_to_right false star_doc 0 ([97] ++ [SYNTAX_TOKEN_STAR]) none
      (some default_whole_chars) false = some 4 := by
  have h := trailing_star_end false star_doc 0 3 [97] default_whole_chars (by decide)
    (by decide) (by decide)
    (fun x h1 h2 => by
      have h1 : (1 : Int) ≤ x := h1
      have hx : x = 1 ∨ x = 2 := by omega
      rcases hx with rfl | rfl <;> decide)
    (Or.inl (by decide))
  rw [h]
  decide

/-- C30, failing input: the pattern `a*` with the default word characters as right set.  On
`abc  x` the first byte that is not a word character stands at offset 3, yet the end offset
returned is 4; and on `abc de`, where the byte behind the first non-member is a word
character, the result is -1: the word `abc` is not matched at all. -/
theorem trailing_star_not_first_non_member :
    compare_word_to_right false star_doc 0 [97, SYNTAX_TOKEN_STAR] none word_set false
        = some 4 ∧
      read_bytes false star_doc 4 0 = [97, 98, 99, 32] ∧
      set_has word_set 98 = true ∧ set_has word_set 99 = true ∧
      set_has word_set 32 = false ∧
      compare_word_to_right false star_word_doc 0 [97, SYNTAX_TOKEN_STAR] none word_set false
        = some (-1) := by
  decide

/-! ## Theorems: brace sets and bracket sets (C23, C24) -/

theorem brace_close_skip (ci : Bool) (b : edit_buffer_t) (wr : Option (List Nat)) (t0 : Nat)
    (rest : List Nat) (i : Int) :
    ∀ (S : List Nat), (∀ t ∈ S, t ≠ SYNTAX_TOKEN_BRACE) →
      word_loop ci b wr t0 .brace_close (S ++ SYNTAX_TOKEN_BRACE :: rest) i =
        word_loop ci b wr t0 .tokens rest (i + 1) := by
  intro S
  induction S with
  | nil => intro _; rw [List.nil_append, word_loop, if_pos rfl]
  | cons t S ih =>
    intro hS
    rw [List.cons_append, word_loop, if_neg (hS t (List.mem_cons_self _ _))]
    exact ih (fun x hx => hS x (List.mem_cons_of_mem _ hx))

theorem brace_find_spec (ci : Bool) (b : edit_buffer_t) (wr : Option (List Nat)) (t0 : Nat)
    (rest : List Nat) (c : Nat) (i : Int) :
    ∀ (S : List Nat), (∀ t ∈ S, t ≠ SYNTAX_TOKEN_BRACE) →
      word_loop ci b wr t0 (.brace_find c) (S ++ SYNTAX_TOKEN_BRACE :: rest) i =
        if c ∈ S then word_loop ci b wr t0 .tokens rest (i + 1) else some none := by
  intro S
  induction S with
  | nil => intro _; rw [List.nil_append, word_loop, if_pos rfl]; simp
  | cons t S ih =>
    intro hS
    have hS1 : ∀ x ∈ S, x ≠ SYNTAX_TOKEN_BRACE := fun x hx => hS x (List.mem_cons_of_mem _ hx)
    rw [List.cons_append, word_loop, if_neg (hS t (List.mem_cons_self _ _))]
    by_cases hc : c = t
    · rw [if_pos hc, brace_close_skip ci b wr t0 rest i S hS1, if_pos (by simp [hc])]
    · rw [if_neg hc, ih hS1]
      have e : (c ∈ t :: S) ↔ c ∈ S := by simp [hc]
      by_cases hm : c ∈ S
      · rw [if_pos hm, if_pos (e.mpr hm)]
      · rw [if_neg hm, if_neg (fun h => hm (e.mp h))]

theorem word_loop_brace (ci : Bool) (b : edit_buffer_t) (wr : Option (List Nat)) (t0 : Nat)
    (S rest : List Nat) (i : Int) (hS : ∀ t ∈ S, t ≠ SYNTAX_TOKEN_BRACE) :
    word_loop ci b wr t0 .tokens (SYNTAX_TOKEN_BRACE :: (S ++ SYNTAX_TOKEN_BRACE :: rest)) i =
      if read_byte ci b i ∈ S then word_loop ci b wr t0 .tokens rest (i + 1)
      else some none := by
  rw [word_loop, if_neg (by decide), if_neg (by decide), if_neg (by decide), if_pos rfl]
  exact brace_find_spec ci b wr t0 rest _ i S hS

/-- C24: a brace set stands for exactly one byte, which must be one of its alternatives.
Without boundary sets, the pattern made of one brace set `S` matches at `i` with end
`i + 1` when the byte at `i` is in `S` and does not match otherwise; between two literal
strings `L1` and `L2` the pattern matches exactly when `L1` stands at `i`, one byte of `S`
follows and `L2` follows that byte. -/
theorem brace_set_one_byte (ci : Bool) (b : edit_buffer_t) (i : Int) (L1 S L2 : List Nat)
    (h1 : literal_pattern L1) (h2 : literal_pattern L2)
    (hS : ∀ t ∈ S, t ≠ SYNTAX_TOKEN_BRACE) :
    compare_word_to_right ci b i (SYNTAX_TOKEN_BRACE :: (S ++ [SYNTAX_TOKEN_BRACE]))
        none none false =
      (if read_byte ci b i ∈ S then some (i + 1) else some (-1)) ∧
    compare_word_to_right ci b i
        (L1 ++ SYNTAX_TOKEN_BRACE :: (S ++ SYNTAX_TOKEN_BRACE :: L2)) none none false =
      (if read_bytes ci b L1.length i = L1 ∧ read_byte ci b (i + L1.length) ∈ S ∧
          read_bytes ci b L2.length (i + L1.length + 1) = L2
        then some (i + L1.length + 1 + L2.length) else some (-1)) := by
  constructor
  · rw [compare_plain ci b i _ (by simp [SYNTAX_TOKEN_BRACE]),
      word_loop_brace ci b none _ S [] i hS]
    by_cases hm : read_byte ci b i ∈ S
    · rw [if_pos hm, if_pos hm, word_loop]
    · rw [if_neg hm, if_neg hm]
  · have hhead : ¬ ((L1 ++ SYNTAX_TOKEN_BRACE :: (S ++ SYNTAX_TOKEN_BRACE :: L2)).headD 0
        = 0) := by
      cases L1 with
      | nil => simp [SYNTAX_TOKEN_BRACE]
      | cons a L =>
        have := h1 a (List.mem_cons_self _ _)
        simp only [List.cons_append, List.headD_cons]
        omega
    rw [compare_plain ci b i _ hhead, word_loop_prefix ci b none _ _ L1 i h1]
    by_cases hm1 : read_bytes ci b L1.length i = L1
    · rw [if_pos hm1, word_loop_brace ci b none _ S L2 _ hS]
      by_cases hm : read_byte ci b (i + L1.length) ∈ S
      · rw [if_pos hm, word_loop_literal ci b none _ L2 _ h2]
        by_cases hm2 : read_bytes ci b L2.length (i + L1.length + 1) = L2
        · rw [if_pos hm2, if_pos ⟨hm1, hm, hm2⟩]
        · rw [if_neg hm2, if_neg (fun h => hm2 h.2.2)]
      · rw [if_neg hm, if_neg (fun h => hm h.2.1)]
    · rw [if_neg hm1, if_neg (fun h => hm1 h.1)]

/-- C24, witness: the set of `b` and `x` alone, and between `a` and `c`,
on the document `abc  x`. -/
theorem brace_set_one_byte_witness :
    compare_word_to_right false star_doc 1
        (SYNTAX_TOKEN_BRACE :: ([98, 120] ++ [SYNTAX_TOKEN_BRACE])) none none false
      = some 2 ∧
    compare_word_to_right false star_doc 0
        ([97] ++ SYNTAX_TOKEN_BRACE :: ([98, 120] ++ SYNTAX_TOKEN_BRACE :: [99]))
        none none false = some 3 :=
  ⟨(brace_set_one_byte false star_doc 1 [] [98, 120] [] (by decide) (by decide)
      (by decide)).1.trans (by decide),
    (brace_set_one_byte false star_doc 0 [97] [98, 120] [99] (by decide) (by decide)
      (by decide)).2.trans (by decide)⟩

theorem bracket_set_append (S rest : List Nat)
    (hS : ∀ t ∈ S, t ≠ SYNTAX_TOKEN_BRACKET ∧ t ≠ 0) :
    bracket_set (S ++ SYNTAX_TOKEN_BRACKET :: rest) = S := by
  unfold bracket_set
  induction S with
  | nil => simp
  | cons t S ih =>
    have := hS t (List.mem_cons_self _ _)
    rw [List.cons_append, List.takeWhile_cons_of_pos (by simpa using this),
      ih (fun x hx => hS x (List.mem_cons_of_mem _ hx))]

/-- The loop over a run of `n` members of the set that starts at `m`: it ends behind the run
and `d` is the last byte of the run. -/
theorem bracket_loop_run (ci : Bool) (b : edit_buffer_t) (S : List Nat) :
    ∀ (n fuel : Nat) (c : Option Nat) (m : Int), n < fuel →
      (∀ x : Nat, x < n → read_byte ci b (m + x) ∈ S) → read_byte ci b (m + n) ∉ S →
      bracket_loop ci b S fuel c m =
        some (m + n, if n = 0 then c else some (read_byte ci b (m + n - 1))) := by
  intro n
  induction n with
  | zero =>
    intro fuel c m hf _ hstop
    obtain ⟨fuel, rfl⟩ : ∃ f, fuel = f + 1 := ⟨fuel - 1, by omega⟩
    have hstop : read_byte ci b m ∉ S := by simpa using hstop
    rw [bracket_loop, if_neg hstop]
    simp
  | succ n ih =>
    intro fuel c m hf hrun hstop
    obtain ⟨fuel, rfl⟩ : ∃ f, fuel = f + 1 := ⟨fuel - 1, by omega⟩
    have h0 : read_byte ci b m ∈ S := by simpa using hrun 0 (by omega)
    rw [bracket_loop, if_pos h0]
    have e1 : ∀ x : Nat, m + 1 + (x : Int) = m + ((x + 1 : Nat) : Int) := by
      intro x; push_cast; ring
    rw [ih fuel (some (read_byte ci b m)) (m + 1) (by omega)
      (fun x hx => by rw [e1]; exact hrun (x + 1) (by omega))
      (by rw [e1]; exact hstop)]
    have e2 : m + 1 + (n : Int) = m + ((n + 1 : Nat) : Int) := e1 n
    rw [e2]
    by_cases hn : n = 0
    · subst hn
      simp
    · rw [if_neg hn, if_neg (by omega)]

theorem bracket_close_skip (ci : Bool) (b : edit_buffer_t) (wr : Option (List Nat)) (t0 : Nat)
    (rest : List Nat) (d : Option Nat) (i : Int) :
    ∀ (S : List Nat), (∀ t ∈ S, t ≠ SYNTAX_TOKEN_BRACKET ∧ t ≠ 0) →
      word_loop ci b wr t0 (.bracket_close d) (S ++ SYNTAX_TOKEN_BRACKET :: rest) i =
        word_loop ci b wr t0 .tokens rest
          ((if some (rest.headD 0) = d then i - 1 else i) + 1) := by
  intro S
  induction S with
  | nil => intro _; rw [List.nil_append, word_loop, if_pos rfl]
  | cons t S ih =>
    intro hS
    rw [List.cons_append, word_loop, if_neg (hS t (List.mem_cons_self _ _)).1]
    exact ih (fun x hx => hS x (List.mem_cons_of_mem _ hx))

/-- A bracket set in a pattern, met at offset `i` where a run of exactly `n` members of the
set starts: the walk goes on behind the run, or on its last byte when that byte equals the
pattern byte that follows the set. -/
theorem word_loop_bracket (ci : Bool) (b : edit_buffer_t) (wr : Option (List Nat)) (t0 : Nat)
    (S rest : List Nat) (i : Int) (n : Nat)
    (hS : ∀ t ∈ S, t ≠ SYNTAX_TOKEN_BRACKET ∧ t ≠ 0)
    (hrun : ∀ x : Nat, x < n → read_byte ci b (i + x) ∈ S)
    (hstop : read_byte ci b (i + n) ∉ S) :
    word_loop ci b wr t0 .tokens
        (SYNTAX_TOKEN_BRACKET :: (S ++ SYNTAX_TOKEN_BRACKET :: rest)) i =
      word_loop ci b wr t0 .tokens rest
        (if n ≠ 0 ∧ rest.headD 0 = read_byte ci b (i + n - 1) then i + n - 1 else i + n) := by
  have hb : n ≤ (b.size - i).toNat := by
    by_contra hc
    have hn : n - 1 < n := by omega
    have h1 := hrun (n - 1) hn
    have e : read_byte ci b (i + ((n - 1 : Nat) : Int)) = read_byte ci b (i + n) :=
      read_byte_past_end ci b _ _ (by omega) (by omega)
    rw [e] at h1
    exact hstop h1
  rw [word_loop, if_neg (by decide), if_neg (by decide), if_pos rfl,
    bracket_set_append S rest hS,
    bracket_loop_run ci b S n (scan_fuel b i) none i (by unfold scan_fuel; omega) hrun hstop]
  simp only
  rw [bracket_close_skip ci b wr t0 rest _ _ S hS]
  congr 1
  by_cases hn : n = 0
  · subst hn
    simp
  · rw [if_neg hn]
    by_cases hd : rest.headD 0 = read_byte ci b (i + n - 1)
    · rw [if_pos (by rw [hd]), if_pos ⟨hn, hd⟩]
      ring
    · rw [if_neg (by simpa using hd), if_neg (fun h => hd h.2)]
      ring

/-- C23, amended: a bracket set matches a run of zero or more bytes of the set, not one
byte.  For a pattern `L1 [S] L2` with literal `L1`, `L2` and no boundary sets, let `n` be the
length of the run of members of `S` that starts behind `L1`.  The walk goes on at `e`, the
offset behind the run, or the offset of the last byte of the run when that byte equals the
first byte of `L2`; the pattern matches exactly when `L1` stands at `i` and `L2` at `e`. -/
theorem bracket_set_run (ci : Bool) (b : edit_buffer_t) (i e : Int) (L1 S L2 : List Nat)
    (n : Nat) (h1 : literal_pattern L1) (h2 : literal_pattern L2)
    (hS : ∀ t ∈ S, t ≠ SYNTAX_TOKEN_BRACKET ∧ t ≠ 0)
    (hrun : ∀ x : Nat, x < n → read_byte ci b (i + L1.length + x) ∈ S)
    (hstop : read_byte ci b (i + L1.length + n) ∉ S)
    (he : e = if n ≠ 0 ∧ L2.headD 0 = read_byte ci b (i + L1.length + n - 1)
      then i + L1.length + n - 1 else i + L1.length + n) :
    compare_word_to_right ci b i
        (L1 ++ SYNTAX_TOKEN_BRACKET :: (S ++ SYNTAX_TOKEN_BRACKET :: L2)) none none false =
      if read_bytes ci b L1.length i = L1 ∧ read_bytes ci b L2.length e = L2
      then some (e + L2.length) else some (-1) := by
  have hhead : ¬ ((L1 ++ SYNTAX_TOKEN_BRACKET :: (S ++ SYNTAX_TOKEN_BRACKET :: L2)).headD 0
      = 0) := by
    cases L1 with
    | nil => simp [SYNTAX_TOKEN_BRACKET]
    | cons a L =>
      have := h1 a (List.mem_cons_self _ _)
      simp only [List.cons_append, List.headD_cons]
      omega
  rw [compare_plain ci b i _ hhead, word_loop_prefix ci b none _ _ L1 i h1]
  by_cases hm1 : read_bytes ci b L1.length i = L1
  · rw [if_pos hm1, word_loop_bracket ci b none _ S L2 _ n hS hrun hstop, ← he,
      word_loop_literal ci b none _ L2 _ h2]
    by_cases hm2 : read_bytes ci b L2.length e = L2
    · rw [if_pos hm2, if_pos ⟨hm1, hm2⟩]
    · rw [if_neg hm2, if_neg (fun h => hm2 h.2)]
  · rw [if_neg hm1, if_neg (fun h => hm1 h.1)]

/-- C23, witness: the pattern `a[xy]b` on `axyxb`, with a run of three
bytes. -/
theorem bracket_set_run_witness :
    compare_word_to_right false bracket_run_doc 0
        ([97] ++ SYNTAX_TOKEN_BRACKET :: ([120, 121] ++ SYNTAX_TOKEN_BRACKET :: [98]))
        none none false = some 5 :=
  (bracket_set_run false bracket_run_doc 0 4 [97] [120, 121] [98] 3 (by decide) (by decide)
    (by decide)
    (fun x hx => by
      have hx : x = 0 ∨ x = 1 ∨ x = 2 := by omega
      rcases hx with rfl | rfl | rfl <;> decide)
    (by decide) (by decide)).trans (by decide)

/-- C23, counterexample: the pattern `a[xy]b` matches `ab` at offset 0 with end 2, although
the byte behind `a` is `b`, which is not in the set; and it matches `axyxb` with end 5, the
set standing for three bytes. -/
theorem bracket_set_not_one_byte :
    compare_word_to_right false bracket_doc 0
        [97, SYNTAX_TOKEN_BRACKET, 120, 121, SYNTAX_TOKEN_BRACKET, 98] none none false
      = some 2 ∧
    read_byte false bracket_doc 1 = 98 ∧ 98 ∉ [120, 121] ∧
    compare_word_to_right false bracket_run_doc 0
        [97, SYNTAX_TOKEN_BRACKET, 120, 121, SYNTAX_TOKEN_BRACKET, 98] none none false
      = some 5 := by
  decide

/-! ## Theorems: the plus token (C29) -/

/-- C21: a backslash followed by a space is not converted to one space.  `convert` stores a
space for the backslash and then copies the space itself, so the two bytes stay two bytes,
both spaces; and in a rule line the space behind the backslash ends the token, so that the
pattern of `keyword a\ b red` reaches the matcher as `a` (with `b` and `red` taken for
the colours). -/
theorem backslash_space_two_spaces :
    (∀ s, convert (92 :: 32 :: s) = 32 :: 32 :: convert s) ∧
    convert (bytes_of "a\\ b") = bytes_of "a  b" ∧
    get_args_tokens (ARGS_LEN - 1) (bytes_of "keyword a\\ b red")
      = [bytes_of "keyword", bytes_of "a", bytes_of "b", bytes_of "red"] ∧
    (keyword_colors backslash_space_rules).map Prod.fst = [bytes_of " ", bytes_of "a"] := by
  refine ⟨fun s => ?_, by decide, by decide!, by decide!⟩
  rw [convert.eq_def]
  simp

/-! ## Theorems: the checkpoint list (C25, C26) -/

theorem push_marker_shape (markers : List syntax_marker_t) (i : Int)
    (rule : edit_syntax_rule_t) (hi : 0 ≤ i) (h : checkpoint_shape markers (i - 1)) :
    checkpoint_shape (push_marker markers i rule) i := by
  obtain ⟨hp, hm⟩ := h
  unfold SYNTAX_MARKER_DENSITY at hm
  unfold checkpoint_shape push_marker SYNTAX_MARKER_DENSITY
  cases markers with
  | nil =>
    have hlt : i - 1 < 513 := by
      by_contra hc
      have := (hm 513).mpr ⟨by omega, by omega, by omega⟩
      simp at this
    have hall : ∀ o : Int, ¬ (0 < o ∧ o % (512 + 1) = 0 ∧ o ≤ i - 1) := by
      intro o ho; omega
    by_cases hpush : i > 512
    · simp only [hpush, if_true, List.map_cons, List.map_nil, List.pairwise_cons,
        List.Pairwise.nil, and_true, List.mem_singleton, List.not_mem_nil, false_implies,
        implies_true, true_and]
      intro o
      constructor
      · intro ho; subst ho; omega
      · intro ho; omega
    · simp only [hpush, if_false, List.map_nil, List.Pairwise.nil, List.not_mem_nil,
        true_and, false_iff]
      intro o ho
      omega
  | cons s ms =>
    simp only [List.map_cons, List.pairwise_cons] at hp
    have hs := (hm s.offset).mp (by simp)
    have hlt : i - 1 < s.offset + 513 := by
      by_contra hc
      have := (hm (s.offset + 513)).mpr ⟨by omega, by omega, by omega⟩
      simp only [List.map_cons, List.mem_cons] at this
      rcases this with h1 | h1
      · omega
      · have := hp.1 _ h1
        omega
    have hgt : ∀ o ∈ (s :: ms).map (fun m => m.offset), o < i := by
      intro o ho
      have := (hm o).mp ho
      omega
    by_cases hpush : i > 512 + s.offset
    · simp only [hpush, if_true]
      refine ⟨?_, fun o => ?_⟩
      · rw [List.map_cons, List.pairwise_cons]
        refine ⟨fun o ho => ?_, ?_⟩
        · have := hgt o ho
          show i > o
          omega
        · simp only [List.map_cons, List.pairwise_cons]
          exact hp
      · rw [List.map_cons, List.mem_cons, hm o]
        dsimp only
        constructor
        · rintro (ho | ho)
          · rw [ho]
            omega
          · omega
        · intro ho
          by_cases he : o = i
          · exact Or.inl he
          · exact Or.inr (by omega)
    · simp only [hpush, if_false]
      refine ⟨by simpa using hp, fun o => ?_⟩
      rw [hm o]
      constructor
      · intro ho; omega
      · intro ho
        have : o ≠ i := by
          intro he; subst he; omega
        omega

theorem forward_loop_shape (ci : Bool) (b : edit_buffer_t) (rules : List context_rule_t) :
    ∀ (n : Nat) (i : Int) (rule : edit_syntax_rule_t) (markers : List syntax_marker_t)
      (r : edit_syntax_rule_t × List syntax_marker_t), 0 ≤ i →
      checkpoint_shape markers (i - 1) →
      forward_loop ci b rules n i rule markers = some r →
      checkpoint_shape r.2 (i + n - 1) := by
  intro n
  induction n with
  | zero =>
    intro i rule markers r hi h hr
    rw [forward_loop] at hr
    cases hr
    simpa using h
  | succ n ih =>
    intro i rule markers r hi h hr
    rw [forward_loop] at hr
    cases hs : apply_rules_going_right ci b rules rule i with
    | none => rw [hs] at hr; cases hr
    | some rule1 =>
      rw [hs] at hr
      have h1 := ih (i + 1) rule1 (push_marker markers i rule1) r (by omega)
        (by
          have e : i + 1 - 1 = i := by omega
          rw [e]
          exact push_marker_shape markers i rule1 hi h) hr
      have e : i + 1 + (n : Int) - 1 = i + ((n + 1 : Nat) : Int) - 1 := by push_cast; ring
      rw [e] at h1
      exact h1

theorem backward_loop_filter (ci : Bool) (b : edit_buffer_t) (rules : List context_rule_t)
    (x : Int) :
    ∀ (markers : List syntax_marker_t) (r : edit_syntax_rule_t × List syntax_marker_t),
      (markers.map fun m => m.offset).Pairwise (fun o1 o2 => o1 > o2) →
      backward_loop ci b rules x markers = some r →
      r.2 = markers.filter (fun s => decide (s.offset ≤ x)) := by
  intro markers
  induction markers with
  | nil =>
    intro r _ hr
    rw [backward_loop] at hr
    cases hl : replay_loop ci b rules (x + 2).toNat (-1) zero_rule with
    | none => rw [hl] at hr; cases hr
    | some rule => rw [hl] at hr; cases hr; rfl
  | cons s ms ih =>
    intro r hp hr
    rw [List.map_cons, List.pairwise_cons] at hp
    rw [backward_loop] at hr
    by_cases hx : x ≥ s.offset
    · rw [if_pos hx] at hr
      cases hl : replay_loop ci b rules (x - s.offset).toNat (s.offset + 1) s.rule with
      | none => rw [hl] at hr; cases hr
      | some rule =>
        rw [hl] at hr
        cases hr
        show s :: ms = _
        symm
        rw [List.filter_eq_self]
        intro m hm
        rcases List.mem_cons.mp hm with rfl | hm
        · simpa using hx
        · have := hp.1 m.offset (List.mem_map_of_mem _ hm)
          simp only [decide_eq_true_eq]
          omega
    · rw [if_neg hx] at hr
      rw [List.filter_cons_of_neg (by simpa using hx)]
      exact ih r hp.2 hr

theorem filter_shape (markers : List syntax_marker_t) (last x : Int) (hx : x ≤ last)
    (h : checkpoint_shape markers last) :
    checkpoint_shape (markers.filter (fun s => decide (s.offset ≤ x))) x := by
  obtain ⟨hp, hm⟩ := h
  refine ⟨?_, fun o => ?_⟩
  · exact (List.Pairwise.sublist (List.Sublist.map _ (List.filter_sublist _)) hp)
  · simp only [List.mem_map, List.mem_filter, decide_eq_true_eq]
    constructor
    · rintro ⟨m, ⟨hm1, hm2⟩, rfl⟩
      have := (hm m.offset).mp (List.mem_map_of_mem _ hm1)
      exact ⟨this.1, this.2.1, hm2⟩
    · intro ho
      obtain ⟨m, hm1, hm2⟩ := List.mem_map.mp ((hm o).mpr ⟨ho.1, ho.2.1, by omega⟩)
      exact ⟨m, ⟨hm1, by rw [hm2]; exact ho.2.2⟩, hm2⟩

theorem edit_get_rule_shape (edit edit1 : WEdit) (x : Int) (hl : -1 ≤ edit.last_get_rule)
    (hx : -1 ≤ x) (h : checkpoint_shape edit.syntax_marker edit.last_get_rule)
    (hr : edit_get_rule edit x = some edit1) :
    -1 ≤ edit1.last_get_rule ∧ checkpoint_shape edit1.syntax_marker edit1.last_get_rule := by
  unfold edit_get_rule at hr
  cases hrules : edit.rules with
  | none =>
    rw [hrules] at hr
    simp only at hr
    split at hr
    · cases hr; exact ⟨hl, h⟩
    · cases hr
  | some rules =>
    rw [hrules] at hr
    simp only at hr
    split at hr
    · rename_i hgt
      split at hr
      · cases hr
      · rename_i rule markers hf
        cases hr
        have := forward_loop_shape _ _ _ _ _ _ _ (rule, markers) (by omega)
          (by
            have e : edit.last_get_rule + 1 - 1 = edit.last_get_rule := by omega
            rw [e]; exact h) hf
        have e : edit.last_get_rule + 1 + ((x - edit.last_get_rule).toNat : Int) - 1 = x := by
          omega
        rw [e] at this
        exact ⟨hx, this⟩
    · split at hr
      · rename_i hlt
        split at hr
        · cases hr
        · rename_i rule markers hb
          cases hr
          have := backward_loop_filter _ _ _ _ _ (rule, markers) h.1 hb
          refine ⟨hx, ?_⟩
          show checkpoint_shape markers x
          rw [show markers = _ from this]
          exact filter_shape _ _ _ (by omega) h
      · cases hr
        have : x = edit.last_get_rule := by omega
        subst this
        exact ⟨hx, h⟩

theorem get_rules_shape :
    ∀ (qs : List Int) (edit edit1 : WEdit), -1 ≤ edit.last_get_rule →
      checkpoint_shape edit.syntax_marker edit.last_get_rule → (∀ q ∈ qs, -1 ≤ q) →
      get_rules edit qs = some edit1 →
      -1 ≤ edit1.last_get_rule ∧ checkpoint_shape edit1.syntax_marker edit1.last_get_rule := by
  intro qs
  induction qs with
  | nil =>
    intro edit edit1 hl h _ hr
    rw [get_rules] at hr
    cases hr
    exact ⟨hl, h⟩
  | cons q qs ih =>
    intro edit edit1 hl h hq hr
    rw [get_rules] at hr
    cases he : edit_get_rule edit q with
    | none => rw [he] at hr; cases hr
    | some e =>
      rw [he] at hr
      have h1 := edit_get_rule_shape edit e q hl (hq q (List.mem_cons_self _ _)) h he
      exact ih e edit1 h1.1 h1.2 (fun x hx => hq x (List.mem_cons_of_mem _ hx)) hr

theorem initial_shape : checkpoint_shape [] (-1) := by
  refine ⟨List.Pairwise.nil, fun o => ?_⟩
  unfold SYNTAX_MARKER_DENSITY
  simp only [List.map_nil, List.not_mem_nil, false_iff]
  omega

theorem option_all_some {α : Type} (o : Option α) (p : α → Bool) (e : α)
    (h : o.all p = true) (he : o = some e) : p e = true := by
  subst he
  exact h

theorem backward_loop_start (ci : Bool) (b : edit_buffer_t) (rules : List context_rule_t)
    (x : Int) :
    ∀ (markers : List syntax_marker_t),
      (markers.map fun m => m.offset).Pairwise (fun o1 o2 => o1 > o2) →
      backward_loop ci b rules x markers =
        (replay_loop ci b rules (x + 1 - (backward_start x markers).1).toNat
          (backward_start x markers).1 (backward_start x markers).2).map
          fun rule => (rule, markers.filter (fun s => decide (s.offset ≤ x))) := by
  intro markers
  induction markers with
  | nil =>
    intro _
    rw [backward_loop, backward_start]
    have e : x + 1 - (-1 : Int) = x + 2 := by omega
    simp only [e, List.filter_nil]
    cases replay_loop ci b rules (x + 2).toNat (-1) zero_rule <;> rfl
  | cons s ms ih =>
    intro hp
    rw [List.map_cons, List.pairwise_cons] at hp
    rw [backward_loop, backward_start]
    by_cases hx : x ≥ s.offset
    · rw [if_pos hx, if_pos hx]
      have e : x + 1 - (s.offset + 1) = x - s.offset := by omega
      have hf : (s :: ms).filter (fun s => decide (s.offset ≤ x)) = s :: ms := by
        rw [List.filter_eq_self]
        intro m hm
        rcases List.mem_cons.mp hm with rfl | hm
        · simpa using hx
        · have := hp.1 m.offset (List.mem_map_of_mem _ hm)
          simp only [decide_eq_true_eq]
          omega
      simp only [e, hf]
      cases replay_loop ci b rules (x - s.offset).toNat (s.offset + 1) s.rule <;> rfl
    · rw [if_neg hx, if_neg hx, List.filter_cons_of_neg (by simpa using hx)]
      exact ih hp.2

theorem backward_start_bound (x : Int) :
    ∀ (markers : List syntax_marker_t),
      (markers.map fun m => m.offset).Pairwise (fun o1 o2 => o1 > o2) →
      (∀ o, 0 < o ∧ o % 513 = 0 ∧ o ≤ x → o ∈ (markers.map fun m => m.offset)) →
      (∀ o ∈ (markers.map fun m => m.offset), 0 < o ∧ o % 513 = 0) →
      (backward_start x markers = (-1, zero_rule) ∧ x ≤ 512) ∨
      (∃ s ∈ markers, backward_start x markers = (s.offset + 1, s.rule) ∧
        s.offset ≤ x ∧ x - s.offset ≤ 512) := by
  intro markers
  induction markers with
  | nil =>
    intro _ hall _
    refine Or.inl ⟨rfl, ?_⟩
    by_contra hc
    have := hall 513 ⟨by omega, by omega, by omega⟩
    simp at this
  | cons s ms ih =>
    intro hp hall hmul
    rw [List.map_cons, List.pairwise_cons] at hp
    rw [backward_start]
    by_cases hx : x ≥ s.offset
    · rw [if_pos hx]
      refine Or.inr ⟨s, List.mem_cons_self _ _, rfl, hx, ?_⟩
      by_contra hc
      have hs := hmul s.offset (by simp)
      have := hall (s.offset + 513) ⟨by omega, by omega, by omega⟩
      simp only [List.map_cons, List.mem_cons] at this
      rcases this with h1 | h1
      · omega
      · have := hp.1 _ h1
        omega
    · rw [if_neg hx]
      have := ih hp.2
        (fun o ho => by
          have h1 := hall o ho
          simp only [List.map_cons, List.mem_cons] at h1
          rcases h1 with h1 | h1
          · omega
          · exact h1)
        (fun o ho => hmul o (by simp only [List.map_cons, List.mem_cons]; exact Or.inr ho))
      rcases this with h1 | ⟨m, hm, h1⟩
      · exact Or.inl h1
      · exact Or.inr ⟨m, List.mem_cons_of_mem _ hm, h1⟩

theorem edit_get_rule_backward (edit : WEdit) (rules : List context_rule_t) (x : Int)
    (hrules : edit.rules = some rules) (hx : x < edit.last_get_rule) :
    edit_get_rule edit x =
      (backward_loop edit.is_case_insensitive edit.buffer rules x edit.syntax_marker).map
        fun r => { edit with rule := r.1, syntax_marker := r.2, last_get_rule := x } := by
  unfold edit_get_rule
  rw [hrules]
  simp only
  rw [if_neg (by omega), if_pos hx]
  cases backward_loop edit.is_case_insensitive edit.buffer rules x edit.syntax_marker with
  | none => rfl
  | some r => rfl

/-- C26: the shape of the checkpoint list.  From an initial state (last position -1, no
checkpoint) and after any sequence of `edit_get_rule` calls with offsets of at least -1, the
checkpoint offsets descend strictly from the head, and they are exactly the positive
multiples of 513 (`SYNTAX_MARKER_DENSITY + 1`) up to the last classified position; a
backward query to `x` leaves the list of the checkpoints whose offset is at most `x`,
unchanged. -/
theorem checkpoint_list_shape (edit edit1 : WEdit) (qs : List Int)
    (h0 : edit.last_get_rule = -1) (hm : edit.syntax_marker = []) (hq : ∀ q ∈ qs, -1 ≤ q)
    (hr : get_rules edit qs = some edit1) :
    (edit1.syntax_marker.map fun m => m.offset).Pairwise (fun o1 o2 => o1 > o2) ∧
    (∀ o, o ∈ (edit1.syntax_marker.map fun m => m.offset) ↔
      0 < o ∧ o % (SYNTAX_MARKER_DENSITY + 1) = 0 ∧ o ≤ edit1.last_get_rule) ∧
    (∀ x edit2, x < edit1.last_get_rule → edit_get_rule edit1 x = some edit2 →
      edit2.syntax_marker = edit1.syntax_marker.filter (fun s => decide (s.offset ≤ x))) := by
  have hs := get_rules_shape qs edit edit1 (by omega)
    (by rw [hm, h0]; exact initial_shape) hq hr
  refine ⟨hs.2.1, hs.2.2, fun x edit2 hx he => ?_⟩
  cases hrules : edit1.rules with
  | none =>
    unfold edit_get_rule at he
    rw [hrules] at he
    simp only at he
    rw [if_neg (by omega)] at he
    cases he
  | some rules =>
    rw [edit_get_rule_backward edit1 rules x hrules hx,
      backward_loop_start _ _ _ _ _ hs.2.1] at he
    cases hl : replay_loop edit1.is_case_insensitive edit1.buffer rules
        (x + 1 - (backward_start x edit1.syntax_marker).1).toNat
        (backward_start x edit1.syntax_marker).1 (backward_start x edit1.syntax_marker).2 with
    | none => rw [hl] at he; cases he
    | some rule => rw [hl] at he; cases he; rfl

set_option maxRecDepth 100000 in
/-- C26, witness: the 600-byte document `long_doc`, queried at 599 and
then at 520. -/
theorem checkpoint_list_shape_witness :
    ∃ e, get_rules (load_rules line_rules long_doc) [599, 520] = some e ∧
      ∀ o, o ∈ (e.syntax_marker.map fun m => m.offset) ↔
        0 < o ∧ o % (SYNTAX_MARKER_DENSITY + 1) = 0 ∧ o ≤ e.last_get_rule := by
  obtain ⟨e, he⟩ := Option.isSome_iff_exists.mp
    (by decide! : (get_rules (load_rules line_rules long_doc) [599, 520]).isSome = true)
  exact ⟨e, he, (checkpoint_list_shape (load_rules line_rules long_doc) e [599, 520]
    (by decide!) (by decide!) (by decide) he).2.1⟩

/-- C25, amended: the bound of the backward re-scan.  After any sequence of queries from an
initial state, a backward query to `x` replays the steps from `p` to `x`, where `p` is
either -1 with the all-zero ParseState (then `x <= 512`, so up to 514 steps are replayed and
position -1 lies up to 513 bytes before `x`), or the offset behind a checkpoint that lies at
most 512 bytes before `x` (then at most 512 steps are replayed). -/
theorem backward_replay_bound (edit edit1 : WEdit) (qs : List Int)
    (rules : List context_rule_t) (x : Int)
    (h0 : edit.last_get_rule = -1) (hm : edit.syntax_marker = []) (hq : ∀ q ∈ qs, -1 ≤ q)
    (hr : get_rules edit qs = some edit1) (hrules : edit1.rules = some rules)
    (hx : x < edit1.last_get_rule) :
    edit_get_rule edit1 x =
      (replay_loop edit1.is_case_insensitive edit1.buffer rules
        (x + 1 - (backward_start x edit1.syntax_marker).1).toNat
        (backward_start x edit1.syntax_marker).1 (backward_start x edit1.syntax_marker).2).map
        (fun rule => { edit1 with
          rule := rule
          syntax_marker := edit1.syntax_marker.filter (fun s => decide (s.offset ≤ x))
          last_get_rule := x }) ∧
    ((backward_start x edit1.syntax_marker = (-1, zero_rule) ∧ x ≤ 512) ∨
      (∃ s ∈ edit1.syntax_marker,
        backward_start x edit1.syntax_marker = (s.offset + 1, s.rule) ∧
        s.offset ≤ x ∧ x - s.offset ≤ 512)) := by
  have hs := get_rules_shape qs edit edit1 (by omega)
    (by rw [hm, h0]; exact initial_shape) hq hr
  have hsh := hs.2.2
  unfold SYNTAX_MARKER_DENSITY at hsh
  constructor
  · rw [edit_get_rule_backward edit1 rules x hrules hx,
      backward_loop_start _ _ _ _ _ hs.2.1]
    cases replay_loop edit1.is_case_insensitive edit1.buffer rules
        (x + 1 - (backward_start x edit1.syntax_marker).1).toNat
        (backward_start x edit1.syntax_marker).1 (backward_start x edit1.syntax_marker).2 with
    | none => rfl
    | some rule => rfl
  · exact backward_start_bound x _ hs.2.1
      (fun o ho => (hsh o).mpr ⟨ho.1, ho.2.1, by omega⟩)
      (fun o ho => ⟨((hsh o).mp ho).1, ((hsh o).mp ho).2.1⟩)

set_option maxHeartbeats 1000000 in
set_option maxRecDepth 100000 in
/-- C25, witness: the document `long_doc`, queried at 599 and then
back at 520: the replay starts behind the checkpoint at 513. -/
theorem backward_replay_bound_witness :
    ∃ e, get_rules (load_rules line_rules long_doc) [599] = some e ∧
      ((backward_start 520 e.syntax_marker = (-1, zero_rule) ∧ (520 : Int) ≤ 512) ∨
        (∃ s ∈ e.syntax_marker, backward_start 520 e.syntax_marker = (s.offset + 1, s.rule) ∧
          s.offset ≤ 520 ∧ 520 - s.offset ≤ 512)) := by
  obtain ⟨e, he⟩ := Option.isSome_iff_exists.mp
    (by decide! : (get_rules (load_rules line_rules long_doc) [599]).isSome = true)
  have h2 : (get_rules (load_rules line_rules long_doc) [599]).all
      (fun e => e.rules.isSome && decide (520 < e.last_get_rule)) = true := by decide!
  have h3 := option_all_some (get_rules (load_rules line_rules long_doc) [599])
    (fun e => e.rules.isSome && decide (520 < e.last_get_rule)) e h2 he
  simp only [Bool.and_eq_true, decide_eq_true_eq] at h3
  obtain ⟨rules, hrules⟩ := Option.isSome_iff_exists.mp h3.1
  exact ⟨e, he, (backward_replay_bound (load_rules line_rules long_doc) e [599] rules 520
    (by decide!) (by decide!) (by decide) he hrules h3.2).2⟩

set_option maxRecDepth 100000 in
/-- C25, counterexample: on `long_doc`, after the query 513 the only checkpoint stands at
513; the backward query to 512 finds no checkpoint at or before 512 and replays from -1,
which lies 513 bytes before 512: 514 steps are replayed. -/
theorem backward_replay_from_reset :
    (get_rules (load_rules line_rules long_doc) [513]).map
        (fun e => (e.last_get_rule, e.syntax_marker.map (fun m => m.offset),
          (backward_start 512 e.syntax_marker).1,
          (512 + 1 - (backward_start 512 e.syntax_marker).1).toNat))
      = some (513, [513], -1, 514) := by
  decide!

/-! ## Theorems: the first matching keyword (C28) -/

theorem xx_tolower_read_byte (ci : Bool) (b : edit_buffer_t) (i : Int) :
    xx_tolower ci (read_byte ci b i) = read_byte ci b i := by
  unfold read_byte xx_tolower
  cases ci with
  | false => rfl
  | true =>
    simp only [if_true]
    unfold tolower
    split
    · rw [if_neg (by omega)]
    · rfl

/-- A pattern that starts with a literal byte matches only where the buffer holds this
byte. -/
theorem compare_first_byte (ci : Bool) (b : edit_buffer_t) (i : Int) (text : List Nat)
    (wl wr : Option (List Nat)) (ls : Bool) (e : Int)
    (h : compare_word_to_right ci b i text wl wr ls = some e) (he : 0 < e)
    (ht : 5 ≤ text.headD 0) : read_byte ci b i = text.headD 0 := by
  cases text with
  | nil => simp at ht
  | cons t p =>
    simp only [List.headD_cons] at ht ⊢
    by_contra hne
    unfold compare_word_to_right at h
    rw [if_neg (by simp only [List.headD_cons]; omega)] at h
    simp only [List.headD_cons] at h
    split at h
    · cases h; omega
    · rw [word_loop, if_neg (by unfold SYNTAX_TOKEN_STAR; omega),
        if_neg (by unfold SYNTAX_TOKEN_PLUS; omega),
        if_neg (by unfold SYNTAX_TOKEN_BRACKET; omega),
        if_neg (by unfold SYNTAX_TOKEN_BRACE; omega),
        if_pos (fun hh => hne hh.symm)] at h
      cases h
      omega

/-- The keyword loop returns the first keyword, in the order of the index, whose pattern
matches with a positive end; the keywords behind it are not looked at. -/
theorem keyword_loop_first_hit (ci : Bool) (b : edit_buffer_t)
    (keywords : List syntax_keyword_t) (i : Int) (n : Nat) (k : syntax_keyword_t) (e : Int)
    (hkn : keywords.get? n = some k)
    (hmatch : compare_word_to_right ci b i k.keyword k.whole_word_chars_left
      k.whole_word_chars_right k.line_start = some e) (he : 0 < e) :
    ∀ (p : List Nat) (count : Nat), count ≤ n →
      (∀ m, count ≤ m → m ≤ n → ∃ k1, keywords.get? m = some k1 ∧
        p.get? (m - count) = some (k1.keyword.headD 0)) →
      (∀ m k1, count ≤ m → m < n → keywords.get? m = some k1 →
        ∃ e1, compare_word_to_right ci b i k1.keyword k1.whole_word_chars_left
          k1.whole_word_chars_right k1.line_start = some e1 ∧ e1 ≤ 0) →
      keyword_loop ci b keywords i (read_byte ci b i) count p = some (some (n, k, e)) := by
  intro p
  induction p with
  | nil =>
    intro count hcn hidx _
    obtain ⟨k1, _, h2⟩ := hidx n hcn (le_refl _)
    simp at h2
  | cons x s ih =>
    intro count hcn hidx hbefore
    have hnext : ∀ m, count + 1 ≤ m → m ≤ n → ∃ k1, keywords.get? m = some k1 ∧
        s.get? (m - (count + 1)) = some (k1.keyword.headD 0) := by
      intro m h1 h2
      obtain ⟨k1, hk1, hp1⟩ := hidx m (by omega) h2
      refine ⟨k1, hk1, ?_⟩
      have e1 : m - count = (m - (count + 1)) + 1 := by omega
      rw [e1] at hp1
      simpa using hp1
    obtain ⟨k0, hk0, hx0⟩ := hidx count (le_refl _) hcn
    have hx : x = k0.keyword.headD 0 := by simpa using hx0
    rw [keyword_loop]
    by_cases hskip : 5 ≤ x ∧ xx_tolower ci x ≠ read_byte ci b i
    · rw [if_pos hskip]
      have hlt : count < n := by
        by_contra hc
        have hcn2 : count = n := by omega
        subst hcn2
        rw [hkn] at hk0
        cases hk0
        have := compare_first_byte ci b i _ _ _ _ e hmatch he (by rw [← hx]; exact hskip.1)
        rw [← hx] at this
        apply hskip.2
        rw [← this, xx_tolower_read_byte]
      exact ih (count + 1) (by omega) hnext
        (fun m k1 h1 h2 h3 => hbefore m k1 (by omega) h2 h3)
    · rw [if_neg hskip, hk0]
      simp only
      by_cases hcn2 : count = n
      · subst hcn2
        rw [hkn] at hk0
        cases hk0
        rw [hmatch]
        simp only
        rw [if_pos (by omega)]
      · obtain ⟨e1, he1, hle⟩ := hbefore count k0 (le_refl _) (by omega) hk0
        rw [he1]
        simp only
        rw [if_neg (by omega)]
        exact ih (count + 1) (by omega) hnext
          (fun m k1 h1 h2 h3 => hbefore m k1 (by omega) h2 h3)

theorem left_loop_keeps_keyword (ci : Bool) (b : edit_buffer_t) (i : Int) (c : Nat) :
    ∀ (rs : List context_rule_t) (count : Nat) (l l1 : step_locals),
      l._rule.keyword ≠ 0 → left_loop ci b i c count rs l = some l1 →
      l1._rule.keyword = l._rule.keyword ∧ l1._rule.context = l._rule.context ∧
      l1.contextchanged = l.contextchanged := by
  intro rs
  induction rs with
  | nil =>
    intro count l l1 _ h
    rw [left_loop] at h
    cases h
    exact ⟨rfl, rfl, rfl⟩
  | cons r rs ih =>
    intro count l l1 hk h
    rw [left_loop] at h
    split at h
    · split at h
      · cases h
      · split at h
        · simp only at h
          rw [if_neg (fun hh => hk hh.2)] at h
          cases h
          exact ⟨rfl, rfl, rfl⟩
        · exact ih _ l l1 hk h
    · exact ih _ l l1 hk h

theorem finish_border_idle (ci : Bool) (b : edit_buffer_t) (rules : List context_rule_t)
    (rule : edit_syntax_rule_t) (i : Int) (c : Nat) (l : step_locals) (hb : rule.border = 0) :
    finish_border ci b rules rule i c l = some l := by
  unfold finish_border
  simp [hb]

theorem turn_on_keyword_again_idle (ci : Bool) (b : edit_buffer_t)
    (rules : List context_rule_t) (i : Int) (c : Nat) (l : step_locals)
    (h : l.contextchanged = false) : turn_on_keyword_again ci b rules i c l = some l := by
  unfold turn_on_keyword_again
  simp [h]

theorem turn_on_context_keeps_keyword (ci : Bool) (b : edit_buffer_t)
    (rules : List context_rule_t) (rule : edit_syntax_rule_t) (i : Int) (c : Nat)
    (is_end : Bool) (l l1 : step_locals) (hb : rule.border = 0) (hk : l._rule.keyword ≠ 0)
    (h : turn_on_context ci b rules rule i c is_end l = some l1) :
    l1._rule.keyword = l._rule.keyword ∧ l1._rule.context = l._rule.context ∧
    l1.contextchanged = l.contextchanged := by
  unfold turn_on_context at h
  split at h
  · have hf : (if l.found_left = false ∧ is_end = true then finish_border ci b rules rule i c l
        else some l) = some l := by
      split
      · exact finish_border_idle ci b rules rule i c l hb
      · rfl
    rw [hf] at h
    simp only at h
    split at h
    · exact left_loop_keeps_keyword ci b i c _ _ l l1 hk h
    · cases h; exact ⟨rfl, rfl, rfl⟩
  · cases h; exact ⟨rfl, rfl, rfl⟩

/-- C28: the keyword tie-break.  No keyword is active, `r` is the active context, its index
of first bytes holds the first bytes of the patterns of the keywords 1 to `n`, keyword `n`
matches at `i` (positive end `e`) and the keywords before it do not.  Then "check to turn on
a keyword" activates keyword `n` with the end of its match, whatever the keywords behind
`n` are - they are not compared, so that nothing is required of them - and a step from a
state without a pending border, in which the right delimiter of the context does not
match, leaves keyword `n` active in the same context. -/
theorem first_keyword_wins (ci : Bool) (b : edit_buffer_t) (rules : List context_rule_t)
    (rule : edit_syntax_rule_t) (i : Int) (r : context_rule_t) (idx : List Nat) (n : Nat)
    (k : syntax_keyword_t) (e : Int)
    (hc : read_byte ci b i ≠ 0) (hk0 : rule.keyword = 0) (hb : rule.border = 0)
    (hr : rules.get? rule.context = some r)
    (hright : rule.context ≠ 0 → r.first_right = read_byte ci b i →
      ∃ e1, compare_word_to_right ci b i r.right r.whole_word_chars_left
        r.whole_word_chars_right r.line_start_right = some e1 ∧ e1 ≤ 0)
    (hidx : r.keyword_first_chars = some idx) (_hnul : 0 ∉ idx)
    (hfirst : ∀ m, 1 ≤ m → m ≤ n → ∃ k1, r.keyword.get? m = some k1 ∧
      idx.get? m = some (k1.keyword.headD 0))
    (hn : 1 ≤ n) (hkn : r.keyword.get? n = some k)
    (hmatch : compare_word_to_right ci b i k.keyword k.whole_word_chars_left
      k.whole_word_chars_right k.line_start = some e) (he : 0 < e)
    (hbefore : ∀ m k1, 1 ≤ m → m < n → r.keyword.get? m = some k1 →
      ∃ e1, compare_word_to_right ci b i k1.keyword k1.whole_word_chars_left
        k1.whole_word_chars_right k1.line_start = some e1 ∧ e1 ≤ 0) :
    (∀ l : step_locals, l._rule.keyword = 0 → l._rule.context = rule.context →
      turn_on_keyword ci b rules i (read_byte ci b i) l =
        (newline_backoff rules l._rule._context i k e).map fun e1 =>
          { l with
            end_ := e1
            keyword_foundright := true
            _rule := { l._rule with end_ := e1, keyword := n } }) ∧
    (∀ rule1, apply_rules_going_right ci b rules rule i = some rule1 →
      rule1.keyword = n ∧ rule1.context = rule.context) := by
  obtain ⟨x0, p, rfl⟩ : ∃ x0 p, idx = x0 :: p := by
    cases idx with
    | nil =>
      obtain ⟨k1, _, h2⟩ := hfirst n hn (le_refl _)
      simp at h2
    | cons x0 p => exact ⟨x0, p, rfl⟩
  have hloop : keyword_loop ci b r.keyword i (read_byte ci b i) 1 p = some (some (n, k, e)) :=
    keyword_loop_first_hit ci b r.keyword i n k e hkn hmatch he p 1 hn
      (fun m h1 h2 => by
        obtain ⟨k1, hk1, hp1⟩ := hfirst m h1 h2
        refine ⟨k1, hk1, ?_⟩
        have e1 : m = (m - 1) + 1 := by omega
        rw [e1] at hp1
        simpa using hp1)
      hbefore
  have hA : ∀ l : step_locals, l._rule.keyword = 0 → l._rule.context = rule.context →
      turn_on_keyword ci b rules i (read_byte ci b i) l =
        (newline_backoff rules l._rule._context i k e).map fun e1 =>
          { l with
            end_ := e1
            keyword_foundright := true
            _rule := { l._rule with end_ := e1, keyword := n } } := by
    intro l hl0 hlc
    unfold turn_on_keyword
    rw [if_pos hl0, hlc, hr]
    simp only [hidx, hloop]
    cases newline_backoff rules l._rule._context i k e <;> rfl
  refine ⟨hA, fun rule1 hstep => ?_⟩
  unfold apply_rules_going_right at hstep
  simp only [if_neg hc] at hstep
  have h1 : turn_off_keyword b i (decide (rule.end_ = i))
      { _rule := rule, contextchanged := false, found_left := false, found_right := false,
        keyword_foundleft := false, keyword_foundright := false, end_ := 0 } =
      { _rule := rule, contextchanged := false, found_left := false, found_right := false,
        keyword_foundleft := false, keyword_foundright := false, end_ := 0 } := by
    unfold turn_off_keyword
    simp [hk0]
  rw [h1] at hstep
  have hend : ∀ l : step_locals,
      turn_off_context_at_end rule (decide (rule.end_ = i)) l = l := by
    intro l
    unfold turn_off_context_at_end
    simp [hb]
  have h2 : turn_off_context ci b rules rule i (read_byte ci b i) (decide (rule.end_ = i))
      { _rule := rule, contextchanged := false, found_left := false, found_right := false,
        keyword_foundleft := false, keyword_foundright := false, end_ := 0 } =
      some { _rule := rule, contextchanged := false, found_left := false,
             found_right := false, keyword_foundleft := false, keyword_foundright := false,
             end_ := 0 } := by
    unfold turn_off_context
    by_cases hctx : rule.context ≠ 0
    · rw [if_pos ⟨hctx, hk0⟩]
      simp only [hr]
      by_cases hf : r.first_right = read_byte ci b i
      · obtain ⟨e1, he1, hle⟩ := hright hctx hf
        rw [if_pos ⟨hf, by simp [hb]⟩, he1]
        simp only
        rw [if_neg (by omega), hend]
      · rw [if_neg (fun hh => hf hh.1), hend]
    · rw [if_neg (fun hh => hctx hh.1)]
  rw [h2] at hstep
  simp only [Option.bind] at hstep
  rw [hA _ hk0 rfl] at hstep
  cases hnb : newline_backoff rules rule._context i k e with
  | none => rw [hnb] at hstep; cases hstep
  | some e1 =>
    rw [hnb] at hstep
    simp only [Option.map] at hstep
    have hn0 : n ≠ 0 := by omega
    cases h4 : turn_on_context ci b rules rule i (read_byte ci b i) (decide (rule.end_ = i))
        { _rule := { rule with end_ := e1, keyword := n }, contextchanged := false,
          found_left := false, found_right := false, keyword_foundleft := false,
          keyword_foundright := true, end_ := e1 } with
    | none => rw [h4] at hstep; cases hstep
    | some l4 =>
      rw [h4] at hstep
      obtain ⟨f1, f2, f3⟩ := turn_on_context_keeps_keyword ci b rules rule i _ _ _ l4 hb hn0 h4
      simp only at hstep
      rw [turn_on_keyword_again_idle ci b rules i _ l4 f3] at hstep
      cases hstep
      exact ⟨f1, f2⟩

/-- C28, witness: in the table of `tie_rules` the keywords 2 (`ab`),
3 (`a`) and 4 (`abc`) match at offset 0 of `abc` and keyword 1 (`ac`) does not; the step
activates keyword 2. -/
theorem first_keyword_wins_witness :
    ∃ rule1, apply_rules_going_right false tie_doc tie_table zero_rule 0 = some rule1 ∧
      rule1.keyword = 2 ∧ rule1.context = zero_rule.context := by
  obtain ⟨rule1, h⟩ := Option.isSome_iff_exists.mp
    (by decide! : (apply_rules_going_right false tie_doc tie_table zero_rule 0).isSome = true)
  have hk1 : (tie_table.headD new_context).keyword.get? 1 = some (plain_keyword [97, 99] 1) := by
    decide!
  have hk2 : (tie_table.headD new_context).keyword.get? 2 = some (plain_keyword [97, 98] 2) := by
    decide!
  exact ⟨rule1, h, (first_keyword_wins false tie_doc tie_table zero_rule 0
    (tie_table.headD new_context) [1, 97, 97, 97, 97] 2 (plain_keyword [97, 98] 2) 2
    (by decide) rfl rfl (by decide!) (fun h => absurd rfl h) (by decide!) (by decide)
    (fun m h1 h2 => by
      have hm : m = 1 ∨ m = 2 := by omega
      rcases hm with rfl | rfl
      · exact ⟨_, hk1, by decide⟩
      · exact ⟨_, hk2, by decide⟩)
    (by decide) hk2 (by decide) (by decide)
    (fun m k1 h1 h2 hk => by
      have hm : m = 1 := by omega
      subst hm
      have e1 : k1 = plain_keyword [97, 99] 1 := Option.some.inj (hk.symm.trans hk1)
      subst e1
      exact ⟨-1, by decide, by decide⟩)).2 rule1 h⟩

/-! ## Theorems: the delimiters of an exclusive context (C27) -/

theorem apply_rules_going_right_blocks (ci : Bool) (b : edit_buffer_t)
    (rules : List context_rule_t) (rule : edit_syntax_rule_t) (i : Int)
    (hc : read_byte ci b i ≠ 0) :
    apply_rules_going_right ci b rules rule i =
      (turn_off_context ci b rules rule i (read_byte ci b i) (decide (rule.end_ = i))
        (turn_off_keyword b i (decide (rule.end_ = i)) (fresh_locals rule))).bind fun l2 =>
      (turn_on_keyword ci b rules i (read_byte ci b i) l2).bind fun l3 =>
      (turn_on_context ci b rules rule i (read_byte ci b i) (decide (rule.end_ = i)) l3).bind
        fun l4 =>
      (turn_on_keyword_again ci b rules i (read_byte ci b i) l4).bind fun l5 =>
      some l5._rule := by
  unfold apply_rules_going_right
  simp only [if_neg hc]
  rfl

theorem turn_off_context_default (ci : Bool) (b : edit_buffer_t) (rules : List context_rule_t)
    (rule : edit_syntax_rule_t) (i : Int) (c : Nat) (is_end : Bool) (l : step_locals)
    (h : l._rule.context = 0) : turn_off_context ci b rules rule i c is_end l = some l := by
  unfold turn_off_context
  rw [if_neg (fun hh => hh.1 h)]

theorem turn_on_keyword_miss (ci : Bool) (b : edit_buffer_t) (rules : List context_rule_t)
    (i : Int) (l : step_locals) (r : context_rule_t)
    (hr : rules.get? l._rule.context = some r) (hm : keyword_miss ci b r i) :
    turn_on_keyword ci b rules i (read_byte ci b i) l = some l := by
  unfold keyword_miss keyword_scan at hm
  unfold turn_on_keyword
  split
  · rw [hr]
    simp only
    split at hm
    · rename_i x p hidx
      rw [hidx]
      simp only [hm]
    · cases hm
  · rfl

theorem turn_on_keyword_again_miss (ci : Bool) (b : edit_buffer_t)
    (rules : List context_rule_t) (i : Int) (l : step_locals) (r : context_rule_t)
    (hr : rules.get? l._rule.context = some r) (hm : keyword_miss ci b r i) :
    turn_on_keyword_again ci b rules i (read_byte ci b i) l = some l := by
  unfold keyword_miss keyword_scan at hm
  unfold turn_on_keyword_again
  split
  · rw [hr]
    simp only
    split at hm
    · rename_i x p hidx
      rw [hidx]
      simp only [hm]
    · cases hm
  · rfl

theorem left_loop_miss (ci : Bool) (b : edit_buffer_t) (i : Int) :
    ∀ (rs : List context_rule_t) (count : Nat) (l : step_locals), 0 ≤ l.end_ →
      (∀ r ∈ rs, left_miss ci b r i) →
      left_loop ci b i (read_byte ci b i) count rs l = some l := by
  intro rs
  induction rs with
  | nil => intro count l _ _; rw [left_loop]
  | cons r rs ih =>
    intro count l hl hm
    have hr := hm r (List.mem_cons_self _ _)
    have hrs : ∀ x ∈ rs, left_miss ci b x i := fun x hx => hm x (List.mem_cons_of_mem _ hx)
    rw [left_loop]
    by_cases hf : r.first_left = read_byte ci b i
    · rw [if_pos hf, hr hf]
      simp only
      rw [if_neg (fun hh => by omega)]
      exact ih _ l hl hrs
    · rw [if_neg hf]
      exact ih _ l hl hrs

theorem left_loop_hit (ci : Bool) (b : edit_buffer_t) (i : Int) (rx : context_rule_t)
    (e : Int) (hfirst : rx.first_left = read_byte ci b i)
    (hmatch : compare_word_to_right ci b i rx.left rx.whole_word_chars_left
      rx.whole_word_chars_right rx.line_start_left = some e)
    (hex : rx.between_delimiters = true) :
    ∀ (n : Nat) (rs : List context_rule_t) (count : Nat) (l : step_locals),
      0 ≤ l.end_ → l.end_ ≤ e → l._rule.keyword = 0 →
      (∀ m r, m < n → rs.get? m = some r → left_miss ci b r i) → rs.get? n = some rx →
      left_loop ci b i (read_byte ci b i) count rs l =
        some { l with
          found_right := true
          _rule := { l._rule with
            end_ := e, border := RULE_ON_LEFT_BORDER, _context := count + n } } := by
  intro n
  induction n with
  | zero =>
    intro rs count l _ hle hk _ hget
    cases rs with
    | nil => simp at hget
    | cons r rs =>
      have hr : r = rx := by simpa using hget
      subst hr
      rw [left_loop, if_pos hfirst, hmatch]
      simp only
      rw [if_pos ⟨by omega, Or.inl hk⟩, if_neg (by simp [hex])]
      rfl
  | succ n ih =>
    intro rs count l hl hle hk hm hget
    cases rs with
    | nil => simp at hget
    | cons r rs =>
      have hr : left_miss ci b r i := hm 0 r (by omega) (by simp)
      have hget1 : rs.get? n = some rx := by simpa using hget
      have hm1 : ∀ m r1, m < n → rs.get? m = some r1 → left_miss ci b r1 i :=
        fun m r1 h1 h2 => hm (m + 1) r1 (by omega) (by simpa using h2)
      have hnext := ih rs (count + 1) l hl hle hk hm1 hget1
      have e1 : count + 1 + n = count + (n + 1) := by omega
      rw [e1] at hnext
      rw [left_loop]
      by_cases hf : r.first_left = read_byte ci b i
      · rw [if_pos hf, hr hf]
        simp only
        rw [if_neg (fun hh => by omega)]
        exact hnext
      · rw [if_neg hf]
        exact hnext

/-- A step in the default context with no keyword active, away from the recorded end, at an
offset where no keyword and no left delimiter matches: the ParseState stays as it is. -/
theorem step_idle_default (ci : Bool) (b : edit_buffer_t) (rules : List context_rule_t)
    (rule : edit_syntax_rule_t) (o : Int) (r0 : context_rule_t)
    (hc : read_byte ci b o ≠ 0) (hctx : rule.context = 0) (hk : rule.keyword = 0)
    (hend : rule.end_ ≠ o) (hr0 : rules.get? 0 = some r0) (hkw : keyword_miss ci b r0 o)
    (hleft : ∀ r ∈ rules.tail, left_miss ci b r o) :
    apply_rules_going_right ci b rules rule o = some rule := by
  rw [apply_rules_going_right_blocks ci b rules rule o hc,
    turn_off_keyword_idle b o _ (fresh_locals rule) hk,
    turn_off_context_default ci b rules rule o _ _ (fresh_locals rule) hctx]
  simp only [Option.bind]
  rw [turn_on_keyword_miss ci b rules o (fresh_locals rule) r0
    (by rw [← hr0]; simp [fresh_locals, hctx]) hkw]
  simp only
  have h4 : turn_on_context ci b rules rule o (read_byte ci b o) (decide (rule.end_ = o))
      (fresh_locals rule) = some (fresh_locals rule) := by
    unfold turn_on_context
    rw [if_pos (by simp [fresh_locals, hctx]), if_neg (by simp [hend])]
    simp only
    rw [if_pos (by simp [fresh_locals])]
    exact left_loop_miss ci b o _ 1 (fresh_locals rule) (by simp [fresh_locals]) hleft
  rw [h4]
  simp only
  rw [turn_on_keyword_again_idle ci b rules o _ (fresh_locals rule) (by simp [fresh_locals])]
  rfl

/-- The step at `i`, where the left delimiter of the exclusive context `X` matches with end
`e`: the context stays 0, the left border is recorded with the end `e`. -/
theorem step_left_delimiter (ci : Bool) (b : edit_buffer_t) (rules : List context_rule_t)
    (rule : edit_syntax_rule_t) (i e : Int) (X : Nat) (r0 rx : context_rule_t)
    (hc : read_byte ci b i ≠ 0) (hctx : rule.context = 0) (hk : rule.keyword = 0)
    (hb : rule.border = 0) (hr0 : rules.get? 0 = some r0) (hkw : keyword_miss ci b r0 i)
    (hX : 1 ≤ X) (hrx : rules.get? X = some rx) (hex : rx.between_delimiters = true)
    (hfirst : rx.first_left = read_byte ci b i)
    (hmatch : compare_word_to_right ci b i rx.left rx.whole_word_chars_left
      rx.whole_word_chars_right rx.line_start_left = some e) (he : 0 ≤ e)
    (hbefore : ∀ m r, 1 ≤ m → m < X → rules.get? m = some r → left_miss ci b r i) :
    apply_rules_going_right ci b rules rule i =
      some { keyword := 0, end_ := e, context := 0, _context := X,
             border := RULE_ON_LEFT_BORDER } := by
  rw [apply_rules_going_right_blocks ci b rules rule i hc,
    turn_off_keyword_idle b i _ (fresh_locals rule) hk,
    turn_off_context_default ci b rules rule i _ _ (fresh_locals rule) hctx]
  simp only [Option.bind]
  rw [turn_on_keyword_miss ci b rules i (fresh_locals rule) r0
    (by rw [← hr0]; simp [fresh_locals, hctx]) hkw]
  simp only
  have hget : ∀ m, rules.tail.get? m = rules.get? (m + 1) := by
    intro m
    cases rules with
    | nil => simp
    | cons x xs => simp
  have h4 : turn_on_context ci b rules rule i (read_byte ci b i) (decide (rule.end_ = i))
      (fresh_locals rule) =
      some { fresh_locals rule with
        found_right := true
        _rule := { rule with end_ := e, border := RULE_ON_LEFT_BORDER, _context := X } } := by
    unfold turn_on_context
    rw [if_pos (by simp [fresh_locals, hctx])]
    have hf : (if (fresh_locals rule).found_left = false ∧ decide (rule.end_ = i) = true
        then finish_border ci b rules rule i (read_byte ci b i) (fresh_locals rule)
        else some (fresh_locals rule)) = some (fresh_locals rule) := by
      split
      · exact finish_border_idle ci b rules rule i _ _ hb
      · rfl
    rw [hf]
    simp only
    rw [if_pos (by simp [fresh_locals])]
    have := left_loop_hit ci b i rx e hfirst hmatch hex (X - 1) rules.tail 1 (fresh_locals rule)
      (by simp [fresh_locals]) (by simpa [fresh_locals] using he) (by simpa [fresh_locals] using hk)
      (fun m r h1 h2 => hbefore (m + 1) r (by omega) (by omega) (by rw [← hget]; exact h2))
      (by
        rw [hget]
        have e1 : X - 1 + 1 = X := by omega
        rw [e1]
        exact hrx)
    rw [this]
    have e1 : 1 + (X - 1) = X := by omega
    rw [e1]
    rfl
  rw [h4]
  simp only
  rw [turn_on_keyword_again_idle ci b rules i _ _ (by simp [fresh_locals])]
  simp only [Option.some.injEq]
  cases rule with
  | mk kw en cx _cx bd =>
    simp only at hctx hk
    subst hctx hk
    rfl

/-- The step at `e`, the end of the left delimiter, when the right delimiter does not match
there: the pending left border is finished and the exclusive context `X` becomes active. -/
theorem step_enter_exclusive (ci : Bool) (b : edit_buffer_t) (rules : List context_rule_t)
    (e : Int) (X : Nat) (r0 rx : context_rule_t)
    (hc : read_byte ci b e ≠ 0) (hr0 : rules.get? 0 = some r0)
    (hkw0 : keyword_miss ci b r0 e) (hrx : rules.get? X = some rx)
    (hkwx : keyword_miss ci b rx e) (hex : rx.between_delimiters = true)
    (hright : right_miss ci b rx e) (hleft : ∀ r ∈ rules.tail, left_miss ci b r e) :
    apply_rules_going_right ci b rules
        { keyword := 0, end_ := e, context := 0, _context := X, border := RULE_ON_LEFT_BORDER }
        e =
      some { keyword := 0, end_ := e, context := X, _context := X, border := 0 } := by
  rw [apply_rules_going_right_blocks ci b rules _ e hc,
    turn_off_keyword_idle b e _ _ rfl,
    turn_off_context_default ci b rules _ e _ _ _ rfl]
  simp only [Option.bind]
  rw [turn_on_keyword_miss ci b rules e _ r0 hr0 hkw0]
  simp only
  have h4 : turn_on_context ci b rules
      { keyword := 0, end_ := e, context := 0, _context := X, border := RULE_ON_LEFT_BORDER }
      e (read_byte ci b e) (decide (e = e))
      (fresh_locals { keyword := 0, end_ := e, context := 0, _context := X,
                      border := RULE_ON_LEFT_BORDER }) =
      some { _rule := { keyword := 0, end_ := e, context := X, _context := X, border := 0 },
             contextchanged := true, found_left := false, found_right := false,
             keyword_foundleft := false, keyword_foundright := false, end_ := 0 } := by
    have hrx1 : rules[X]? = some rx := by simpa using hrx
    have hfin : finish_border ci b rules
        { keyword := 0, end_ := e, context := 0, _context := X,
          border := RULE_ON_LEFT_BORDER }
        e (read_byte ci b e)
        (fresh_locals { keyword := 0, end_ := e, context := 0, _context := X,
                        border := RULE_ON_LEFT_BORDER }) =
        some { _rule := { keyword := 0, end_ := e, context := X, _context := X, border := 0 },
               contextchanged := true, found_left := false, found_right := false,
               keyword_foundleft := false, keyword_foundright := false, end_ := 0 } := by
      unfold finish_border
      by_cases hf : rx.first_right = read_byte ci b e
      · simp [fresh_locals, RULE_ON_LEFT_BORDER, RULE_ON_RIGHT_BORDER, hrx1, hex, hf,
          hright hf]
      · simp [fresh_locals, RULE_ON_LEFT_BORDER, RULE_ON_RIGHT_BORDER, hrx1, hex, hf]
    unfold turn_on_context
    rw [if_pos (by simp [fresh_locals]), if_pos (by simp [fresh_locals]), hfin]
    simp only
    rw [if_pos trivial]
    exact left_loop_miss ci b e _ 1 _ (le_refl _) hleft
  simp only [decide_True] at h4 ⊢
  rw [h4]
  simp only
  rw [turn_on_keyword_again_miss ci b rules e _ rx hrx hkwx]

/-- The step at `e`, the end of the left delimiter, when the right delimiter matches there:
the exclusive context is entered and left in the same step. -/
theorem step_enter_and_leave (ci : Bool) (b : edit_buffer_t) (rules : List context_rule_t)
    (e f : Int) (X : Nat) (r0 rx : context_rule_t)
    (hc : read_byte ci b e ≠ 0) (hr0 : rules.get? 0 = some r0)
    (hkw0 : keyword_miss ci b r0 e) (hrx : rules.get? X = some rx)
    (hex : rx.between_delimiters = true) (hfirst : rx.first_right = read_byte ci b e)
    (hmatch : compare_word_to_right ci b e rx.right rx.whole_word_chars_left
      rx.whole_word_chars_right rx.line_start_right = some f) (hf : 0 ≤ f) :
    apply_rules_going_right ci b rules
        { keyword := 0, end_ := e, context := 0, _context := X, border := RULE_ON_LEFT_BORDER }
        e =
      some { keyword := 0, end_ := f, context := 0, _context := X,
             border := RULE_ON_RIGHT_BORDER } := by
  rw [apply_rules_going_right_blocks ci b rules _ e hc,
    turn_off_keyword_idle b e _ _ rfl,
    turn_off_context_default ci b rules _ e _ _ _ rfl]
  simp only [Option.bind]
  rw [turn_on_keyword_miss ci b rules e _ r0 hr0 hkw0]
  simp only
  have h4 : turn_on_context ci b rules
      { keyword := 0, end_ := e, context := 0, _context := X, border := RULE_ON_LEFT_BORDER }
      e (read_byte ci b e) (decide (e = e))
      (fresh_locals { keyword := 0, end_ := e, context := 0, _context := X,
                      border := RULE_ON_LEFT_BORDER }) =
      some { _rule := { keyword := 0, end_ := f, context := 0, _context := X,
                        border := RULE_ON_RIGHT_BORDER },
             contextchanged := true, found_left := false, found_right := true,
             keyword_foundleft := false, keyword_foundright := false, end_ := 0 } := by
    have hrx1 : rules[X]? = some rx := by simpa using hrx
    have hfin : finish_border ci b rules
        { keyword := 0, end_ := e, context := 0, _context := X,
          border := RULE_ON_LEFT_BORDER }
        e (read_byte ci b e)
        (fresh_locals { keyword := 0, end_ := e, context := 0, _context := X,
                        border := RULE_ON_LEFT_BORDER }) =
        some { _rule := { keyword := 0, end_ := f, context := 0, _context := X,
                          border := RULE_ON_RIGHT_BORDER },
               contextchanged := true, found_left := false, found_right := true,
               keyword_foundleft := false, keyword_foundright := false, end_ := 0 } := by
      unfold finish_border
      simp [fresh_locals, RULE_ON_LEFT_BORDER, RULE_ON_RIGHT_BORDER, hrx1, hex, hfirst,
        hmatch, hf]
    unfold turn_on_context
    rw [if_pos (by simp [fresh_locals]), if_pos (by simp [fresh_locals]), hfin]
    simp
  simp only [decide_True] at h4 ⊢
  rw [h4]
  simp only
  rw [turn_on_keyword_again_miss ci b rules e _ r0 hr0 hkw0]

/-- A step inside the exclusive context `X` at an offset where no keyword of `X` and not
the right delimiter matches: the ParseState stays as it is. -/
theorem step_idle_exclusive (ci : Bool) (b : edit_buffer_t) (rules : List context_rule_t)
    (e o : Int) (X : Nat) (rx : context_rule_t)
    (hc : read_byte ci b o ≠ 0) (hX : X ≠ 0) (hrx : rules.get? X = some rx)
    (hkwx : keyword_miss ci b rx o) (hright : right_miss ci b rx o) (hne : e ≠ o) :
    apply_rules_going_right ci b rules
        { keyword := 0, end_ := e, context := X, _context := X, border := 0 } o =
      some { keyword := 0, end_ := e, context := X, _context := X, border := 0 } := by
  rw [apply_rules_going_right_blocks ci b rules _ o hc,
    turn_off_keyword_idle b o _ _ rfl]
  have h2 : turn_off_context ci b rules
      { keyword := 0, end_ := e, context := X, _context := X, border := 0 } o
      (read_byte ci b o) (decide (e = o))
      (fresh_locals { keyword := 0, end_ := e, context := X, _context := X, border := 0 }) =
      some (fresh_locals { keyword := 0, end_ := e, context := X, _context := X,
                           border := 0 }) := by
    have hrx1 : rules[X]? = some rx := by simpa using hrx
    unfold turn_off_context
    by_cases hf : rx.first_right = read_byte ci b o
    · simp [fresh_locals, hX, hrx1, hf, hright hf, turn_off_context_at_end, hne]
    · simp [fresh_locals, hX, hrx1, hf, turn_off_context_at_end, hne]
  rw [h2]
  simp only [Option.bind]
  rw [turn_on_keyword_miss ci b rules o _ rx hrx hkwx]
  simp only
  have h4 : turn_on_context ci b rules
      { keyword := 0, end_ := e, context := X, _context := X, border := 0 } o
      (read_byte ci b o) (decide (e = o))
      (fresh_locals { keyword := 0, end_ := e, context := X, _context := X, border := 0 }) =
      some (fresh_locals { keyword := 0, end_ := e, context := X, _context := X,
                           border := 0 }) := by
    unfold turn_on_context
    rw [if_neg (by simpa [fresh_locals] using hX)]
  rw [h4]
  simp only
  rw [turn_on_keyword_again_idle ci b rules o _ _ rfl]
  rfl

/-- The step at `j`, where the right delimiter of the active exclusive context matches with
end `f`: the context becomes 0 at once and the right border is recorded. -/
theorem step_right_delimiter (ci : Bool) (b : edit_buffer_t) (rules : List context_rule_t)
    (e j f : Int) (X : Nat) (r0 rx : context_rule_t)
    (hc : read_byte ci b j ≠ 0) (hX : X ≠ 0) (hr0 : rules.get? 0 = some r0)
    (hkw0 : keyword_miss ci b r0 j) (hrx : rules.get? X = some rx)
    (hex : rx.between_delimiters = true) (hfirst : rx.first_right = read_byte ci b j)
    (hmatch : compare_word_to_right ci b j rx.right rx.whole_word_chars_left
      rx.whole_word_chars_right rx.line_start_right = some f) (hf : 0 < f) (hne : e ≠ j) :
    apply_rules_going_right ci b rules
        { keyword := 0, end_ := e, context := X, _context := X, border := 0 } j =
      some { keyword := 0, end_ := f, context := 0, _context := X,
             border := RULE_ON_RIGHT_BORDER } := by
  rw [apply_rules_going_right_blocks ci b rules _ j hc,
    turn_off_keyword_idle b j _ _ rfl]
  have h2 : turn_off_context ci b rules
      { keyword := 0, end_ := e, context := X, _context := X, border := 0 } j
      (read_byte ci b j) (decide (e = j))
      (fresh_locals { keyword := 0, end_ := e, context := X, _context := X, border := 0 }) =
      some { _rule := { keyword := 0, end_ := f, context := 0, _context := X,
                        border := RULE_ON_RIGHT_BORDER },
             contextchanged := false, found_left := false, found_right := true,
             keyword_foundleft := false, keyword_foundright := false, end_ := 0 } := by
    have hrx1 : rules[X]? = some rx := by simpa using hrx
    unfold turn_off_context
    simp [fresh_locals, hX, hrx1, hfirst, hmatch, hf, hex]
  rw [h2]
  simp only [Option.bind]
  rw [turn_on_keyword_miss ci b rules j _ r0 hr0 hkw0]
  simp only
  have h4 : turn_on_context ci b rules
      { keyword := 0, end_ := e, context := X, _context := X, border := 0 } j
      (read_byte ci b j) (decide (e = j))
      { _rule := { keyword := 0, end_ := f, context := 0, _context := X,
                   border := RULE_ON_RIGHT_BORDER },
        contextchanged := false, found_left := false, found_right := true,
        keyword_foundleft := false, keyword_foundright := false, end_ := 0 } =
      some { _rule := { keyword := 0, end_ := f, context := 0, _context := X,
                        border := RULE_ON_RIGHT_BORDER },
             contextchanged := false, found_left := false, found_right := true,
             keyword_foundleft := false, keyword_foundright := false, end_ := 0 } := by
    unfold turn_on_context
    simp [hne]
  rw [h4]
  simp only
  rw [turn_on_keyword_again_idle ci b rules j _ _ rfl]

/-- The step at `f`, the end of the right delimiter: the pending right border is finished,
the context stays 0. -/
theorem step_finish_right (ci : Bool) (b : edit_buffer_t) (rules : List context_rule_t)
    (f : Int) (X : Nat) (r0 : context_rule_t)
    (hc : read_byte ci b f ≠ 0) (hr0 : rules.get? 0 = some r0)
    (hkw0 : keyword_miss ci b r0 f) (hleft : ∀ r ∈ rules.tail, left_miss ci b r f) :
    apply_rules_going_right ci b rules
        { keyword := 0, end_ := f, context := 0, _context := X,
          border := RULE_ON_RIGHT_BORDER } f =
      some { keyword := 0, end_ := f, context := 0, _context := X, border := 0 } := by
  rw [apply_rules_going_right_blocks ci b rules _ f hc,
    turn_off_keyword_idle b f _ _ rfl,
    turn_off_context_default ci b rules _ f _ _ _ rfl]
  simp only [Option.bind]
  rw [turn_on_keyword_miss ci b rules f _ r0 hr0 hkw0]
  simp only
  have h4 : turn_on_context ci b rules
      { keyword := 0, end_ := f, context := 0, _context := X,
        border := RULE_ON_RIGHT_BORDER }
      f (read_byte ci b f) (decide (f = f))
      (fresh_locals { keyword := 0, end_ := f, context := 0, _context := X,
                      border := RULE_ON_RIGHT_BORDER }) =
      some { _rule := { keyword := 0, end_ := f, context := 0, _context := X, border := 0 },
             contextchanged := true, found_left := false, found_right := false,
             keyword_foundleft := false, keyword_foundright := false, end_ := 0 } := by
    have hfin : finish_border ci b rules
        { keyword := 0, end_ := f, context := 0, _context := X,
          border := RULE_ON_RIGHT_BORDER }
        f (read_byte ci b f)
        (fresh_locals { keyword := 0, end_ := f, context := 0, _context := X,
                        border := RULE_ON_RIGHT_BORDER }) =
        some { _rule := { keyword := 0, end_ := f, context := 0, _context := X, border := 0 },
               contextchanged := true, found_left := false, found_right := false,
               keyword_foundleft := false, keyword_foundright := false, end_ := 0 } := by
      unfold finish_border
      simp [fresh_locals, RULE_ON_RIGHT_BORDER]
    unfold turn_on_context
    rw [if_pos (by simp [fresh_locals]), if_pos (by simp [fresh_locals]), hfin]
    simp only
    rw [if_pos trivial]
    exact left_loop_miss ci b f _ 1 _ (le_refl _) hleft
  simp only [decide_True] at h4 ⊢
  rw [h4]
  simp only
  rw [turn_on_keyword_again_miss ci b rules f _ r0 hr0 hkw0]

theorem replay_extend_step (ci : Bool) (b : edit_buffer_t) (rules : List context_rule_t)
    (a o : Int) (s s1 s2 : edit_syntax_rule_t) (ho : a - 1 ≤ o)
    (h : replay_loop ci b rules (o - a + 1).toNat a s = some s1)
    (hstep : apply_rules_going_right ci b rules s1 (o + 1) = some s2) :
    replay_loop ci b rules (o + 1 - a + 1).toNat a s = some s2 := by
  have e1 : (o + 1 - a + 1).toNat = (o - a + 1).toNat + 1 := by omega
  have e2 : a + ((o - a + 1).toNat : Int) = o + 1 := by omega
  rw [e1, replay_loop_add, h]
  simp only [Option.bind]
  rw [e2, replay_loop, hstep]
  rfl

theorem replay_extend_idle (ci : Bool) (b : edit_buffer_t) (rules : List context_rule_t)
    (a o1 : Int) (s s1 : edit_syntax_rule_t) (ho : a - 1 ≤ o1)
    (h : replay_loop ci b rules (o1 - a + 1).toNat a s = some s1) :
    ∀ (n : Nat) (o2 : Int), o2 = o1 + n →
      (∀ o, o1 < o → o ≤ o2 → apply_rules_going_right ci b rules s1 o = some s1) →
      replay_loop ci b rules (o2 - a + 1).toNat a s = some s1 := by
  intro n
  induction n with
  | zero =>
    intro o2 ho2 _
    have e1 : o2 = o1 := by simpa using ho2
    rw [e1]
    exact h
  | succ n ih =>
    intro o2 ho2 hidle
    have hprev := ih (o2 - 1) (by push_cast at ho2; omega)
      (fun o h1 h2 => hidle o h1 (by omega))
    have := replay_extend_step ci b rules a (o2 - 1) s s1 s1 (by push_cast at ho2; omega) hprev
      (by
        have e1 : o2 - 1 + 1 = o2 := by omega
        rw [e1]
        exact hidle o2 (by push_cast at ho2; omega) (le_refl _))
    have e1 : o2 - 1 + 1 = o2 := by omega
    rw [e1] at this
    exact this

/-- C27, amended: the delimiters of an exclusive context are coloured by the default
context.  The default context is active at `i` with no keyword and no pending border; the
left delimiter of the exclusive context `X` matches at `i` with end `e`, its right delimiter
matches first at `j >= e`, with end `f`; up to `f` no byte is NUL, no keyword matches and no
other left delimiter matches where the delimiters are looked for.  Then the classification
of the offsets `i` to `o` returns for every `o` up to `f`, and the active context after it
is 0 for `o` before `e`, `X` from `e` up to `j - 1`, and 0 from `j` to `f`. -/
theorem exclusive_delimiters_outside (ci : Bool) (b : edit_buffer_t)
    (rules : List context_rule_t) (rule : edit_syntax_rule_t) (i e j f : Int) (X : Nat)
    (r0 rx : context_rule_t)
    (hctx : rule.context = 0) (hk : rule.keyword = 0) (hb : rule.border = 0)
    (hr0 : rules.get? 0 = some r0) (hX : 1 ≤ X) (hrx : rules.get? X = some rx)
    (hex : rx.between_delimiters = true)
    (hie : i < e) (he0 : 0 ≤ e) (hej : e ≤ j) (hjf : j < f)
    (hnul : ∀ o, i ≤ o → o ≤ f → read_byte ci b o ≠ 0)
    (hleft1 : rx.first_left = read_byte ci b i)
    (hleft : compare_word_to_right ci b i rx.left rx.whole_word_chars_left
      rx.whole_word_chars_right rx.line_start_left = some e)
    (hright1 : rx.first_right = read_byte ci b j)
    (hright : compare_word_to_right ci b j rx.right rx.whole_word_chars_left
      rx.whole_word_chars_right rx.line_start_right = some f)
    (hrmiss : ∀ o, e ≤ o → o < j → right_miss ci b rx o)
    (hkw0 : ∀ o, i ≤ o → o ≤ f → (o ≤ e ∨ j ≤ o) → keyword_miss ci b r0 o)
    (hkwx : ∀ o, e ≤ o → o < j → keyword_miss ci b rx o)
    (hlbefore : ∀ m r, 1 ≤ m → m < X → rules.get? m = some r → left_miss ci b r i)
    (hlmiss : ∀ o, i < o → o ≤ f → (o ≤ e ∨ j < o) → ∀ r ∈ rules.tail, left_miss ci b r o) :
    ∀ o, i ≤ o → o ≤ f →
      ∃ rule1, replay_loop ci b rules (o - i + 1).toNat i rule = some rule1 ∧
        rule1.context = if e ≤ o ∧ o < j then X else 0 := by
  have hX0 : X ≠ 0 := by omega
  -- the step at `i`
  have a1 : replay_loop ci b rules (i - i + 1).toNat i rule =
      some { keyword := 0, end_ := e, context := 0, _context := X,
             border := RULE_ON_LEFT_BORDER } := by
    have e1 : (i - i + 1).toNat = 1 := by omega
    rw [e1, replay_loop,
      step_left_delimiter ci b rules rule i e X r0 rx (hnul i (le_refl _) (by omega)) hctx hk
        hb hr0 (hkw0 i (le_refl _) (by omega) (Or.inl (by omega))) hX hrx hex hleft1 hleft
        he0 hlbefore]
    rfl
  -- the left delimiter
  have a2 : ∀ o, i ≤ o → o < e → replay_loop ci b rules (o - i + 1).toNat i rule =
      some { keyword := 0, end_ := e, context := 0, _context := X,
             border := RULE_ON_LEFT_BORDER } := by
    intro o h1 h2
    refine replay_extend_idle ci b rules i i rule _ (by omega) a1 (o - i).toNat o (by omega)
      (fun x hx1 hx2 => ?_)
    exact step_idle_default ci b rules _ x r0 (hnul x (by omega) (by omega)) rfl rfl
      (by show e ≠ x; omega) hr0 (hkw0 x (by omega) (by omega) (Or.inl (by omega)))
      (hlmiss x hx1 (by omega) (Or.inl (by omega)))
  -- the right border is recorded after the step at `j`
  have a5 : replay_loop ci b rules (j - i + 1).toNat i rule =
      some { keyword := 0, end_ := f, context := 0, _context := X,
             border := RULE_ON_RIGHT_BORDER } ∧
      ∀ o, e ≤ o → o < j → replay_loop ci b rules (o - i + 1).toNat i rule =
        some { keyword := 0, end_ := e, context := X, _context := X, border := 0 } := by
    have hpre := a2 (e - 1) (by omega) (by omega)
    by_cases hje : j = e
    · subst hje
      refine ⟨?_, fun o h1 h2 => by omega⟩
      have := replay_extend_step ci b rules i (j - 1) rule _ _ (by omega) hpre
        (by
          have e1 : j - 1 + 1 = j := by omega
          rw [e1]
          exact step_enter_and_leave ci b rules j f X r0 rx (hnul j (by omega) (by omega))
            hr0 (hkw0 j (by omega) (by omega) (Or.inl (le_refl _))) hrx hex hright1 hright
            (by omega))
      have e1 : j - 1 + 1 = j := by omega
      rw [e1] at this
      exact this
    · have a3 : replay_loop ci b rules (e - i + 1).toNat i rule =
          some { keyword := 0, end_ := e, context := X, _context := X, border := 0 } := by
        have := replay_extend_step ci b rules i (e - 1) rule _ _ (by omega) hpre
          (by
            have e1 : e - 1 + 1 = e := by omega
            rw [e1]
            exact step_enter_exclusive ci b rules e X r0 rx (hnul e (by omega) (by omega))
              hr0 (hkw0 e (by omega) (by omega) (Or.inl (le_refl _))) hrx
              (hkwx e (le_refl _) (by omega)) hex (hrmiss e (le_refl _) (by omega))
              (hlmiss e hie (by omega) (Or.inl (le_refl _))))
        have e1 : e - 1 + 1 = e := by omega
        rw [e1] at this
        exact this
      have a4 : ∀ o, e ≤ o → o < j → replay_loop ci b rules (o - i + 1).toNat i rule =
          some { keyword := 0, end_ := e, context := X, _context := X, border := 0 } := by
        intro o h1 h2
        refine replay_extend_idle ci b rules i e rule _ (by omega) a3 (o - e).toNat o
          (by omega) (fun x hx1 hx2 => ?_)
        exact step_idle_exclusive ci b rules e x X rx (hnul x (by omega) (by omega)) hX0 hrx
          (hkwx x (by omega) (by omega)) (hrmiss x (by omega) (by omega)) (by omega)
      refine ⟨?_, a4⟩
      have := replay_extend_step ci b rules i (j - 1) rule _ _ (by omega)
        (a4 (j - 1) (by omega) (by omega))
        (by
          have e1 : j - 1 + 1 = j := by omega
          rw [e1]
          exact step_right_delimiter ci b rules e j f X r0 rx
            (hnul j (by omega) (by omega)) hX0 hr0
            (hkw0 j (by omega) (by omega) (Or.inr (le_refl _))) hrx hex hright1 hright
            (by omega) (by omega))
      have e1 : j - 1 + 1 = j := by omega
      rw [e1] at this
      exact this
  -- the right delimiter
  have a6 : ∀ o, j ≤ o → o < f → replay_loop ci b rules (o - i + 1).toNat i rule =
      some { keyword := 0, end_ := f, context := 0, _context := X,
             border := RULE_ON_RIGHT_BORDER } := by
    intro o h1 h2
    refine replay_extend_idle ci b rules i j rule _ (by omega) a5.1 (o - j).toNat o
      (by omega) (fun x hx1 hx2 => ?_)
    exact step_idle_default ci b rules _ x r0 (hnul x (by omega) (by omega)) rfl rfl
      (by show f ≠ x; omega) hr0 (hkw0 x (by omega) (by omega) (Or.inr (by omega)))
      (hlmiss x (by omega) (by omega) (Or.inr hx1))
  -- the step at `f`
  have a7 : replay_loop ci b rules (f - i + 1).toNat i rule =
      some { keyword := 0, end_ := f, context := 0, _context := X, border := 0 } := by
    have := replay_extend_step ci b rules i (f - 1) rule _ _ (by omega)
      (a6 (f - 1) (by omega) (by omega))
      (by
        have e1 : f - 1 + 1 = f := by omega
        rw [e1]
        exact step_finish_right ci b rules f X r0 (hnul f (by omega) (le_refl _)) hr0
          (hkw0 f (by omega) (le_refl _) (Or.inr (by omega)))
          (hlmiss f (by omega) (le_refl _) (Or.inr hjf)))
    have e1 : f - 1 + 1 = f := by omega
    rw [e1] at this
    exact this
  intro o ho1 ho2
  by_cases h1 : o < e
  · exact ⟨_, a2 o ho1 h1, by rw [if_neg (by omega)]⟩
  · by_cases h2 : o < j
    · exact ⟨_, a5.2 o (by omega) h2, by rw [if_pos ⟨by omega, h2⟩]⟩
    · by_cases h3 : o < f
      · exact ⟨_, a6 o (by omega) h3, by rw [if_neg (by omega)]⟩
      · have e1 : o = f := by omega
        subst e1
        exact ⟨_, a7, by rw [if_neg (by omega)]⟩

/-- C27, witness: the table `comment_table` on the document
`a /* TODO */ b`, with `/*` at 2 (end 4) and `*/` at 10 (end 12): after offset 3 the context
is 0, after offset 7 it is 1, after offset 10 it is 0. -/
theorem exclusive_delimiters_outside_witness :
    (∃ rule1, replay_loop false comment_doc comment_table ((3 : Int) - 2 + 1).toNat 2 zero_rule
        = some rule1 ∧ rule1.context = 0) ∧
    (∃ rule1, replay_loop false comment_doc comment_table ((7 : Int) - 2 + 1).toNat 2 zero_rule
        = some rule1 ∧ rule1.context = 1) ∧
    (∃ rule1, replay_loop false comment_doc comment_table ((10 : Int) - 2 + 1).toNat 2 zero_rule
        = some rule1 ∧ rule1.context = 0) := by
  have h := exclusive_delimiters_outside false comment_doc comment_table zero_rule 2 4 10 12 1
    (comment_table.headD new_context) (comment_table.getD 1 new_context)
    rfl rfl rfl (by decide) (by decide) (by decide) (by decide)
    (by decide) (by decide) (by decide) (by decide)
    (fun o h1 h2 => by interval_cases o <;> decide)
    (by decide) (by decide) (by decide) (by decide)
    (fun o h1 h2 => by interval_cases o <;> decide)
    (fun o h1 h2 _ => by interval_cases o <;> decide)
    (fun o h1 h2 => by interval_cases o <;> decide)
    (fun m r h1 h2 => by omega)
    (fun o h1 h2 _ => by interval_cases o <;> decide)
  exact ⟨h 3 (by decide) (by decide), h 7 (by decide) (by decide),
    h 10 (by decide) (by decide)⟩

/-- C27, counterexample: a NUL byte behind the left delimiter.  In the document `a/*`, NUL,
`c*/ b` the left delimiter `/*` matches at 1 with end 3, the right delimiter `*/` matches
first at 5 with end 7, and no keyword matches; the step at offset 3 returns at once because
the byte is NUL, the pending left border is never finished, and the context is 0 after
every offset: the bytes between the delimiters do not get the colour of the context. -/
theorem nul_byte_keeps_context_out :
    compare_word_to_right false nul_comment_doc 1 (bytes_of "/*") none none false = some 3 ∧
    (List.range 5).map (fun o => compare_word_to_right false nul_comment_doc (o : Nat)
        (bytes_of "*/") none none false) = [some (-1), some (-1), some (-1), some (-1), some (-1)] ∧
    compare_word_to_right false nul_comment_doc 5 (bytes_of "*/") none none false = some 7 ∧
    (List.range 9).map (fun o =>
        (get_rules (load_rules comment_rules nul_comment_bytes) [(o : Nat)]).map
          fun e => e.rule.context)
      = [some 0, some 0, some 0, some 0, some 0, some 0, some 0, some 0, some 0] ∧
    query_colors example_env (load_rules comment_rules nul_comment_bytes)
        [0, 1, 2, 3, 4, 5, 6, 7, 8] = some [0, 0, 0, 0, 0, 0, 0, 0, 0] := by
  decide!

/-! ## Theorems: steps that leave the ParseState or the context as it is (C32, C33, C34) -/

/-- C34: a NUL byte never changes the state.  At an offset whose buffer byte is 0 the step
returns the ParseState it was given, whatever that state is - also when the offset is the
recorded end, so that a pending border or an active keyword is not finished there. -/
theorem nul_byte_step_idle (ci : Bool) (b : edit_buffer_t) (rules : List context_rule_t)
    (rule : edit_syntax_rule_t) (i : Int) (h : edit_buffer_get_byte b i = 0) :
    apply_rules_going_right ci b rules rule i = some rule := by
  have hc : read_byte ci b i = 0 := by
    unfold read_byte xx_tolower
    rw [h]
    cases ci <;> rfl
  unfold apply_rules_going_right
  simp only [hc, if_true]

/-- C34, witness: the byte at offset 3 of `a/*`, NUL, `c*/ b` is NUL; the left border that is
pending with the end 3 is still pending after the step at 3. -/
theorem nul_byte_step_idle_witness :
    apply_rules_going_right false nul_comment_doc comment_table border_pending 3
      = some border_pending ∧ border_pending.end_ = 3 :=
  ⟨nul_byte_step_idle false nul_comment_doc comment_table border_pending 3 (by decide),
    rfl⟩

theorem left_loop_blocked (ci : Bool) (b : edit_buffer_t) (i : Int) (c : Nat) :
    ∀ (rs : List context_rule_t) (count : Nat) (l : step_locals),
      l._rule.keyword ≠ 0 → l.keyword_foundright = false →
      (∀ r ∈ rs, r.first_left = c →
        compare_word_to_right ci b i r.left r.whole_word_chars_left
          r.whole_word_chars_right r.line_start_left ≠ none) →
      left_loop ci b i c count rs l = some l := by
  intro rs
  induction rs with
  | nil => intro count l _ _ _; rw [left_loop]
  | cons r rs ih =>
    intro count l hk hf hret
    have hrs := ih (count + 1) l hk hf (fun x hx => hret x (List.mem_cons_of_mem _ hx))
    rw [left_loop]
    by_cases hc : r.first_left = c
    · rw [if_pos hc]
      obtain ⟨e, he⟩ := Option.ne_none_iff_exists'.mp (hret r (List.mem_cons_self _ _) hc)
      rw [he]
      simp only
      rw [if_neg (fun hh => by
        rcases hh.2 with h | h
        · exact hk h
        · rw [hf] at h; exact Bool.noConfusion h)]
      exact hrs
    · rw [if_neg hc]
      exact hrs

theorem replay_idle (ci : Bool) (b : edit_buffer_t) (rules : List context_rule_t)
    (s : edit_syntax_rule_t) :
    ∀ (n : Nat) (a : Int),
      (∀ o, a ≤ o → o < a + n → apply_rules_going_right ci b rules s o = some s) →
      replay_loop ci b rules n a s = some s := by
  intro n
  induction n with
  | zero => intro a _; rfl
  | succ n ih =>
    intro a h
    rw [replay_loop, h a (le_refl _) (by push_cast; omega)]
    exact ih (a + 1) (fun o h1 h2 => h o (by omega) (by push_cast; omega))

/-- C33: an active keyword is stable inside its span.  At the offsets `a` to `a + n - 1`,
none of which is the recorded end and none of which follows a newline byte, a step from a
ParseState with an active keyword returns the same ParseState, and so does the
classification of all these offsets.  In the default context the left delimiters whose
first byte stands at the offset are still compared (their result is not used); the step
returns when these comparisons do. -/
theorem active_keyword_stable (ci : Bool) (b : edit_buffer_t) (rules : List context_rule_t)
    (rule : edit_syntax_rule_t) (a : Int) (n : Nat)
    (hk : rule.keyword ≠ 0)
    (hend : ∀ o, a ≤ o → o < a + n → rule.end_ ≠ o)
    (hnl : ∀ o, a ≤ o → o < a + n → edit_buffer_get_byte b (o - 1) ≠ 10)
    (hleft : rule.context = 0 → ∀ o, a ≤ o → o < a + n → ∀ r ∈ rules.tail,
      r.first_left = read_byte ci b o →
      compare_word_to_right ci b o r.left r.whole_word_chars_left
        r.whole_word_chars_right r.line_start_left ≠ none) :
    (∀ o, a ≤ o → o < a + n → apply_rules_going_right ci b rules rule o = some rule) ∧
    replay_loop ci b rules n a rule = some rule := by
  have hstep : ∀ o, a ≤ o → o < a + n →
      apply_rules_going_right ci b rules rule o = some rule := by
    intro o h1 h2
    by_cases hc : read_byte ci b o = 0
    · unfold apply_rules_going_right
      simp only [hc, if_true]
    · have hne := hend o h1 h2
      have h1a : turn_off_keyword b o (decide (rule.end_ = o)) (fresh_locals rule)
          = fresh_locals rule := by
        unfold turn_off_keyword
        simp [fresh_locals, hk, hnl o h1 h2, hne]
      have h2a : turn_off_context ci b rules rule o (read_byte ci b o)
          (decide (rule.end_ = o)) (fresh_locals rule) = some (fresh_locals rule) := by
        unfold turn_off_context
        rw [if_neg (fun hh => hk hh.2)]
      have h3a : turn_on_keyword ci b rules o (read_byte ci b o) (fresh_locals rule)
          = some (fresh_locals rule) := by
        unfold turn_on_keyword
        rw [if_neg (show ¬ (fresh_locals rule)._rule.keyword = 0 from hk)]
      have h4a : turn_on_context ci b rules rule o (read_byte ci b o)
          (decide (rule.end_ = o)) (fresh_locals rule) = some (fresh_locals rule) := by
        unfold turn_on_context
        by_cases hctx : rule.context = 0
        · rw [if_pos (show (fresh_locals rule)._rule.context = 0 from hctx),
            if_neg (by simp [hne])]
          simp only
          rw [if_pos (show (fresh_locals rule).found_right = false from rfl)]
          exact left_loop_blocked ci b o _ _ 1 (fresh_locals rule) hk rfl
            (hleft hctx o h1 h2)
        · rw [if_neg (show ¬ (fresh_locals rule)._rule.context = 0 from hctx)]
      rw [apply_rules_going_right_blocks ci b rules rule o hc, h1a, h2a]
      simp only [Option.bind]
      rw [h3a]
      simp only
      rw [h4a]
      simp only
      rw [turn_on_keyword_again_idle ci b rules o _ (fresh_locals rule) rfl]
      rfl
  exact ⟨hstep, replay_idle ci b rules rule n a hstep⟩

/-- C33, witness: keyword 2 (`ab`) of the table of `tie_rules`, active with the end 2 on the
document `abc`, at offset 1. -/
theorem active_keyword_stable_witness :
    apply_rules_going_right false tie_doc tie_table keyword_active 1 = some keyword_active ∧
    replay_loop false tie_doc tie_table 1 1 keyword_active = some keyword_active :=
  ⟨(active_keyword_stable false tie_doc tie_table keyword_active 1 1 (by decide)
      (fun o h1 h2 => by
        have ho : o = 1 := by omega
        subst ho
        decide)
      (fun o h1 h2 => by
        have ho : o = 1 := by omega
        subst ho
        decide)
      (fun _ o h1 h2 r hr => by
        have ht : tie_table.tail = [] := by decide!
        rw [ht] at hr
        cases hr)).1 1 (by decide) (by decide),
    (active_keyword_stable false tie_doc tie_table keyword_active 1 1 (by decide)
      (fun o h1 h2 => by
        have ho : o = 1 := by omega
        subst ho
        decide)
      (fun o h1 h2 => by
        have ho : o = 1 := by omega
        subst ho
        decide)
      (fun _ o h1 h2 r hr => by
        have ht : tie_table.tail = [] := by decide!
        rw [ht] at hr
        cases hr)).2⟩

/-- C32: contexts do not nest.  In a step from a ParseState with an active context `c != 0`,
at an offset that is not the recorded end and at which the right delimiter of `c` does not
match, "check to turn on a context" is not entered: the step is the keyword scan of context
`c` and nothing else, so that no left delimiter is compared, and every ParseState it returns
has the context `c`. -/
theorem no_nesting_step (ci : Bool) (b : edit_buffer_t) (rules : List context_rule_t)
    (rule : edit_syntax_rule_t) (i : Int) (r : context_rule_t)
    (hctx : rule.context ≠ 0) (hend : rule.end_ ≠ i)
    (hr : rules.get? rule.context = some r)
    (hright : r.first_right = read_byte ci b i →
      ∃ e, compare_word_to_right ci b i r.right r.whole_word_chars_left
        r.whole_word_chars_right r.line_start_right = some e ∧ e ≤ 0) :
    apply_rules_going_right ci b rules rule i =
      (if read_byte ci b i = 0 then some rule
       else (turn_on_keyword ci b rules i (read_byte ci b i)
          (turn_off_keyword b i false (fresh_locals rule))).map fun l => l._rule) ∧
    (∀ rule1, apply_rules_going_right ci b rules rule i = some rule1 →
      rule1.context = rule.context) := by
  have hoff : (turn_off_keyword b i false (fresh_locals rule))._rule.context = rule.context ∧
      (turn_off_keyword b i false (fresh_locals rule)).contextchanged = false := by
    unfold turn_off_keyword
    split
    · split <;> exact ⟨rfl, rfl⟩
    · exact ⟨rfl, rfl⟩
  have heq : apply_rules_going_right ci b rules rule i =
      (if read_byte ci b i = 0 then some rule
       else (turn_on_keyword ci b rules i (read_byte ci b i)
          (turn_off_keyword b i false (fresh_locals rule))).map fun l => l._rule) := by
    by_cases hc : read_byte ci b i = 0
    · rw [if_pos hc]
      unfold apply_rules_going_right
      simp only [hc, if_true]
    · rw [if_neg hc, apply_rules_going_right_blocks ci b rules rule i hc]
      have hd : decide (rule.end_ = i) = false := by simp [hend]
      rw [hd]
      have h2 : turn_off_context ci b rules rule i (read_byte ci b i) false
          (turn_off_keyword b i false (fresh_locals rule)) =
          some (turn_off_keyword b i false (fresh_locals rule)) := by
        unfold turn_off_context
        split
        · rw [hoff.1, hr]
          simp only
          have hat : ∀ l : step_locals, turn_off_context_at_end rule false l = l := by
            intro l
            unfold turn_off_context_at_end
            simp
          split
          · rename_i hf
            obtain ⟨e, he, hle⟩ := hright hf.1
            rw [he]
            simp only
            rw [if_neg (by omega), hat]
          · rw [hat]
        · rfl
      rw [h2]
      simp only [Option.bind]
      cases h3 : turn_on_keyword ci b rules i (read_byte ci b i)
          (turn_off_keyword b i false (fresh_locals rule)) with
      | none => rfl
      | some l3 =>
        obtain ⟨f1, _, _, _, _, f6⟩ := turn_on_keyword_frame ci b rules i _ _ _ h3
        simp only
        have h4 : turn_on_context ci b rules rule i (read_byte ci b i) false l3 = some l3 := by
          unfold turn_on_context
          rw [if_neg (by rw [f1, hoff.1]; exact hctx)]
        rw [h4]
        simp only
        rw [turn_on_keyword_again_idle ci b rules i _ l3 (by rw [f6]; exact hoff.2)]
        rfl
  refine ⟨heq, fun rule1 h1 => ?_⟩
  rw [heq] at h1
  by_cases hc : read_byte ci b i = 0
  · rw [if_pos hc] at h1
    cases h1
    rfl
  · rw [if_neg hc] at h1
    cases h3 : turn_on_keyword ci b rules i (read_byte ci b i)
        (turn_off_keyword b i false (fresh_locals rule)) with
    | none => rw [h3] at h1; cases h1
    | some l3 =>
      rw [h3] at h1
      cases h1
      rw [(turn_on_keyword_frame ci b rules i _ _ _ h3).1, hoff.1]

/-- C32, witness: in the document `/* /* */` the left delimiter `/*` matches at offset 3 (end
5); the step at 3 from the ParseState inside context 1 returns that ParseState. -/
theorem no_nesting_step_witness :
    compare_word_to_right false nested_doc 3 (bytes_of "/*") none none false = some 5 ∧
    apply_rules_going_right false nested_doc comment_table inside_comment 3
      = some inside_comment :=
  ⟨by decide,
    ((no_nesting_step false nested_doc comment_table inside_comment 3
      (comment_table.getD 1 new_context) (by decide) (by decide) (by decide)
      (fun h => absurd h (by decide))).1).trans (by decide)⟩

/-! ## Theorems: the scanning loops return (C35) -/

theorem pattern_bracket_sets_close (d d1 : Option Nat) :
    ∀ p, pattern_bracket_sets (.bracket_close d) p =
      pattern_bracket_sets (.bracket_close d1) p := by
  intro p
  induction p with
  | nil => rfl
  | cons t p ih =>
    rw [pattern_bracket_sets, pattern_bracket_sets, ih]

theorem pattern_bracket_sets_find (c : Nat) :
    ∀ p, pattern_bracket_sets (.brace_find c) p = pattern_bracket_sets .brace_close p := by
  intro p
  induction p with
  | nil => rfl
  | cons t p ih =>
    rw [pattern_bracket_sets, pattern_bracket_sets, ih]

theorem star_loop_returns (ci : Bool) (b : edit_buffer_t) (wr : Option (List Nat)) (pc : Nat)
    (hs : b.sentinel = 10) :
    ∀ (fuel : Nat) (i : Int), (b.size - i).toNat + 1 ≤ fuel →
      (star_loop ci b wr pc fuel i).isSome = true := by
  intro fuel
  induction fuel with
  | zero => intro i h; omega
  | succ fuel ih =>
    intro i hf
    rw [star_loop]
    split
    · rfl
    · split
      · rfl
      · split
        · rfl
        · rename_i h10
          have hin : 0 ≤ i ∧ i < b.size := by
            by_contra hout
            exact h10 (read_byte_newline ci b i hs (by omega))
          exact ih (i + 1) (by omega)

theorem plus_loop_returns (ci : Bool) (b : edit_buffer_t) (wr : Option (List Nat)) (t0 : Nat)
    (p : List Nat) (hs : b.sentinel = 10) :
    ∀ (fuel : Nat) (j i : Int), (b.size - i).toNat + 1 ≤ fuel →
      (plus_loop ci b wr t0 p fuel j i).isSome = true := by
  intro fuel
  induction fuel with
  | zero => intro j i h; omega
  | succ fuel ih =>
    intro j i hf
    rw [plus_loop]
    by_cases hin : 0 ≤ i ∧ i < b.size
    · repeat' split
      all_goals first | rfl | exact ih _ (i + 1) (by omega)
    · have hw : whiteness (read_byte ci b i) = true := by
        rw [read_byte_newline ci b i hs (by omega)]
        rfl
      simp only [hw, true_or, if_true]
      repeat' split
      all_goals rfl

theorem bracket_loop_returns (ci : Bool) (b : edit_buffer_t) (set : List Nat)
    (hs : b.sentinel = 10) (hset : 10 ∉ set) :
    ∀ (fuel : Nat) (c : Option Nat) (i : Int), (b.size - i).toNat + 1 ≤ fuel →
      (bracket_loop ci b set fuel c i).isSome = true := by
  intro fuel
  induction fuel with
  | zero => intro c i h; omega
  | succ fuel ih =>
    intro c i hf
    rw [bracket_loop]
    split
    · rename_i hm
      have hin : 0 ≤ i ∧ i < b.size := by
        by_contra hout
        rw [read_byte_newline ci b i hs (by omega)] at hm
        exact hset hm
      exact ih _ (i + 1) (by omega)
    · rfl

/-- The walk over the pattern returns from every mode when reads outside the document yield
a newline and no bracket set that the walk meets holds the newline byte. -/
theorem word_loop_returns (ci : Bool) (b : edit_buffer_t) (wr : Option (List Nat)) (t0 : Nat)
    (hs : b.sentinel = 10) :
    ∀ (p : List Nat) (mode : walk_mode) (i : Int),
      (∀ S ∈ pattern_bracket_sets mode p, 10 ∉ S) →
      (word_loop ci b wr t0 mode p i).isSome = true := by
  intro p
  induction p with
  | nil =>
    intro mode i _
    cases mode <;> rfl
  | cons t p ih =>
    intro mode i hsets
    cases mode with
    | tokens =>
      rw [pattern_bracket_sets] at hsets
      rw [word_loop]
      by_cases h1 : t = SYNTAX_TOKEN_STAR
      · rw [if_pos h1]
        rw [if_pos (Or.inl h1)] at hsets
        have hl := star_loop_returns ci b wr (p.headD 0) hs (scan_fuel b i) i
          (by unfold scan_fuel; omega)
        cases hr : star_loop ci b wr (p.headD 0) (scan_fuel b i) i with
        | none => rw [hr] at hl; cases hl
        | some r =>
          cases r with
          | none => rfl
          | some i1 => exact ih .step_over (i1 + 1) hsets
      · rw [if_neg h1]
        by_cases h2 : t = SYNTAX_TOKEN_PLUS
        · rw [if_pos h2]
          rw [if_pos (Or.inr h2)] at hsets
          have hl := plus_loop_returns ci b wr t0 p hs (scan_fuel b i) 0 i
            (by unfold scan_fuel; omega)
          cases hr : plus_loop ci b wr t0 p (scan_fuel b i) 0 i with
          | none => rw [hr] at hl; cases hl
          | some r =>
            cases r with
            | none => rfl
            | some i1 => exact ih .step_over (i1 + 1) hsets
        · rw [if_neg h2]
          rw [if_neg (fun h => h.elim h1 h2)] at hsets
          by_cases h3 : t = SYNTAX_TOKEN_BRACKET
          · rw [if_pos h3]
            rw [if_pos h3] at hsets
            have hl := bracket_loop_returns ci b (bracket_set p) hs
              (hsets _ (List.mem_cons_self _ _)) (scan_fuel b i) none i
              (by unfold scan_fuel; omega)
            cases hr : bracket_loop ci b (bracket_set p) (scan_fuel b i) none i with
            | none => rw [hr] at hl; cases hl
            | some r =>
              obtain ⟨i1, d⟩ := r
              simp only
              refine ih (.bracket_close d) (i1 - 1) (fun S hS => ?_)
              rw [pattern_bracket_sets_close d none] at hS
              exact hsets S (List.mem_cons_of_mem _ hS)
          · rw [if_neg h3]
            rw [if_neg h3] at hsets
            by_cases h4 : t = SYNTAX_TOKEN_BRACE
            · rw [if_pos h4]
              rw [if_pos h4] at hsets
              refine ih (.brace_find _) i (fun S hS => ?_)
              rw [pattern_bracket_sets_find] at hS
              exact hsets S hS
            · rw [if_neg h4]
              rw [if_neg h4] at hsets
              split
              · rfl
              · exact ih .tokens (i + 1) hsets
    | step_over =>
      rw [pattern_bracket_sets] at hsets
      rw [word_loop]
      exact ih .tokens i hsets
    | bracket_close d =>
      rw [pattern_bracket_sets] at hsets
      rw [word_loop]
      split
      · rename_i h
        rw [if_pos h] at hsets
        exact ih .tokens _ hsets
      · rename_i h
        rw [if_neg h] at hsets
        exact ih (.bracket_close d) i hsets
    | brace_find c =>
      rw [pattern_bracket_sets] at hsets
      rw [word_loop]
      split
      · rfl
      · rename_i h
        rw [if_neg h] at hsets
        split
        · refine ih .brace_close i (fun S hS => ?_)
          rw [← pattern_bracket_sets_find c] at hS
          exact hsets S hS
        · exact ih (.brace_find c) i hsets
    | brace_close =>
      rw [pattern_bracket_sets] at hsets
      rw [word_loop]
      split
      · rename_i h
        rw [if_pos h] at hsets
        exact ih .tokens _ hsets
      · rename_i h
        rw [if_neg h] at hsets
        exact ih .brace_close i hsets

theorem compare_returns_of_walk (ci : Bool) (b : edit_buffer_t) (i : Int) (text : List Nat)
    (wl wr : Option (List Nat)) (ls : Bool)
    (h : (word_loop ci b wr (text.headD 0) .tokens text i).isSome = true) :
    (compare_word_to_right ci b i text wl wr ls).isSome = true := by
  unfold compare_word_to_right
  split
  · rfl
  · simp only
    split
    · rfl
    · cases hr : word_loop ci b wr (text.headD 0) .tokens text i with
      | none => rw [hr] at h; cases h
      | some r =>
        cases r with
        | none => rfl
        | some i1 =>
          simp only
          split <;> rfl

/-- C35: the scanning loops of `compare_word_to_right` stop.  When reads outside the document
yield a newline, the star loop, the plus loop and the loop of a bracket set without the
newline byte leave within `scan_fuel` iterations from every offset, and for a pattern none of
whose bracket sets holds the newline byte `compare_word_to_right` returns a value (an end
offset or -1) at every offset, with any boundary sets and line-start flag. -/
theorem compare_word_to_right_terminates (ci : Bool) (b : edit_buffer_t) (text : List Nat)
    (hs : b.sentinel = 10) (hsets : ∀ S ∈ pattern_bracket_sets .tokens text, 10 ∉ S) :
    (∀ i wl wr ls, ∃ e, compare_word_to_right ci b i text wl wr ls = some e) ∧
    (∀ i wr pc, (star_loop ci b wr pc (scan_fuel b i) i).isSome = true) ∧
    (∀ i wr t0 p, (plus_loop ci b wr t0 p (scan_fuel b i) 0 i).isSome = true) ∧
    (∀ i S, 10 ∉ S → (bracket_loop ci b S (scan_fuel b i) none i).isSome = true) := by
  refine ⟨fun i wl wr ls => ?_, fun i wr pc => ?_, fun i wr t0 p => ?_, fun i S hS => ?_⟩
  · exact Option.isSome_iff_exists.mp
      (compare_returns_of_walk ci b i text wl wr ls
        (word_loop_returns ci b wr _ hs text .tokens i hsets))
  · exact star_loop_returns ci b wr pc hs _ i (by unfold scan_fuel; omega)
  · exact plus_loop_returns ci b wr t0 p hs _ 0 i (by unfold scan_fuel; omega)
  · exact bracket_loop_returns ci b S hs hS _ none i (by unfold scan_fuel; omega)

/-- C35, witness: the pattern `a*x[xy]+b`, with a star, a bracket set and a plus, on the
document `axyxb`. -/
theorem compare_word_to_right_terminates_witness :
    ∃ e, compare_word_to_right false bracket_run_doc 0
      [97, SYNTAX_TOKEN_STAR, 120, SYNTAX_TOKEN_BRACKET, 120, 121, SYNTAX_TOKEN_BRACKET,
        SYNTAX_TOKEN_PLUS, 98] none none false = some e :=
  (compare_word_to_right_terminates false bracket_run_doc
    [97, SYNTAX_TOKEN_STAR, 120, SYNTAX_TOKEN_BRACKET, 120, 121, SYNTAX_TOKEN_BRACKET,
      SYNTAX_TOKEN_PLUS, 98] rfl (by decide)).1 0 none none false

/-! ## Theorems: the tokens of a line (C37) -/

theorem splitOnP_runs (w : Nat → Bool) :
    ∀ xs : List Nat, xs.splitOnP w =
      xs.takeWhile (fun x => !w x) ::
        match xs.dropWhile (fun x => !w x) with
        | [] => []
        | _ :: r => r.splitOnP w := by
  intro xs
  induction xs with
  | nil => simp
  | cons x xs ih =>
    rw [List.splitOnP_cons]
    by_cases hx : w x = true
    · simp [hx]
    · have hx1 : w x = false := by simpa using hx
      rw [if_neg hx, ih]
      simp [hx1, List.modifyHead]

theorem whitespace_tokens_skip (l : List Nat) :
    whitespace_tokens l = whitespace_tokens (l.dropWhile fun x => whiteness x) := by
  induction l with
  | nil => rfl
  | cons x xs ih =>
    by_cases hx : whiteness x = true
    · rw [List.dropWhile_cons_of_pos hx, ← ih]
      unfold whitespace_tokens
      rw [List.splitOnP_cons, if_pos hx]
      simp
    · rw [List.dropWhile_cons_of_neg hx]

theorem whitespace_tokens_cons (c : Nat) (l1 : List Nat) (hc : whiteness c = false) :
    whitespace_tokens (c :: l1) =
      (c :: l1.takeWhile fun x => !whiteness x) ::
        whitespace_tokens (l1.dropWhile fun x => !whiteness x).tail := by
  unfold whitespace_tokens
  rw [List.splitOnP_cons, if_neg (by simp [hc]), splitOnP_runs]
  simp only [List.modifyHead]
  rw [List.filter_cons_of_pos (by simp)]
  congr 1
  cases (l1.dropWhile fun x => !whiteness x) with
  | nil => simp
  | cons y r => simp

/-- The tokens that `get_args` stores are the converted whitespace-separated tokens of the
line, the first `n` of them. -/
theorem get_args_tokens_spec :
    ∀ (n : Nat) (l : List Nat),
      get_args_tokens n l = ((whitespace_tokens l).take n).map convert := by
  intro n
  induction n with
  | zero => intro l; simp [get_args_tokens]
  | succ n ih =>
    intro l
    rw [get_args_tokens, whitespace_tokens_skip l]
    cases hd : (l.dropWhile fun x => whiteness x) with
    | nil => simp [whitespace_tokens]
    | cons c l1 =>
      have hc : whiteness c = false := by
        have := List.head_dropWhile_not (fun x => whiteness x) l (by rw [hd]; simp)
        simpa [hd] using this
      simp only
      rw [whitespace_tokens_cons c l1 hc, List.take_succ_cons, List.map_cons, ih]

/-- C37: `get_args` splits a rule line into its whitespace-separated tokens.  For every line
and every `args_size` the vector it leaves in `args` - the entries up to the first null
pointer - holds `convert` of the first `args_size` tokens of the line, in order; the value
returned is the number of tokens stored, the smaller of the number of tokens and
`args_size`; and a line of whitespace bytes only yields no token. -/
theorem get_args_splits_line (l : List Nat) (args : List (Option (List Nat)))
    (args_size : Nat) :
    strv (get_args l args args_size).2 = ((whitespace_tokens l).take args_size).map convert ∧
    (get_args l args args_size).1 = min (whitespace_tokens l).length args_size ∧
    (get_args l args args_size).1 ≤ args_size ∧
    arg (get_args l args args_size).2 (get_args l args args_size).1 = none ∧
    ((∀ x ∈ l, whiteness x = true) → (get_args l args args_size).1 = 0) := by
  have hlen : (get_args l args args_size).1 = min (whitespace_tokens l).length args_size := by
    unfold get_args
    simp only
    rw [get_args_tokens_spec, List.length_map, List.length_take, Nat.min_comm]
  refine ⟨?_, hlen, by rw [hlen]; exact Nat.min_le_right _ _, ?_, fun hw => ?_⟩
  · unfold get_args store_strv
    simp only [List.take_zero, List.nil_append]
    rw [strv_map_some, get_args_tokens_spec]
  · unfold get_args store_strv arg
    simp only [List.take_zero, List.nil_append]
    rw [List.getD_append_right _ _ _ _ (by simp)]
    simp
  · rw [hlen]
    have hd : (l.dropWhile fun x => whiteness x) = [] := by
      rw [List.dropWhile_eq_nil_iff]
      exact hw
    rw [whitespace_tokens_skip, hd]
    have he : whitespace_tokens [] = [] := rfl
    rw [he]
    simp

/-- C37, witness: a line of two blanks and a tab yields no token, and of the line
`keyword  a b` the first two tokens are stored when `args_size` is 2. -/
theorem get_args_splits_line_witness :
    (get_args [32, 32, 9] null_args (ARGS_LEN - 1)).1 = 0 ∧
    strv (get_args (bytes_of "keyword  a b") null_args 2).2
      = [bytes_of "keyword", bytes_of "a"] :=
  ⟨(get_args_splits_line [32, 32, 9] null_args (ARGS_LEN - 1)).2.2.2.2 (by decide),
    (get_args_splits_line (bytes_of "keyword  a b") null_args 2).1.trans (by decide)⟩

/-! ## Theorems: the in-place rewrite of `convert` (C38) -/

theorem drop_getD (d : Nat) : ∀ (l : List Nat) (s k : Nat),
    (l.drop s).getD k d = l.getD (s + k) d := by
  intro l
  induction l with
  | nil => intro s k; simp
  | cons x l ih =>
    intro s k
    cases s with
    | zero => simp
    | succ s =>
      have e : s + 1 + k = (s + k) + 1 := by omega
      rw [List.drop_succ_cons, ih, e, List.getD_cons_succ]

theorem set_take_succ (v : Nat) : ∀ (l : List Nat) (p : Nat), p < l.length →
    (l.set p v).take (p + 1) = l.take p ++ [v] := by
  intro l
  induction l with
  | nil => intro p h; simp at h
  | cons x l ih =>
    intro p h
    cases p with
    | zero => simp
    | succ p =>
      rw [List.set_cons_succ, List.take_succ_cons, ih p (by simpa using h), List.take_succ_cons]
      rfl

theorem set_take_le (v : Nat) : ∀ (l : List Nat) (p : Nat),
    (l.set p v).take p = l.take p := by
  intro l
  induction l with
  | nil => intro p; simp
  | cons x l ih =>
    intro p
    cases p with
    | zero => simp
    | succ p => rw [List.set_cons_succ, List.take_succ_cons, ih, List.take_succ_cons]

theorem set_drop_lt (v : Nat) : ∀ (l : List Nat) (p k : Nat), p < k →
    (l.set p v).drop k = l.drop k := by
  intro l
  induction l with
  | nil => intro p k _; simp
  | cons x l ih =>
    intro p k h
    cases k with
    | zero => omega
    | succ k =>
      cases p with
      | zero => simp
      | succ p => rw [List.set_cons_succ, List.drop_succ_cons, ih p k (by omega),
          List.drop_succ_cons]

theorem set_getD_self (v d : Nat) : ∀ (l : List Nat) (p : Nat), p < l.length →
    (l.set p v).getD p d = v := by
  intro l
  induction l with
  | nil => intro p h; simp at h
  | cons x l ih =>
    intro p h
    cases p with
    | zero => simp
    | succ p =>
      rw [List.set_cons_succ, List.getD_cons_succ]
      exact ih p (by simpa using h)

theorem convert_length_le : ∀ (n : Nat) (s : List Nat), s.length ≤ n →
    (convert s).length ≤ s.length := by
  intro n
  induction n with
  | zero =>
    intro s h
    have : s = [] := List.length_eq_zero.mp (by omega)
    subst this
    simp [convert]
  | succ n ih =>
    intro s h
    cases s with
    | nil => simp [convert]
    | cons c s =>
      have hs : s.length ≤ n := by simpa using h
      rw [convert.eq_def]
      simp only
      split
      · cases s with
        | nil => simp
        | cons e s1 =>
          have h1 := ih s1 (by simp at hs; omega)
          simp only
          split
          · simp only [List.length_cons]; omega
          · simp only [List.length_cons]; omega
      · have h1 := ih s hs
        split
        · simp only [List.length_cons]; omega
        · split
          · simp only [List.length_cons]; omega
          · simp only [List.length_cons]; omega

theorem convert_escape_ne_zero (e : Nat) (h : e ≠ 0) : convert_escape e ≠ 0 := by
  unfold convert_escape
  repeat' split
  all_goals first | decide | exact h

theorem convert_no_nul : ∀ (n : Nat) (s : List Nat), s.length ≤ n → 0 ∉ s →
    0 ∉ convert s := by
  intro n
  induction n with
  | zero =>
    intro s h _
    have : s = [] := List.length_eq_zero.mp (by omega)
    subst this
    simp [convert]
  | succ n ih =>
    intro s h h0
    cases s with
    | nil => simp [convert]
    | cons c s =>
      have hs : s.length ≤ n := by simpa using h
      have hc : c ≠ 0 := fun e => h0 (by simp [e])
      have hs0 : 0 ∉ s := fun e => h0 (List.mem_cons_of_mem _ e)
      rw [convert.eq_def]
      simp only
      split
      · cases s with
        | nil => simp
        | cons e s1 =>
          have he : e ≠ 0 := fun x => hs0 (by simp [x])
          have h1 := ih s1 (by simp at hs; omega) (fun x => hs0 (List.mem_cons_of_mem _ x))
          simp only
          split
          · rename_i h32
            simp only [List.mem_cons, not_or]
            exact ⟨by decide, by omega, h1⟩
          · simp only [List.mem_cons, not_or]
            exact ⟨fun x => convert_escape_ne_zero e he x.symm, h1⟩
      · have h1 := ih s hs hs0
        split
        · simp only [List.mem_cons, not_or]
          exact ⟨by decide, h1⟩
        · split
          · simp only [List.mem_cons, not_or]
            exact ⟨by decide, h1⟩
          · simp only [List.mem_cons, not_or]
            exact ⟨fun x => hc x.symm, h1⟩

theorem rewrite_ok_end (buf : List Nat) (s p : Nat) (rest : List Nat)
    (hps : p ≤ s) (hs : s < buf.length) (hc : convert rest = []) :
    rewrite_ok buf s p rest (buf.set p 0, [(s, p)]) := by
  unfold rewrite_ok
  rw [hc]
  simp only [List.length_nil, Nat.add_zero, List.append_nil, List.length_set]
  refine ⟨trivial, set_take_le 0 buf p, set_getD_self 0 1 buf p (by omega), by omega, ?_⟩
  intro x hx
  simp only [List.mem_singleton] at hx
  subst hx
  exact ⟨le_refl _, le_refl _, hps, by omega⟩

theorem rewrite_ok_step (buf : List Nat) (s p s1 v : Nat) (rest rest1 : List Nat)
    (r : List Nat × List (Nat × Nat))
    (hps : p ≤ s) (hs : s < buf.length) (hs1 : s < s1)
    (hlen : s1 + rest1.length = s + rest.length)
    (hc : convert rest = v :: convert rest1)
    (hr : rewrite_ok (buf.set p v) s1 (p + 1) rest1 r) :
    rewrite_ok buf s p rest (r.1, (s, p) :: r.2) := by
  obtain ⟨h1, h2, h3, h4, h5⟩ := hr
  unfold rewrite_ok
  rw [hc]
  have e : p + (v :: convert rest1).length = p + 1 + (convert rest1).length := by
    simp only [List.length_cons]; omega
  rw [e]
  refine ⟨by rw [h1, List.length_set], ?_, h3, by omega, ?_⟩
  · rw [h2, set_take_succ v buf p (by omega)]
    simp
  · intro x hx
    rcases List.mem_cons.mp hx with rfl | hx
    · exact ⟨le_refl _, le_refl _, hps, by omega⟩
    · obtain ⟨a1, a2, a3, a4⟩ := h5 x hx
      exact ⟨by omega, by omega, a3, by omega⟩

theorem convert_in_place_ok :
    ∀ (fuel : Nat) (buf : List Nat) (s p : Nat) (rest junk : List Nat),
      p ≤ s → buf.drop s = rest ++ 0 :: junk → 0 ∉ rest → rest.length < fuel →
      rewrite_ok buf s p rest (convert_in_place fuel buf s p) := by
  intro fuel
  induction fuel with
  | zero => intro buf s p rest junk _ _ _ h; omega
  | succ fuel ih =>
    intro buf s p rest junk hps hdrop h0 hf
    have hget : ∀ k, buf.getD (s + k) 0 = (rest ++ 0 :: junk).getD k 0 := by
      intro k
      rw [← drop_getD, hdrop]
    have hs : s < buf.length := by
      by_contra hc
      rw [List.drop_eq_nil_of_le (by omega)] at hdrop
      cases rest <;> cases hdrop
    have hdrop1 : ∀ (v k : Nat), 0 < k →
        (buf.set p v).drop (s + k) = (rest ++ 0 :: junk).drop k := by
      intro v k hk
      rw [set_drop_lt v buf p (s + k) (by omega), ← List.drop_drop, hdrop]
    rw [convert_in_place]
    cases rest with
    | nil =>
      have hc : buf.getD s 0 = 0 := by simpa using hget 0
      simp only [hc, if_true]
      exact rewrite_ok_end buf s p [] hps hs (by simp [convert])
    | cons c rest1 =>
      have hc : buf.getD s 0 = c := by simpa using hget 0
      have hc0 : c ≠ 0 := fun e => h0 (by simp [e])
      have h01 : 0 ∉ rest1 := fun e => h0 (List.mem_cons_of_mem _ e)
      simp only [hc, if_neg hc0]
      by_cases h92 : c = 92
      · subst h92
        simp only [if_true]
        cases rest1 with
        | nil =>
          have he : buf.getD (s + 1) 0 = 0 := by simpa using hget 1
          simp only [he]
          rw [if_pos trivial]
          exact rewrite_ok_end buf s p [92] hps hs (by simp [convert])
        | cons e rest2 =>
          have he : buf.getD (s + 1) 0 = e := by simpa using hget 1
          have he0 : e ≠ 0 := fun x => h01 (by simp [x])
          simp only [he]
          by_cases h32 : e = 32
          · subst h32
            rw [if_pos rfl]
            refine rewrite_ok_step buf s p (s + 1) 32 _ (32 :: rest2) _ hps hs (by omega)
              (by simp only [List.length_cons]; omega) ?_ ?_
            · rw [convert_backslash, if_pos rfl,
                convert_other 32 rest2 (by decide) (by decide) (by decide)]
            · exact ih _ (s + 1) (p + 1) (32 :: rest2) junk (by omega)
                (by rw [hdrop1 32 1 (by omega)]; rfl) h01
                (by simp only [List.length_cons] at hf ⊢; omega)
          · rw [if_neg h32, if_neg he0]
            refine rewrite_ok_step buf s p (s + 2) (convert_escape e) _ rest2 _ hps hs
              (by omega) (by simp only [List.length_cons]; omega) ?_ ?_
            · rw [convert_backslash, if_neg h32]
            · exact ih _ (s + 2) (p + 1) rest2 junk (by omega)
                (by rw [hdrop1 _ 2 (by omega)]; rfl)
                (fun x => h01 (List.mem_cons_of_mem _ x))
                (by simp only [List.length_cons] at hf ⊢; omega)
      · simp only [if_neg h92]
        have hrec : ∀ v, rewrite_ok (buf.set p v) (s + 1) (p + 1) rest1
            (convert_in_place fuel (buf.set p v) (s + 1) (p + 1)) := fun v =>
          ih _ (s + 1) (p + 1) rest1 junk (by omega)
            (by rw [hdrop1 v 1 (by omega)]; rfl) h01
            (by simp only [List.length_cons] at hf ⊢; omega)
        by_cases h42 : c = 42
        · subst h42
          rw [if_pos rfl]
          exact rewrite_ok_step buf s p (s + 1) SYNTAX_TOKEN_STAR _ rest1 _ hps hs (by omega)
            (by simp only [List.length_cons]; omega) (convert_star rest1) (hrec _)
        · rw [if_neg h42]
          by_cases h43 : c = 43
          · subst h43
            rw [if_pos rfl]
            exact rewrite_ok_step buf s p (s + 1) SYNTAX_TOKEN_PLUS _ rest1 _ hps hs (by omega)
              (by simp only [List.length_cons]; omega) (convert_plus rest1) (hrec _)
          · rw [if_neg h43]
            exact rewrite_ok_step buf s p (s + 1) c _ rest1 _ hps hs (by omega)
              (by simp only [List.length_cons]; omega) (convert_other c rest1 h92 h42 h43)
              (hrec _)

theorem c_str_of_prefix : ∀ (a l : List Nat), l.take a.length = a → 0 ∉ a →
    l.getD a.length 1 = 0 → c_str l = a := by
  intro a
  induction a with
  | nil =>
    intro l _ _ hg
    cases l with
    | nil => simp at hg
    | cons x l =>
      have hx : x = 0 := by simpa using hg
      subst hx
      simp [c_str]
  | cons y a ih =>
    intro l ht h0 hg
    cases l with
    | nil => simp at ht
    | cons x l =>
      simp only [List.length_cons, List.take_succ_cons, List.cons.injEq] at ht
      obtain ⟨rfl, ht⟩ := ht
      have hx : x ≠ 0 := fun e => h0 (by simp [e])
      have := ih l ht (fun e => h0 (List.mem_cons_of_mem _ e))
        (by simpa [List.length_cons, List.getD_cons_succ] using hg)
      unfold c_str at this ⊢
      rw [List.takeWhile_cons_of_pos (by simpa using hx), this]

/-- C38: `convert` never lengthens its input, and its in-place rewrite is safe.  For a string
without NUL, stored with its terminator, the converted string is at most as long as the
string; the rewrite leaves the buffer with the same length, holding the converted string and
a NUL behind it; and every store goes to a position that is at or before the read position
of its iteration, which is at or before the terminator. -/
theorem convert_in_place_safe (str : List Nat) (h0 : 0 ∉ str) :
    (convert str).length ≤ str.length ∧
    c_str (convert_in_place (str.length + 1) (str ++ [0]) 0 0).1 = convert str ∧
    (convert_in_place (str.length + 1) (str ++ [0]) 0 0).1.length = str.length + 1 ∧
    ∀ x ∈ (convert_in_place (str.length + 1) (str ++ [0]) 0 0).2,
      x.2 ≤ x.1 ∧ x.1 ≤ str.length := by
  obtain ⟨h1, h2, h3, _, h5⟩ := convert_in_place_ok (str.length + 1) (str ++ [0]) 0 0 str []
    (le_refl _) rfl h0 (by omega)
  simp only [Nat.zero_add, List.take_zero, List.nil_append] at h2 h3 h5
  refine ⟨convert_length_le _ str (le_refl _), ?_, by rw [h1]; simp, fun x hx => ?_⟩
  · exact c_str_of_prefix _ _ h2 (convert_no_nul _ str (le_refl _) h0) h3
  · exact ⟨(h5 x hx).2.2.1, (h5 x hx).2.2.2⟩

/-- C38, witness: the string of `a`, backslash, blank, `b`, backslash, `n`, `*`: seven bytes
are rewritten to six, and each of the seven stores is at or before its read position. -/
theorem convert_in_place_safe_witness :
    (convert_in_place 8 (bytes_of "a\\ b\\n*" ++ [0]) 0 0).2
      = [(0, 0), (1, 1), (2, 2), (3, 3), (4, 4), (6, 5), (7, 6)] ∧
    c_str (convert_in_place 8 (bytes_of "a\\ b\\n*" ++ [0]) 0 0).1
      = convert (bytes_of "a\\ b\\n*") :=
  ⟨by decide, (convert_in_place_safe (bytes_of "a\\ b\\n*") (by decide)).2.1⟩

/-! ## Theorems: a rule text without a context (C36) -/

theorem directive_plain (env : collaborators_t) (st : rules_reader_t) (argc : Nat)
    (hE : reader_empty st)
    (hw : arg st.args 0 = none ∨ ((arg st.args 0).getD []).headD 0 = 35 ∨
      arg st.args 0 = some (bytes_of "caseinsensitive") ∨
      arg st.args 0 = some (bytes_of "wholechars") ∨
      arg st.args 0 = some (bytes_of "define")) :
    reader_empty (directive env st argc).1 ∧
    (directive env st argc).1.g = st.g ∧ (directive env st argc).1.f = st.f ∧
    (directive env st argc).1.line = st.line ∧
    (((directive env st argc).1.result = st.result ∧ (directive env st argc).2 = .next) ∨
      ((directive env st argc).1.result = st.line ∧ (directive env st argc).2 = .stop)) := by
  unfold directive
  rcases hw with hw | hw | hw | hw | hw
  · rw [hw]
    exact ⟨hE, rfl, rfl, rfl, Or.inl ⟨rfl, rfl⟩⟩
  · cases ha : arg st.args 0 with
    | none => exact ⟨hE, rfl, rfl, rfl, Or.inl ⟨rfl, rfl⟩⟩
    | some w =>
      rw [ha] at hw
      simp only [Option.getD_some] at hw
      simp only
      rw [if_neg (fun h => by rw [h] at hw; revert hw; decide),
        if_neg (fun h => by rw [h] at hw; revert hw; decide),
        if_neg (fun h => by rw [h] at hw; revert hw; decide),
        if_neg (fun h => by rw [h] at hw; revert hw; decide),
        if_neg (fun h => by rw [h] at hw; revert hw; decide),
        if_neg (fun h => by rw [h] at hw; revert hw; decide),
        if_pos hw]
      exact ⟨hE, rfl, rfl, rfl, Or.inl ⟨rfl, rfl⟩⟩
  · rw [hw]
    simp only
    rw [if_neg (by decide), if_pos trivial]
    exact ⟨hE, rfl, rfl, rfl, Or.inl ⟨rfl, rfl⟩⟩
  · rw [hw]
    simp only
    rw [if_neg (by decide), if_neg (by decide), if_pos trivial]
    unfold wholechars_directive
    repeat' split
    all_goals first
      | exact ⟨hE, rfl, rfl, rfl, Or.inl ⟨rfl, rfl⟩⟩
      | exact ⟨hE, rfl, rfl, rfl, Or.inr ⟨rfl, rfl⟩⟩
  · rw [hw]
    simp only
    rw [if_neg (by decide), if_neg (by decide), if_neg (by decide), if_neg (by decide),
      if_neg (by decide), if_neg (by decide), if_neg (by decide), if_neg (by decide),
      if_pos trivial]
    unfold define_directive
    split
    · exact ⟨hE, rfl, rfl, rfl, Or.inr ⟨rfl, rfl⟩⟩
    · exact ⟨hE, rfl, rfl, rfl, Or.inl ⟨rfl, rfl⟩⟩

theorem line_body_plain (env : collaborators_t) (args_size : Nat) (st : rules_reader_t)
    (l : List Nat) (hE : reader_empty st) (hp : plain_line args_size st l) :
    reader_empty (line_body env args_size st l).1 ∧
    (line_body env args_size st l).1.g = st.g ∧ (line_body env args_size st l).1.f = st.f ∧
    (line_body env args_size st l).1.line = st.line ∧
    (((line_body env args_size st l).1.result = st.result ∧
        (line_body env args_size st l).2 = .next) ∨
      ((line_body env args_size st l).1.result = st.line ∧
        (line_body env args_size st l).2 = .stop)) := by
  unfold line_body
  exact directive_plain env _ _ hE hp

/-- The reading loop over lines that define no context: no context is added, the result is
0 or the line counter, and when no line is rejected the line counter ends one above the
number of lines read. -/
theorem rules_loop_plain (env : collaborators_t) (args_size : Nat) :
    ∀ (k : Nat) (st : rules_reader_t), st.g = none → st.result = 0 → reader_empty st →
      st.f.length < k →
      (∀ x ∈ rules_lines env args_size k st, plain_line args_size x.1 x.2) →
      reader_empty (rules_loop env args_size k st) ∧
      st.line + 1 ≤ (rules_loop env args_size k st).line ∧
      ((rules_loop env args_size k st).result = 0 ∨
        (rules_loop env args_size k st).result = (rules_loop env args_size k st).line) ∧
      ((rules_loop env args_size k st).result = 0 →
        (rules_loop env args_size k st).line =
          st.line + (rules_lines env args_size k st).length + 1) := by
  intro k
  induction k with
  | zero => intro st _ _ _ h; omega
  | succ k ih =>
    intro st hg h0 hE hf hp
    rw [rules_lines] at hp ⊢
    rw [rules_loop]
    simp only [hg] at hp ⊢
    by_cases hr : (read_one_line st.f).1 = 0
    · rw [if_pos hr, if_pos hr]
      exact ⟨hE, le_refl _, Or.inl h0, fun _ => by simp⟩
    · rw [if_neg hr] at hp ⊢
      rw [if_neg hr]
      have hx := hp _ (List.mem_cons_self _ _)
      obtain ⟨l1, l2, l3, l4, l5⟩ := line_body_plain env args_size
        { st with line := st.line + 1, f := (read_one_line st.f).2.2, g := none }
        (read_one_line st.f).2.1 hE hx
      rcases hlb : line_body env args_size
          { st with line := st.line + 1, f := (read_one_line st.f).2.2, g := none }
          (read_one_line st.f).2.1 with ⟨st2, fl⟩
      rw [hlb] at l1 l2 l3 l4 l5 hp
      simp only at l1 l2 l3 l4 l5
      cases fl with
      | stop =>
        simp only
        rcases l5 with ⟨_, h⟩ | ⟨h, _⟩
        · cases h
        · exact ⟨l1, by rw [l4], Or.inr (by rw [h, l4]), fun hz => by omega⟩
      | next =>
        simp only at hp ⊢
        rcases l5 with ⟨h, _⟩ | ⟨_, h⟩
        · have hlen := read_one_line_length st.f hr
          obtain ⟨i1, i4, i2, i3⟩ := ih st2 l2 (by rw [h]; exact h0) l1
            (by rw [l3]; omega) (fun x hx => hp x (List.mem_cons_of_mem _ hx))
          refine ⟨i1, by omega, i2, fun hz => ?_⟩
          · rw [i3 hz, l4]
            simp only [List.length_cons]
            omega
        · cases h

/-- C36: a rule text that defines no context is not a successful compile.  When every line
read is blank, a comment, or a line whose first word is caseinsensitive, wholechars or
define (or there is no line at all), edit_read_syntax_rules leaves no rule table and returns
a value that is not 0: the line counter at which the reading ended.  When none of these
lines is rejected, the reading ends at the end of the input and the value is one above the
number of lines read. -/
theorem no_context_no_table (env : collaborators_t) (edit : WEdit) (f : List Nat)
    (args : List (Option (List Nat))) (args_size : Nat)
    (hp : ∀ x ∈ compile_lines env edit f args args_size, plain_line args_size x.1 x.2) :
    (edit_read_syntax_rules env edit f args args_size).2.1.rules = none ∧
    (edit_read_syntax_rules env edit f args args_size).1 ≠ 0 ∧
    (edit_read_syntax_rules env edit f args args_size).1 =
      (edit_read_syntax_rules env edit f args args_size).2.2.line ∧
    ((∀ x ∈ compile_lines env edit f args args_size, ¬ rejected env args_size x) →
      (edit_read_syntax_rules env edit f args args_size).2.2.result = 0 ∧
      (edit_read_syntax_rules env edit f args args_size).1 =
        (compile_lines env edit f args args_size).length + 1) := by
  obtain ⟨h1, h4, h2, h3⟩ := rules_loop_plain env args_size (f.length + 1)
    (initial_reader edit f args) rfl rfl ⟨rfl, rfl, rfl⟩
    (by simp [initial_reader]) hp
  have hlen : (rules_loop env args_size (f.length + 1) (initial_reader edit f args)).rules.length
      = 0 := by rw [h1.1]; rfl
  have hline : (initial_reader edit f args).line = 0 := rfl
  rw [hline] at h3 h4
  have hret : (edit_read_syntax_rules env edit f args args_size).1 =
      (rules_loop env args_size (f.length + 1) (initial_reader edit f args)).line := by
    unfold edit_read_syntax_rules
    simp only
    rw [if_pos hlen]
    simp only
    split
    · rfl
    · rcases h2 with h2 | h2
      · rename_i hz
        exact absurd h2 hz
      · exact h2
  have hst : (edit_read_syntax_rules env edit f args args_size).2.2 =
      rules_loop env args_size (f.length + 1) (initial_reader edit f args) := by
    unfold edit_read_syntax_rules
    simp only
    rw [if_pos hlen]
  refine ⟨?_, ?_, ?_, fun hacc => ?_⟩
  · unfold edit_read_syntax_rules
    simp only
    rw [if_pos hlen]
  · rw [hret]
    omega
  · rw [hret, hst]
  · have hz := rules_loop_accepts env args_size (f.length + 1) (initial_reader edit f args)
      rfl hacc
    rw [hret, hst, h3 hz]
    exact ⟨hz, by unfold compile_lines; omega⟩

set_option maxRecDepth 100000 in
set_option maxHeartbeats 1000000 in
/-- C36, witness: `no_context_rules`, five lines without a context, returns 6; the empty
text returns 1; `short_define_rules`, rejected at its line 2, returns 2; there is no rule
table. -/
theorem no_context_no_table_witness :
    load_result no_context_rules = 6 ∧
    (load_rules no_context_rules []).rules = none ∧
    load_result [] = 1 ∧ load_result short_define_rules = 2 ∧
    (load_rules short_define_rules []).rules = none :=
  ⟨((no_context_no_table example_env (fresh_edit []) no_context_rules null_args (ARGS_LEN - 1)
      (by decide!)).2.2.2 (by decide!)).2.trans (by decide!),
    (no_context_no_table example_env (fresh_edit []) no_context_rules null_args (ARGS_LEN - 1)
      (by decide!)).1,
    ((no_context_no_table example_env (fresh_edit []) [] null_args (ARGS_LEN - 1)
      (by decide!)).2.2.2 (by decide!)).2.trans (by decide!),
    (no_context_no_table example_env (fresh_edit []) short_define_rules null_args (ARGS_LEN - 1)
      (by decide!)).2.2.1.trans (by decide!),
    (no_context_no_table example_env (fresh_edit []) short_define_rules null_args (ARGS_LEN - 1)
      (by decide!)).1⟩

/-! ## Theorems: the indices of the ParseState stay in range (C31) -/

theorem returns_ok_bind {α β : Type} (S : Prop) (P : α → Prop) (Q : β → Prop)
    (o : Option α) (f : α → Option β) (h : returns_ok S P o)
    (hf : ∀ a, P a → returns_ok S Q (f a)) : returns_ok S Q (o.bind f) := by
  cases o with
  | none => exact h
  | some a => exact hf a h

theorem table_ok_keyword (R : List context_rule_t) (hT : table_ok R) (c : Nat)
    (r : context_rule_t) (h : R.get? c = some r) : 0 < r.keyword.length := by
  have hm : r ∈ R := List.get?_mem h
  exact List.length_pos.mpr (hT.2 r hm).1

theorem table_ok_zero (R : List context_rule_t) (hT : table_ok R) :
    ∃ r, R.get? 0 = some r ∧ 0 < r.keyword.length := by
  obtain ⟨r, rs, h⟩ := List.exists_cons_of_ne_nil hT.1
  exact ⟨r, by rw [h]; rfl, table_ok_keyword R hT 0 r (by rw [h]; rfl)⟩

theorem table_ok_lt (R : List context_rule_t) (hT : table_ok R) (c : Nat)
    (h : c < R.length) : ∃ r, R.get? c = some r ∧ 0 < r.keyword.length := by
  obtain ⟨r, hr⟩ : ∃ r, R.get? c = some r := ⟨R.get ⟨c, h⟩, List.get?_eq_get h⟩
  exact ⟨r, hr, table_ok_keyword R hT c r hr⟩

theorem keyword_loop_ok (ci : Bool) (b : edit_buffer_t) (keywords : List syntax_keyword_t)
    (i : Int) (c : Nat) (S : Prop)
    (hret : S → ∀ k ∈ keywords, (compare_word_to_right ci b i k.keyword
      k.whole_word_chars_left k.whole_word_chars_right k.line_start).isSome = true) :
    ∀ (p : List Nat) (count : Nat), count + p.length ≤ keywords.length →
      returns_ok S (fun res => ∀ n k e, res = some (n, k, e) → n < keywords.length)
        (keyword_loop ci b keywords i c count p) := by
  intro p
  induction p with
  | nil =>
    intro count _
    exact fun n k e h => by cases h
  | cons x s ih =>
    intro count hlen
    simp only [List.length_cons] at hlen
    rw [keyword_loop]
    split
    · exact ih (count + 1) (by omega)
    · obtain ⟨k, hk⟩ : ∃ k, keywords.get? count = some k :=
        ⟨keywords.get ⟨count, by omega⟩, List.get?_eq_get _⟩
      rw [hk]
      simp only
      rcases he : compare_word_to_right ci b i k.keyword k.whole_word_chars_left
        k.whole_word_chars_right k.line_start with _ | e
      · exact fun hS => by
          have h := hret hS k (List.get?_mem hk)
          rw [he] at h
          cases h
      · simp only
        split
        · exact fun n k1 e1 h => by
            simp only [Option.some.injEq, Prod.mk.injEq] at h
            omega
        · exact ih (count + 1) (by omega)

theorem turn_off_keyword_ok (R : List context_rule_t) (hT : table_ok R) (b : edit_buffer_t)
    (i : Int) (is_end : Bool) (l : step_locals) (h : state_ok R l._rule) :
    state_ok R (turn_off_keyword b i is_end l)._rule := by
  obtain ⟨h1, r, h2, h3⟩ := h
  have h0 := table_ok_keyword R hT _ r h2
  unfold turn_off_keyword
  split
  · dsimp only
    repeat' split
    all_goals first
      | exact ⟨h1, r, h2, h3⟩
      | exact ⟨h1, r, h2, h0⟩
  · exact ⟨h1, r, h2, h3⟩

theorem turn_off_context_ok (ci : Bool) (b : edit_buffer_t) (R : List context_rule_t)
    (hT : table_ok R) (rule : edit_syntax_rule_t) (i : Int)
    (c : Nat) (is_end : Bool) (l : step_locals) (h : state_ok R l._rule) :
    returns_ok (scans_return_at ci b R i) (fun l1 => state_ok R l1._rule)
      (turn_off_context ci b R rule i c is_end l) := by
  obtain ⟨h1, r, h2, h3⟩ := h
  obtain ⟨r0, hr0, hk0⟩ := table_ok_zero R hT
  have hend : ∀ l1 : step_locals, l1._rule._context < R.length →
      (∃ r, R.get? l1._rule.context = some r ∧ l1._rule.keyword < r.keyword.length) →
      l1._rule.keyword = 0 →
      state_ok R (turn_off_context_at_end rule is_end l1)._rule := by
    intro l1 a1 a2 a3
    unfold turn_off_context_at_end
    split
    · dsimp only
      split
      · exact ⟨a1, r0, hr0, by rw [a3]; exact hk0⟩
      · exact ⟨a1, a2⟩
    · split
      · exact ⟨a1, a2⟩
      · exact ⟨a1, a2⟩
  unfold turn_off_context
  split
  · rename_i hc
    rw [h2]
    simp only
    split
    · rcases he : compare_word_to_right ci b i r.right r.whole_word_chars_left
        r.whole_word_chars_right r.line_start_right with _ | e
      · exact fun hS => by
          have h := (hS r (List.get?_mem h2)).2.1
          rw [he] at h
          cases h
      · simp only
        split
        · refine ⟨h1, ?_⟩
          simp only
          split
          · exact ⟨r0, hr0, by rw [hc.2]; exact hk0⟩
          · exact ⟨r, h2, h3⟩
        · exact hend l h1 ⟨r, h2, h3⟩ hc.2
    · exact hend l h1 ⟨r, h2, h3⟩ hc.2
  · exact ⟨h1, r, h2, h3⟩

theorem newline_backoff_returns (R : List context_rule_t) (hT : table_ok R) (c : Nat)
    (hc : c < R.length) (i : Int) (k : syntax_keyword_t) (e : Int) :
    ∃ e1, newline_backoff R c i k e = some e1 := by
  obtain ⟨rc, hrc, _⟩ := table_ok_lt R hT c hc
  unfold newline_backoff
  split
  · rw [hrc]
    simp only
    split
    · exact ⟨_, rfl⟩
    · exact ⟨_, rfl⟩
  · exact ⟨_, rfl⟩

theorem turn_on_keyword_ok (ci : Bool) (b : edit_buffer_t) (R : List context_rule_t)
    (hT : table_ok R) (i : Int) (c : Nat) (l : step_locals) (h : state_ok R l._rule) :
    returns_ok (scans_return_at ci b R i) (fun l1 => state_ok R l1._rule)
      (turn_on_keyword ci b R i c l) := by
  obtain ⟨h1, r, h2, h3⟩ := h
  obtain ⟨_, x, p, hp, hlen⟩ := hT.2 r (List.get?_mem h2)
  unfold turn_on_keyword
  split
  · rw [h2]
    simp only
    rw [hp]
    simp only
    have hkl := keyword_loop_ok ci b r.keyword i c (scans_return_at ci b R i)
      (fun hS => (hS r (List.get?_mem h2)).2.2) p 1 (by omega)
    rcases hq : keyword_loop ci b r.keyword i c 1 p with _ | res
    · rw [hq] at hkl
      exact hkl
    · rw [hq] at hkl
      rcases res with _ | ⟨count, k, e⟩
      · exact ⟨h1, r, h2, h3⟩
      · simp only
        have hn : count < r.keyword.length := hkl count k e rfl
        obtain ⟨e1, he1⟩ := newline_backoff_returns R hT _ h1 i k e
        rw [he1]
        exact ⟨h1, r, h2, hn⟩
  · exact ⟨h1, r, h2, h3⟩

theorem finish_border_ok (ci : Bool) (b : edit_buffer_t) (R : List context_rule_t)
    (hT : table_ok R) (rule : edit_syntax_rule_t) (i : Int) (c : Nat) (l : step_locals)
    (h : state_ok R l._rule) :
    returns_ok (scans_return_at ci b R i) (fun l1 => state_ok R l1._rule)
      (finish_border ci b R rule i c l) := by
  obtain ⟨h1, r, h2, h3⟩ := h
  obtain ⟨r0, hr0, hk0⟩ := table_ok_zero R hT
  obtain ⟨rc, hrc, hkc⟩ := table_ok_lt R hT _ h1
  unfold finish_border
  split
  · exact ⟨h1, r0, hr0, hk0⟩
  · split
    · rw [hrc]
      simp only
      split
      · split
        · rcases he : compare_word_to_right ci b i rc.right rc.whole_word_chars_left
            rc.whole_word_chars_right rc.line_start_right with _ | e
          · exact fun hS => by
              have h := (hS rc (List.get?_mem hrc)).2.1
              rw [he] at h
              cases h
          · simp only
            split
            · exact ⟨h1, r0, hr0, hk0⟩
            · exact ⟨h1, rc, hrc, hkc⟩
        · exact ⟨h1, rc, hrc, hkc⟩
      · exact ⟨h1, r, h2, h3⟩
    · exact ⟨h1, r, h2, h3⟩

theorem left_loop_ok (ci : Bool) (b : edit_buffer_t) (R : List context_rule_t)
    (hT : table_ok R) (i : Int) (c : Nat) :
    ∀ (rs : List context_rule_t) (count : Nat) (l : step_locals), R.drop count = rs →
      state_ok R l._rule →
      returns_ok (scans_return_at ci b R i) (fun l1 => state_ok R l1._rule)
        (left_loop ci b i c count rs l) := by
  intro rs
  induction rs with
  | nil =>
    intro count l _ h
    exact h
  | cons r rs ih =>
    intro count l hd h
    have hlt : count < R.length := by
      by_contra hge
      rw [List.drop_eq_nil_of_le (by omega)] at hd
      cases hd
    have hd2 := List.drop_eq_getElem_cons hlt
    rw [hd] at hd2
    simp only [List.cons.injEq] at hd2
    have hget : R.get? count = some r := by
      rw [List.get?_eq_get hlt, hd2.1]
      rfl
    have hnext : R.drop (count + 1) = rs := hd2.2.symm
    obtain ⟨h1, r1, h2, h3⟩ := h
    rw [left_loop]
    split
    · rcases he : compare_word_to_right ci b i r.left r.whole_word_chars_left
        r.whole_word_chars_right r.line_start_left with _ | e
      · exact fun hS => by
          have h := (hS r (List.get?_mem hget)).1
          rw [he] at h
          cases h
      · simp only
        split
        · split
          · exact ⟨hlt, r, hget, by
              rename_i hk
              have := table_ok_keyword R hT count r hget
              simpa [hk.2] using this⟩
          · exact ⟨hlt, r1, h2, h3⟩
        · exact ih (count + 1) l hnext ⟨h1, r1, h2, h3⟩
    · exact ih (count + 1) l hnext ⟨h1, r1, h2, h3⟩

theorem turn_on_context_ok (ci : Bool) (b : edit_buffer_t) (R : List context_rule_t)
    (hT : table_ok R) (rule : edit_syntax_rule_t) (i : Int) (c : Nat) (is_end : Bool)
    (l : step_locals) (h : state_ok R l._rule) :
    returns_ok (scans_return_at ci b R i) (fun l1 => state_ok R l1._rule)
      (turn_on_context ci b R rule i c is_end l) := by
  have hloop : ∀ l1 : step_locals, state_ok R l1._rule →
      returns_ok (scans_return_at ci b R i) (fun l1 => state_ok R l1._rule)
        (if l1.found_right = false then left_loop ci b i c 1 R.tail l1 else some l1) := by
    intro l1 h1
    split
    · exact left_loop_ok ci b R hT i c R.tail 1 l1 (by simp) h1
    · exact h1
  unfold turn_on_context
  by_cases hc : l._rule.context = 0
  · rw [if_pos hc]
    by_cases hf : l.found_left = false ∧ is_end = true
    · rw [if_pos hf]
      have hb := finish_border_ok ci b R hT rule i c l h
      rcases hq : finish_border ci b R rule i c l with _ | l1
      · rw [hq] at hb
        exact hb
      · rw [hq] at hb
        exact hloop l1 hb
    · rw [if_neg hf]
      exact hloop l h
  · rw [if_neg hc]
    exact h

theorem turn_on_keyword_again_ok (ci : Bool) (b : edit_buffer_t) (R : List context_rule_t)
    (hT : table_ok R) (i : Int) (c : Nat) (l : step_locals) (h : state_ok R l._rule) :
    returns_ok (scans_return_at ci b R i) (fun l1 => state_ok R l1._rule)
      (turn_on_keyword_again ci b R i c l) := by
  obtain ⟨h1, r, h2, h3⟩ := h
  obtain ⟨_, x, p, hp, hlen⟩ := hT.2 r (List.get?_mem h2)
  unfold turn_on_keyword_again
  split
  · rw [h2]
    simp only
    rw [hp]
    simp only
    have hkl := keyword_loop_ok ci b r.keyword i c (scans_return_at ci b R i)
      (fun hS => (hS r (List.get?_mem h2)).2.2) p 1 (by omega)
    rcases hq : keyword_loop ci b r.keyword i c 1 p with _ | res
    · rw [hq] at hkl
      exact hkl
    · rw [hq] at hkl
      rcases res with _ | ⟨count, k, e⟩
      · exact ⟨h1, r, h2, h3⟩
      · exact ⟨h1, r, h2, hkl count k e rfl⟩
  · exact ⟨h1, r, h2, h3⟩

/-- One step from a ParseState with its indices in range: the step returns a ParseState
with its indices in range, unless a scanning loop at this offset does not return. -/
theorem apply_rules_going_right_ok (ci : Bool) (b : edit_buffer_t) (R : List context_rule_t)
    (hT : table_ok R) (rule : edit_syntax_rule_t) (i : Int) (h : state_ok R rule) :
    returns_ok (scans_return_at ci b R i) (state_ok R)
      (apply_rules_going_right ci b R rule i) := by
  unfold apply_rules_going_right
  simp only
  split
  · exact h
  · refine returns_ok_bind _ (fun l1 : step_locals => state_ok R l1._rule) _ _ _
      (turn_off_context_ok ci b R hT rule i _ _ _
        (turn_off_keyword_ok R hT b i _ _ h)) fun l2 h2 => ?_
    refine returns_ok_bind _ (fun l1 : step_locals => state_ok R l1._rule) _ _ _
      (turn_on_keyword_ok ci b R hT i _ l2 h2) fun l3 h3 => ?_
    refine returns_ok_bind _ (fun l1 : step_locals => state_ok R l1._rule) _ _ _
      (turn_on_context_ok ci b R hT rule i _ _ l3 h3) fun l4 h4 => ?_
    refine returns_ok_bind _ (fun l1 : step_locals => state_ok R l1._rule) _ _ _
      (turn_on_keyword_again_ok ci b R hT i _ l4 h4) fun l5 h5 => ?_
    exact h5

theorem steps_from_ok (ci : Bool) (b : edit_buffer_t) (R : List context_rule_t)
    (hT : table_ok R) :
    ∀ (os : List Int) (rule : edit_syntax_rule_t), state_ok R rule →
      (∀ rule1, steps_from ci b R os rule = some rule1 → state_ok R rule1) ∧
      ((∀ o ∈ os, scans_return_at ci b R o) → (steps_from ci b R os rule).isSome = true) := by
  intro os
  induction os with
  | nil =>
    intro rule h
    exact ⟨fun rule1 h1 => by cases h1; exact h, fun _ => rfl⟩
  | cons o os ih =>
    intro rule h
    have hs := apply_rules_going_right_ok ci b R hT rule o h
    rw [steps_from]
    rcases hq : apply_rules_going_right ci b R rule o with _ | rule2
    · rw [hq] at hs
      exact ⟨fun rule1 h1 => Option.noConfusion h1,
        fun hS => absurd (hS o (List.mem_cons_self _ _)) hs⟩
    · rw [hq] at hs
      exact ⟨(ih rule2 hs).1, fun hS => (ih rule2 hs).2
        fun o1 ho1 => hS o1 (List.mem_cons_of_mem _ ho1)⟩

theorem forward_loop_ok (ci : Bool) (b : edit_buffer_t) (R : List context_rule_t)
    (hT : table_ok R) :
    ∀ (n : Nat) (i : Int) (rule : edit_syntax_rule_t) (markers : List syntax_marker_t),
      state_ok R rule → (∀ s ∈ markers, state_ok R s.rule) →
      ∀ rule1 markers1, forward_loop ci b R n i rule markers = some (rule1, markers1) →
        state_ok R rule1 ∧ ∀ s ∈ markers1, state_ok R s.rule := by
  intro n
  induction n with
  | zero =>
    intro i rule markers h hm rule1 markers1 hf
    rw [forward_loop] at hf
    cases hf
    exact ⟨h, hm⟩
  | succ n ih =>
    intro i rule markers h hm rule1 markers1 hf
    have hs := apply_rules_going_right_ok ci b R hT rule i h
    rw [forward_loop] at hf
    rcases hq : apply_rules_going_right ci b R rule i with _ | rule2
    · rw [hq] at hf
      cases hf
    · rw [hq] at hs hf
      refine ih (i + 1) rule2 (push_marker markers i rule2) hs ?_ rule1 markers1 hf
      intro s hsm
      unfold push_marker at hsm
      simp only at hsm
      split at hsm
      · rcases List.mem_cons.mp hsm with h1 | h1
        · rw [h1]
          exact hs
        · exact hm s h1
      · exact hm s hsm

theorem state_ok_color (R : List context_rule_t) (rule : edit_syntax_rule_t)
    (h : state_ok R rule) : (translate_rule_to_color R rule).isSome = true := by
  obtain ⟨_, r, h2, h3⟩ := h
  unfold translate_rule_to_color
  rw [h2]
  simp only
  rw [List.get?_eq_get h3]
  rfl

theorem compiled_table_ok (env : collaborators_t) (edit : WEdit) (f : List Nat)
    (args : List (Option (List Nat))) (args_size : Nat)
    (h0 : (edit_read_syntax_rules env edit f args args_size).1 = 0)
    (R : List context_rule_t)
    (hR : (edit_read_syntax_rules env edit f args args_size).2.1.rules = some R) :
    table_ok R := by
  obtain ⟨hres, hne, hmap⟩ := compiled_table env edit f args args_size h0 R hR
  have hinv := rules_loop_inv env args_size keywords_present
    (directive_keywords_present env) (f.length + 1) (initial_reader edit f args) rfl
    ⟨fun h => Bool.noConfusion h, fun x hx => by simp [initial_reader] at hx⟩ hres
  refine ⟨by rw [hmap]; simpa using hne, fun r hr => ?_⟩
  rw [hmap] at hr
  obtain ⟨c0, hc0, rfl⟩ := List.mem_map.mp hr
  have hk : c0.keyword ≠ [] := hinv.2 c0 hc0
  refine ⟨hk, 1, c_str ((c0.keyword.drop 1).map fun k => k.keyword.headD 0), ?_, ?_⟩
  · simp [collect_first_chars, c_str, List.takeWhile_cons]
  · have h1 : (c_str ((c0.keyword.drop 1).map fun k => k.keyword.headD 0)).length
        ≤ ((c0.keyword.drop 1).map fun k => k.keyword.headD 0).length :=
      (List.takeWhile_sublist _).length_le
    have h2 : 0 < c0.keyword.length := List.length_pos.mpr hk
    simp only [List.length_map, List.length_drop] at h1
    show _ < c0.keyword.length
    omega

theorem scans_return_of_sentinel (ci : Bool) (b : edit_buffer_t) (R : List context_rule_t)
    (hs : b.sentinel = 10) (hn : newline_free R) : scans_return ci b R := by
  intro i r hr
  obtain ⟨n1, n2, n3⟩ := hn r hr
  exact ⟨compare_returns_of_walk ci b i _ _ _ _ (word_loop_returns ci b _ _ hs _ _ _ n1),
    compare_returns_of_walk ci b i _ _ _ _ (word_loop_returns ci b _ _ hs _ _ _ n2),
    fun k hk => compare_returns_of_walk ci b i _ _ _ _
      (word_loop_returns ci b _ _ hs _ _ _ (n3 k hk))⟩

/-- C31: index safety of the reachable states.  For a rule table `R` that
edit_read_syntax_rules compiled (it returned 0) and every document, every ParseState reached
from the all-zero ParseState by steps of apply_rules_going_right, at any offsets, has its
saved context and its context below the number of contexts and its keyword below the number
of keywords of the active context, so translate_rule_to_color reads inside the table; so
has every ParseState stored in a checkpoint by the forward loop; and no step fails on a
table lookup: when the scanning loops return, every sequence of steps returns. -/
theorem reachable_states_in_range (env : collaborators_t) (edit : WEdit) (f : List Nat)
    (args : List (Option (List Nat))) (args_size : Nat)
    (h0 : (edit_read_syntax_rules env edit f args args_size).1 = 0)
    (R : List context_rule_t)
    (hR : (edit_read_syntax_rules env edit f args args_size).2.1.rules = some R)
    (ci : Bool) (b : edit_buffer_t) :
    (∀ os rule1, steps_from ci b R os zero_rule = some rule1 →
      state_ok R rule1 ∧ rule1.context < R.length ∧
      (translate_rule_to_color R rule1).isSome = true) ∧
    (∀ n i rule1 markers1, forward_loop ci b R n i zero_rule [] = some (rule1, markers1) →
      ∀ s ∈ markers1, state_ok R s.rule) ∧
    (scans_return ci b R → ∀ os, (steps_from ci b R os zero_rule).isSome = true) := by
  have hT := compiled_table_ok env edit f args args_size h0 R hR
  have hz : state_ok R zero_rule := by
    obtain ⟨r0, hr0, hk0⟩ := table_ok_zero R hT
    exact ⟨List.length_pos.mpr hT.1, r0, hr0, hk0⟩
  refine ⟨fun os rule1 h => ?_, fun n i rule1 markers1 h => ?_, fun hS os => ?_⟩
  · have hs := (steps_from_ok ci b R hT os zero_rule hz).1 rule1 h
    obtain ⟨r, h2, _⟩ := hs.2
    exact ⟨hs, (List.get?_eq_some.mp h2).1, state_ok_color R rule1 hs⟩
  · exact (forward_loop_ok ci b R hT n i zero_rule [] hz
      (fun s hs => absurd hs (List.not_mem_nil s)) rule1 markers1 h).2
  · exact (steps_from_ok ci b R hT os zero_rule hz).2 fun o _ => hS o

set_option maxRecDepth 100000 in
set_option maxHeartbeats 1000000 in
/-- C31, witness: the table compiled from `comment_rules` and the document `comment_doc`:
every sequence of steps returns a ParseState with its indices in range; after the bytes
`a /*` the context is 1 and the keyword 0. -/
theorem reachable_states_in_range_witness :
    (∀ os rule1,
      steps_from false comment_doc ((load_rules comment_rules []).rules.getD []) os zero_rule
        = some rule1 →
      state_ok ((load_rules comment_rules []).rules.getD []) rule1 ∧
      rule1.context < ((load_rules comment_rules []).rules.getD []).length ∧
      (translate_rule_to_color ((load_rules comment_rules []).rules.getD []) rule1).isSome
        = true) ∧
    (∀ os, (steps_from false comment_doc ((load_rules comment_rules []).rules.getD []) os
      zero_rule).isSome = true) ∧
    (steps_from false comment_doc ((load_rules comment_rules []).rules.getD []) [0, 1, 2, 3, 4]
      zero_rule).map (fun r => (r.context, r._context, r.keyword)) = some (1, 1, 0) :=
  ⟨(reachable_states_in_range example_env (fresh_edit []) comment_rules null_args
      (ARGS_LEN - 1) (by decide!) ((load_rules comment_rules []).rules.getD []) (by decide!)
      false comment_doc).1,
    (reachable_states_in_range example_env (fresh_edit []) comment_rules null_args
      (ARGS_LEN - 1) (by decide!) ((load_rules comment_rules []).rules.getD []) (by decide!)
      false comment_doc).2.2
      (scans_return_of_sentinel false comment_doc _ rfl (by decide!)),
    by decide!⟩

end McSyntax
